import Mathlib

/-!
# EdoString: a shallow embedding of `Edo::Types::EdoString`

Source: `EdoCore/src/Types/EdoString.h` and `EdoCore/src/Types/EdoString.cpp`.

* `size_type` (`size_t`) is a `w`-bit unsigned integer: a `Nat` below `2 ^ w`,
  with every `+`, `-`, `*` of the source reduced modulo `2 ^ w`.
* `utf32` (`unsigned int`) is a `Nat` below `2 ^ 32`; `char` and `utf8` are
  modelled by their unsigned byte value.
* A buffer is a `List Nat`, one entry per `utf32` slot.  A read or a write
  outside the buffer, which is undefined behaviour in the source, is the
  outcome `Fault.bad_access`.
* A member function that can throw returns `Except Fault _`.
* A `const EdoString &` argument is an object other than the receiver.  The
  call whose argument is the receiver itself is a definition of its own, with
  the suffix `_self`: there `str.ptr()` is the buffer of the receiver at the
  point of the read.
* A `new` expression is granted in `Grow`, `Trim` and `BuildUtf8Buff` and in
  the definitions that call them.  The definitions with the suffix `_alloc`
  take an allocator that can refuse a request, with the outcome
  `Fault.bad_alloc`.
* The definitions with the suffix `_st` return the object as it stands when the
  call returns or fails, next to the outcome.
* An iterator is `none` for the null pointer and `some p` for the pointer to
  slot `p` of the buffer it points into.
-/

namespace Edo.Types

/-- The constant `STR_QUICKBUFF_SIZE`. -/
def STR_QUICKBUFF_SIZE : Nat := 32

/-- The value `sizeof(utf32)`, in bytes. -/
def SIZEOF_UTF32 : Nat := 4

/-- The outcomes other than a normal return: the three exceptions thrown by the
source, `bad_alloc` for the exception of a `new` expression whose request is
refused (`std::bad_alloc` and `std::bad_array_new_length`, which derives from
it), `bad_access` for undefined behaviour (a read or write outside a buffer, a
`memcpy` between ranges that overlap, a read through a pointer into storage
that was freed), and `out_of_fuel` for a loop or a recursion of the embedding
that used up its bound (for the loops each bound is shown to suffice; the
recursion of `EdoString_utf8` has this outcome at every bound). -/
inductive Fault where
  | out_of_range
  | length_error
  | invalid_argument
  | bad_access
  | out_of_fuel
  | bad_alloc
deriving DecidableEq, Repr

deriving instance DecidableEq for Except

/-- Addition of `size_type` values. -/
def szAdd (w a b : Nat) : Nat := (a + b) % 2 ^ w

/-- Subtraction of `size_type` values. -/
def szSub (w a b : Nat) : Nat := (a + (2 ^ w - b % 2 ^ w)) % 2 ^ w

/-- Multiplication of `size_type` values. -/
def szMul (w a b : Nat) : Nat := (a * b) % 2 ^ w

/-- The constant `EdoString::npos = (size_type)(-1)`. -/
def npos (w : Nat) : Nat := 2 ^ w - 1

/-- The function `MaxSize()`: `((size_type) -1) / sizeof(utf32)`. -/
def MaxSize (w : Nat) : Nat := npos w / SIZEOF_UTF32

/-- Read of `buf[i]`. -/
def load (buf : List Nat) (i : Nat) : Except Fault Nat :=
  match buf[i]? with
  | some v => .ok v
  | none => .error .bad_access

/-- Write `buf[i] = v`. -/
def store (buf : List Nat) (i v : Nat) : Except Fault (List Nat) :=
  if i < buf.length then .ok (buf.set i v) else .error .bad_access

/-- The call `memcpy(&dest[dOff], &src[sOff], bytes)` on `utf32` buffers. -/
def memcpy (dest : List Nat) (dOff : Nat) (src : List Nat) (sOff bytes : Nat) :
    Except Fault (List Nat) :=
  let n := bytes / SIZEOF_UTF32
  if sOff + n ≤ src.length ∧ dOff + n ≤ dest.length then
    .ok (dest.take dOff ++ (src.drop sOff).take n ++ dest.drop (dOff + n))
  else .error .bad_access

/-- The call `memmove(&buf[dOff], &buf[sOff], bytes)` inside one `utf32` buffer. -/
def memmove (buf : List Nat) (dOff sOff bytes : Nat) : Except Fault (List Nat) :=
  let n := bytes / SIZEOF_UTF32
  if sOff + n ≤ buf.length ∧ dOff + n ≤ buf.length then
    .ok (buf.take dOff ++ (buf.drop sOff).take n ++ buf.drop (dOff + n))
  else .error .bad_access

/-- The expression `new utf32[n]`.  The storage it returns is uninitialised in
the source; the embedding fills it with zeros. -/
def newArray (n : Nat) : List Nat := List.replicate n 0

/-- The conversion `static_cast<utf32>(static_cast<unsigned char>(c))`. -/
def charToUtf32 (c : Nat) : Nat := c % 256

/-- The data members of `EdoString`.  A null `d_buffer` or `d_encodedBuff` is
the empty list. -/
structure EdoString where
  d_cpLength : Nat
  d_reserve : Nat
  d_encodedBuff : List Nat
  d_encodedDatLen : Nat
  d_encodedBuffLen : Nat
  d_quickBuff : List Nat
  d_buffer : List Nat
deriving DecidableEq, Repr

namespace EdoString

/-- The function `ptr()`: the buffer in use. -/
def ptr (s : EdoString) : List Nat :=
  if s.d_reserve > STR_QUICKBUFF_SIZE then s.d_buffer else s.d_quickBuff

/-- The effect of writing through `ptr()`: the buffer in use becomes `buf`. -/
def setPtr (s : EdoString) (buf : List Nat) : EdoString :=
  if s.d_reserve > STR_QUICKBUFF_SIZE then { s with d_buffer := buf }
  else { s with d_quickBuff := buf }

/-- The function `Length()`. -/
def Length (s : EdoString) : Nat := s.d_cpLength

/-- The code points `ptr()[0] .. ptr()[Length() - 1]` of the string. -/
def codePoints (s : EdoString) : List Nat := s.ptr.take s.d_cpLength

/-- The function `SetLen(len)`: `d_cpLength = len; ptr()[len] = 0;`. -/
def SetLen (s : EdoString) (len : Nat) : Except Fault EdoString := do
  let s1 := { s with d_cpLength := len }
  let buf ← store s1.ptr len 0
  pure (s1.setPtr buf)

/-- The function `Init()`, on a fresh object: the quick buffer has
`STR_QUICKBUFF_SIZE` slots, uninitialised in the source and zero in the
embedding. -/
def Init : Except Fault EdoString :=
  SetLen { d_cpLength := 0, d_reserve := STR_QUICKBUFF_SIZE, d_encodedBuff := [],
           d_encodedDatLen := 0, d_encodedBuffLen := 0,
           d_quickBuff := newArray STR_QUICKBUFF_SIZE, d_buffer := [] } 0

/-- The function `Grow(new_size)`, with the request `new utf32[new_size]`
granted; `Grow_alloc` is the function under an allocator that can refuse the
request.  The `bool` it returns is read by no caller and is left out. -/
def Grow (w : Nat) (s : EdoString) (new_size : Nat) : Except Fault EdoString :=
  if MaxSize w ≤ new_size then .error .length_error
  else
    let new_size := szAdd w new_size 1
    if new_size > s.d_reserve then do
      let temp ← memcpy (newArray new_size) 0 s.ptr 0
        (szMul w (szAdd w s.d_cpLength 1) SIZEOF_UTF32)
      pure { s with d_buffer := temp, d_reserve := new_size }
    else pure s

/-- The loop `while (num--) *pt-- = code_point;` with `pt = &ptr()[pt]`. -/
def fillBackward (w : Nat) (buf : List Nat) (pt code_point : Nat) :
    Nat → Except Fault (List Nat)
  | 0 => .ok buf
  | num + 1 => do
    let buf1 ← store buf pt code_point
    fillBackward w buf1 (szSub w pt 1) code_point num

/-- The loop `while (n--) *pt-- = static_cast<utf32>(static_cast<unsigned char>(chars[off + n]));`
with `pt = &ptr()[pt]`. -/
def copyCharsBackward (w : Nat) (buf : List Nat) (pt : Nat) (chars : List Nat) (off : Nat) :
    Nat → Except Fault (List Nat)
  | 0 => .ok buf
  | n + 1 => do
    let c ← load chars (szAdd w off n)
    let buf1 ← store buf pt (charToUtf32 c)
    copyCharsBackward w buf1 (szSub w pt 1) chars off n

/-- The function `Insert(size_type idx, const EdoString &str, size_type str_idx, size_type str_num)`,
with `str` an object other than the receiver; `Insert_self` is the call with
the receiver as `str`. -/
def Insert_str (w : Nat) (s : EdoString) (idx : Nat) (str : EdoString) (str_idx str_num : Nat) :
    Except Fault EdoString :=
  if s.d_cpLength < idx ∨ str.d_cpLength < str_idx then .error .out_of_range
  else
    let str_num := if str_num = npos w ∨ str_num > szSub w str.d_cpLength str_idx
      then szSub w str.d_cpLength str_idx else str_num
    let newSize := szAdd w s.d_cpLength str_num
    do
      let s1 ← Grow w s newSize
      let b1 ← memmove s1.ptr (szAdd w idx str_num) idx
        (szMul w (szSub w s1.d_cpLength idx) SIZEOF_UTF32)
      let b2 ← memcpy b1 idx str.ptr str_idx (szMul w str_num SIZEOF_UTF32)
      SetLen (s1.setPtr b2) newSize

/-- The function `Insert(size_type idx, const std::string &std_str, size_type str_idx, size_type str_num)`;
`std_str` is given by its bytes, `std_str.size()` is their number. -/
def Insert_std (w : Nat) (s : EdoString) (idx : Nat) (std_str : List Nat) (str_idx str_num : Nat) :
    Except Fault EdoString :=
  if s.d_cpLength < idx then .error .out_of_range
  else if std_str.length < str_idx then .error .out_of_range
  else
    let str_num := if str_num = npos w ∨ str_num > szSub w std_str.length str_idx
      then szSub w std_str.length str_idx else str_num
    let newSize := szAdd w s.d_cpLength str_num
    do
      let s1 ← Grow w s newSize
      let b1 ← memmove s1.ptr (szAdd w idx str_num) idx
        (szMul w (szSub w s1.d_cpLength idx) SIZEOF_UTF32)
      let b2 ← copyCharsBackward w b1 (szSub w (szAdd w idx str_num) 1) std_str str_idx str_num
      SetLen (s1.setPtr b2) newSize

/-- The function `Insert(size_type idx, size_type num, utf32 code_point)`. -/
def Insert_rep (w : Nat) (s : EdoString) (idx num code_point : Nat) : Except Fault EdoString :=
  if s.d_cpLength < idx then .error .out_of_range
  else if num = npos w then .error .length_error
  else
    let newSize := szAdd w s.d_cpLength num
    do
      let s1 ← Grow w s newSize
      let b1 ← memmove s1.ptr (szAdd w idx num) idx
        (szMul w (szSub w s1.d_cpLength idx) SIZEOF_UTF32)
      let b2 ← fillBackward w b1 (szSub w (szAdd w idx num) 1) code_point num
      SetLen (s1.setPtr b2) newSize

/-- The function `Insert(size_type idx, const char *chars, size_type chars_len)`;
the loop reads `chars[chars_len]` after the decrement, with no offset. -/
def Insert_chars (w : Nat) (s : EdoString) (idx : Nat) (chars : List Nat) (chars_len : Nat) :
    Except Fault EdoString :=
  if s.d_cpLength < idx then .error .out_of_range
  else if chars_len = npos w then .error .length_error
  else
    let newSize := szAdd w s.d_cpLength chars_len
    do
      let s1 ← Grow w s newSize
      let b1 ← memmove s1.ptr (szAdd w idx chars_len) idx
        (szMul w (szSub w s1.d_cpLength idx) SIZEOF_UTF32)
      let b2 ← copyCharsBackward w b1 (szSub w (szAdd w idx chars_len) 1) chars 0 chars_len
      SetLen (s1.setPtr b2) newSize

/-- The function `Erase(size_type idx, size_type len)`. -/
def Erase (w : Nat) (s : EdoString) (idx len : Nat) : Except Fault EdoString :=
  if len = 0 then pure s
  else if s.d_cpLength ≤ idx then .error .out_of_range
  else
    let len := if len = npos w then szSub w s.d_cpLength idx else len
    let newSize := szSub w s.d_cpLength len
    do
      let b1 ← memmove s.ptr idx (szAdd w idx len)
        (szMul w (szSub w (szSub w s.d_cpLength idx) len) SIZEOF_UTF32)
      SetLen (s.setPtr b1) newSize

/-- The function `Replace(size_type idx, size_type len, const EdoString &str, size_type str_idx, size_type str_num)`,
with `str` an object other than the receiver; `Replace_self` is the call with
the receiver as `str`. -/
def Replace_str (w : Nat) (s : EdoString) (idx len : Nat) (str : EdoString)
    (str_idx str_num : Nat) : Except Fault EdoString :=
  if s.d_cpLength < idx ∨ str.d_cpLength < str_idx then .error .out_of_range
  else
    let str_num := if szAdd w str_idx str_num > str.d_cpLength ∨ str_num = npos w
      then szSub w str.d_cpLength str_idx else str_num
    let len := if szAdd w len idx > s.d_cpLength ∨ len = npos w
      then szSub w s.d_cpLength idx else len
    let newSize := szSub w (szAdd w s.d_cpLength str_num) len
    do
      let s1 ← Grow w s newSize
      let b1 ← if szAdd w idx len < s1.d_cpLength then
          memmove s1.ptr (szAdd w idx str_num) (szAdd w len idx)
            (szMul w (szSub w (szSub w s1.d_cpLength idx) len) SIZEOF_UTF32)
        else pure s1.ptr
      let b2 ← memcpy b1 idx str.ptr str_idx (szMul w str_num SIZEOF_UTF32)
      SetLen (s1.setPtr b2) newSize

/-- The function `Replace(size_type idx, size_type len, size_type num, utf32 code_point)`. -/
def Replace_rep (w : Nat) (s : EdoString) (idx len num code_point : Nat) :
    Except Fault EdoString :=
  if s.d_cpLength < idx then .error .out_of_range
  else if num = npos w then .error .length_error
  else
    let len := if szAdd w len idx > s.d_cpLength ∨ len = npos w
      then szSub w s.d_cpLength idx else len
    let newSize := szSub w (szAdd w s.d_cpLength num) len
    do
      let s1 ← Grow w s newSize
      let b1 ← if szAdd w idx len < s1.d_cpLength then
          memmove s1.ptr (szAdd w idx num) (szAdd w len idx)
            (szMul w (szSub w (szSub w s1.d_cpLength idx) len) SIZEOF_UTF32)
        else pure s1.ptr
      let b2 ← fillBackward w b1 (szSub w (szAdd w idx num) 1) code_point num
      SetLen (s1.setPtr b2) newSize

/-- The function `Replace(size_type idx, size_type len, const char *chars, size_type chars_len)`. -/
def Replace_chars (w : Nat) (s : EdoString) (idx len : Nat) (chars : List Nat)
    (chars_len : Nat) : Except Fault EdoString :=
  if s.d_cpLength < idx then .error .out_of_range
  else if chars_len = npos w then .error .length_error
  else
    let len := if szAdd w len idx > s.d_cpLength ∨ len = npos w
      then szSub w s.d_cpLength idx else len
    let newSize := szSub w (szAdd w s.d_cpLength chars_len) len
    do
      let s1 ← Grow w s newSize
      let b1 ← if szAdd w idx len < s1.d_cpLength then
          memmove s1.ptr (szAdd w idx chars_len) (szAdd w len idx)
            (szMul w (szSub w (szSub w s1.d_cpLength idx) len) SIZEOF_UTF32)
        else pure s1.ptr
      let b2 ← copyCharsBackward w b1 (szSub w (szAdd w idx chars_len) 1) chars 0 chars_len
      SetLen (s1.setPtr b2) newSize

/-- The function `Assign(const EdoString &str, size_type str_idx, size_type str_num)`,
with `str` an object other than the receiver; `Assign_self` is the call with
the receiver as `str`. -/
def Assign_str (w : Nat) (s : EdoString) (str : EdoString) (str_idx str_num : Nat) :
    Except Fault EdoString :=
  if str.d_cpLength < str_idx then .error .out_of_range
  else
    let str_num := if str_num = npos w ∨ str_num > szSub w str.d_cpLength str_idx
      then szSub w str.d_cpLength str_idx else str_num
    do
      let s1 ← Grow w s str_num
      let s2 ← SetLen s1 str_num
      let b ← memcpy s2.ptr 0 str.ptr str_idx (szMul w str_num SIZEOF_UTF32)
      pure (s2.setPtr b)

/-- The loop `for (size_type i = 0; i < chars_len; ++i) *pt++ = static_cast<utf32>(static_cast<unsigned char>(*chars++));`
with `pt = &ptr()[pt]` and `chars` advanced to offset `c`; the argument counts
the iterations that remain. -/
def copyCharsForward (buf : List Nat) (pt : Nat) (chars : List Nat) (c : Nat) :
    Nat → Except Fault (List Nat)
  | 0 => .ok buf
  | n + 1 => do
    let v ← load chars c
    let buf1 ← store buf pt (charToUtf32 v)
    copyCharsForward buf1 (pt + 1) chars (c + 1) n

/-- The function `Assign(const char *chars, size_type chars_len)`. -/
def Assign_chars (w : Nat) (s : EdoString) (chars : List Nat) (chars_len : Nat) :
    Except Fault EdoString := do
  let s1 ← Grow w s chars_len
  let b ← copyCharsForward s1.ptr 0 chars 0 chars_len
  SetLen (s1.setPtr b) chars_len

/-- The function `Append(const std::string &std_str, size_type str_idx, size_type str_num)`;
the loop reads `std_str[str_num]` after the decrement, with no offset. -/
def Append_std (w : Nat) (s : EdoString) (std_str : List Nat) (str_idx str_num : Nat) :
    Except Fault EdoString :=
  if std_str.length < str_idx then .error .out_of_range
  else
    let str_num := if str_num = npos w ∨ str_num > szSub w std_str.length str_idx
      then szSub w std_str.length str_idx else str_num
    let newSize := szAdd w s.d_cpLength str_num
    do
      let s1 ← Grow w s newSize
      let b ← copyCharsBackward w s1.ptr (szSub w newSize 1) std_str 0 str_num
      SetLen (s1.setPtr b) newSize

/-- The loop `while (num--) *p++ = code_point;` with `p = &ptr()[p]`. -/
def fillForward (buf : List Nat) (p code_point : Nat) : Nat → Except Fault (List Nat)
  | 0 => .ok buf
  | num + 1 => do
    let buf1 ← store buf p code_point
    fillForward buf1 (p + 1) code_point num

/-- The function `Append(size_type num, utf32 code_point)`. -/
def Append_rep (w : Nat) (s : EdoString) (num code_point : Nat) : Except Fault EdoString :=
  if num = npos w then .error .length_error
  else
    let newSize := szAdd w s.d_cpLength num
    do
      let s1 ← Grow w s newSize
      let b ← fillForward s1.ptr s1.d_cpLength code_point num
      SetLen (s1.setPtr b) newSize

/-- The function `Swap(EdoString &str)`, with `str` an object other than the
receiver (`Swap_self` is the call `s.Swap(s)`): the pair is the receiver and
`str` after the call.  Each of the three `memcpy` calls copies a whole quick
buffer of `STR_QUICKBUFF_SIZE` slots. -/
def Swap (s str : EdoString) : EdoString × EdoString :=
  let tempLen := s.d_cpLength
  let s1 := { s with d_cpLength := str.d_cpLength }
  let str1 := { str with d_cpLength := tempLen }
  let tempRes := s1.d_reserve
  let s2 := { s1 with d_reserve := str1.d_reserve }
  let str2 := { str1 with d_reserve := tempRes }
  let tempBuf := s2.d_buffer
  let s3 := { s2 with d_buffer := str2.d_buffer }
  let str3 := { str2 with d_buffer := tempBuf }
  if tempRes ≤ STR_QUICKBUFF_SIZE then
    let tempQbf := s3.d_quickBuff
    let s4 := { s3 with d_quickBuff := str3.d_quickBuff }
    let str4 := { str3 with d_quickBuff := tempQbf }
    (s4, str4)
  else (s3, str3)

/-- The value of `*buf1 - *buf2` as the `int` that is returned: the difference
of two `unsigned int` is taken modulo `2 ^ 32` and then read as a signed
32-bit number. -/
def utf32Diff (a b : Nat) : Int :=
  let d : Nat := (a + (2 ^ 32 - b % 2 ^ 32)) % 2 ^ 32
  if d < 2 ^ 31 then (d : Int) else (d : Int) - 2 ^ 32

/-- The part of `Utf32CompUtf32` from the loop on, with `buf1`, `buf2` at the
offsets `p1`, `p2`; the last argument is the value of `cp_count` after
`--cp_count`. -/
def Utf32CompUtf32_loop (buf1 : List Nat) (p1 : Nat) (buf2 : List Nat) (p2 : Nat) :
    Nat → Except Fault Int
  | 0 => do
    let a ← load buf1 p1
    let b ← load buf2 p2
    pure (utf32Diff a b)
  | n + 1 => do
    let a ← load buf1 p1
    let b ← load buf2 p2
    if a = b then Utf32CompUtf32_loop buf1 (p1 + 1) buf2 (p2 + 1) n
    else pure (utf32Diff a b)

/-- The function `Utf32CompUtf32(buf1, buf2, cp_count)`, with `buf1`, `buf2`
the buffers at the offsets `p1`, `p2`. -/
def Utf32CompUtf32 (buf1 : List Nat) (p1 : Nat) (buf2 : List Nat) (p2 cp_count : Nat) :
    Except Fault Int :=
  if cp_count = 0 then pure 0
  else Utf32CompUtf32_loop buf1 p1 buf2 p2 (cp_count - 1)

/-- The return expression of the `Compare` overloads:
`(val != 0) ? ((val < 0) ? -1 : 1) : (len < str_len) ? -1 : (len == str_len) ? 0 : 1`. -/
def triState (val : Int) (len str_len : Nat) : Int :=
  if val ≠ 0 then (if val < 0 then -1 else 1)
  else if len < str_len then -1 else if len = str_len then 0 else 1

/-- The function `Compare(size_type idx, size_type len, const EdoString &str, size_type str_idx, size_type str_len)`. -/
def Compare_str (w : Nat) (s : EdoString) (idx len : Nat) (str : EdoString)
    (str_idx str_len : Nat) : Except Fault Int :=
  if s.d_cpLength < idx ∨ str.d_cpLength < str_idx then .error .out_of_range
  else
    let len := if len = npos w ∨ szAdd w idx len > s.d_cpLength
      then szSub w s.d_cpLength idx else len
    let str_len := if str_len = npos w ∨ szAdd w str_idx str_len > str.d_cpLength
      then szSub w str.d_cpLength str_idx else str_len
    do
      let val ← if len = 0 then pure 0
        else Utf32CompUtf32 s.ptr idx str.ptr str_idx (if len < str_len then len else str_len)
      pure (triState val len str_len)

/-- The function `Compare(const EdoString &str)`: `Compare(0, d_cpLength, str)`
with the default arguments `str_idx = 0`, `str_len = npos`. -/
def Compare (w : Nat) (s str : EdoString) : Except Fault Int :=
  Compare_str w s 0 s.d_cpLength str 0 (npos w)

/-- The part of `Utf32CompChar` from the loop on, with `buf1`, `buf2` at the
offsets `p1`, `p2`; the last argument is the value of `cp_count` after
`--cp_count`. -/
def Utf32CompChar_loop (buf1 : List Nat) (p1 : Nat) (buf2 : List Nat) (p2 : Nat) :
    Nat → Except Fault Int
  | 0 => do
    let a ← load buf1 p1
    let b ← load buf2 p2
    pure (utf32Diff a (charToUtf32 b))
  | n + 1 => do
    let a ← load buf1 p1
    let b ← load buf2 p2
    if a = charToUtf32 b then Utf32CompChar_loop buf1 (p1 + 1) buf2 (p2 + 1) n
    else pure (utf32Diff a (charToUtf32 b))

/-- The function `Utf32CompChar(buf1, buf2, cp_count)`, with `buf1`, `buf2` the
buffers at the offsets `p1`, `p2`. -/
def Utf32CompChar (buf1 : List Nat) (p1 : Nat) (buf2 : List Nat) (p2 cp_count : Nat) :
    Except Fault Int :=
  if cp_count = 0 then pure 0
  else Utf32CompChar_loop buf1 p1 buf2 p2 (cp_count - 1)

/-- The function `Compare(size_type idx, size_type len, const std::string &std_str, size_type str_idx, size_type str_len)`;
`std_str.c_str()` is the bytes of `std_str` followed by the terminator. -/
def Compare_std5 (w : Nat) (s : EdoString) (idx len : Nat) (std_str : List Nat)
    (str_idx str_len : Nat) : Except Fault Int :=
  if s.d_cpLength < idx then .error .out_of_range
  else if std_str.length < str_idx then .error .out_of_range
  else
    let len := if len = npos w ∨ szAdd w idx len > s.d_cpLength
      then szSub w s.d_cpLength idx else len
    let str_len := if str_len = npos w ∨ szAdd w str_idx str_len > std_str.length
      then szSub w std_str.length str_idx else str_len
    do
      let val ← if len = 0 then pure 0
        else Utf32CompChar s.ptr idx (std_str ++ [0]) str_idx (if len < str_len then len else str_len)
      pure (triState val len str_len)

/-- The function `Compare(const std::string &std_str)`:
`Compare(0, d_cpLength, std_str)` with the default arguments `str_idx = 0`,
`str_len = npos`. -/
def Compare_std (w : Nat) (s : EdoString) (std_str : List Nat) : Except Fault Int :=
  Compare_std5 w s 0 s.d_cpLength std_str 0 (npos w)

/-- The function `Compare(size_type idx, size_type len, const char *chars, size_type chars_len)`. -/
def Compare_chars4 (w : Nat) (s : EdoString) (idx len : Nat) (chars : List Nat)
    (chars_len : Nat) : Except Fault Int :=
  if s.d_cpLength < idx then .error .out_of_range
  else if chars_len = npos w then .error .length_error
  else
    let len := if len = npos w ∨ szAdd w idx len > s.d_cpLength
      then szSub w s.d_cpLength idx else len
    do
      let val ← if len = 0 then pure 0
        else Utf32CompChar s.ptr idx chars 0 (if len < chars_len then len else chars_len)
      pure (triState val len chars_len)

/-- The representation invariant of a string object over a `w`-bit `size_type`:
the quick buffer has `STR_QUICKBUFF_SIZE` slots, the reserve is at least that,
a heap buffer (in use when the reserve exceeds `STR_QUICKBUFF_SIZE`) has
`d_reserve` slots, the reserve holds the code points and the terminator, and
the length is below `MaxSize()`. -/
@[reducible]
def wf (w : Nat) (s : EdoString) : Prop :=
  s.d_quickBuff.length = STR_QUICKBUFF_SIZE ∧
  STR_QUICKBUFF_SIZE ≤ s.d_reserve ∧
  (STR_QUICKBUFF_SIZE < s.d_reserve → s.d_buffer.length = s.d_reserve) ∧
  s.d_cpLength + 1 ≤ s.d_reserve ∧
  s.d_cpLength < MaxSize w

/-! ## Searching, sub-strings and resizing -/

/-- The loop `while (idx < d_cpLength) { if (*pt++ == code_point) return idx; ++idx; }`
of `Find(utf32, size_type)`, with `pt = &ptr()[pt]`; the first argument bounds
the number of iterations. -/
def Find_cp_loop (w L : Nat) (buf : List Nat) (code_point : Nat) :
    Nat → Nat → Nat → Except Fault Nat
  | 0, _, _ => .error .out_of_fuel
  | fuel + 1, pt, idx =>
    if idx < L then do
      let c ← load buf pt
      if c = code_point then pure idx
      else Find_cp_loop w L buf code_point fuel (pt + 1) (szAdd w idx 1)
    else pure (npos w)

/-- The function `Find(utf32 code_point, size_type idx)`. -/
def Find_cp (w : Nat) (s : EdoString) (code_point idx : Nat) : Except Fault Nat :=
  if idx < s.d_cpLength then
    Find_cp_loop w s.d_cpLength s.ptr code_point (s.d_cpLength + 1) idx idx
  else pure (npos w)

/-- The loop `while (d_cpLength - idx >= n) { if (0 == Compare(idx, ...)) return idx; ++idx; }`
of the `Find` overloads for a sub-string of `n` code points; `cmp idx` is the
`Compare` call of the overload, and the first argument bounds the number of
iterations. -/
def Find_loop (w L n : Nat) (cmp : Nat → Except Fault Int) : Nat → Nat → Except Fault Nat
  | 0, _ => .error .out_of_fuel
  | fuel + 1, idx =>
    if szSub w L idx ≥ n then do
      let r ← cmp idx
      if 0 = r then pure idx
      else Find_loop w L n cmp fuel (szAdd w idx 1)
    else pure (npos w)

/-- The function `Find(const EdoString &str, size_type idx)`; `Compare(idx, str.d_cpLength, str)`
has the default arguments `str_idx = 0`, `str_len = npos`. -/
def Find_str (w : Nat) (s str : EdoString) (idx : Nat) : Except Fault Nat :=
  if str.d_cpLength = 0 ∧ idx < s.d_cpLength then pure idx
  else if idx < s.d_cpLength then
    Find_loop w s.d_cpLength str.d_cpLength
      (fun i => Compare_str w s i str.d_cpLength str 0 (npos w)) (s.d_cpLength + 1) idx
  else pure (npos w)

/-- The function `Find(const char *chars, size_type idx, size_type chars_len)`. -/
def Find_chars (w : Nat) (s : EdoString) (chars : List Nat) (idx chars_len : Nat) :
    Except Fault Nat :=
  if chars_len = npos w then .error .length_error
  else if chars_len = 0 ∧ idx < s.d_cpLength then pure idx
  else if idx < s.d_cpLength then
    Find_loop w s.d_cpLength chars_len
      (fun i => Compare_chars4 w s i chars_len chars chars_len) (s.d_cpLength + 1) idx
  else pure (npos w)

/-- The loop `do { if (0 == Compare(idx, ...)) return idx; } while (idx-- != 0);`
of the `RFind` overloads for a sub-string, followed by `return npos;`; `cmp idx`
is the `Compare` call of the overload. -/
def RFind_loop (w : Nat) (cmp : Nat → Except Fault Int) : Nat → Except Fault Nat
  | 0 => do
    let r ← cmp 0
    if 0 = r then pure 0 else pure (npos w)
  | idx + 1 => do
    let r ← cmp (idx + 1)
    if 0 = r then pure (idx + 1) else RFind_loop w cmp idx

/-- The function `RFind(const EdoString &str, size_type idx)`. -/
def RFind_str (w : Nat) (s str : EdoString) (idx : Nat) : Except Fault Nat :=
  if str.d_cpLength = 0 then pure (if idx < s.d_cpLength then idx else s.d_cpLength)
  else if str.d_cpLength ≤ s.d_cpLength then
    let idx := if idx > szSub w s.d_cpLength str.d_cpLength
      then szSub w s.d_cpLength str.d_cpLength else idx
    RFind_loop w (fun i => Compare_str w s i str.d_cpLength str 0 (npos w)) idx
  else pure (npos w)

/-- The function `RFind(const char *chars, size_type idx, size_type chars_len)`. -/
def RFind_chars (w : Nat) (s : EdoString) (chars : List Nat) (idx chars_len : Nat) :
    Except Fault Nat :=
  if chars_len = npos w then .error .length_error
  else if chars_len = 0 then pure (if idx < s.d_cpLength then idx else s.d_cpLength)
  else if chars_len ≤ s.d_cpLength then
    let idx := if idx > szSub w s.d_cpLength chars_len
      then szSub w s.d_cpLength chars_len else idx
    RFind_loop w (fun i => Compare_chars4 w s i chars_len chars chars_len) idx
  else pure (npos w)

/-- The loop `do { if (npos != str.Find(*pt++)) return idx; } while (++idx != d_cpLength);`
of `FindFirstOf(const EdoString &, size_type)`, with `pt = &ptr()[pt]`; the
first argument bounds the number of iterations. -/
def FindFirstOf_str_loop (w : Nat) (s str : EdoString) : Nat → Nat → Nat → Except Fault Nat
  | 0, _, _ => .error .out_of_fuel
  | fuel + 1, pt, idx => do
    let c ← load s.ptr pt
    let r ← Find_cp w str c 0
    if npos w ≠ r then pure idx
    else if szAdd w idx 1 ≠ s.d_cpLength
      then FindFirstOf_str_loop w s str fuel (pt + 1) (szAdd w idx 1)
      else pure (npos w)

/-- The function `FindFirstOf(const EdoString &str, size_type idx)`. -/
def FindFirstOf_str (w : Nat) (s str : EdoString) (idx : Nat) : Except Fault Nat :=
  if idx < s.d_cpLength then FindFirstOf_str_loop w s str s.d_cpLength idx idx
  else pure (npos w)

/-- The loop of `FindCodePoint(const std::string &str, utf32 code_point)`:
`while (idx != sze) { if (code_point == static_cast<utf32>(static_cast<unsigned char>(str[idx]))) return idx; ++idx; }`,
on the chars from `idx` on. -/
def FindCodePoint_std_loop (w : Nat) (code_point : Nat) : List Nat → Nat → Nat
  | [], _ => npos w
  | c :: rest, idx =>
    if code_point = charToUtf32 c then idx
    else FindCodePoint_std_loop w code_point rest (szAdd w idx 1)

/-- The function `FindCodePoint(const std::string &str, utf32 code_point)`. -/
def FindCodePoint_std (w : Nat) (str : List Nat) (code_point : Nat) : Nat :=
  FindCodePoint_std_loop w code_point str 0

/-- The loop `do { if (npos == str.Find(*pt--)) return idx; } while (idx-- != 0);`
of `FindLastNotOf(const EdoString &, size_type)`, followed by `return npos;`. -/
def FindLastNotOf_str_loop (w : Nat) (s str : EdoString) : Nat → Except Fault Nat
  | 0 => do
    let c ← load s.ptr 0
    let r ← Find_cp w str c 0
    if npos w = r then pure 0 else pure (npos w)
  | idx + 1 => do
    let c ← load s.ptr (idx + 1)
    let r ← Find_cp w str c 0
    if npos w = r then pure (idx + 1) else FindLastNotOf_str_loop w s str idx

/-- The function `FindLastNotOf(const EdoString &str, size_type idx)`; its
guard is `d_cpLength < 0`, on the unsigned `d_cpLength`. -/
def FindLastNotOf_str (w : Nat) (s str : EdoString) (idx : Nat) : Except Fault Nat :=
  if s.d_cpLength < 0 then
    let idx := if idx ≥ s.d_cpLength then szSub w s.d_cpLength 1 else idx
    FindLastNotOf_str_loop w s str idx
  else pure (npos w)

/-- The loop `do { if (npos == FindCodePoint(std_str, *pt--)) return idx; } while (idx-- != 0);`
of `FindLastNotOf(const std::string &, size_type)`, followed by `return npos;`. -/
def FindLastNotOf_std_loop (w : Nat) (s : EdoString) (std_str : List Nat) :
    Nat → Except Fault Nat
  | 0 => do
    let c ← load s.ptr 0
    if npos w = FindCodePoint_std w std_str c then pure 0 else pure (npos w)
  | idx + 1 => do
    let c ← load s.ptr (idx + 1)
    if npos w = FindCodePoint_std w std_str c then pure (idx + 1)
    else FindLastNotOf_std_loop w s std_str idx

/-- The function `FindLastNotOf(const std::string &std_str, size_type idx)`; its
guard is `d_cpLength > 0`. -/
def FindLastNotOf_std (w : Nat) (s : EdoString) (std_str : List Nat) (idx : Nat) :
    Except Fault Nat :=
  if s.d_cpLength > 0 then
    let idx := if idx ≥ s.d_cpLength then szSub w s.d_cpLength 1 else idx
    FindLastNotOf_std_loop w s std_str idx
  else pure (npos w)

/-- The loop `do { if ((*this)[idx] != code_point) return idx; } while (idx++ < d_cpLength);`
of `FindFirstNotOf(utf32, size_type)`, where `(*this)[idx]` is `ptr()[idx]`;
the first argument bounds the number of iterations. -/
def FindFirstNotOf_cp_loop (w : Nat) (s : EdoString) (code_point : Nat) :
    Nat → Nat → Except Fault Nat
  | 0, _ => .error .out_of_fuel
  | fuel + 1, idx => do
    let c ← load s.ptr idx
    if c ≠ code_point then pure idx
    else if idx < s.d_cpLength
      then FindFirstNotOf_cp_loop w s code_point fuel (szAdd w idx 1)
      else pure (npos w)

/-- The function `FindFirstNotOf(utf32 code_point, size_type idx)`. -/
def FindFirstNotOf_cp (w : Nat) (s : EdoString) (code_point idx : Nat) : Except Fault Nat :=
  if idx < s.d_cpLength then FindFirstNotOf_cp_loop w s code_point (s.d_cpLength + 2) idx
  else pure (npos w)

/-- The constructor `EdoString(const EdoString &str, size_type str_idx, size_type str_num)`:
`Init(); Assign(str, str_idx, str_num);`. -/
def EdoString_str (w : Nat) (str : EdoString) (str_idx str_num : Nat) :
    Except Fault EdoString := do
  let s ← Init
  Assign_str w s str str_idx str_num

/-- The function `Substr(size_type idx, size_type len)`, a `const` member: the
value is the string that is returned, the receiver is not written. -/
def Substr (w : Nat) (s : EdoString) (idx len : Nat) : Except Fault EdoString :=
  if s.d_cpLength < idx then .error .out_of_range
  else EdoString_str w s idx len

/-- The function `Resize(size_type num, utf32 code_point)`. -/
def Resize (w : Nat) (s : EdoString) (num code_point : Nat) : Except Fault EdoString :=
  if num < s.d_cpLength then SetLen s num
  else Append_rep w s (szSub w num s.d_cpLength) code_point

/-- The function `Resize(size_type num)`: `Resize(num, utf32())`. -/
def Resize1 (w : Nat) (s : EdoString) (num : Nat) : Except Fault EdoString :=
  Resize w s num 0

/-! ## UTF-8 and UTF-16 conversion -/

/-- The conversion `(utf8) x`, to `unsigned char`. -/
def toUtf8 (x : Nat) : Nat := x % 256

/-- The conversion `(utf16) x`, to `unsigned short`. -/
def toUtf16 (x : Nat) : Nat := x % 65536

/-- The increment `idx++` of an `unsigned int`. -/
def uintSucc (idx : Nat) : Nat := (idx + 1) % 2 ^ 32

/-- The function `EncodedSize(utf32 code_point)`. -/
def EncodedSize_cp (code_point : Nat) : Nat :=
  if code_point < 0x80 then 1
  else if code_point < 0x0800 then 2
  else if code_point < 0x10000 then 3
  else 4

/-- The loop `while (*str++) cnt++;` of both `UtfLength` overloads, with the
pointer at offset `p` of `buf`; the first argument bounds the number of
iterations. -/
def UtfLength_loop (w : Nat) (buf : List Nat) : Nat → Nat → Nat → Except Fault Nat
  | 0, _, _ => .error .out_of_fuel
  | fuel + 1, p, cnt => do
    let c ← load buf p
    if c ≠ 0 then UtfLength_loop w buf fuel (p + 1) (szAdd w cnt 1)
    else pure cnt

/-- The functions `UtfLength(const utf8 *)` and `UtfLength(const utf32 *)`. -/
def UtfLength (w : Nat) (buf : List Nat) : Except Fault Nat :=
  UtfLength_loop w buf (buf.length + 1) 0 0

/-- The loop `while (len--) count += EncodedSize(*buf++);` of
`EncodedSize(const utf32 *buf, size_type len)`, with `buf` at offset `p`. -/
def EncodedSize_utf32_loop (w : Nat) (buf : List Nat) : Nat → Nat → Nat → Except Fault Nat
  | _, count, 0 => pure count
  | p, count, len + 1 => do
    let c ← load buf p
    EncodedSize_utf32_loop w buf (p + 1) (szAdd w count (EncodedSize_cp c)) len

/-- The function `EncodedSize(const utf32 *buf, size_type len)`. -/
def EncodedSize_utf32 (w : Nat) (buf : List Nat) (len : Nat) : Except Fault Nat :=
  EncodedSize_utf32_loop w buf 0 0 len

/-- The loop of `EncodedSize(const utf8 *buf, size_type len)`, with `buf` at
offset `p`; `len` is the value before the test `len--`; the first argument
bounds the number of iterations. -/
def EncodedSize_utf8_loop (w : Nat) (buf : List Nat) : Nat → Nat → Nat → Nat → Except Fault Nat
  | 0, _, _, _ => .error .out_of_fuel
  | fuel + 1, p, len, count =>
    if len ≠ 0 then do
      let tcp ← load buf p
      let count := szAdd w count 1
      let size := if tcp < 0x80 then 0 else if tcp < 0xE0 then 1 else if tcp < 0xF0 then 2 else 3
      if szSub w len 1 ≥ size
        then EncodedSize_utf8_loop w buf fuel (p + 1 + size) (szSub w (szSub w len 1) size) count
        else pure count
    else pure count

/-- The function `EncodedSize(const utf8 *buf, size_type len)`: the number of
code points that `len` code units encode. -/
def EncodedSize_utf8 (w : Nat) (buf : List Nat) (len : Nat) : Except Fault Nat :=
  EncodedSize_utf8_loop w buf (len + 1) 0 len 0

/-- The loop of `Encode(const utf32 *src, utf8 *dest, size_type dest_len, size_type src_len)`:
`for (unsigned int idx = 0; idx < src_len; ++idx)`, with `dest` at offset `dp`
of its buffer.  The value is the buffer and `destCapacity` when the loop is
left; the first argument bounds the number of iterations. -/
def Encode_utf32_loop (w : Nat) (src : List Nat) (src_len : Nat) :
    Nat → Nat → List Nat → Nat → Nat → Except Fault (List Nat × Nat)
  | 0, _, _, _, _ => .error .out_of_fuel
  | fuel + 1, idx, dest, dp, destCapacity =>
    if idx < src_len then do
      let cp ← load src idx
      if destCapacity < EncodedSize_cp cp then pure (dest, destCapacity)
      else if cp < 0x80 then do
        let d1 ← store dest dp (toUtf8 cp)
        Encode_utf32_loop w src src_len fuel (uintSucc idx) d1 (dp + 1) (szSub w destCapacity 1)
      else if cp < 0x0800 then do
        let d1 ← store dest dp (toUtf8 ((cp >>> 6) ||| 0xC0))
        let d2 ← store d1 (dp + 1) (toUtf8 ((cp &&& 0x3F) ||| 0x80))
        Encode_utf32_loop w src src_len fuel (uintSucc idx) d2 (dp + 2) (szSub w destCapacity 2)
      else if cp < 0x10000 then do
        let d1 ← store dest dp (toUtf8 ((cp >>> 12) ||| 0xE0))
        let d2 ← store d1 (dp + 1) (toUtf8 (((cp >>> 6) &&& 0x3F) ||| 0x80))
        let d3 ← store d2 (dp + 2) (toUtf8 ((cp &&& 0x3F) ||| 0x80))
        Encode_utf32_loop w src src_len fuel (uintSucc idx) d3 (dp + 3) (szSub w destCapacity 3)
      else do
        let d1 ← store dest dp (toUtf8 ((cp >>> 18) ||| 0xF0))
        let d2 ← store d1 (dp + 1) (toUtf8 (((cp >>> 12) &&& 0x3F) ||| 0x80))
        let d3 ← store d2 (dp + 2) (toUtf8 (((cp >>> 6) &&& 0x3F) ||| 0x80))
        let d4 ← store d3 (dp + 3) (toUtf8 ((cp &&& 0x3F) ||| 0x80))
        Encode_utf32_loop w src src_len fuel (uintSucc idx) d4 (dp + 4) (szSub w destCapacity 4)
    else pure (dest, destCapacity)

/-- The function `Encode(const utf32 *src, utf8 *dest, size_type dest_len, size_type src_len)`,
with `dest` at offset `dp` of its buffer: the buffer after the call and the
returned number of code units, `dest_len - destCapacity`.  An iteration that
does not leave the loop uses up capacity, so `dest_len + 1` bounds their
number. -/
def Encode_utf32 (w : Nat) (src dest : List Nat) (dp dest_len src_len : Nat) :
    Except Fault (List Nat × Nat) := do
  let src_len ← (if src_len = 0 then UtfLength w src else pure src_len)
  let r ← Encode_utf32_loop w src src_len (dest_len + 1) 0 dest dp dest_len
  pure (r.1, szSub w dest_len r.2)

/-- The loop of `Encode(const utf8 *src, utf32 *dest, size_type dest_len, size_type src_len)`:
`for (unsigned int idx = 0; (idx < src_len && destCapacity > 0);)`, with `dest`
at offset `dp` of its buffer; the statements `*dest++ = cp; --destCapacity;`
that end the body are written in each branch.  The value is the buffer and
`destCapacity` when the loop is left; the first argument bounds the number of
iterations. -/
def Encode_utf8_loop (w : Nat) (src : List Nat) (src_len : Nat) :
    Nat → Nat → List Nat → Nat → Nat → Except Fault (List Nat × Nat)
  | 0, _, _, _, _ => .error .out_of_fuel
  | fuel + 1, idx, dest, dp, destCapacity =>
    if idx < src_len ∧ destCapacity > 0 then do
      let cu ← load src idx
      if cu < 0x80 then do
        let d1 ← store dest dp cu
        Encode_utf8_loop w src src_len fuel (uintSucc idx) d1 (dp + 1) (szSub w destCapacity 1)
      else if cu < 0xE0 then do
        let c1 ← load src (uintSucc idx)
        let d1 ← store dest dp (((cu &&& 0x1F) <<< 6) ||| (c1 &&& 0x3F))
        Encode_utf8_loop w src src_len fuel (uintSucc (uintSucc idx)) d1 (dp + 1)
          (szSub w destCapacity 1)
      else if cu < 0xF0 then do
        let c1 ← load src (uintSucc idx)
        let c2 ← load src (uintSucc (uintSucc idx))
        let d1 ← store dest dp
          ((((cu &&& 0x0F) <<< 12) ||| ((c1 &&& 0x3F) <<< 6)) ||| (c2 &&& 0x3F))
        Encode_utf8_loop w src src_len fuel (uintSucc (uintSucc (uintSucc idx))) d1 (dp + 1)
          (szSub w destCapacity 1)
      else do
        let c1 ← load src (uintSucc idx)
        let c2 ← load src (uintSucc (uintSucc idx))
        let c3 ← load src (uintSucc (uintSucc (uintSucc idx)))
        let d1 ← store dest dp
          (((((cu &&& 0x07) <<< 18) ||| ((c1 &&& 0x3F) <<< 12)) ||| ((c2 &&& 0x3F) <<< 6))
            ||| (c3 &&& 0x3F))
        Encode_utf8_loop w src src_len fuel (uintSucc (uintSucc (uintSucc (uintSucc idx)))) d1
          (dp + 1) (szSub w destCapacity 1)
    else pure (dest, destCapacity)

/-- The function `Encode(const utf8 *src, utf32 *dest, size_type dest_len, size_type src_len)`,
with `dest` at offset `dp` of its buffer: the buffer after the call and the
returned number of code points, `dest_len - destCapacity`.  Every iteration
uses up one slot of capacity, so `dest_len + 1` bounds their number. -/
def Encode_utf8 (w : Nat) (src dest : List Nat) (dp dest_len src_len : Nat) :
    Except Fault (List Nat × Nat) := do
  let src_len ← (if src_len = 0 then UtfLength w src else pure src_len)
  let r ← Encode_utf8_loop w src src_len (dest_len + 1) 0 dest dp dest_len
  pure (r.1, szSub w dest_len r.2)

/-- The expression `new utf8[n]`.  The storage it returns is uninitialised in
the source; the embedding fills it with zeros. -/
def newUtf8Array (n : Nat) : List Nat := List.replicate n 0

/-- The function `BuildUtf8Buff()`: the object after the call, whose
`d_encodedBuff` is the buffer that is returned. -/
def BuildUtf8Buff (w : Nat) (s : EdoString) : Except Fault EdoString := do
  let n ← EncodedSize_utf32 w s.ptr s.d_cpLength
  let buffSize := szAdd w n 1
  let s1 := if buffSize > s.d_encodedBuffLen
    then { s with d_encodedBuff := newUtf8Array buffSize, d_encodedBuffLen := buffSize }
    else s
  let r ← Encode_utf32 w s1.ptr s1.d_encodedBuff 0 buffSize s1.d_cpLength
  let b ← store r.1 (szSub w buffSize 1) 0
  pure { s1 with d_encodedBuff := b, d_encodedDatLen := buffSize }

/-- The functions `c_str()` and `Data()`: the buffer that `BuildUtf8Buff()`
returns. -/
def c_str (w : Nat) (s : EdoString) : Except Fault (List Nat) := do
  let s1 ← BuildUtf8Buff w s
  pure s1.d_encodedBuff

/-- The function `Append(const utf8 *utf8_str, size_type len)`; `utf8_str` is
given by the code units that can be read through it. -/
def Append_utf8 (w : Nat) (s : EdoString) (utf8_str : List Nat) (len : Nat) :
    Except Fault EdoString :=
  if len = npos w then .error .length_error
  else do
    let encSize ← EncodedSize_utf8 w utf8_str len
    let newSize := szAdd w s.d_cpLength encSize
    let s1 ← Grow w s newSize
    let r ← Encode_utf8 w utf8_str s1.ptr s1.d_cpLength encSize len
    SetLen (s1.setPtr r.1) newSize

/-- The library function `strlen`, on the chars that can be read through the
pointer: the offset of the first zero. -/
def strlen : List Nat → Except Fault Nat
  | [] => .error .bad_access
  | c :: rest => if c = 0 then pure 0 else do
    let n ← strlen rest
    pure (n + 1)

/-- The function `Assign(const char *cstr)`: `Assign(cstr, strlen(cstr))`. -/
def Assign_cstr (w : Nat) (s : EdoString) (cstr : List Nat) : Except Fault EdoString := do
  let n ← strlen cstr
  Assign_chars w s cstr n

/-- The function `Compare(const char *cstr)`:
`Compare(0, d_cpLength, cstr, strlen(cstr))`. -/
def Compare_cstr (w : Nat) (s : EdoString) (cstr : List Nat) : Except Fault Int := do
  let n ← strlen cstr
  Compare_chars4 w s 0 s.d_cpLength cstr n

/-- The function `Trim()`.  After `delete[] d_buffer` in the first branch the
member points to freed storage, which the embedding renders as no storage. -/
def Trim (w : Nat) (s : EdoString) : Except Fault EdoString :=
  let min_size := szAdd w s.d_cpLength 1
  if s.d_reserve > STR_QUICKBUFF_SIZE ∧ s.d_reserve > min_size then
    if min_size ≤ STR_QUICKBUFF_SIZE then do
      let q ← memcpy s.d_quickBuff 0 s.d_buffer 0 (szMul w min_size SIZEOF_UTF32)
      pure { s with d_quickBuff := q, d_buffer := [], d_reserve := STR_QUICKBUFF_SIZE }
    else do
      let temp ← memcpy (newArray min_size) 0 s.d_buffer 0 (szMul w min_size SIZEOF_UTF32)
      pure { s with d_buffer := temp, d_reserve := min_size }
  else pure s

/-- The function `Clear()`: `SetLen(0); Trim();`. -/
def Clear (w : Nat) (s : EdoString) : Except Fault EdoString := do
  let s1 ← SetLen s 0
  Trim w s1

/-- The function `Reserve(size_type num)`. -/
def Reserve (w : Nat) (s : EdoString) (num : Nat) : Except Fault EdoString :=
  if num = 0 then Trim w s else Grow w s num

/-- The loop `while (source < sourceEnd)` of `ToUtf16`, with `source` and
`sourceEnd` as offsets into `ptr()`; `target` is the `std::wstring` built so
far; the first argument bounds the number of iterations.  In
`ch >> 0x3FFUL` the shift count exceeds the width of `ch`; the embedding takes
the mathematical value of the shift. -/
def ToUtf16_loop (strictConversion : Bool) (buf : List Nat) (sourceEnd : Nat) :
    Nat → Nat → List Nat → Except Fault (List Nat)
  | 0, _, _ => .error .out_of_fuel
  | fuel + 1, source, target =>
    if source < sourceEnd then
      match load buf source with
      | .error e => .error e
      | .ok ch =>
        if ch ≤ 0x0000FFFF then
          if ch ≥ 0xD800 ∧ ch ≤ 0xDFFF then
            if strictConversion then .error .invalid_argument
            else ToUtf16_loop strictConversion buf sourceEnd fuel (source + 1)
              (target ++ [0x0000FFFD])
          else ToUtf16_loop strictConversion buf sourceEnd fuel (source + 1)
            (target ++ [toUtf16 ch])
        else if ch > 0x0010FFFF then
          if strictConversion then .error .invalid_argument
          else ToUtf16_loop strictConversion buf sourceEnd fuel (source + 1)
            (target ++ [0x0000FFFD])
        else
          ToUtf16_loop strictConversion buf sourceEnd fuel (source + 1)
            (target ++ [toUtf16 ((((ch + (2 ^ 32 - 0x0010000)) % 2 ^ 32) >>> 10) + 0xD800),
              toUtf16 ((((ch + (2 ^ 32 - 0x0010000)) % 2 ^ 32) >>> 0x3FF) + 0xDC00)])
    else pure target

/-- The function `ToUtf16(bool strictConversion)`: the units of the
`std::wstring` that is returned. -/
def ToUtf16 (strictConversion : Bool) (s : EdoString) : Except Fault (List Nat) :=
  ToUtf16_loop strictConversion s.ptr s.d_cpLength (s.d_cpLength + 1) 0 []

/-- The units that one iteration of the loop of `ToUtf16` appends to `target`
for the code point `ch` when it does not throw. -/
def ToUtf16_units (ch : Nat) : List Nat :=
  if ch ≤ 0x0000FFFF then
    if ch ≥ 0xD800 ∧ ch ≤ 0xDFFF then [0x0000FFFD] else [toUtf16 ch]
  else if ch > 0x0010FFFF then [0x0000FFFD]
  else [toUtf16 ((((ch + (2 ^ 32 - 0x0010000)) % 2 ^ 32) >>> 10) + 0xD800),
    toUtf16 ((((ch + (2 ^ 32 - 0x0010000)) % 2 ^ 32) >>> 0x3FF) + 0xDC00)]

/-- The code units that one iteration of the loop of the encoder writes for
the code point `cp`. -/
def Encode_units (cp : Nat) : List Nat :=
  if cp < 0x80 then [toUtf8 cp]
  else if cp < 0x0800 then
    [toUtf8 ((cp >>> 6) ||| 0xC0), toUtf8 ((cp &&& 0x3F) ||| 0x80)]
  else if cp < 0x10000 then
    [toUtf8 ((cp >>> 12) ||| 0xE0), toUtf8 (((cp >>> 6) &&& 0x3F) ||| 0x80),
      toUtf8 ((cp &&& 0x3F) ||| 0x80)]
  else
    [toUtf8 ((cp >>> 18) ||| 0xF0), toUtf8 (((cp >>> 12) &&& 0x3F) ||| 0x80),
      toUtf8 (((cp >>> 6) &&& 0x3F) ||| 0x80), toUtf8 ((cp &&& 0x3F) ||| 0x80)]

/-- The buffer `dest` after the entries `bs` were written from the offset `dp`
on. -/
def writeAt (dest : List Nat) (dp : Nat) (bs : List Nat) : List Nat :=
  dest.take dp ++ bs ++ dest.drop (dp + bs.length)

/-! ## Copy as UTF-8, assignment and construction from UTF-8, relational operators -/

/-- The function `Copy(utf8 *buf, size_type len, size_type idx)`: the buffer
`buf` after the call and the number that is returned.  The source of the
encoder is `&ptr()[idx]`, its `dest_len` is `npos`. -/
def Copy (w : Nat) (s : EdoString) (buf : List Nat) (len idx : Nat) :
    Except Fault (List Nat × Nat) :=
  if s.d_cpLength < idx then .error .out_of_range
  else
    let len := if len = npos w then s.d_cpLength else len
    Encode_utf32 w (s.ptr.drop idx) buf 0 (npos w) len

/-- The function `Utf8StreamLen(size_type num, size_type idx)`. -/
def Utf8StreamLen (w : Nat) (s : EdoString) (num idx : Nat) : Except Fault Nat :=
  if s.d_cpLength < idx then .error .out_of_range
  else
    let maxLen := szSub w s.d_cpLength idx
    EncodedSize_utf32 w (s.ptr.drop idx) (min num maxLen)

/-- The function `Assign(const utf8 *utf8_str, size_type str_num)`; `utf8_str`
is given by the code units that can be read through it. -/
def Assign_utf8 (w : Nat) (s : EdoString) (utf8_str : List Nat) (str_num : Nat) :
    Except Fault EdoString :=
  if str_num = npos w then .error .length_error
  else do
    let encSize ← EncodedSize_utf8 w utf8_str str_num
    let s1 ← Grow w s encSize
    let r ← Encode_utf8 w utf8_str s1.ptr 0 s1.d_reserve str_num
    SetLen (s1.setPtr r.1) encSize

/-- The operator `operator=(const utf8 *utf8_str)`:
`Assign(utf8_str, UtfLength(utf8_str))`. -/
def operatorAssign_utf8 (w : Nat) (s : EdoString) (utf8_str : List Nat) :
    Except Fault EdoString := do
  let n ← UtfLength w utf8_str
  Assign_utf8 w s utf8_str n

/-- The constructor `EdoString(const utf8 *utf8_str)`: `Init(); Assign(utf8_str);`.
No overload of `Assign` takes a `const utf8 *` alone: `Assign(const utf8 *, size_type)`
has no default argument, and an `unsigned char` pointer converts neither to
`const char *` nor to `std::string`.  The call is
`Assign(const EdoString &str, size_type str_idx = 0, size_type str_num = npos)` on
the temporary `EdoString(utf8_str)`, built by this constructor.  The last
argument bounds the depth of the nested constructor calls. -/
def EdoString_utf8 (w : Nat) (utf8_str : List Nat) : Nat → Except Fault EdoString
  | 0 => .error .out_of_fuel
  | depth + 1 => do
    let s ← Init
    let str ← EdoString_utf8 w utf8_str depth
    Assign_str w s str 0 (npos w)

/-- One pass of the body of the loop of `Utf32CompUtf8`: the code point `cp`
decoded from `buf2` at offset `p2`, and the offset after it. -/
def Utf32CompUtf8_decode (buf2 : List Nat) (p2 : Nat) : Except Fault (Nat × Nat) := do
  let cu ← load buf2 p2
  if cu < 0x80 then pure (cu, p2 + 1)
  else if cu < 0xE0 then do
    let c1 ← load buf2 (p2 + 1)
    pure (((cu &&& 0x1F) <<< 6) ||| (c1 &&& 0x3F), p2 + 2)
  else if cu < 0xF0 then do
    let c1 ← load buf2 (p2 + 1)
    let c2 ← load buf2 (p2 + 2)
    pure ((((cu &&& 0x0F) <<< 12) ||| ((c1 &&& 0x3F) <<< 6)) ||| (c2 &&& 0x3F), p2 + 3)
  else do
    let c1 ← load buf2 (p2 + 1)
    let c2 ← load buf2 (p2 + 2)
    let c3 ← load buf2 (p2 + 3)
    pure (((((cu &&& 0x07) <<< 18) ||| ((c1 &&& 0x3F) <<< 12)) ||| ((c2 &&& 0x3F) <<< 6))
      ||| (c3 &&& 0x3F), p2 + 4)

/-- The loop `do { ... } while (*buf1++ == cp && --cp_count);` of
`Utf32CompUtf8` and the `return *--buf1 - cp;` after it, with `buf1`, `buf2`
at the offsets `p1`, `p2`; the last argument is `cp_count - 1`. -/
def Utf32CompUtf8_loop (buf1 : List Nat) (buf2 : List Nat) : Nat → Nat → Nat → Except Fault Int
  | p1, p2, 0 => do
    let r ← Utf32CompUtf8_decode buf2 p2
    let a ← load buf1 p1
    pure (utf32Diff a r.1)
  | p1, p2, n + 1 => do
    let r ← Utf32CompUtf8_decode buf2 p2
    let a ← load buf1 p1
    if a = r.1 then Utf32CompUtf8_loop buf1 buf2 (p1 + 1) r.2 n
    else pure (utf32Diff a r.1)

/-- The function `Utf32CompUtf8(buf1, buf2, cp_count)`, with `buf1` the buffer
at the offset `p1`. -/
def Utf32CompUtf8 (buf1 : List Nat) (p1 : Nat) (buf2 : List Nat) (cp_count : Nat) :
    Except Fault Int :=
  if cp_count = 0 then pure 0
  else Utf32CompUtf8_loop buf1 buf2 p1 0 (cp_count - 1)

/-- The function `Compare(size_type idx, size_type len, const utf8 *utf8_str, size_type str_cpLen)`. -/
def Compare_utf8_4 (w : Nat) (s : EdoString) (idx len : Nat) (utf8_str : List Nat)
    (str_cpLen : Nat) : Except Fault Int :=
  if s.d_cpLength < idx then .error .out_of_range
  else if str_cpLen = npos w then .error .length_error
  else
    let len := if len = npos w ∨ szAdd w idx len > s.d_cpLength
      then szSub w s.d_cpLength idx else len
    do
      let val ← if len = 0 then pure 0
        else Utf32CompUtf8 s.ptr idx utf8_str (if len < str_cpLen then len else str_cpLen)
      pure (triState val len str_cpLen)

/-- The function `Compare(const utf8 *utf8_str)`:
`Compare(0, d_cpLength, utf8_str, EncodedSize(utf8_str))`, where
`EncodedSize(const utf8 *buf)` is `EncodedSize(buf, UtfLength(buf))`. -/
def Compare_utf8 (w : Nat) (s : EdoString) (utf8_str : List Nat) : Except Fault Int := do
  let n ← UtfLength w utf8_str
  let str_cpLen ← EncodedSize_utf8 w utf8_str n
  Compare_utf8_4 w s 0 s.d_cpLength utf8_str str_cpLen

/-- The operator `operator<(const EdoString &str, const std::string &std_str)`. -/
def operatorLt_str_std (w : Nat) (str : EdoString) (std_str : List Nat) : Except Fault Bool := do
  let v ← Compare_std w str std_str
  pure (decide (v < 0))

/-- The operator `operator<(const std::string &std_str, const EdoString &str)`. -/
def operatorLt_std_str (w : Nat) (std_str : List Nat) (str : EdoString) : Except Fault Bool := do
  let v ← Compare_std w str std_str
  pure (decide (v < 0))

/-- The operator `operator>(const EdoString &str, const std::string &std_str)`. -/
def operatorGt_str_std (w : Nat) (str : EdoString) (std_str : List Nat) : Except Fault Bool := do
  let v ← Compare_std w str std_str
  pure (decide (v > 0))

/-- The operator `operator>(const std::string &std_str, const EdoString &str)`. -/
def operatorGt_std_str (w : Nat) (std_str : List Nat) (str : EdoString) : Except Fault Bool := do
  let v ← Compare_std w str std_str
  pure (decide (v > 0))

/-- The operator `operator<(const EdoString &str, const utf8 *utf8_str)`. -/
def operatorLt_str_utf8 (w : Nat) (str : EdoString) (utf8_str : List Nat) :
    Except Fault Bool := do
  let v ← Compare_utf8 w str utf8_str
  pure (decide (v < 0))

/-- The operator `operator<(const utf8 *utf8_str, const EdoString &str)`. -/
def operatorLt_utf8_str (w : Nat) (utf8_str : List Nat) (str : EdoString) :
    Except Fault Bool := do
  let v ← Compare_utf8 w str utf8_str
  pure (decide (v < 0))

/-- The operator `operator>(const EdoString &str, const utf8 *utf8_str)`. -/
def operatorGt_str_utf8 (w : Nat) (str : EdoString) (utf8_str : List Nat) :
    Except Fault Bool := do
  let v ← Compare_utf8 w str utf8_str
  pure (decide (v > 0))

/-- The operator `operator>(const utf8 *utf8_str, const EdoString &str)`. -/
def operatorGt_utf8_str (w : Nat) (utf8_str : List Nat) (str : EdoString) :
    Except Fault Bool := do
  let v ← Compare_utf8 w str utf8_str
  pure (decide (v > 0))

/-- The operator `operator<(const EdoString &str, const char *c_str)`. -/
def operatorLt_str_cstr (w : Nat) (str : EdoString) (c_str : List Nat) : Except Fault Bool := do
  let v ← Compare_cstr w str c_str
  pure (decide (v < 0))

/-- The operator `operator<(const char *c_str, const EdoString &str)`. -/
def operatorLt_cstr_str (w : Nat) (c_str : List Nat) (str : EdoString) : Except Fault Bool := do
  let v ← Compare_cstr w str c_str
  pure (decide (v < 0))

/-- The operator `operator>(const EdoString &str, const char *c_str)`. -/
def operatorGt_str_cstr (w : Nat) (str : EdoString) (c_str : List Nat) : Except Fault Bool := do
  let v ← Compare_cstr w str c_str
  pure (decide (v > 0))

/-- The operator `operator>(const char *c_str, const EdoString &str)`. -/
def operatorGt_cstr_str (w : Nat) (c_str : List Nat) (str : EdoString) : Except Fault Bool := do
  let v ← Compare_cstr w str c_str
  pure (decide (v > 0))

/-- The function `Erase()`, without arguments: `Clear(); return *this;`. -/
def Erase_all (w : Nat) (s : EdoString) : Except Fault EdoString :=
  Clear w s

/-- The function `Insert(size_type idx, const char *cstr)`:
`Insert(idx, cstr, strlen(cstr))`. -/
def Insert_cstr (w : Nat) (s : EdoString) (idx : Nat) (cstr : List Nat) :
    Except Fault EdoString := do
  let n ← strlen cstr
  Insert_chars w s idx cstr n

/-- The function `Replace(size_type idx, size_type len, const char *cstr)`:
`Replace(idx, len, cstr, strlen(cstr))`. -/
def Replace_cstr (w : Nat) (s : EdoString) (idx len : Nat) (cstr : List Nat) :
    Except Fault EdoString := do
  let n ← strlen cstr
  Replace_chars w s idx len cstr n

/-! ## The fast comparator -/

/-- The bytes of a `utf32` value in storage on a little-endian machine. -/
def utf32Bytes_le (v : Nat) : List Nat :=
  [v % 256, v / 256 % 256, v / 65536 % 256, v / 16777216 % 256]

/-- The bytes of a `utf32` value in storage on a big-endian machine. -/
def utf32Bytes_be (v : Nat) : List Nat :=
  [v / 16777216 % 256, v / 65536 % 256, v / 256 % 256, v % 256]

/-- The comparison of two byte sequences by `memcmp`: the difference of the
first two bytes that differ, as `unsigned char`, and 0 if there are none.  The
library fixes only the sign of the value. -/
def memcmpBytes : List Nat → List Nat → Int
  | a :: as, b :: bs => if a = b then memcmpBytes as bs else (a : Int) - (b : Int)
  | _, _ => 0

/-- The library function `memcmp(buf1, buf2, n)` on two `utf32` buffers; `rep`
gives the bytes of a `utf32` value in storage, `sizeof(utf32)` of them. -/
def memcmp (rep : Nat → List Nat) (buf1 buf2 : List Nat) (n : Nat) : Except Fault Int :=
  let k := n / SIZEOF_UTF32
  if k ≤ buf1.length ∧ k ≤ buf2.length then
    .ok (memcmpBytes ((buf1.take k).flatMap rep) ((buf2.take k).flatMap rep))
  else .error .bad_access

/-- The function `EdoStringFastLessCompare::operator()(const EdoString &a, const EdoString &b)`. -/
def EdoStringFastLessCompare (w : Nat) (rep : Nat → List Nat) (a b : EdoString) :
    Except Fault Bool :=
  let la := a.Length
  let lb := b.Length
  if la = lb then do
    let r ← memcmp rep a.ptr b.ptr (szMul w la SIZEOF_UTF32)
    pure (decide (r < 0))
  else pure (decide (la < lb))

/-! ## The object when a call returns or fails -/

/-- The function `SetLen(len)`, with the object as it stands when the function
returns or fails: `d_cpLength = len;` is done before `ptr()[len] = 0;`. -/
def SetLen_st (s : EdoString) (len : Nat) : EdoString × Except Fault Unit :=
  let s1 := { s with d_cpLength := len }
  match store s1.ptr len 0 with
  | .ok buf => (s1.setPtr buf, .ok ())
  | .error e => (s1, .error e)

/-- The function `Erase(size_type idx, size_type len)`, with the object as it
stands when the function returns or fails. -/
def Erase_st (w : Nat) (s : EdoString) (idx len : Nat) : EdoString × Except Fault Unit :=
  if len = 0 then (s, .ok ())
  else if s.d_cpLength ≤ idx then (s, .error .out_of_range)
  else
    let len := if len = npos w then szSub w s.d_cpLength idx else len
    let newSize := szSub w s.d_cpLength len
    match memmove s.ptr idx (szAdd w idx len)
        (szMul w (szSub w (szSub w s.d_cpLength idx) len) SIZEOF_UTF32) with
    | .ok b1 => SetLen_st (s.setPtr b1) newSize
    | .error e => (s, .error e)

/-- The outcome of a call given with the object: the object on a normal return,
the fault otherwise. -/
def outcome (r : EdoString × Except Fault Unit) : Except Fault EdoString :=
  match r.2 with
  | .ok _ => .ok r.1
  | .error e => .error e

/-! ## A String argument that is the receiver itself -/

/-- The call `memcpy(&buf[dOff], &buf[sOff], bytes)` with both pointers into
one `utf32` buffer.  Ranges that overlap are undefined behaviour for `memcpy`. -/
def memcpySame (buf : List Nat) (dOff sOff bytes : Nat) : Except Fault (List Nat) :=
  let n := bytes / SIZEOF_UTF32
  if sOff + n ≤ buf.length ∧ dOff + n ≤ buf.length ∧
      (n = 0 ∨ sOff + n ≤ dOff ∨ dOff + n ≤ sOff) then
    .ok (buf.take dOff ++ (buf.drop sOff).take n ++ buf.drop (dOff + n))
  else .error .bad_access

/-- The function `Insert(size_type idx, const EdoString &str, size_type str_idx, size_type str_num)`
in the call `s.Insert(idx, s, str_idx, str_num)`, where `str` is the receiver:
`str.d_cpLength` is `d_cpLength`, and `str.ptr()`, read after `Grow` and after
`memmove`, is the buffer of the receiver as these two calls left it. -/
def Insert_self (w : Nat) (s : EdoString) (idx str_idx str_num : Nat) :
    Except Fault EdoString :=
  if s.d_cpLength < idx ∨ s.d_cpLength < str_idx then .error .out_of_range
  else
    let str_num := if str_num = npos w ∨ str_num > szSub w s.d_cpLength str_idx
      then szSub w s.d_cpLength str_idx else str_num
    let newSize := szAdd w s.d_cpLength str_num
    do
      let s1 ← Grow w s newSize
      let b1 ← memmove s1.ptr (szAdd w idx str_num) idx
        (szMul w (szSub w s1.d_cpLength idx) SIZEOF_UTF32)
      let b2 ← memcpySame b1 idx str_idx (szMul w str_num SIZEOF_UTF32)
      SetLen (s1.setPtr b2) newSize

/-! ## Allocation that can be refused -/

/-- The expression `new utf32[n]` under an allocator: `alloc n` tells whether the
request for `n` slots is granted.  A request of more than `PTRDIFF_MAX` bytes
is granted by no implementation: the expression throws
`std::bad_array_new_length` or the allocation function throws `std::bad_alloc`. -/
def newUtf32 (w : Nat) (alloc : Nat → Bool) (n : Nat) : Except Fault (List Nat) :=
  if 2 ^ (w - 1) ≤ n * SIZEOF_UTF32 then .error .bad_alloc
  else if alloc n then .ok (newArray n) else .error .bad_alloc

/-- The allocator that grants every request. -/
def allocAll : Nat → Bool := fun _ => true

/-- The function `Grow(new_size)` with `new utf32[new_size]` under an allocator. -/
def Grow_alloc (w : Nat) (alloc : Nat → Bool) (s : EdoString) (new_size : Nat) :
    Except Fault EdoString :=
  if MaxSize w ≤ new_size then .error .length_error
  else
    let new_size := szAdd w new_size 1
    if new_size > s.d_reserve then do
      let fresh ← newUtf32 w alloc new_size
      let temp ← memcpy fresh 0 s.ptr 0
        (szMul w (szAdd w s.d_cpLength 1) SIZEOF_UTF32)
      pure { s with d_buffer := temp, d_reserve := new_size }
    else pure s

/-- The function `Trim()` with `new utf32[min_size]` under an allocator. -/
def Trim_alloc (w : Nat) (alloc : Nat → Bool) (s : EdoString) : Except Fault EdoString :=
  let min_size := szAdd w s.d_cpLength 1
  if s.d_reserve > STR_QUICKBUFF_SIZE ∧ s.d_reserve > min_size then
    if min_size ≤ STR_QUICKBUFF_SIZE then do
      let q ← memcpy s.d_quickBuff 0 s.d_buffer 0 (szMul w min_size SIZEOF_UTF32)
      pure { s with d_quickBuff := q, d_buffer := [], d_reserve := STR_QUICKBUFF_SIZE }
    else do
      let fresh ← newUtf32 w alloc min_size
      let temp ← memcpy fresh 0 s.d_buffer 0 (szMul w min_size SIZEOF_UTF32)
      pure { s with d_buffer := temp, d_reserve := min_size }
  else pure s

/-- The function `Reserve(size_type num)` under an allocator. -/
def Reserve_alloc (w : Nat) (alloc : Nat → Bool) (s : EdoString) (num : Nat) :
    Except Fault EdoString :=
  if num = 0 then Trim_alloc w alloc s else Grow_alloc w alloc s num

/-- The function `Append(size_type num, utf32 code_point)` under an allocator. -/
def Append_rep_alloc (w : Nat) (alloc : Nat → Bool) (s : EdoString) (num code_point : Nat) :
    Except Fault EdoString :=
  if num = npos w then .error .length_error
  else
    let newSize := szAdd w s.d_cpLength num
    do
      let s1 ← Grow_alloc w alloc s newSize
      let b ← fillForward s1.ptr s1.d_cpLength code_point num
      SetLen (s1.setPtr b) newSize

/-- The function `Resize(size_type num, utf32 code_point)` under an allocator. -/
def Resize_alloc (w : Nat) (alloc : Nat → Bool) (s : EdoString) (num code_point : Nat) :
    Except Fault EdoString :=
  if num < s.d_cpLength then SetLen s num
  else Append_rep_alloc w alloc s (szSub w num s.d_cpLength) code_point

/-- The function `Resize(size_type num)` under an allocator: `Resize(num, utf32())`. -/
def Resize1_alloc (w : Nat) (alloc : Nat → Bool) (s : EdoString) (num : Nat) :
    Except Fault EdoString :=
  Resize_alloc w alloc s num 0

/-- The function `Insert(size_type idx, size_type num, utf32 code_point)` under an
allocator. -/
def Insert_rep_alloc (w : Nat) (alloc : Nat → Bool) (s : EdoString) (idx num code_point : Nat) :
    Except Fault EdoString :=
  if s.d_cpLength < idx then .error .out_of_range
  else if num = npos w then .error .length_error
  else
    let newSize := szAdd w s.d_cpLength num
    do
      let s1 ← Grow_alloc w alloc s newSize
      let b1 ← memmove s1.ptr (szAdd w idx num) idx
        (szMul w (szSub w s1.d_cpLength idx) SIZEOF_UTF32)
      let b2 ← fillBackward w b1 (szSub w (szAdd w idx num) 1) code_point num
      SetLen (s1.setPtr b2) newSize

/-! ## The other forms of the modifying operations -/

/-- The function `Begin()`: the iterator at slot 0 of the buffer in use. -/
def Begin (_s : EdoString) : Option Nat := some 0

/-- The function `End()`: the iterator at slot `d_cpLength` of the buffer in use. -/
def End (s : EdoString) : Option Nat := some s.d_cpLength

/-- The function `safe_iter_dif(iter1, iter2)`:
`(iter1.d_ptr == 0) ? 0 : (iter1 - iter2)`, the difference of two pointers into
one buffer converted to `size_type`.  The difference of a pointer and the null
pointer is undefined. -/
def safe_iter_dif (w : Nat) (iter1 iter2 : Option Nat) : Except Fault Nat :=
  match iter1, iter2 with
  | none, _ => .ok 0
  | some p1, some p2 => .ok (szSub w p1 p2)
  | some _, none => .error .bad_access

/-- The operator `operator=(const EdoString &str)`: `Assign(str)`, with the
default arguments `str_idx = 0` and `str_num = npos`. -/
def operatorAssign_str (w : Nat) (s : EdoString) (str : EdoString) : Except Fault EdoString :=
  Assign_str w s str 0 (npos w)

/-- The loop `while (str_num--) (*this)[str_num] = static_cast<utf32>(static_cast<unsigned char>(std_str[str_num + str_idx]));`
of `Assign(const std::string &, size_type, size_type)`; the last argument is
`str_num` before the test. -/
def assignCharsBackward (w : Nat) (buf : List Nat) (std_str : List Nat) (str_idx : Nat) :
    Nat → Except Fault (List Nat)
  | 0 => .ok buf
  | str_num + 1 => do
    let c ← load std_str (szAdd w str_num str_idx)
    let buf1 ← store buf str_num (charToUtf32 c)
    assignCharsBackward w buf1 std_str str_idx str_num

/-- The function `Assign(const std::string &std_str, size_type str_idx, size_type str_num)`. -/
def Assign_std (w : Nat) (s : EdoString) (std_str : List Nat) (str_idx str_num : Nat) :
    Except Fault EdoString :=
  if std_str.length < str_idx then .error .out_of_range
  else
    let str_num := if str_num = npos w ∨ str_num > szSub w std_str.length str_idx
      then szSub w std_str.length str_idx else str_num
    do
      let s1 ← Grow w s str_num
      let s2 ← SetLen s1 str_num
      let b ← assignCharsBackward w s2.ptr std_str str_idx str_num
      pure (s2.setPtr b)

/-- The operator `operator=(const std::string &std_str)`: `Assign(std_str)`. -/
def operatorAssign_std (w : Nat) (s : EdoString) (std_str : List Nat) : Except Fault EdoString :=
  Assign_std w s std_str 0 (npos w)

/-- The function `Assign(size_type num, utf32 code_point)`. -/
def Assign_rep (w : Nat) (s : EdoString) (num code_point : Nat) : Except Fault EdoString :=
  if num = npos w then .error .length_error
  else do
    let s1 ← Grow w s num
    let s2 ← SetLen s1 num
    let b ← fillForward s2.ptr 0 code_point num
    pure (s2.setPtr b)

/-- The operator `operator=(utf32 code_point)`: `Assign(1, code_point)`. -/
def operatorAssign_cp (w : Nat) (s : EdoString) (code_point : Nat) : Except Fault EdoString :=
  Assign_rep w s 1 code_point

/-- The operator `operator=(const char *cstr)`: `Assign(cstr, strlen(cstr))`. -/
def operatorAssign_cstr (w : Nat) (s : EdoString) (cstr : List Nat) : Except Fault EdoString := do
  let n ← strlen cstr
  Assign_chars w s cstr n

/-- The conversion `static_cast<utf32>(c)` of a `wchar_t`, given by its value as
an unsigned integer of its width. -/
def wcharToUtf32 (c : Nat) : Nat := c % 2 ^ 32

/-- The loop `while (num--) (*this)[num] = static_cast<utf32>(w_str[num + idx]);`
of `Assign(const std::wstring &, size_type, size_type)`. -/
def assignWideBackward (w : Nat) (buf : List Nat) (w_str : List Nat) (idx : Nat) :
    Nat → Except Fault (List Nat)
  | 0 => .ok buf
  | num + 1 => do
    let c ← load w_str (szAdd w num idx)
    let buf1 ← store buf num (wcharToUtf32 c)
    assignWideBackward w buf1 w_str idx num

/-- The function `Assign(const std::wstring &w_str, size_type idx, size_type num)`;
`w_str` is given by its wide characters, `w_str.size()` is their number. -/
def Assign_wstr (w : Nat) (s : EdoString) (w_str : List Nat) (idx num : Nat) :
    Except Fault EdoString :=
  if w_str.length < idx then .error .out_of_range
  else
    let num := if num = npos w ∨ num > szSub w w_str.length idx
      then szSub w w_str.length idx else num
    do
      let s1 ← Grow w s num
      let s2 ← SetLen s1 num
      let b ← assignWideBackward w s2.ptr w_str idx num
      pure (s2.setPtr b)

/-- The library function `wcslen`, on the wide characters that can be read
through the pointer: the offset of the first zero. -/
def wcslen : List Nat → Except Fault Nat
  | [] => .error .bad_access
  | c :: rest => if c = 0 then pure 0 else do
    let n ← wcslen rest
    pure (n + 1)

/-- The loop `while (num--) (*this)[num] = static_cast<utf32>(chars[num]);` of
`Assign(const wchar_t *)`. -/
def assignWcharsBackward (buf : List Nat) (chars : List Nat) : Nat → Except Fault (List Nat)
  | 0 => .ok buf
  | num + 1 => do
    let c ← load chars num
    let buf1 ← store buf num (wcharToUtf32 c)
    assignWcharsBackward buf1 chars num

/-- The function `Assign(const wchar_t *chars)`. -/
def Assign_wchars (w : Nat) (s : EdoString) (chars : List Nat) : Except Fault EdoString := do
  let num ← wcslen chars
  let s1 ← Grow w s num
  let s2 ← SetLen s1 num
  let b ← assignWcharsBackward s2.ptr chars num
  pure (s2.setPtr b)

/-- The function `Append(const EdoString &str, size_type str_idx, size_type str_num)`,
with `str` an object other than the receiver; `Append_self` is the call with
the receiver as `str`. -/
def Append_str (w : Nat) (s : EdoString) (str : EdoString) (str_idx str_num : Nat) :
    Except Fault EdoString :=
  if str.d_cpLength < str_idx then .error .out_of_range
  else
    let str_num := if str_num = npos w ∨ str_num > szSub w str.d_cpLength str_idx
      then szSub w str.d_cpLength str_idx else str_num
    do
      let s1 ← Grow w s (szAdd w s.d_cpLength str_num)
      let b ← memcpy s1.ptr s1.d_cpLength str.ptr str_idx (szMul w str_num SIZEOF_UTF32)
      SetLen (s1.setPtr b) (szAdd w s1.d_cpLength str_num)

/-- The operator `operator+=(const EdoString &str)`: `Append(str)`. -/
def operatorAppend_str (w : Nat) (s : EdoString) (str : EdoString) : Except Fault EdoString :=
  Append_str w s str 0 (npos w)

/-- The operator `operator+=(const std::string &std_str)`: `Append(std_str)`. -/
def operatorAppend_std (w : Nat) (s : EdoString) (std_str : List Nat) : Except Fault EdoString :=
  Append_std w s std_str 0 (npos w)

/-- The function `Append(const utf8 *utf8_str)`:
`Append(utf8_str, UtfLength(utf8_str))`. -/
def Append_utf8_z (w : Nat) (s : EdoString) (utf8_str : List Nat) : Except Fault EdoString := do
  let n ← UtfLength w utf8_str
  Append_utf8 w s utf8_str n

/-- The operator `operator+=(const utf8 *utf8_str)`:
`Append(utf8_str, UtfLength(utf8_str))`. -/
def operatorAppend_utf8 (w : Nat) (s : EdoString) (utf8_str : List Nat) :
    Except Fault EdoString := do
  let n ← UtfLength w utf8_str
  Append_utf8 w s utf8_str n

/-- The operator `operator+=(utf32 code_point)`: `Append(1, code_point)`. -/
def operatorAppend_cp (w : Nat) (s : EdoString) (code_point : Nat) : Except Fault EdoString :=
  Append_rep w s 1 code_point

/-- The function `PushBack(utf32 code_point)`: `Append(1, code_point)`. -/
def PushBack (w : Nat) (s : EdoString) (code_point : Nat) : Except Fault EdoString :=
  Append_rep w s 1 code_point

/-- The function `Append(const char *chars, size_type chars_len)`. -/
def Append_chars (w : Nat) (s : EdoString) (chars : List Nat) (chars_len : Nat) :
    Except Fault EdoString :=
  if chars_len = npos w then .error .length_error
  else
    let newSize := szAdd w s.d_cpLength chars_len
    do
      let s1 ← Grow w s newSize
      let b ← copyCharsBackward w s1.ptr (szSub w newSize 1) chars 0 chars_len
      SetLen (s1.setPtr b) newSize

/-- The operator `operator+=(const char *cstr)`: `Append(cstr, strlen(cstr))`. -/
def operatorAppend_cstr (w : Nat) (s : EdoString) (cstr : List Nat) : Except Fault EdoString := do
  let n ← strlen cstr
  Append_chars w s cstr n

/-- The function `Insert(size_type idx, const EdoString &str)`:
`Insert(idx, str, 0, npos)`. -/
def Insert_str_whole (w : Nat) (s : EdoString) (idx : Nat) (str : EdoString) :
    Except Fault EdoString :=
  Insert_str w s idx str 0 (npos w)

/-- The function `Insert(size_type idx, const std::string &std_str)`:
`Insert(idx, std_str, 0, npos)`. -/
def Insert_std_whole (w : Nat) (s : EdoString) (idx : Nat) (std_str : List Nat) :
    Except Fault EdoString :=
  Insert_std w s idx std_str 0 (npos w)

/-- The function `Insert(size_type idx, const utf8 *utf8_str, size_type len)`;
`utf8_str` is given by the code units that can be read through it. -/
def Insert_utf8 (w : Nat) (s : EdoString) (idx : Nat) (utf8_str : List Nat) (len : Nat) :
    Except Fault EdoString :=
  if s.d_cpLength < idx then .error .out_of_range
  else if len = npos w then .error .length_error
  else do
    let encSize ← EncodedSize_utf8 w utf8_str len
    let newSize := szAdd w s.d_cpLength encSize
    let s1 ← Grow w s newSize
    let b1 ← memmove s1.ptr (szAdd w idx encSize) idx
      (szMul w (szSub w s1.d_cpLength idx) SIZEOF_UTF32)
    let r ← Encode_utf8 w utf8_str b1 idx encSize len
    SetLen (s1.setPtr r.1) newSize

/-- The function `Insert(size_type idx, const utf8 *utf8_str)`:
`Insert(idx, utf8_str, UtfLength(utf8_str))`. -/
def Insert_utf8_z (w : Nat) (s : EdoString) (idx : Nat) (utf8_str : List Nat) :
    Except Fault EdoString := do
  let n ← UtfLength w utf8_str
  Insert_utf8 w s idx utf8_str n

/-- The function `Insert(iterator pos, size_type num, utf32 code_point)`:
`Insert(safe_iter_dif(pos, Begin()), num, code_point)`. -/
def Insert_iter_rep (w : Nat) (s : EdoString) (pos : Option Nat) (num code_point : Nat) :
    Except Fault EdoString := do
  let idx ← safe_iter_dif w pos (Begin s)
  Insert_rep w s idx num code_point

/-- The function `Insert(iterator pos, utf32 code_point)`:
`Insert(pos, 1, code_point); return pos;`.  The value is the string after the
call. -/
def Insert_iter_cp (w : Nat) (s : EdoString) (pos : Option Nat) (code_point : Nat) :
    Except Fault EdoString :=
  Insert_iter_rep w s pos 1 code_point

/-- The function `Erase(size_type idx)`: `Erase(idx, 1)`. -/
def Erase_idx (w : Nat) (s : EdoString) (idx : Nat) : Except Fault EdoString :=
  Erase w s idx 1

/-- The function `Erase(iterator pos)`: `Erase(safe_iter_dif(pos, Begin()), 1)`. -/
def Erase_iter (w : Nat) (s : EdoString) (pos : Option Nat) : Except Fault EdoString := do
  let idx ← safe_iter_dif w pos (Begin s)
  Erase w s idx 1

/-- The function `Erase(iterator iter_beg, iterator iter_end)`:
`Erase(safe_iter_dif(iter_beg, Begin()), safe_iter_dif(iter_end, iter_beg))`. -/
def Erase_iter_range (w : Nat) (s : EdoString) (iter_beg iter_end : Option Nat) :
    Except Fault EdoString := do
  let idx ← safe_iter_dif w iter_beg (Begin s)
  let len ← safe_iter_dif w iter_end iter_beg
  Erase w s idx len

/-- The function `Replace(size_type idx, size_type len, const EdoString &str)`:
`Replace(idx, len, str, 0, npos)`. -/
def Replace_str_whole (w : Nat) (s : EdoString) (idx len : Nat) (str : EdoString) :
    Except Fault EdoString :=
  Replace_str w s idx len str 0 (npos w)

/-- The function `Replace(iterator iter_beg, iterator iter_end, const EdoString &str)`:
`Replace(safe_iter_dif(iter_beg, Begin()), safe_iter_dif(iter_end, iter_beg), str, 0, npos)`. -/
def Replace_iter_str (w : Nat) (s : EdoString) (iter_beg iter_end : Option Nat)
    (str : EdoString) : Except Fault EdoString := do
  let idx ← safe_iter_dif w iter_beg (Begin s)
  let len ← safe_iter_dif w iter_end iter_beg
  Replace_str w s idx len str 0 (npos w)

/-- The function `Replace(size_type idx, size_type len, const std::string &std_str, size_type str_idx, size_type str_num)`. -/
def Replace_std (w : Nat) (s : EdoString) (idx len : Nat) (std_str : List Nat)
    (str_idx str_num : Nat) : Except Fault EdoString :=
  if s.d_cpLength < idx then .error .out_of_range
  else if std_str.length < str_idx then .error .out_of_range
  else
    let str_num := if szAdd w str_idx str_num > std_str.length ∨ str_num = npos w
      then szSub w std_str.length str_idx else str_num
    let len := if szAdd w len idx > s.d_cpLength ∨ len = npos w
      then szSub w s.d_cpLength idx else len
    let newSize := szSub w (szAdd w s.d_cpLength str_num) len
    do
      let s1 ← Grow w s newSize
      let b1 ← if szAdd w idx len < s1.d_cpLength then
          memmove s1.ptr (szAdd w idx str_num) (szAdd w len idx)
            (szMul w (szSub w (szSub w s1.d_cpLength idx) len) SIZEOF_UTF32)
        else pure s1.ptr
      let b2 ← copyCharsBackward w b1 (szSub w (szAdd w idx str_num) 1) std_str str_idx str_num
      SetLen (s1.setPtr b2) newSize

/-- The function `Replace(size_type idx, size_type len, const std::string &std_str)`:
`Replace(idx, len, std_str, 0, npos)`. -/
def Replace_std_whole (w : Nat) (s : EdoString) (idx len : Nat) (std_str : List Nat) :
    Except Fault EdoString :=
  Replace_std w s idx len std_str 0 (npos w)

/-- The function `Replace(iterator iter_beg, iterator iter_end, const std::string &std_str)`:
`Replace(safe_iter_dif(iter_beg, Begin()), safe_iter_dif(iter_end, iter_beg), std_str, 0, npos)`. -/
def Replace_iter_std (w : Nat) (s : EdoString) (iter_beg iter_end : Option Nat)
    (std_str : List Nat) : Except Fault EdoString := do
  let idx ← safe_iter_dif w iter_beg (Begin s)
  let len ← safe_iter_dif w iter_end iter_beg
  Replace_std w s idx len std_str 0 (npos w)

/-- The function `Replace(size_type idx, size_type len, const utf8 *utf8_str, size_type str_len)`;
`utf8_str` is given by the code units that can be read through it. -/
def Replace_utf8 (w : Nat) (s : EdoString) (idx len : Nat) (utf8_str : List Nat)
    (str_len : Nat) : Except Fault EdoString :=
  if s.d_cpLength < idx then .error .out_of_range
  else if str_len = npos w then .error .length_error
  else
    let len := if szAdd w len idx > s.d_cpLength ∨ len = npos w
      then szSub w s.d_cpLength idx else len
    do
      let encSize ← EncodedSize_utf8 w utf8_str str_len
      let newSize := szSub w (szAdd w s.d_cpLength encSize) len
      let s1 ← Grow w s newSize
      let b1 ← if szAdd w idx len < s1.d_cpLength then
          memmove s1.ptr (szAdd w idx encSize) (szAdd w len idx)
            (szMul w (szSub w (szSub w s1.d_cpLength idx) len) SIZEOF_UTF32)
        else pure s1.ptr
      let r ← Encode_utf8 w utf8_str b1 idx encSize str_len
      SetLen (s1.setPtr r.1) newSize

/-- The function `Replace(size_type idx, size_type len, const utf8 *utf8_str)`:
`Replace(idx, len, utf8_str, UtfLength(utf8_str))`. -/
def Replace_utf8_z (w : Nat) (s : EdoString) (idx len : Nat) (utf8_str : List Nat) :
    Except Fault EdoString := do
  let n ← UtfLength w utf8_str
  Replace_utf8 w s idx len utf8_str n

/-- The function `Replace(iterator iter_beg, iterator iter_end, const utf8 *utf8_str, size_type str_len)`:
`Replace(safe_iter_dif(iter_beg, Begin()), safe_iter_dif(iter_end, iter_beg), utf8_str, str_len)`. -/
def Replace_iter_utf8 (w : Nat) (s : EdoString) (iter_beg iter_end : Option Nat)
    (utf8_str : List Nat) (str_len : Nat) : Except Fault EdoString := do
  let idx ← safe_iter_dif w iter_beg (Begin s)
  let len ← safe_iter_dif w iter_end iter_beg
  Replace_utf8 w s idx len utf8_str str_len

/-- The function `Replace(iterator iter_beg, iterator iter_end, const utf8 *utf8_str)`:
`Replace(iter_beg, iter_end, utf8_str, UtfLength(utf8_str))`. -/
def Replace_iter_utf8_z (w : Nat) (s : EdoString) (iter_beg iter_end : Option Nat)
    (utf8_str : List Nat) : Except Fault EdoString := do
  let n ← UtfLength w utf8_str
  Replace_iter_utf8 w s iter_beg iter_end utf8_str n

/-- The function `Replace(iterator iter_beg, iterator iter_end, size_type num, utf32 code_point)`:
`Replace(safe_iter_dif(iter_beg, Begin()), safe_iter_dif(iter_end, iter_beg), num, code_point)`. -/
def Replace_iter_rep (w : Nat) (s : EdoString) (iter_beg iter_end : Option Nat)
    (num code_point : Nat) : Except Fault EdoString := do
  let idx ← safe_iter_dif w iter_beg (Begin s)
  let len ← safe_iter_dif w iter_end iter_beg
  Replace_rep w s idx len num code_point

/-- The call `memcpy(&dest[dOff], iter.d_ptr, bytes)`, with `iter` pointing into
the buffer `src`. -/
def memcpyIter (dest : List Nat) (dOff : Nat) (src : List Nat) (iter : Option Nat)
    (bytes : Nat) : Except Fault (List Nat) :=
  match iter with
  | some p => memcpy dest dOff src p bytes
  | none => .error .bad_access

/-- The function `Replace(iterator iter_beg, iterator iter_end, const_iterator iter_newBeg, const_iterator iter_newEnd)`,
with `iter_newBeg` and `iter_newEnd` pointing into the buffer `src` of an
object other than the receiver.  The test `iter_newBeg == iter_newEnd` compares
the two pointers, and `memcpy` reads through `iter_newBeg.d_ptr`. -/
def Replace_iter_range (w : Nat) (s : EdoString) (iter_beg iter_end : Option Nat)
    (src : List Nat) (iter_newBeg iter_newEnd : Option Nat) : Except Fault EdoString :=
  if iter_newBeg = iter_newEnd then do
    let idx ← safe_iter_dif w iter_beg (Begin s)
    let len ← safe_iter_dif w iter_end iter_beg
    Erase w s idx len
  else do
    let str_len ← safe_iter_dif w iter_newEnd iter_newBeg
    let idx ← safe_iter_dif w iter_beg (Begin s)
    let len ← safe_iter_dif w iter_end iter_beg
    let len := if szAdd w len idx > s.d_cpLength then szSub w s.d_cpLength idx else len
    let newSize := szSub w (szAdd w s.d_cpLength str_len) len
    let s1 ← Grow w s newSize
    let b1 ← if szAdd w idx len < s1.d_cpLength then
        memmove s1.ptr (szAdd w idx str_len) (szAdd w len idx)
          (szMul w (szSub w (szSub w s1.d_cpLength idx) len) SIZEOF_UTF32)
      else pure s1.ptr
    let b2 ← memcpyIter b1 idx src iter_newBeg (szMul w str_len SIZEOF_UTF32)
    SetLen (s1.setPtr b2) newSize

/-- The function `Append(const_iterator iter_beg, const_iterator iter_end)`:
`Replace(End(), End(), iter_beg, iter_end)`. -/
def Append_iter (w : Nat) (s : EdoString) (src : List Nat) (iter_beg iter_end : Option Nat) :
    Except Fault EdoString :=
  Replace_iter_range w s (End s) (End s) src iter_beg iter_end

/-- The function `Insert(iterator iter_pos, const_iterator iter_beg, const_iterator iter_end)`:
`Replace(iter_pos, iter_pos, iter_beg, iter_end)`. -/
def Insert_iter_range (w : Nat) (s : EdoString) (iter_pos : Option Nat) (src : List Nat)
    (iter_beg iter_end : Option Nat) : Except Fault EdoString :=
  Replace_iter_range w s iter_pos iter_pos src iter_beg iter_end

/-- The function `Replace(iterator iter_beg, iterator iter_end, const char *chars, size_type chars_len)`:
`Replace(safe_iter_dif(iter_beg, Begin()), safe_iter_dif(iter_end, iter_beg), chars, chars_len)`. -/
def Replace_iter_chars (w : Nat) (s : EdoString) (iter_beg iter_end : Option Nat)
    (chars : List Nat) (chars_len : Nat) : Except Fault EdoString := do
  let idx ← safe_iter_dif w iter_beg (Begin s)
  let len ← safe_iter_dif w iter_end iter_beg
  Replace_chars w s idx len chars chars_len

/-- The function `Replace(iterator iter_beg, iterator iter_end, const char *cstr)`:
`Replace(iter_beg, iter_end, cstr, strlen(cstr))`. -/
def Replace_iter_cstr (w : Nat) (s : EdoString) (iter_beg iter_end : Option Nat)
    (cstr : List Nat) : Except Fault EdoString := do
  let n ← strlen cstr
  Replace_iter_chars w s iter_beg iter_end cstr n

/-- The free function `Swap(EdoString &str1, EdoString &str2)`: `str1.Swap(str2)`. -/
def Swap_free (str1 str2 : EdoString) : EdoString × EdoString :=
  Swap str1 str2

/-- The write `s[idx] = v` through the reference that `operator[](size_type idx)`
returns, `ptr()[idx]`. -/
def operatorIndex_write (s : EdoString) (idx v : Nat) : Except Fault EdoString := do
  let b ← store s.ptr idx v
  pure (s.setPtr b)

/-- The write `s.At(idx) = v` through the reference that `At(size_type idx)`
returns. -/
def At_write (s : EdoString) (idx v : Nat) : Except Fault EdoString :=
  if s.d_cpLength ≤ idx then .error .out_of_range
  else do
    let b ← store s.ptr idx v
    pure (s.setPtr b)

/-- The function `Assign(const EdoString &str, size_type str_idx, size_type str_num)`
in the call `s.Assign(s, str_idx, str_num)`: `memcpy` copies inside the buffer
of the receiver, after `SetLen` wrote the terminator. -/
def Assign_self (w : Nat) (s : EdoString) (str_idx str_num : Nat) : Except Fault EdoString :=
  if s.d_cpLength < str_idx then .error .out_of_range
  else
    let str_num := if str_num = npos w ∨ str_num > szSub w s.d_cpLength str_idx
      then szSub w s.d_cpLength str_idx else str_num
    do
      let s1 ← Grow w s str_num
      let s2 ← SetLen s1 str_num
      let b ← memcpySame s2.ptr 0 str_idx (szMul w str_num SIZEOF_UTF32)
      pure (s2.setPtr b)

/-- The operator `operator=(const EdoString &str)` in the call `s = s`. -/
def operatorAssign_self (w : Nat) (s : EdoString) : Except Fault EdoString :=
  Assign_self w s 0 (npos w)

/-- The function `Append(const EdoString &str, size_type str_idx, size_type str_num)`
in the call `s.Append(s, str_idx, str_num)`. -/
def Append_self (w : Nat) (s : EdoString) (str_idx str_num : Nat) : Except Fault EdoString :=
  if s.d_cpLength < str_idx then .error .out_of_range
  else
    let str_num := if str_num = npos w ∨ str_num > szSub w s.d_cpLength str_idx
      then szSub w s.d_cpLength str_idx else str_num
    do
      let s1 ← Grow w s (szAdd w s.d_cpLength str_num)
      let b ← memcpySame s1.ptr s1.d_cpLength str_idx (szMul w str_num SIZEOF_UTF32)
      SetLen (s1.setPtr b) (szAdd w s1.d_cpLength str_num)

/-- The operator `operator+=(const EdoString &str)` in the call `s += s`. -/
def operatorAppend_self (w : Nat) (s : EdoString) : Except Fault EdoString :=
  Append_self w s 0 (npos w)

/-- The function `Insert(size_type idx, const EdoString &str)` in the call
`s.Insert(idx, s)`. -/
def Insert_self_whole (w : Nat) (s : EdoString) (idx : Nat) : Except Fault EdoString :=
  Insert_self w s idx 0 (npos w)

/-- The function `Replace(size_type idx, size_type len, const EdoString &str, size_type str_idx, size_type str_num)`
in the call `s.Replace(idx, len, s, str_idx, str_num)`. -/
def Replace_self (w : Nat) (s : EdoString) (idx len : Nat) (str_idx str_num : Nat) :
    Except Fault EdoString :=
  if s.d_cpLength < idx ∨ s.d_cpLength < str_idx then .error .out_of_range
  else
    let str_num := if szAdd w str_idx str_num > s.d_cpLength ∨ str_num = npos w
      then szSub w s.d_cpLength str_idx else str_num
    let len := if szAdd w len idx > s.d_cpLength ∨ len = npos w
      then szSub w s.d_cpLength idx else len
    let newSize := szSub w (szAdd w s.d_cpLength str_num) len
    do
      let s1 ← Grow w s newSize
      let b1 ← if szAdd w idx len < s1.d_cpLength then
          memmove s1.ptr (szAdd w idx str_num) (szAdd w len idx)
            (szMul w (szSub w (szSub w s1.d_cpLength idx) len) SIZEOF_UTF32)
        else pure s1.ptr
      let b2 ← memcpySame b1 idx str_idx (szMul w str_num SIZEOF_UTF32)
      SetLen (s1.setPtr b2) newSize

/-- The function `Replace(size_type idx, size_type len, const EdoString &str)` in
the call `s.Replace(idx, len, s)`. -/
def Replace_self_whole (w : Nat) (s : EdoString) (idx len : Nat) : Except Fault EdoString :=
  Replace_self w s idx len 0 (npos w)

/-- The function `Replace(iterator iter_beg, iterator iter_end, const EdoString &str)`
in the call `s.Replace(iter_beg, iter_end, s)`. -/
def Replace_iter_self (w : Nat) (s : EdoString) (iter_beg iter_end : Option Nat) :
    Except Fault EdoString := do
  let idx ← safe_iter_dif w iter_beg (Begin s)
  let len ← safe_iter_dif w iter_end iter_beg
  Replace_self w s idx len 0 (npos w)

/-- The call `memcpy(&buf[dOff], iter.d_ptr, bytes)`, with `iter` a pointer into
the buffer that the receiver `s` used before `Grow`, which left the object
`s1`, and `buf` the buffer in use after it.  When `Grow` kept the buffer,
`memcpy` copies inside it; when `Grow` moved the string from the quick buffer
to a new buffer, the pointer still points into the quick buffer, which holds
what it held; when `Grow` replaced a buffer by a new one, `delete[]` freed what
the pointer points to. -/
def memcpyIterSelf (s s1 : EdoString) (buf : List Nat) (dOff : Nat) (iter : Option Nat)
    (bytes : Nat) : Except Fault (List Nat) :=
  match iter with
  | some p =>
    if s1.d_reserve = s.d_reserve then memcpySame buf dOff p bytes
    else if s.d_reserve > STR_QUICKBUFF_SIZE then .error .bad_access
    else memcpy buf dOff s.d_quickBuff p bytes
  | none => .error .bad_access

/-- The function `Replace(iterator iter_beg, iterator iter_end, const_iterator iter_newBeg, const_iterator iter_newEnd)`
with `iter_newBeg` and `iter_newEnd` pointing into the buffer of the receiver,
as `Begin()` and `End()` do. -/
def Replace_iter_range_self (w : Nat) (s : EdoString) (iter_beg iter_end : Option Nat)
    (iter_newBeg iter_newEnd : Option Nat) : Except Fault EdoString :=
  if iter_newBeg = iter_newEnd then do
    let idx ← safe_iter_dif w iter_beg (Begin s)
    let len ← safe_iter_dif w iter_end iter_beg
    Erase w s idx len
  else do
    let str_len ← safe_iter_dif w iter_newEnd iter_newBeg
    let idx ← safe_iter_dif w iter_beg (Begin s)
    let len ← safe_iter_dif w iter_end iter_beg
    let len := if szAdd w len idx > s.d_cpLength then szSub w s.d_cpLength idx else len
    let newSize := szSub w (szAdd w s.d_cpLength str_len) len
    let s1 ← Grow w s newSize
    let b1 ← if szAdd w idx len < s1.d_cpLength then
        memmove s1.ptr (szAdd w idx str_len) (szAdd w len idx)
          (szMul w (szSub w (szSub w s1.d_cpLength idx) len) SIZEOF_UTF32)
      else pure s1.ptr
    let b2 ← memcpyIterSelf s s1 b1 idx iter_newBeg (szMul w str_len SIZEOF_UTF32)
    SetLen (s1.setPtr b2) newSize

/-- The function `Append(const_iterator iter_beg, const_iterator iter_end)` with
iterators into the receiver: `Replace(End(), End(), iter_beg, iter_end)`. -/
def Append_iter_self (w : Nat) (s : EdoString) (iter_beg iter_end : Option Nat) :
    Except Fault EdoString :=
  Replace_iter_range_self w s (End s) (End s) iter_beg iter_end

/-- The function `Insert(iterator iter_pos, const_iterator iter_beg, const_iterator iter_end)`
with iterators into the receiver: `Replace(iter_pos, iter_pos, iter_beg, iter_end)`. -/
def Insert_iter_range_self (w : Nat) (s : EdoString) (iter_pos : Option Nat)
    (iter_beg iter_end : Option Nat) : Except Fault EdoString :=
  Replace_iter_range_self w s iter_pos iter_pos iter_beg iter_end

/-- The function `Swap(EdoString &str)` in the call `s.Swap(s)`: the three
exchanges of members leave them as they are, and the second `memcpy` copies the
quick buffer onto itself. -/
def Swap_self (s : EdoString) : Except Fault EdoString :=
  if s.d_reserve ≤ STR_QUICKBUFF_SIZE then do
    let tempQbf ← memcpy (newArray STR_QUICKBUFF_SIZE) 0 s.d_quickBuff 0
      (STR_QUICKBUFF_SIZE * SIZEOF_UTF32)
    let q ← memcpySame s.d_quickBuff 0 0 (STR_QUICKBUFF_SIZE * SIZEOF_UTF32)
    let q2 ← memcpy q 0 tempQbf 0 (STR_QUICKBUFF_SIZE * SIZEOF_UTF32)
    pure { s with d_quickBuff := q2 }
  else pure s

/-! ## Search results -/

/-- The list `N` occurs in the list `S` at position `i`. -/
@[reducible]
def occursAt (S N : List Nat) (i : Nat) : Prop :=
  i + N.length ≤ S.length ∧ (S.drop i).take N.length = N

/-- The index `r` is the result of a forward search from `idx` for a position
with `P`: the smallest `i >= idx` with `P i`, and `npos` when there is none. -/
def firstFrom (w : Nat) (P : Nat → Prop) (idx r : Nat) : Prop :=
  (r = npos w ∧ ∀ j, idx ≤ j → ¬ P j) ∨
  (r ≠ npos w ∧ idx ≤ r ∧ P r ∧ ∀ j, idx ≤ j → j < r → ¬ P j)

/-- The index `r` is the result of a backward search from `idx` for a position
with `P`: the largest `i <= idx` with `P i`, and `npos` when there is none. -/
def lastUpTo (w : Nat) (P : Nat → Prop) (idx r : Nat) : Prop :=
  (r = npos w ∧ ∀ j, j ≤ idx → ¬ P j) ∨
  (r ≠ npos w ∧ r ≤ idx ∧ P r ∧ ∀ j, r < j → j ≤ idx → ¬ P j)

/-! ## Comparison of code point lists -/

/-- The value `Utf32CompUtf32` returns on two ranges of one length, given as
lists: the difference at the first position where they differ, 0 if there is
none. -/
def firstDiff : List Nat → List Nat → Int
  | a :: as, b :: bs => if a = b then firstDiff as bs else utf32Diff a b
  | _, _ => 0

/-- The value of `Compare(str)` in terms of the code points of the two
strings: `Utf32CompUtf32` over the common length, then `triState`. -/
def compareLists (A B : List Nat) : Int :=
  triState (firstDiff (A.take (min A.length B.length)) (B.take (min A.length B.length)))
    A.length B.length

/-- Every entry is a `utf32` value: below `2 ^ 32`. -/
@[reducible]
def utf32List (A : List Nat) : Prop := ∀ c ∈ A, c < 2 ^ 32

/-- The entries at each common position differ by less than `2 ^ 31`; this
holds whenever all entries are below `2 ^ 31`, as every Unicode code point is. -/
@[reducible]
def zipWithin (A B : List Nat) : Prop :=
  ∀ p ∈ A.zip B, p.1 < p.2 + 2 ^ 31 ∧ p.2 < p.1 + 2 ^ 31

/-- The entries at each common position do not differ by exactly `2 ^ 31`. -/
@[reducible]
def zipNoHalf (A B : List Nat) : Prop :=
  ∀ p ∈ A.zip B, p.1 ≠ p.2 + 2 ^ 31 ∧ p.2 ≠ p.1 + 2 ^ 31

/-! ## The capacity invariant -/

/-- The capacity invariant, with the facts about the buffers that carry it
through the operations: the quick buffer has `STR_QUICKBUFF_SIZE` slots, the
reserve is at least that and at most `MaxSize()`, a heap buffer has `d_reserve`
slots, and the reserve holds the code points and the terminator. -/
@[reducible]
def capInv (w : Nat) (s : EdoString) : Prop :=
  s.d_quickBuff.length = STR_QUICKBUFF_SIZE ∧
  STR_QUICKBUFF_SIZE ≤ s.d_reserve ∧
  (STR_QUICKBUFF_SIZE < s.d_reserve → s.d_buffer.length = s.d_reserve) ∧
  s.d_cpLength + 1 ≤ s.d_reserve ∧
  s.d_reserve ≤ MaxSize w

/-! ## Sample strings -/

/-- An object with inline storage whose first slots hold `cps` followed by the
terminator; `cps` has fewer than `STR_QUICKBUFF_SIZE` entries. -/
def inlineString (cps : List Nat) : EdoString :=
  { d_cpLength := cps.length, d_reserve := STR_QUICKBUFF_SIZE, d_encodedBuff := [],
    d_encodedDatLen := 0, d_encodedBuffLen := 0,
    d_quickBuff := cps ++ List.replicate (STR_QUICKBUFF_SIZE - cps.length) 0,
    d_buffer := [] }

/-- The string "abcd". -/
def exAbcd : EdoString := inlineString [97, 98, 99, 100]

/-- The string "XY". -/
def exXY : EdoString := inlineString [88, 89]

/-- The empty string. -/
def exEmpty : EdoString := inlineString []

/-- The string whose only code point is `0x80000000`. -/
def exHigh : EdoString := inlineString [2147483648]

/-- The string whose only code point is 0. -/
def exZero : EdoString := inlineString [0]

/-- The string "cd". -/
def exCd : EdoString := inlineString [99, 100]

/-- The string "abc". -/
def exAbc : EdoString := inlineString [97, 98, 99]

/-- The string "a". -/
def exA : EdoString := inlineString [97]

/-- The string "c". -/
def exC : EdoString := inlineString [99]

/-- The string "aaa". -/
def exAaa : EdoString := inlineString [97, 97, 97]

/-- The string built by `EdoString a; a.Assign("zz", 2); a.Append(40, 'x');`:
42 code points in a heap buffer. -/
def exZZ40 : Except Fault EdoString := do
  let a0 ← Init
  let a1 ← Assign_chars 64 a0 [122, 122] 2
  Append_rep 64 a1 40 120

/-- The string built by `EdoString b; b.Assign("hi", 2);`, in the quick buffer. -/
def exHi : Except Fault EdoString := do
  let b0 ← Init
  Assign_chars 64 b0 [104, 105] 2

/-- The string whose only code point is U+1F600. -/
def exGrin : EdoString := inlineString [0x1F600]

/-- The string built by `EdoString a; a.Assign("zzzz", 4); a.Append(40, 'x');`:
44 code points in a heap buffer, the quick buffer still holding "zzzz". -/
def exZZZZ40 : Except Fault EdoString := do
  let a0 ← Init
  let a1 ← Assign_chars 64 a0 [122, 122, 122, 122] 4
  Append_rep 64 a1 40 120

/-- The string with the code points 'A', `0xD800`, `0x110000`, `0xFFFF`. -/
def exIllegal : EdoString := inlineString [0x41, 0xD800, 0x110000, 0xFFFF]

/-- The sequence of `2 ^ 32` times 'a' followed by one 'b': ASCII code points,
and their UTF-8 code units. -/
def exLongRun : List Nat := List.replicate (2 ^ 32) 97 ++ [98]

/-- The string "ababcd". -/
def exAbabcd : EdoString := inlineString [97, 98, 97, 98, 99, 100]

/-- The value of `exZZ40`: 42 code points in a heap buffer of 43 slots, the
quick buffer still holding "zz". -/
def exZZ40_value : EdoString :=
  { d_cpLength := 42, d_reserve := 43, d_encodedBuff := [], d_encodedDatLen := 0,
    d_encodedBuffLen := 0,
    d_quickBuff := [122, 122] ++ List.replicate 30 0,
    d_buffer := [122, 122] ++ List.replicate 40 120 ++ [0] }

/-- The string `exZZ40_value` after `Resize(2)`: "zz" in the same heap buffer. -/
def exZZ40_resized : EdoString :=
  { exZZ40_value with d_cpLength := 2,
                      d_buffer := [122, 122, 0] ++ List.replicate 39 120 ++ [0] }

/-- The string of 30 code points 'a'. -/
def exA30 : EdoString := inlineString (List.replicate 30 97)

end EdoString

/-! ## Arithmetic of `size_type` -/

theorem szAdd_eq {w a b : Nat} (h : a + b < 2 ^ w) : szAdd w a b = a + b := by
  unfold szAdd; exact Nat.mod_eq_of_lt h

theorem szSub_eq {w a b : Nat} (hb : b ≤ a) (ha : a < 2 ^ w) : szSub w a b = a - b := by
  unfold szSub
  have hb2 : b % 2 ^ w = b := Nat.mod_eq_of_lt (by omega)
  rw [hb2]
  have : a + (2 ^ w - b) = (a - b) + 2 ^ w := by omega
  rw [this, Nat.add_mod_right]
  exact Nat.mod_eq_of_lt (by omega)

theorem szMul_eq {w a b : Nat} (h : a * b < 2 ^ w) : szMul w a b = a * b := by
  unfold szMul; exact Nat.mod_eq_of_lt h

theorem MaxSize_bound {w n : Nat} (h : n < MaxSize w) : 4 * n + 4 < 2 ^ w := by
  unfold MaxSize npos SIZEOF_UTF32 at h
  omega

theorem bytes_eq {w n : Nat} (h : n < MaxSize w) :
    szMul w n SIZEOF_UTF32 / SIZEOF_UTF32 = n := by
  have hb := MaxSize_bound h
  rw [szMul_eq (by unfold SIZEOF_UTF32; omega)]
  unfold SIZEOF_UTF32; omega

theorem bytes_eq_succ {w n : Nat} (h : n < MaxSize w) :
    szMul w (szAdd w n 1) SIZEOF_UTF32 / SIZEOF_UTF32 = n + 1 := by
  have hb := MaxSize_bound h
  rw [szAdd_eq (by omega), szMul_eq (by unfold SIZEOF_UTF32; omega)]
  unfold SIZEOF_UTF32; omega

namespace EdoString

/-! ## The buffer in use -/

theorem ptr_length {w : Nat} {s : EdoString} (h : wf w s) : s.ptr.length = s.d_reserve := by
  obtain ⟨hq, hr, hb, -, -⟩ := h
  unfold ptr
  split
  · exact hb (by assumption)
  · unfold STR_QUICKBUFF_SIZE at *; omega

theorem ptr_setPtr (s : EdoString) (b : List Nat) : (s.setPtr b).ptr = b := by
  unfold setPtr ptr
  split <;> simp_all

theorem d_cpLength_setPtr (s : EdoString) (b : List Nat) :
    (s.setPtr b).d_cpLength = s.d_cpLength := by
  unfold setPtr; split <;> rfl

theorem d_reserve_setPtr (s : EdoString) (b : List Nat) :
    (s.setPtr b).d_reserve = s.d_reserve := by
  unfold setPtr; split <;> rfl

theorem wf_setPtr {w : Nat} {s : EdoString} (h : wf w s) {b : List Nat}
    (hb : b.length = s.d_reserve) : wf w (s.setPtr b) := by
  obtain ⟨hq, hr, hbuf, hl, hm⟩ := h
  unfold setPtr
  split
  · exact ⟨hq, hr, fun _ => hb, hl, hm⟩
  · refine ⟨?_, hr, hbuf, hl, hm⟩
    show b.length = STR_QUICKBUFF_SIZE
    omega

/-- The function `SetLen` on a buffer that has the slot `len`. -/
theorem SetLen_ok {w : Nat} {s : EdoString} (h : wf w s) {len : Nat}
    (hlen : len + 1 ≤ s.d_reserve) (hmax : len < MaxSize w) :
    ∃ s1, SetLen s len = .ok s1 ∧ wf w s1 ∧ s1.d_cpLength = len ∧
      s1.d_reserve = s.d_reserve ∧ s1.ptr = s.ptr.set len 0 := by
  have hp := ptr_length h
  obtain ⟨hq, hr, hbuf, hl, hm⟩ := h
  have hwf : wf w { s with d_cpLength := len } := ⟨hq, hr, hbuf, hlen, hmax⟩
  have hp1 : ({ s with d_cpLength := len } : EdoString).ptr = s.ptr := rfl
  refine ⟨({ s with d_cpLength := len } : EdoString).setPtr (s.ptr.set len 0), ?_, ?_, ?_, ?_, ?_⟩
  · unfold SetLen store
    simp only [hp1]
    rw [if_pos (by omega)]
    rfl
  · exact wf_setPtr hwf (by simp [hp])
  · rw [d_cpLength_setPtr]
  · rw [d_reserve_setPtr]
  · rw [ptr_setPtr]

/-- The function `Grow` below `MaxSize()` returns normally, keeps the length and the stored
code points with their terminator, and leaves room for `n + 1` slots. -/
theorem Grow_ok {w : Nat} {s : EdoString} (h : wf w s) {n : Nat} (hn : n < MaxSize w) :
    ∃ s1, Grow w s n = .ok s1 ∧ wf w s1 ∧ s1.d_cpLength = s.d_cpLength ∧
      n + 1 ≤ s1.d_reserve ∧ s.d_reserve ≤ s1.d_reserve ∧
      s1.ptr.take (s.d_cpLength + 1) = s.ptr.take (s.d_cpLength + 1) := by
  have hp := ptr_length h
  have hwf := h
  obtain ⟨hq, hr, hbuf, hl, hm⟩ := h
  have hb := MaxSize_bound hn
  unfold Grow
  rw [if_neg (by omega)]
  simp only []
  rw [szAdd_eq (by omega)]
  by_cases hgt : n + 1 > s.d_reserve
  · rw [if_pos hgt]
    unfold memcpy
    simp only [bytes_eq_succ hm]
    rw [if_pos (by simp [newArray]; omega)]
    refine ⟨_, rfl, ⟨hq, ?_, fun _ => ?_, ?_, hm⟩, rfl, le_refl _, ?_, ?_⟩
    · show STR_QUICKBUFF_SIZE ≤ n + 1
      omega
    · show List.length _ = n + 1
      simp [newArray]; omega
    · show s.d_cpLength + 1 ≤ n + 1
      omega
    · show s.d_reserve ≤ n + 1
      omega
    · have hptr : ∀ b, ({ s with d_buffer := b, d_reserve := n + 1 } : EdoString).ptr = b := by
        intro b; unfold ptr; simp; intro h32; unfold STR_QUICKBUFF_SIZE at *; omega
      rw [hptr]
      simp only [List.take_zero, List.nil_append, List.drop_zero]
      rw [List.take_append_of_le_length (by simp; omega)]
      simp
  · rw [if_neg hgt]
    exact ⟨s, rfl, hwf, rfl, by omega, le_refl _, rfl⟩

/-! ## Block writes -/

theorem memmove_ok {buf : List Nat} {dOff sOff bytes n : Nat} (hn : bytes / SIZEOF_UTF32 = n)
    (hs : sOff + n ≤ buf.length) (hd : dOff + n ≤ buf.length) :
    memmove buf dOff sOff bytes
      = .ok (buf.take dOff ++ (buf.drop sOff).take n ++ buf.drop (dOff + n)) := by
  unfold memmove
  simp only [hn]
  rw [if_pos ⟨hs, hd⟩]

theorem memcpy_ok {dest src : List Nat} {dOff sOff bytes n : Nat}
    (hn : bytes / SIZEOF_UTF32 = n)
    (hs : sOff + n ≤ src.length) (hd : dOff + n ≤ dest.length) :
    memcpy dest dOff src sOff bytes
      = .ok (dest.take dOff ++ (src.drop sOff).take n ++ dest.drop (dOff + n)) := by
  unfold memcpy
  simp only [hn]
  rw [if_pos ⟨hs, hd⟩]

theorem take_set_drop (buf : List Nat) (i v : Nat) (h : i < buf.length) :
    buf.set i v = buf.take i ++ v :: buf.drop (i + 1) := by
  induction buf generalizing i with
  | nil => simp at h
  | cons a t ih =>
    cases i with
    | zero => simp
    | succ j =>
      simp only [List.set_cons_succ, List.take_succ_cons, List.drop_succ_cons, List.cons_append]
      rw [ih j (by simpa using h)]

theorem fillBackward_ok (w cp : Nat) :
    ∀ (n : Nat) (buf : List Nat) (off : Nat), off + n ≤ buf.length → off + n < 2 ^ w →
      fillBackward w buf (szSub w (off + n) 1) cp n
        = .ok (buf.take off ++ List.replicate n cp ++ buf.drop (off + n)) := by
  intro n
  induction n with
  | zero => intro buf off _ _; simp [fillBackward]
  | succ n ih =>
    intro buf off hlen hw
    have hpt : szSub w (off + (n + 1)) 1 = off + n := by
      rw [szSub_eq (by omega) hw]; omega
    unfold fillBackward
    rw [hpt]
    unfold store
    rw [if_pos (by omega)]
    show fillBackward w (buf.set (off + n) cp) (szSub w (off + n) 1) cp n = _
    rw [ih _ off (by simp; omega) (by omega)]
    rw [take_set_drop buf (off + n) cp (by omega)]
    have h1 : (buf.take (off + n) ++ cp :: buf.drop (off + n + 1)).take off = buf.take off := by
      rw [List.take_append_of_le_length (by simp; omega), List.take_take]
      congr 1; omega
    have h2 : (buf.take (off + n) ++ cp :: buf.drop (off + n + 1)).drop (off + n)
        = cp :: buf.drop (off + n + 1) := by
      rw [List.drop_append_of_le_length (by simp; omega)]
      rw [List.drop_eq_nil_of_le (by simp)]
      rfl
    rw [h1, h2, List.replicate_succ']
    simp [Nat.add_assoc]

theorem copyCharsBackward_ok (w : Nat) (chars : List Nat) (coff : Nat) :
    ∀ (n : Nat) (buf : List Nat) (off : Nat), off + n ≤ buf.length → off + n < 2 ^ w →
      coff + n ≤ chars.length → coff + n < 2 ^ w →
      copyCharsBackward w buf (szSub w (off + n) 1) chars coff n
        = .ok (buf.take off ++ ((chars.drop coff).take n).map charToUtf32
            ++ buf.drop (off + n)) := by
  intro n
  induction n with
  | zero => intro buf off _ _ _ _; simp [copyCharsBackward]
  | succ n ih =>
    intro buf off hlen hw hc hcw
    have hpt : szSub w (off + (n + 1)) 1 = off + n := by
      rw [szSub_eq (by omega) hw]; omega
    have hget : chars[coff + n]? = some (chars[coff + n]) := List.getElem?_eq_getElem (by omega)
    have hload : load chars (coff + n) = .ok chars[coff + n] := by
      unfold load; rw [hget]
    have hstore : store buf (off + n) (charToUtf32 chars[coff + n])
        = .ok (buf.set (off + n) (charToUtf32 chars[coff + n])) := by
      unfold store; rw [if_pos (by omega)]
    unfold copyCharsBackward
    rw [hpt, szAdd_eq (by omega), hload]
    show (store buf (off + n) (charToUtf32 chars[coff + n]) >>= fun buf1 =>
      copyCharsBackward w buf1 (szSub w (off + n) 1) chars coff n) = _
    rw [hstore]
    show copyCharsBackward w (buf.set (off + n) (charToUtf32 chars[coff + n]))
      (szSub w (off + n) 1) chars coff n = _
    rw [ih _ off (by simp; omega) (by omega) (by omega) (by omega)]
    rw [take_set_drop buf (off + n) _ (by omega)]
    have h1 : (buf.take (off + n) ++ charToUtf32 chars[coff + n] :: buf.drop (off + n + 1)).take off
        = buf.take off := by
      rw [List.take_append_of_le_length (by simp; omega), List.take_take]
      congr 1; omega
    have h2 : (buf.take (off + n) ++ charToUtf32 chars[coff + n] :: buf.drop (off + n + 1)).drop
        (off + n) = charToUtf32 chars[coff + n] :: buf.drop (off + n + 1) := by
      rw [List.drop_append_of_le_length (by simp; omega)]
      rw [List.drop_eq_nil_of_le (by simp)]
      rfl
    have h3 : (chars.drop coff).take (n + 1) = (chars.drop coff).take n ++ [chars[coff + n]] := by
      rw [List.take_succ, List.getElem?_drop, hget]
      rfl
    rw [h1, h2, h3]
    simp [Nat.add_assoc]

/-! ## Shift the tail, write the new code points, set the length -/

/-- The buffer after the tail `[idx + len, L)` moved to `idx + |x|` and `x` was
written at `idx`. -/
theorem shift_write (P x : List Nat) (idx len L : Nat) (hidx : idx + len ≤ L)
    (hP1 : L + 1 ≤ P.length) (hP2 : L - len + x.length + 1 ≤ P.length) (b1 : List Nat)
    (hb1 : b1 = P.take (idx + x.length) ++ (P.drop (len + idx)).take (L - idx - len)
        ++ P.drop (idx + x.length + (L - idx - len))) :
    (b1.take idx ++ x ++ b1.drop (idx + x.length)).length = P.length ∧
    (b1.take idx ++ x ++ b1.drop (idx + x.length)).take (L - len + x.length)
      = P.take idx ++ x ++ (P.drop (len + idx)).take (L - idx - len) := by
  have hl1 : b1.length = P.length := by
    rw [hb1]; simp; omega
  have ht : b1.take idx = P.take idx := by
    rw [hb1, List.append_assoc, List.take_append_of_le_length (by simp; omega), List.take_take]
    congr 1; omega
  have hd : b1.drop (idx + x.length) = (P.drop (len + idx)).take (L - idx - len)
      ++ P.drop (idx + x.length + (L - idx - len)) := by
    rw [hb1, List.append_assoc, List.drop_append_of_le_length (by simp; omega)]
    rw [List.drop_eq_nil_of_le (by simp)]
    rfl
  constructor
  · simp [hl1]; omega
  · rw [ht, hd, ← List.append_assoc]
    rw [List.take_append_of_le_length (by simp; omega)]
    rw [List.take_of_length_le (by simp; omega)]

/-- The function `SetLen` after the buffer in use was replaced by `b2`. -/
theorem finish {w : Nat} {s1 : EdoString} (h : wf w s1) (b2 : List Nat) (newSize : Nat)
    (hb : b2.length = s1.d_reserve) (hlen : newSize + 1 ≤ s1.d_reserve)
    (hmax : newSize < MaxSize w) :
    ∃ s2, SetLen (s1.setPtr b2) newSize = .ok s2 ∧ wf w s2 ∧ s2.d_cpLength = newSize ∧
      s2.d_reserve = s1.d_reserve ∧ s2.codePoints = b2.take newSize ∧
      s2.ptr[s2.d_cpLength]? = some 0 := by
  have hwf := wf_setPtr h hb
  obtain ⟨s2, hs2, hw2, hl2, hr2, hp2⟩ :=
    SetLen_ok hwf (by rw [d_reserve_setPtr]; exact hlen) hmax
  refine ⟨s2, hs2, hw2, hl2, by rw [hr2, d_reserve_setPtr], ?_, ?_⟩
  · unfold codePoints
    rw [hp2, hl2, ptr_setPtr, take_set_drop b2 newSize 0 (by omega)]
    rw [List.take_append_of_le_length (by simp; omega), List.take_take]
    simp
  · rw [hp2, hl2, ptr_setPtr]
    simp [List.getElem?_set]
    omega

/-- The common shape of `Insert` and `Replace`: after `Grow`, a continuation
that writes a buffer `b2` as in `shift_write` and sets the length. -/
theorem splice_core {w : Nat} {s : EdoString} (h : wf w s) (idx len : Nat) (x : List Nat)
    (hidx : idx + len ≤ s.d_cpLength) (hmax : s.d_cpLength - len + x.length < MaxSize w)
    (k : EdoString → Except Fault EdoString)
    (hk : ∀ s1, wf w s1 → s1.d_cpLength = s.d_cpLength →
      s.d_cpLength - len + x.length + 1 ≤ s1.d_reserve →
      ∃ b1, b1 = s1.ptr.take (idx + x.length)
          ++ (s1.ptr.drop (len + idx)).take (s.d_cpLength - idx - len)
          ++ s1.ptr.drop (idx + x.length + (s.d_cpLength - idx - len)) ∧
        k s1 = SetLen (s1.setPtr (b1.take idx ++ x ++ b1.drop (idx + x.length)))
          (s.d_cpLength - len + x.length)) :
    ∃ s2, (Grow w s (s.d_cpLength - len + x.length) >>= k) = .ok s2 ∧ wf w s2 ∧
      s2.d_cpLength = s.d_cpLength - len + x.length ∧ s.d_reserve ≤ s2.d_reserve ∧
      s2.codePoints = s.codePoints.take idx ++ x ++ s.codePoints.drop (idx + len) ∧
      s2.ptr[s2.d_cpLength]? = some 0 := by
  obtain ⟨s1, hG, hw1, hl1, hr1, hmono, hkeep⟩ := Grow_ok h hmax
  obtain ⟨b1, hb1, hks⟩ := hk s1 hw1 hl1 hr1
  have hp1 := ptr_length hw1
  have hp := ptr_length h
  have hres : s.d_cpLength + 1 ≤ s1.d_reserve := by
    have := h.2.2.2.1; omega
  obtain ⟨hlen2, htake⟩ := shift_write s1.ptr x idx len s.d_cpLength hidx (by omega) (by omega) b1 hb1
  obtain ⟨s2, hs2, hw2, hl2, hr2, hc2, hz2⟩ :=
    finish hw1 _ _ (hlen2.trans hp1) hr1 hmax
  refine ⟨s2, ?_, hw2, hl2, by omega, ?_, hz2⟩
  · rw [hG]
    show k s1 = _
    rw [hks, hs2]
  · rw [hc2, htake]
    have hk2 : s1.ptr.take s.d_cpLength = s.ptr.take s.d_cpLength := by
      have := congrArg (List.take s.d_cpLength) hkeep
      simpa [List.take_take] using this
    unfold codePoints
    have e1 : s1.ptr.take idx = (s.ptr.take s.d_cpLength).take idx := by
      rw [← hk2, List.take_take]; congr 1; omega
    have e2 : (s1.ptr.drop (len + idx)).take (s.d_cpLength - idx - len)
        = (s.ptr.take s.d_cpLength).drop (idx + len) := by
      rw [← hk2, List.drop_take]
      congr 1
      · omega
      · congr 1; omega
    rw [e1, e2]

/-- The case `len = 0` of `splice_core`. -/
theorem insert_core {w : Nat} {s : EdoString} (h : wf w s) {idx : Nat} (x : List Nat)
    (hidx : idx ≤ s.d_cpLength) (hmax : s.d_cpLength + x.length < MaxSize w)
    (k : EdoString → Except Fault EdoString)
    (hk : ∀ s1, wf w s1 → s1.d_cpLength = s.d_cpLength →
      s.d_cpLength + x.length + 1 ≤ s1.d_reserve →
      ∃ b1, b1 = s1.ptr.take (idx + x.length)
          ++ (s1.ptr.drop idx).take (s.d_cpLength - idx)
          ++ s1.ptr.drop (idx + x.length + (s.d_cpLength - idx)) ∧
        k s1 = SetLen (s1.setPtr (b1.take idx ++ x ++ b1.drop (idx + x.length)))
          (s.d_cpLength + x.length)) :
    ∃ s2, (Grow w s (s.d_cpLength + x.length) >>= k) = .ok s2 ∧ wf w s2 ∧
      s2.d_cpLength = s.d_cpLength + x.length ∧ s.d_reserve ≤ s2.d_reserve ∧
      s2.codePoints = s.codePoints.take idx ++ x ++ s.codePoints.drop idx ∧
      s2.ptr[s2.d_cpLength]? = some 0 := by
  have := splice_core h idx 0 x (by omega) (by simpa using hmax) k
    (by simpa using hk)
  simpa using this

/-- The clamp `if (str_num == npos || str_num > size - str_idx) str_num = size - str_idx;`
computes the number of elements of the sub-range. -/
theorem clamp_eq {w size str_idx str_num : Nat} (hi : str_idx ≤ size) (hs : size < 2 ^ w) :
    (if str_num = npos w ∨ str_num > szSub w size str_idx then szSub w size str_idx
      else str_num) = min str_num (size - str_idx) := by
  rw [szSub_eq hi hs]
  unfold npos
  split <;> omega

theorem wf_lt_pow {w : Nat} {s : EdoString} (h : wf w s) : s.d_cpLength < 2 ^ w := by
  have := MaxSize_bound h.2.2.2.2
  omega

/-- The code points that a sub-range `[str_idx, str_idx + str_num)` of a string
denotes are the `min str_num (Length - str_idx)` slots read from its buffer. -/
theorem subrange_eq (str : EdoString) (str_idx str_num : Nat) :
    (str.ptr.drop str_idx).take (min str_num (str.d_cpLength - str_idx))
      = (str.codePoints.drop str_idx).take str_num := by
  unfold codePoints
  rw [List.drop_take, List.take_take]

/-- The call `Insert` of a sub-range of another string. -/
theorem Insert_str_ok {w : Nat} {s str : EdoString} (h : wf w s) (hstr : wf w str)
    {idx str_idx str_num : Nat} (hidx : idx ≤ s.d_cpLength) (hsi : str_idx ≤ str.d_cpLength)
    (hmax : s.d_cpLength + ((str.codePoints.drop str_idx).take str_num).length < MaxSize w) :
    ∃ s2, Insert_str w s idx str str_idx str_num = .ok s2 ∧ wf w s2 ∧
      s2.d_cpLength = s.d_cpLength + ((str.codePoints.drop str_idx).take str_num).length ∧
      s.d_reserve ≤ s2.d_reserve ∧
      s2.codePoints = s.codePoints.take idx ++ (str.codePoints.drop str_idx).take str_num
        ++ s.codePoints.drop idx ∧
      s2.ptr[s2.d_cpLength]? = some 0 := by
  have hsub := subrange_eq str str_idx str_num
  generalize hx : (str.codePoints.drop str_idx).take str_num = x at *
  have hxl : min str_num (str.d_cpLength - str_idx) = x.length := by
    rw [← hsub]
    have := ptr_length hstr
    have := hstr.2.2.2.1
    simp; omega
  have hb := MaxSize_bound hmax
  unfold Insert_str
  rw [if_neg (by omega)]
  simp only [clamp_eq hsi (wf_lt_pow hstr), hxl, szAdd_eq (show s.d_cpLength + x.length < 2 ^ w by omega)]
  refine insert_core h x hidx hmax _ ?_
  intro s1 hw1 hl1 hr1
  have hp1 := ptr_length hw1
  refine ⟨_, rfl, ?_⟩
  rw [szAdd_eq (by omega), hl1, szSub_eq hidx (by omega)]
  rw [memmove_ok (n := s.d_cpLength - idx) (bytes_eq (by omega)) (by omega) (by omega)]
  show memcpy _ idx str.ptr str_idx _ >>= _ = _
  have hps := ptr_length hstr
  have hrs := hstr.2.2.2.1
  rw [memcpy_ok (n := x.length) (bytes_eq (by omega)) (by omega) (by simp; omega)]
  rw [← hxl, hsub]
  rfl

theorem take_min_length (l : List Nat) (n : Nat) : l.take (min n l.length) = l.take n := by
  rcases Nat.le_total n l.length with hle | hle
  · rw [Nat.min_eq_left hle]
  · rw [Nat.min_eq_right hle, List.take_of_length_le (le_refl _), List.take_of_length_le hle]

/-- The call `Insert` of a sub-range of a `std::string`. -/
theorem Insert_std_ok {w : Nat} {s : EdoString} (h : wf w s) {std_str : List Nat}
    {idx str_idx str_num : Nat} (hidx : idx ≤ s.d_cpLength) (hsi : str_idx ≤ std_str.length)
    (hsz : std_str.length < 2 ^ w)
    (hmax : s.d_cpLength + ((std_str.drop str_idx).take str_num).length < MaxSize w) :
    ∃ s2, Insert_std w s idx std_str str_idx str_num = .ok s2 ∧ wf w s2 ∧
      s2.d_cpLength = s.d_cpLength + ((std_str.drop str_idx).take str_num).length ∧
      s.d_reserve ≤ s2.d_reserve ∧
      s2.codePoints = s.codePoints.take idx
        ++ ((std_str.drop str_idx).take str_num).map charToUtf32 ++ s.codePoints.drop idx ∧
      s2.ptr[s2.d_cpLength]? = some 0 := by
  have hsub : (std_str.drop str_idx).take (min str_num (std_str.length - str_idx))
      = (std_str.drop str_idx).take str_num := by
    have := take_min_length (std_str.drop str_idx) str_num
    rw [List.length_drop] at this
    exact this
  generalize hx : (std_str.drop str_idx).take str_num = y at *
  have hxl : min str_num (std_str.length - str_idx) = y.length := by
    rw [← hsub]; simp
  have hb := MaxSize_bound hmax
  have hyl : (y.map charToUtf32).length = y.length := by simp
  rw [← hyl] at hmax
  have key := insert_core h (y.map charToUtf32) hidx hmax
  rw [hyl] at key hmax
  unfold Insert_std
  rw [if_neg (by omega), if_neg (by omega)]
  simp only [clamp_eq hsi hsz, hxl, szAdd_eq (show s.d_cpLength + y.length < 2 ^ w by omega)]
  refine key _ ?_
  intro s1 hw1 hl1 hr1
  have hp1 := ptr_length hw1
  refine ⟨_, rfl, ?_⟩
  rw [szAdd_eq (by omega), hl1, szSub_eq hidx (by omega)]
  rw [memmove_ok (n := s.d_cpLength - idx) (bytes_eq (by omega)) (by omega) (by omega)]
  show copyCharsBackward w _ _ std_str str_idx _ >>= _ = _
  have hle : str_idx + y.length ≤ std_str.length := by omega
  rw [copyCharsBackward_ok w std_str str_idx y.length _ idx (by simp; omega) (by omega)
    hle (by omega)]
  rw [← hxl, hsub]
  rfl

/-- The call `Insert` of `num` copies of a code point. -/
theorem Insert_rep_ok {w : Nat} {s : EdoString} (h : wf w s) {idx num : Nat} (code_point : Nat)
    (hidx : idx ≤ s.d_cpLength) (hmax : s.d_cpLength + num < MaxSize w) :
    ∃ s2, Insert_rep w s idx num code_point = .ok s2 ∧ wf w s2 ∧
      s2.d_cpLength = s.d_cpLength + num ∧ s.d_reserve ≤ s2.d_reserve ∧
      s2.codePoints = s.codePoints.take idx ++ List.replicate num code_point
        ++ s.codePoints.drop idx ∧
      s2.ptr[s2.d_cpLength]? = some 0 := by
  have hb := MaxSize_bound hmax
  have hyl : (List.replicate num code_point).length = num := by simp
  rw [← hyl] at hmax
  have key := insert_core h (List.replicate num code_point) hidx hmax
  rw [hyl] at key hmax
  unfold Insert_rep
  rw [if_neg (by omega), if_neg (by unfold npos; omega)]
  simp only [szAdd_eq (show s.d_cpLength + num < 2 ^ w by omega)]
  refine key _ ?_
  intro s1 hw1 hl1 hr1
  have hp1 := ptr_length hw1
  refine ⟨_, rfl, ?_⟩
  rw [szAdd_eq (by omega), hl1, szSub_eq hidx (by omega)]
  rw [memmove_ok (n := s.d_cpLength - idx) (bytes_eq (by omega)) (by omega) (by omega)]
  show fillBackward w _ _ code_point num >>= _ = _
  rw [fillBackward_ok w code_point num _ idx (by simp; omega) (by omega)]
  rfl

/-- The call `Insert` of the first `chars_len` chars of an array. -/
theorem Insert_chars_ok {w : Nat} {s : EdoString} (h : wf w s) {chars : List Nat}
    {idx chars_len : Nat} (hidx : idx ≤ s.d_cpLength) (hcl : chars_len ≤ chars.length)
    (hmax : s.d_cpLength + chars_len < MaxSize w) :
    ∃ s2, Insert_chars w s idx chars chars_len = .ok s2 ∧ wf w s2 ∧
      s2.d_cpLength = s.d_cpLength + chars_len ∧ s.d_reserve ≤ s2.d_reserve ∧
      s2.codePoints = s.codePoints.take idx ++ (chars.take chars_len).map charToUtf32
        ++ s.codePoints.drop idx ∧
      s2.ptr[s2.d_cpLength]? = some 0 := by
  have hb := MaxSize_bound hmax
  have hyl : ((chars.take chars_len).map charToUtf32).length = chars_len := by simp; omega
  rw [← hyl] at hmax
  have key := insert_core h ((chars.take chars_len).map charToUtf32) hidx hmax
  rw [hyl] at key hmax
  unfold Insert_chars
  rw [if_neg (by omega), if_neg (by unfold npos; omega)]
  simp only [szAdd_eq (show s.d_cpLength + chars_len < 2 ^ w by omega)]
  refine key _ ?_
  intro s1 hw1 hl1 hr1
  have hp1 := ptr_length hw1
  refine ⟨_, rfl, ?_⟩
  rw [szAdd_eq (by omega), hl1, szSub_eq hidx (by omega)]
  rw [memmove_ok (n := s.d_cpLength - idx) (bytes_eq (by omega)) (by omega) (by omega)]
  show copyCharsBackward w _ _ chars 0 chars_len >>= _ = _
  rw [copyCharsBackward_ok w chars 0 chars_len _ idx (by simp; omega) (by omega)
    (by omega) (by omega)]
  rw [List.drop_zero]
  rfl

/-! ## Erase -/

theorem utf32Diff_self (a : Nat) : utf32Diff a a = 0 := by
  unfold utf32Diff
  have h : (a + (2 ^ 32 - a % 2 ^ 32)) % 2 ^ 32 = 0 := by omega
  simp only [h]
  simp

theorem load_ok {buf : List Nat} {i : Nat} (h : i < buf.length) : load buf i = .ok buf[i] := by
  unfold load
  rw [List.getElem?_eq_getElem h]

theorem take_succ_drop {buf : List Nat} {p : Nat} (n : Nat) (h : p < buf.length) :
    (buf.drop p).take (n + 1) = buf[p] :: (buf.drop (p + 1)).take n := by
  rw [List.drop_eq_getElem_cons h, List.take_succ_cons]

/-- The loop of `Utf32CompUtf32` on readable ranges. -/
theorem Utf32CompUtf32_loop_eq (buf1 buf2 : List Nat) :
    ∀ (n p1 p2 : Nat), p1 + n < buf1.length → p2 + n < buf2.length →
      Utf32CompUtf32_loop buf1 p1 buf2 p2 n
        = .ok (firstDiff ((buf1.drop p1).take (n + 1)) ((buf2.drop p2).take (n + 1))) := by
  intro n
  induction n with
  | zero =>
    intro p1 p2 h1 h2
    unfold Utf32CompUtf32_loop
    rw [load_ok (by omega), load_ok (by omega), take_succ_drop 0 (by omega),
      take_succ_drop 0 (by omega)]
    simp only [List.take_zero, firstDiff]
    by_cases hab : buf1[p1] = buf2[p2]
    · rw [if_pos hab, hab]
      show Except.ok (utf32Diff buf2[p2] buf2[p2]) = _
      rw [utf32Diff_self]
    · rw [if_neg hab]; rfl
  | succ n ih =>
    intro p1 p2 h1 h2
    unfold Utf32CompUtf32_loop
    rw [load_ok (by omega), load_ok (by omega), take_succ_drop (n + 1) (by omega),
      take_succ_drop (n + 1) (by omega)]
    simp only [firstDiff]
    by_cases hab : buf1[p1] = buf2[p2]
    · rw [if_pos hab]
      show (if buf1[p1] = buf2[p2] then Utf32CompUtf32_loop buf1 (p1 + 1) buf2 (p2 + 1) n
        else pure (utf32Diff buf1[p1] buf2[p2])) = _
      rw [if_pos hab, ih (p1 + 1) (p2 + 1) (by omega) (by omega)]
    · rw [if_neg hab]
      show (if buf1[p1] = buf2[p2] then Utf32CompUtf32_loop buf1 (p1 + 1) buf2 (p2 + 1) n
        else pure (utf32Diff buf1[p1] buf2[p2])) = _
      rw [if_neg hab]; rfl

theorem codePoints_length {w : Nat} {s : EdoString} (h : wf w s) :
    s.codePoints.length = s.d_cpLength := by
  have := ptr_length h
  have := h.2.2.2.1
  unfold codePoints; simp; omega

/-- The slots read from the buffer for a range inside the string are the
code points of the range. -/
theorem range_eq (s : EdoString) {idx l m : Nat} (hl : idx + l ≤ s.d_cpLength) (hm : m ≤ l) :
    ((s.codePoints.drop idx).take l).take m = (s.ptr.drop idx).take m := by
  unfold codePoints
  rw [List.take_take, List.drop_take, List.take_take]
  congr 1
  omega

/-- The call `Compare(idx, len, str, str_idx, str_len)` with valid start indices returns
normally, with the value `compareLists` of the two clamped ranges; `l1`, `l2`
are the values of the two clamps. -/
theorem Compare_str_eq {w : Nat} {a b : EdoString} (ha : wf w a) (hb : wf w b)
    {idx len sidx slen l1 l2 : Nat} (hidx : idx ≤ a.d_cpLength) (hsidx : sidx ≤ b.d_cpLength)
    (h1 : (if len = npos w ∨ szAdd w idx len > a.d_cpLength
      then szSub w a.d_cpLength idx else len) = l1)
    (h2 : (if slen = npos w ∨ szAdd w sidx slen > b.d_cpLength
      then szSub w b.d_cpLength sidx else slen) = l2)
    (hl1 : idx + l1 ≤ a.d_cpLength) (hl2 : sidx + l2 ≤ b.d_cpLength) :
    Compare_str w a idx len b sidx slen
      = .ok (compareLists ((a.codePoints.drop idx).take l1)
          ((b.codePoints.drop sidx).take l2)) := by
  have hpa := ptr_length ha
  have hpb := ptr_length hb
  have hra := ha.2.2.2.1
  have hrb := hb.2.2.2.1
  have hla := codePoints_length ha
  have hlb := codePoints_length hb
  have hA : ((a.codePoints.drop idx).take l1).length = l1 := by simp; omega
  have hB : ((b.codePoints.drop sidx).take l2).length = l2 := by simp; omega
  unfold Compare_str
  rw [if_neg (by omega)]
  simp only [h1, h2]
  unfold compareLists
  rw [hA, hB, range_eq a hl1 (Nat.min_le_left _ _), range_eq b hl2 (Nat.min_le_right _ _)]
  have hmin : (if l1 < l2 then l1 else l2) = min l1 l2 := by
    split <;> omega
  rw [hmin]
  by_cases h0 : l1 = 0
  · rw [if_pos h0]
    have hm0 : min l1 l2 = 0 := by omega
    rw [hm0]
    simp only [List.take_zero, firstDiff]
    rfl
  · rw [if_neg h0]
    unfold Utf32CompUtf32
    by_cases hm0 : min l1 l2 = 0
    · rw [if_pos hm0, hm0]
      simp only [List.take_zero, firstDiff]
      rfl
    · rw [if_neg hm0, Utf32CompUtf32_loop_eq _ _ _ idx sidx (by omega) (by omega)]
      have hs : min l1 l2 - 1 + 1 = min l1 l2 := by omega
      rw [hs]
      rfl

/-- The call `Compare(str)` returns normally, with the value `compareLists` of the code
points. -/
theorem Compare_eq {w : Nat} {a b : EdoString} (ha : wf w a) (hb : wf w b) :
    Compare w a b = .ok (compareLists a.codePoints b.codePoints) := by
  have hba := MaxSize_bound ha.2.2.2.2
  have hbb := MaxSize_bound hb.2.2.2.2
  have hla := codePoints_length ha
  have hlb := codePoints_length hb
  have e1 : (if a.d_cpLength = npos w ∨ szAdd w 0 a.d_cpLength > a.d_cpLength
      then szSub w a.d_cpLength 0 else a.d_cpLength) = a.d_cpLength := by
    rw [szAdd_eq (by omega), if_neg]
    unfold npos; omega
  have e2 : (if npos w = npos w ∨ szAdd w 0 (npos w) > b.d_cpLength
      then szSub w b.d_cpLength 0 else npos w) = b.d_cpLength := by
    rw [if_pos (Or.inl rfl), szSub_eq (by omega) (by omega)]; rfl
  have := Compare_str_eq ha hb (Nat.zero_le _) (Nat.zero_le _) e1 e2 (by omega) (by omega)
  unfold Compare
  rw [this, List.drop_zero, List.drop_zero, List.take_of_length_le (by omega),
    List.take_of_length_le (by omega)]

/-! ## The comparison on lists -/

theorem utf32Diff_ne_zero {a b : Nat} (ha : a < 2 ^ 32) (hb : b < 2 ^ 32) (hne : a ≠ b) :
    utf32Diff a b ≠ 0 := by
  unfold utf32Diff
  simp only []
  split <;> omega

theorem utf32Diff_neg_iff {a b : Nat}
    (h1 : a < b + 2 ^ 31) (h2 : b < a + 2 ^ 31) : utf32Diff a b < 0 ↔ a < b := by
  unfold utf32Diff
  simp only []
  split <;> omega

theorem utf32Diff_antisymm {a b : Nat} (ha : a < 2 ^ 32) (hb : b < 2 ^ 32) (hne : a ≠ b)
    (h1 : a ≠ b + 2 ^ 31) (h2 : b ≠ a + 2 ^ 31) : utf32Diff a b < 0 ↔ ¬ utf32Diff b a < 0 := by
  unfold utf32Diff
  simp only []
  split <;> split <;> omega

theorem compareLists_nil_nil : compareLists [] [] = 0 := by
  simp [compareLists, firstDiff, triState]

theorem compareLists_nil_cons (b : Nat) (B : List Nat) : compareLists [] (b :: B) = -1 := by
  simp [compareLists, firstDiff, triState]

theorem compareLists_cons_nil (a : Nat) (A : List Nat) : compareLists (a :: A) [] = 1 := by
  simp [compareLists, firstDiff, triState]

theorem triState_succ (v : Int) (n m : Nat) : triState v (n + 1) (m + 1) = triState v n m := by
  unfold triState
  simp only [Nat.add_lt_add_iff_right, Nat.add_right_cancel_iff]

theorem compareLists_cons_cons (a b : Nat) (A B : List Nat) :
    compareLists (a :: A) (b :: B)
      = if a = b then compareLists A B else triState (utf32Diff a b) A.length B.length := by
  unfold compareLists
  simp only [List.length_cons, Nat.succ_min_succ, List.take_succ_cons, firstDiff, triState_succ]
  split <;> rfl

theorem compareLists_cons_ne {a b : Nat} (A B : List Nat) (ha : a < 2 ^ 32) (hb : b < 2 ^ 32)
    (hne : a ≠ b) :
    compareLists (a :: A) (b :: B) = if utf32Diff a b < 0 then -1 else 1 := by
  rw [compareLists_cons_cons, if_neg hne]
  unfold triState
  rw [if_pos (utf32Diff_ne_zero ha hb hne)]

theorem cons_lt_cons_iff_nat (a b : Nat) (A B : List Nat) :
    a :: A < b :: B ↔ a < b ∨ (a = b ∧ A < B) := by
  constructor
  · intro h
    cases h with
    | rel h => exact Or.inl h
    | cons h3 => exact Or.inr ⟨rfl, h3⟩
  · rintro (h | ⟨h, h'⟩)
    · exact List.Lex.rel h
    · subst h; exact List.Lex.cons h'

/-- The value `compareLists` is 0 exactly on equal lists of `utf32` values. -/
theorem compareLists_eq_zero_iff :
    ∀ (A B : List Nat), utf32List A → utf32List B → (compareLists A B = 0 ↔ A = B) := by
  intro A
  induction A with
  | nil =>
    intro B _ _
    cases B with
    | nil => simp [compareLists_nil_nil]
    | cons b B => simp [compareLists_nil_cons]
  | cons a A ih =>
    intro B hA hB
    cases B with
    | nil => simp [compareLists_cons_nil]
    | cons b B =>
      have ha : a < 2 ^ 32 := hA a (List.mem_cons_self _ _)
      have hb : b < 2 ^ 32 := hB b (List.mem_cons_self _ _)
      have hA' : utf32List A := fun c hc => hA c (List.mem_cons_of_mem _ hc)
      have hB' : utf32List B := fun c hc => hB c (List.mem_cons_of_mem _ hc)
      by_cases hab : a = b
      · rw [compareLists_cons_cons, if_pos hab, ih B hA' hB', hab]
        simp
      · rw [compareLists_cons_ne A B ha hb hab]
        constructor
        · intro h; split at h <;> omega
        · intro h; exact absurd (List.cons.inj h).1 hab

/-- On lists of `utf32` values whose entries at each common position differ by
less than `2 ^ 31`, `compareLists` is the sign of the lexicographic order. -/
theorem compareLists_eq_lex :
    ∀ (A B : List Nat), utf32List A → utf32List B → zipWithin A B →
      compareLists A B = if A < B then -1 else if A = B then 0 else 1 := by
  intro A
  induction A with
  | nil =>
    intro B _ _ _
    cases B with
    | nil => rw [compareLists_nil_nil]; simp
    | cons b B => rw [compareLists_nil_cons, if_pos (List.nil_lt_cons b B)]
  | cons a A ih =>
    intro B hA hB hz
    cases B with
    | nil =>
      rw [compareLists_cons_nil, if_neg (by intro h; cases h), if_neg (by simp)]
    | cons b B =>
      have ha : a < 2 ^ 32 := hA a (List.mem_cons_self _ _)
      have hb : b < 2 ^ 32 := hB b (List.mem_cons_self _ _)
      have hA' : utf32List A := fun c hc => hA c (List.mem_cons_of_mem _ hc)
      have hB' : utf32List B := fun c hc => hB c (List.mem_cons_of_mem _ hc)
      have hz0 := hz (a, b) (by simp)
      have hz' : zipWithin A B := fun p hp => hz p (by simp [hp])
      by_cases hab : a = b
      · rw [compareLists_cons_cons, if_pos hab, ih B hA' hB' hz']
        subst hab
        simp only [cons_lt_cons_iff_nat, lt_irrefl, false_or, true_and, List.cons.injEq]
      · rw [compareLists_cons_ne A B ha hb hab]
        have hn := utf32Diff_neg_iff hz0.1 hz0.2
        by_cases hlt : a < b
        · rw [if_pos (hn.mpr hlt), if_pos ((cons_lt_cons_iff_nat a b A B).mpr (Or.inl hlt))]
        · rw [if_neg (fun h => hlt (hn.mp h)), if_neg, if_neg]
          · intro h; exact hab (List.cons.inj h).1
          · intro h
            rcases (cons_lt_cons_iff_nat a b A B).mp h with h | ⟨h, -⟩
            · exact hlt h
            · exact hab h

/-- On lists of `utf32` values whose entries at each common position do not
differ by exactly `2 ^ 31`, exchanging the arguments negates `compareLists`. -/
theorem compareLists_antisymm :
    ∀ (A B : List Nat), utf32List A → utf32List B → zipNoHalf A B →
      compareLists B A = - compareLists A B := by
  intro A
  induction A with
  | nil =>
    intro B _ _ _
    cases B with
    | nil => rw [compareLists_nil_nil]; rfl
    | cons b B => rw [compareLists_nil_cons, compareLists_cons_nil]; rfl
  | cons a A ih =>
    intro B hA hB hz
    cases B with
    | nil => rw [compareLists_nil_cons, compareLists_cons_nil]
    | cons b B =>
      have ha : a < 2 ^ 32 := hA a (List.mem_cons_self _ _)
      have hb : b < 2 ^ 32 := hB b (List.mem_cons_self _ _)
      have hA' : utf32List A := fun c hc => hA c (List.mem_cons_of_mem _ hc)
      have hB' : utf32List B := fun c hc => hB c (List.mem_cons_of_mem _ hc)
      have hz0 := hz (a, b) (by simp)
      have hz' : zipNoHalf A B := fun p hp => hz p (by simp [hp])
      by_cases hab : a = b
      · rw [compareLists_cons_cons, compareLists_cons_cons, if_pos hab, if_pos hab.symm,
          ih B hA' hB' hz']
      · rw [compareLists_cons_ne A B ha hb hab,
          compareLists_cons_ne B A hb ha (fun h => hab h.symm)]
        have hn := utf32Diff_antisymm ha hb hab hz0.1 hz0.2
        by_cases hlt : utf32Diff a b < 0
        · rw [if_pos hlt, if_neg (hn.mp hlt)]; rfl
        · rw [if_neg hlt, if_pos (by by_contra h; exact hlt (hn.mpr h))]

/-! ## Compare with chars -/

/-- The loop of `Utf32CompChar` on readable ranges. -/
theorem Utf32CompChar_loop_eq (buf1 buf2 : List Nat) :
    ∀ (n p1 p2 : Nat), p1 + n < buf1.length → p2 + n < buf2.length →
      Utf32CompChar_loop buf1 p1 buf2 p2 n
        = .ok (firstDiff ((buf1.drop p1).take (n + 1))
            (((buf2.drop p2).take (n + 1)).map charToUtf32)) := by
  intro n
  induction n with
  | zero =>
    intro p1 p2 h1 h2
    unfold Utf32CompChar_loop
    rw [load_ok (by omega), load_ok (by omega), take_succ_drop 0 (by omega),
      take_succ_drop 0 (by omega)]
    simp only [List.take_zero, List.map_cons, List.map_nil, firstDiff]
    by_cases hab : buf1[p1] = charToUtf32 buf2[p2]
    · rw [if_pos hab]
      show Except.ok (utf32Diff buf1[p1] (charToUtf32 buf2[p2])) = _
      rw [← hab, utf32Diff_self]
    · rw [if_neg hab]; rfl
  | succ n ih =>
    intro p1 p2 h1 h2
    unfold Utf32CompChar_loop
    rw [load_ok (by omega), load_ok (by omega), take_succ_drop (n + 1) (by omega),
      take_succ_drop (n + 1) (by omega)]
    simp only [List.map_cons, firstDiff]
    by_cases hab : buf1[p1] = charToUtf32 buf2[p2]
    · rw [if_pos hab]
      show (if buf1[p1] = charToUtf32 buf2[p2]
        then Utf32CompChar_loop buf1 (p1 + 1) buf2 (p2 + 1) n
        else pure (utf32Diff buf1[p1] (charToUtf32 buf2[p2]))) = _
      rw [if_pos hab, ih (p1 + 1) (p2 + 1) (by omega) (by omega)]
    · rw [if_neg hab]
      show (if buf1[p1] = charToUtf32 buf2[p2]
        then Utf32CompChar_loop buf1 (p1 + 1) buf2 (p2 + 1) n
        else pure (utf32Diff buf1[p1] (charToUtf32 buf2[p2]))) = _
      rw [if_neg hab]; rfl

/-- The function `Utf32CompChar` on readable ranges of `m` slots. -/
theorem Utf32CompChar_eq (buf1 buf2 : List Nat) {p1 p2 m : Nat} (h1 : p1 + m ≤ buf1.length)
    (h2 : p2 + m ≤ buf2.length) :
    Utf32CompChar buf1 p1 buf2 p2 m
      = .ok (firstDiff ((buf1.drop p1).take m) (((buf2.drop p2).take m).map charToUtf32)) := by
  unfold Utf32CompChar
  by_cases hm0 : m = 0
  · rw [if_pos hm0, hm0]
    simp only [List.take_zero, firstDiff]
    rfl
  · rw [if_neg hm0, Utf32CompChar_loop_eq _ _ _ p1 p2 (by omega) (by omega)]
    have hs : m - 1 + 1 = m := by omega
    rw [hs]

/-- The value of a `Compare` against `l2` chars that start at `sidx` in the
readable buffer `cbuf`, for the clamped range `[idx, idx + l1)` of the string. -/
theorem compare_chars_core {w : Nat} {a : EdoString} (ha : wf w a) (cbuf : List Nat)
    (idx l1 sidx l2 : Nat) (hl1 : idx + l1 ≤ a.d_cpLength) (hl2 : sidx + l2 ≤ cbuf.length) :
    (if l1 = 0 then (pure (triState 0 l1 l2) : Except Fault Int)
      else Utf32CompChar a.ptr idx cbuf sidx (if l1 < l2 then l1 else l2) >>= fun val =>
        pure (triState val l1 l2))
      = .ok (compareLists ((a.codePoints.drop idx).take l1)
          (((cbuf.drop sidx).take l2).map charToUtf32)) := by
  have hpa := ptr_length ha
  have hra := ha.2.2.2.1
  have hla := codePoints_length ha
  have hmin : (if l1 < l2 then l1 else l2) = min l1 l2 := by
    split <;> omega
  have hA : ((a.codePoints.drop idx).take l1).length = l1 := by simp; omega
  have hB : (((cbuf.drop sidx).take l2).map charToUtf32).length = l2 := by simp; omega
  have hc : (((cbuf.drop sidx).take l2).map charToUtf32).take (min l1 l2)
      = ((cbuf.drop sidx).take (min l1 l2)).map charToUtf32 := by
    rw [← List.map_take, List.take_take]
    congr 2
    omega
  unfold compareLists
  rw [hA, hB, hmin, range_eq a hl1 (Nat.min_le_left _ _), hc]
  by_cases h0 : l1 = 0
  · rw [if_pos h0]
    have hm0 : min l1 l2 = 0 := by omega
    rw [hm0]
    simp only [List.take_zero, List.map_nil, firstDiff]
    rfl
  · rw [if_neg h0, Utf32CompChar_eq _ _ (by omega) (by omega)]
    rfl

/-- The call `Compare(idx, len, std_str, str_idx, str_len)` with valid start indices
returns normally, with the value `compareLists` of the two clamped ranges;
`l1`, `l2` are the values of the two clamps. -/
theorem Compare_std5_eq {w : Nat} {a : EdoString} (ha : wf w a) {std_str : List Nat}
    {idx len sidx slen l1 l2 : Nat} (hidx : idx ≤ a.d_cpLength) (hsidx : sidx ≤ std_str.length)
    (h1 : (if len = npos w ∨ szAdd w idx len > a.d_cpLength
      then szSub w a.d_cpLength idx else len) = l1)
    (h2 : (if slen = npos w ∨ szAdd w sidx slen > std_str.length
      then szSub w std_str.length sidx else slen) = l2)
    (hl1 : idx + l1 ≤ a.d_cpLength) (hl2 : sidx + l2 ≤ std_str.length) :
    Compare_std5 w a idx len std_str sidx slen
      = .ok (compareLists ((a.codePoints.drop idx).take l1)
          (((std_str.drop sidx).take l2).map charToUtf32)) := by
  have key := compare_chars_core ha (std_str ++ [0]) idx l1 sidx l2 hl1 (by simp; omega)
  have hd : ((std_str ++ [0]).drop sidx).take l2 = (std_str.drop sidx).take l2 := by
    rw [List.drop_append_of_le_length hsidx, List.take_append_of_le_length (by simp; omega)]
  rw [hd] at key
  rw [← key]
  unfold Compare_std5
  rw [if_neg (by omega), if_neg (by omega)]
  simp only [h1, h2]
  split <;> rfl

/-- The call `Compare(std_str)` returns normally, with the value `compareLists` of the
code points and the converted chars. -/
theorem Compare_std_eq {w : Nat} {a : EdoString} (ha : wf w a) {std_str : List Nat}
    (hsz : std_str.length < 2 ^ w) :
    Compare_std w a std_str
      = .ok (compareLists a.codePoints (std_str.map charToUtf32)) := by
  have hba := MaxSize_bound ha.2.2.2.2
  have hla := codePoints_length ha
  have e1 : (if a.d_cpLength = npos w ∨ szAdd w 0 a.d_cpLength > a.d_cpLength
      then szSub w a.d_cpLength 0 else a.d_cpLength) = a.d_cpLength := by
    rw [szAdd_eq (by omega), if_neg]
    unfold npos; omega
  have e2 : (if npos w = npos w ∨ szAdd w 0 (npos w) > std_str.length
      then szSub w std_str.length 0 else npos w) = std_str.length := by
    rw [if_pos (Or.inl rfl), szSub_eq (by omega) (by omega)]; rfl
  have := Compare_std5_eq ha (Nat.zero_le _) (Nat.zero_le _) e1 e2 (by omega) (by omega)
  unfold Compare_std
  rw [this, List.drop_zero, List.drop_zero, List.take_of_length_le (by omega),
    List.take_of_length_le (le_refl _)]

/-- The call `Compare(idx, len, chars, chars_len)` with a valid start index and an array
of at least `chars_len` chars returns normally, with the value `compareLists`
of the clamped range and the converted chars; `l1` is the value of the clamp. -/
theorem Compare_chars4_eq {w : Nat} {a : EdoString} (ha : wf w a) {chars : List Nat}
    {idx len chars_len l1 : Nat} (hidx : idx ≤ a.d_cpLength)
    (h1 : (if len = npos w ∨ szAdd w idx len > a.d_cpLength
      then szSub w a.d_cpLength idx else len) = l1)
    (hl1 : idx + l1 ≤ a.d_cpLength)
    (hcl : chars_len ≤ chars.length) (hnp : chars_len ≠ npos w) :
    Compare_chars4 w a idx len chars chars_len
      = .ok (compareLists ((a.codePoints.drop idx).take l1)
          ((chars.take chars_len).map charToUtf32)) := by
  have key := compare_chars_core ha chars idx l1 0 chars_len hl1 (by omega)
  rw [List.drop_zero] at key
  rw [← key]
  unfold Compare_chars4
  rw [if_neg (by omega), if_neg hnp]
  simp only [h1]
  split <;> rfl

/-! ## Find and RFind of a sub-string -/

/-- The loop of `Find` returns within `L - idx + 1` iterations, with the first
position from `idx` on at which the sub-string fits and `Compare` gives 0. -/
theorem Find_loop_spec {w L n : Nat} {cmp : Nat → Except Fault Int} {P : Nat → Prop}
    (hL : L + 1 < 2 ^ w) (hn : 1 ≤ n)
    (hcmp : ∀ i, i + n ≤ L → ∃ r, cmp i = .ok r ∧ (0 = r ↔ P i)) :
    ∀ (fuel idx : Nat), idx ≤ L → L - idx < fuel →
      ∃ r, Find_loop w L n cmp fuel idx = .ok r ∧
        firstFrom w (fun i => i + n ≤ L ∧ P i) idx r := by
  intro fuel
  induction fuel with
  | zero => intro idx _ h; omega
  | succ fuel ih =>
    intro idx hidx hfuel
    have hsub : szSub w L idx = L - idx := szSub_eq hidx (by omega)
    by_cases hge : L - idx ≥ n
    · obtain ⟨r, hc, hr⟩ := hcmp idx (by omega)
      have e : Find_loop w L n cmp (fuel + 1) idx
          = (if 0 = r then pure idx else Find_loop w L n cmp fuel (idx + 1)) := by
        rw [Find_loop, hsub, if_pos hge, hc, szAdd_eq (by omega)]
        rfl
      rw [e]
      by_cases h0 : 0 = r
      · rw [if_pos h0]
        refine ⟨idx, rfl, Or.inr ⟨?_, le_refl _, ⟨by omega, hr.mp h0⟩, ?_⟩⟩
        · unfold npos; omega
        · intro j h1 h2; omega
      · rw [if_neg h0]
        obtain ⟨r', hr', hf⟩ := ih (idx + 1) (by omega) (by omega)
        refine ⟨r', hr', ?_⟩
        have hnot : ∀ j, idx ≤ j → ¬ (idx + 1 ≤ j) → ¬ (j + n ≤ L ∧ P j) := by
          intro j h1 h2 hp
          have : j = idx := by omega
          rw [this] at hp
          exact h0 (hr.mpr hp.2)
        rcases hf with ⟨h1, h2⟩ | ⟨h1, h2, h3, h4⟩
        · refine Or.inl ⟨h1, fun j hj => ?_⟩
          by_cases hj' : idx + 1 ≤ j
          · exact h2 j hj'
          · exact hnot j hj hj'
        · refine Or.inr ⟨h1, by omega, h3, fun j hj hlt => ?_⟩
          by_cases hj' : idx + 1 ≤ j
          · exact h4 j hj' hlt
          · exact hnot j hj hj'
    · refine ⟨npos w, ?_, Or.inl ⟨rfl, fun j hj hp => ?_⟩⟩
      · rw [Find_loop, hsub, if_neg hge]
        rfl
      · omega

/-- The loop of `RFind` returns the last position up to `idx` at which
`Compare` gives 0. -/
theorem RFind_loop_spec {w : Nat} {cmp : Nat → Except Fault Int} {P : Nat → Prop} :
    ∀ (idx : Nat), idx < npos w → (∀ i, i ≤ idx → ∃ r, cmp i = .ok r ∧ (0 = r ↔ P i)) →
      ∃ r, RFind_loop w cmp idx = .ok r ∧ lastUpTo w P idx r := by
  intro idx
  induction idx with
  | zero =>
    intro hnp hcmp
    obtain ⟨r, hc, hr⟩ := hcmp 0 (le_refl _)
    have e : RFind_loop w cmp 0 = (if 0 = r then pure 0 else pure (npos w)) := by
      rw [RFind_loop, hc]
      rfl
    rw [e]
    by_cases h0 : 0 = r
    · rw [if_pos h0]
      exact ⟨0, rfl, Or.inr ⟨by omega, le_refl _, hr.mp h0, fun j h1 h2 => by omega⟩⟩
    · rw [if_neg h0]
      refine ⟨npos w, rfl, Or.inl ⟨rfl, fun j hj hp => ?_⟩⟩
      have : j = 0 := by omega
      rw [this] at hp
      exact h0 (hr.mpr hp)
  | succ idx ih =>
    intro hnp hcmp
    obtain ⟨r, hc, hr⟩ := hcmp (idx + 1) (le_refl _)
    have e : RFind_loop w cmp (idx + 1)
        = (if 0 = r then pure (idx + 1) else RFind_loop w cmp idx) := by
      rw [RFind_loop, hc]
      rfl
    rw [e]
    by_cases h0 : 0 = r
    · rw [if_pos h0]
      exact ⟨idx + 1, rfl, Or.inr ⟨by omega, le_refl _, hr.mp h0, fun j h1 h2 => by omega⟩⟩
    · rw [if_neg h0]
      obtain ⟨r', hr', hf⟩ := ih (by omega) (fun i hi => hcmp i (by omega))
      refine ⟨r', hr', ?_⟩
      have hnot : ∀ j, j ≤ idx + 1 → ¬ (j ≤ idx) → ¬ P j := by
        intro j h1 h2 hp
        have : j = idx + 1 := by omega
        rw [this] at hp
        exact h0 (hr.mpr hp)
      rcases hf with ⟨h1, h2⟩ | ⟨h1, h2, h3, h4⟩
      · refine Or.inl ⟨h1, fun j hj => ?_⟩
        by_cases hj' : j ≤ idx
        · exact h2 j hj'
        · exact hnot j hj hj'
      · refine Or.inr ⟨h1, by omega, h3, fun j hlt hj => ?_⟩
        by_cases hj' : j ≤ idx
        · exact h4 j hlt hj'
        · exact hnot j hj hj'

theorem firstFrom_congr {w : Nat} {P Q : Nat → Prop} {idx r : Nat} (h : ∀ i, P i ↔ Q i)
    (hf : firstFrom w P idx r) : firstFrom w Q idx r := by
  rcases hf with ⟨h1, h2⟩ | ⟨h1, h2, h3, h4⟩
  · exact Or.inl ⟨h1, fun j hj hq => h2 j hj ((h j).mpr hq)⟩
  · exact Or.inr ⟨h1, h2, (h r).mp h3, fun j hj hlt hq => h4 j hj hlt ((h j).mpr hq)⟩

theorem lastUpTo_congr {w : Nat} {P Q : Nat → Prop} {idx r : Nat} (h : ∀ i, P i ↔ Q i)
    (hf : lastUpTo w P idx r) : lastUpTo w Q idx r := by
  rcases hf with ⟨h1, h2⟩ | ⟨h1, h2, h3, h4⟩
  · exact Or.inl ⟨h1, fun j hj hq => h2 j hj ((h j).mpr hq)⟩
  · exact Or.inr ⟨h1, h2, (h r).mp h3, fun j hlt hj hq => h4 j hlt hj ((h j).mpr hq)⟩

theorem utf32List_take_drop {A : List Nat} (h : utf32List A) (i n : Nat) :
    utf32List ((A.drop i).take n) :=
  fun c hc => h c (List.mem_of_mem_drop (List.mem_of_mem_take hc))

theorem utf32List_map_char (l : List Nat) : utf32List (l.map charToUtf32) := by
  intro c hc
  obtain ⟨x, -, rfl⟩ := List.mem_map.mp hc
  unfold charToUtf32
  omega

/-- The `Compare` call of `Find` and `RFind` for a String needle, at a position
where the needle fits, is 0 exactly when the needle occurs there. -/
theorem find_cmp_str {w : Nat} {s str : EdoString} (hs : wf w s) (hstr : wf w str)
    (hvs : utf32List s.codePoints) (hvn : utf32List str.codePoints) (i : Nat)
    (hi : i + str.d_cpLength ≤ s.d_cpLength) :
    ∃ r, Compare_str w s i str.d_cpLength str 0 (npos w) = .ok r ∧
      (0 = r ↔ (s.codePoints.drop i).take str.d_cpLength = str.codePoints) := by
  have hbs := MaxSize_bound hs.2.2.2.2
  have hbn := MaxSize_bound hstr.2.2.2.2
  have hln := codePoints_length hstr
  have h1 : (if str.d_cpLength = npos w ∨ szAdd w i str.d_cpLength > s.d_cpLength
      then szSub w s.d_cpLength i else str.d_cpLength) = str.d_cpLength := by
    rw [szAdd_eq (by omega), if_neg]
    unfold npos; omega
  have h2 : (if npos w = npos w ∨ szAdd w 0 (npos w) > str.d_cpLength
      then szSub w str.d_cpLength 0 else npos w) = str.d_cpLength := by
    rw [if_pos (Or.inl rfl), szSub_eq (by omega) (by omega)]; rfl
  have hc : Compare_str w s i str.d_cpLength str 0 (npos w)
      = .ok (compareLists ((s.codePoints.drop i).take str.d_cpLength)
          ((str.codePoints.drop 0).take str.d_cpLength)) :=
    Compare_str_eq hs hstr (show i ≤ s.d_cpLength by omega) (Nat.zero_le _) h1 h2 hi
      (by omega)
  rw [List.drop_zero,
    List.take_of_length_le (show str.codePoints.length ≤ str.d_cpLength by omega)] at hc
  refine ⟨_, hc, ?_⟩
  rw [eq_comm, compareLists_eq_zero_iff _ _ (utf32List_take_drop hvs _ _) hvn]

/-- The `Compare` call of `Find` and `RFind` for a char array needle, at a
position where the needle fits, is 0 exactly when the needle occurs there. -/
theorem find_cmp_chars {w : Nat} {s : EdoString} (hs : wf w s) {chars : List Nat}
    {chars_len : Nat} (hvs : utf32List s.codePoints) (hcl : chars_len ≤ chars.length)
    (hnp : chars_len ≠ npos w) (i : Nat) (hi : i + chars_len ≤ s.d_cpLength) :
    ∃ r, Compare_chars4 w s i chars_len chars chars_len = .ok r ∧
      (0 = r ↔ (s.codePoints.drop i).take chars_len
        = (chars.take chars_len).map charToUtf32) := by
  have hbs := MaxSize_bound hs.2.2.2.2
  have h1 : (if chars_len = npos w ∨ szAdd w i chars_len > s.d_cpLength
      then szSub w s.d_cpLength i else chars_len) = chars_len := by
    rw [szAdd_eq (by omega), if_neg]
    omega
  have hc : Compare_chars4 w s i chars_len chars chars_len
      = .ok (compareLists ((s.codePoints.drop i).take chars_len)
          ((chars.take chars_len).map charToUtf32)) :=
    Compare_chars4_eq hs (show i ≤ s.d_cpLength by omega) h1 hi hcl hnp
  refine ⟨_, hc, ?_⟩
  rw [eq_comm, compareLists_eq_zero_iff _ _ (utf32List_take_drop hvs _ _)
    (utf32List_map_char _)]

/-- The function `Find` for a non-empty String needle returns the first position from
`idx` on at which the needle occurs, and `npos` when there is none. -/
theorem Find_str_spec {w : Nat} {s str : EdoString} (hs : wf w s) (hstr : wf w str)
    (hvs : utf32List s.codePoints) (hvn : utf32List str.codePoints)
    (hne : 1 ≤ str.d_cpLength) (idx : Nat) :
    ∃ r, Find_str w s str idx = .ok r ∧
      firstFrom w (occursAt s.codePoints str.codePoints) idx r := by
  have hbs := MaxSize_bound hs.2.2.2.2
  have hls := codePoints_length hs
  have hln := codePoints_length hstr
  have hP : ∀ i, (i + str.d_cpLength ≤ s.d_cpLength ∧
      (s.codePoints.drop i).take str.d_cpLength = str.codePoints)
      ↔ occursAt s.codePoints str.codePoints i := by
    intro i; unfold occursAt; rw [hls, hln]
  unfold Find_str
  rw [if_neg (by omega)]
  by_cases hidx : idx < s.d_cpLength
  · rw [if_pos hidx]
    obtain ⟨r, hr, hf⟩ := Find_loop_spec (show s.d_cpLength + 1 < 2 ^ w by omega) hne
      (fun i hi => find_cmp_str hs hstr hvs hvn i hi) (s.d_cpLength + 1) idx (by omega)
      (by omega)
    exact ⟨r, hr, firstFrom_congr hP hf⟩
  · rw [if_neg hidx]
    refine ⟨npos w, rfl, Or.inl ⟨rfl, fun j hj hp => ?_⟩⟩
    have := hp.1
    omega

/-- The function `Find` for a non-empty char array needle returns the first position
from `idx` on at which the needle occurs, and `npos` when there is none. -/
theorem Find_chars_spec {w : Nat} {s : EdoString} (hs : wf w s) {chars : List Nat}
    {chars_len : Nat} (hvs : utf32List s.codePoints) (hcl : chars_len ≤ chars.length)
    (hnp : chars_len ≠ npos w) (hne : 1 ≤ chars_len) (idx : Nat) :
    ∃ r, Find_chars w s chars idx chars_len = .ok r ∧
      firstFrom w (occursAt s.codePoints ((chars.take chars_len).map charToUtf32)) idx r := by
  have hbs := MaxSize_bound hs.2.2.2.2
  have hls := codePoints_length hs
  have hln : ((chars.take chars_len).map charToUtf32).length = chars_len := by simp; omega
  have hP : ∀ i, (i + chars_len ≤ s.d_cpLength ∧
      (s.codePoints.drop i).take chars_len = (chars.take chars_len).map charToUtf32)
      ↔ occursAt s.codePoints ((chars.take chars_len).map charToUtf32) i := by
    intro i; unfold occursAt; rw [hls, hln]
  unfold Find_chars
  rw [if_neg hnp, if_neg (by omega)]
  by_cases hidx : idx < s.d_cpLength
  · rw [if_pos hidx]
    obtain ⟨r, hr, hf⟩ := Find_loop_spec (show s.d_cpLength + 1 < 2 ^ w by omega) hne
      (fun i hi => find_cmp_chars hs hvs hcl hnp i hi) (s.d_cpLength + 1) idx (by omega)
      (by omega)
    exact ⟨r, hr, firstFrom_congr hP hf⟩
  · rw [if_neg hidx]
    refine ⟨npos w, rfl, Or.inl ⟨rfl, fun j hj hp => ?_⟩⟩
    have := hp.1
    omega

theorem lastUpTo_clamp {w : Nat} {P : Nat → Prop} {idx idx' r : Nat} (hle : idx' ≤ idx)
    (hnone : ∀ j, idx' < j → j ≤ idx → ¬ P j) (hf : lastUpTo w P idx' r) :
    lastUpTo w P idx r := by
  rcases hf with ⟨h1, h2⟩ | ⟨h1, h2, h3, h4⟩
  · refine Or.inl ⟨h1, fun j hj => ?_⟩
    by_cases hj' : j ≤ idx'
    · exact h2 j hj'
    · exact hnone j (by omega) hj
  · refine Or.inr ⟨h1, by omega, h3, fun j hlt hj => ?_⟩
    by_cases hj' : j ≤ idx'
    · exact h4 j hlt hj'
    · exact hnone j (by omega) hj

/-- The common part of the `RFind` overloads for a needle of `n >= 1` code
points, given what the `Compare` call does where the needle fits. -/
theorem RFind_core {w L n : Nat} {cmp : Nat → Except Fault Int} {Q : Nat → Prop}
    (hL : L + 1 < 2 ^ w) (hn : 1 ≤ n) (hnL : n ≤ L) (idx : Nat)
    (hcmp : ∀ i, i + n ≤ L → ∃ r, cmp i = .ok r ∧ (0 = r ↔ Q i)) :
    ∃ r, RFind_loop w cmp (if idx > szSub w L n then szSub w L n else idx) = .ok r ∧
      lastUpTo w (fun i => i + n ≤ L ∧ Q i) idx r := by
  rw [szSub_eq hnL (by omega)]
  have hle : (if idx > L - n then L - n else idx) ≤ L - n := by split <;> omega
  have hle2 : (if idx > L - n then L - n else idx) ≤ idx := by split <;> omega
  have hgt : ∀ j, (if idx > L - n then L - n else idx) < j → j ≤ idx → L - n < j := by
    intro j h1 h2
    split at h1 <;> omega
  have hall : ∀ i, i ≤ (if idx > L - n then L - n else idx) →
      ∃ r, cmp i = .ok r ∧ (0 = r ↔ (i + n ≤ L ∧ Q i)) := by
    intro i hi
    obtain ⟨r, hc, hq⟩ := hcmp i (by omega)
    exact ⟨r, hc, hq.trans ⟨fun h => ⟨by omega, h⟩, fun h => h.2⟩⟩
  have hnp : (if idx > L - n then L - n else idx) < npos w := by unfold npos; omega
  obtain ⟨r, hr, hf⟩ := RFind_loop_spec _ hnp hall
  refine ⟨r, hr, lastUpTo_clamp hle2 (fun j h1 h2 hp => ?_) hf⟩
  have := hgt j h1 h2
  have := hp.1
  omega

/-- The function `RFind` for a String needle returns the last position up to `idx`
at which the needle occurs, and `npos` when there is none; for the empty needle
that is `min idx Length()`. -/
theorem RFind_str_spec {w : Nat} {s str : EdoString} (hs : wf w s) (hstr : wf w str)
    (hvs : utf32List s.codePoints) (hvn : utf32List str.codePoints) (idx : Nat) :
    ∃ r, RFind_str w s str idx = .ok r ∧
      lastUpTo w (occursAt s.codePoints str.codePoints) idx r ∧
      (str.d_cpLength = 0 → r = min idx s.d_cpLength) := by
  have hbs := MaxSize_bound hs.2.2.2.2
  have hls := codePoints_length hs
  have hln := codePoints_length hstr
  have hP : ∀ i, (i + str.d_cpLength ≤ s.d_cpLength ∧
      (s.codePoints.drop i).take str.d_cpLength = str.codePoints)
      ↔ occursAt s.codePoints str.codePoints i := by
    intro i; unfold occursAt; rw [hls, hln]
  unfold RFind_str
  by_cases h0 : str.d_cpLength = 0
  · rw [if_pos h0]
    have hnil : str.codePoints = [] := List.length_eq_zero.mp (by omega)
    have hr : (if idx < s.d_cpLength then idx else s.d_cpLength) = min idx s.d_cpLength := by
      split <;> omega
    refine ⟨_, rfl, Or.inr ⟨?_, by omega, ?_, fun j h1 h2 hp => ?_⟩, fun _ => hr⟩
    · unfold npos; omega
    · rw [hnil]
      exact ⟨by simp; omega, by simp⟩
    · have := hp.1
      rw [hr] at h1
      omega
  · rw [if_neg h0]
    by_cases hle : str.d_cpLength ≤ s.d_cpLength
    · rw [if_pos hle]
      obtain ⟨r, hr, hf⟩ := RFind_core (show s.d_cpLength + 1 < 2 ^ w by omega)
        (show 1 ≤ str.d_cpLength by omega) hle idx
        (fun i hi => find_cmp_str hs hstr hvs hvn i hi)
      exact ⟨r, hr, lastUpTo_congr hP hf, fun h => absurd h h0⟩
    · rw [if_neg hle]
      refine ⟨npos w, rfl, Or.inl ⟨rfl, fun j _ hp => ?_⟩, fun h => absurd h h0⟩
      have := hp.1
      omega

/-- The function `RFind` for a char array needle returns the last position up to
`idx` at which the needle occurs, and `npos` when there is none; for the empty
needle that is `min idx Length()`. -/
theorem RFind_chars_spec {w : Nat} {s : EdoString} (hs : wf w s) {chars : List Nat}
    {chars_len : Nat} (hvs : utf32List s.codePoints) (hcl : chars_len ≤ chars.length)
    (hnp : chars_len ≠ npos w) (idx : Nat) :
    ∃ r, RFind_chars w s chars idx chars_len = .ok r ∧
      lastUpTo w (occursAt s.codePoints ((chars.take chars_len).map charToUtf32)) idx r ∧
      (chars_len = 0 → r = min idx s.d_cpLength) := by
  have hbs := MaxSize_bound hs.2.2.2.2
  have hls := codePoints_length hs
  have hln : ((chars.take chars_len).map charToUtf32).length = chars_len := by simp; omega
  have hP : ∀ i, (i + chars_len ≤ s.d_cpLength ∧
      (s.codePoints.drop i).take chars_len = (chars.take chars_len).map charToUtf32)
      ↔ occursAt s.codePoints ((chars.take chars_len).map charToUtf32) i := by
    intro i; unfold occursAt; rw [hls, hln]
  unfold RFind_chars
  rw [if_neg hnp]
  by_cases h0 : chars_len = 0
  · rw [if_pos h0]
    have hnil : (chars.take chars_len).map charToUtf32 = [] :=
      List.length_eq_zero.mp (by omega)
    have hr : (if idx < s.d_cpLength then idx else s.d_cpLength) = min idx s.d_cpLength := by
      split <;> omega
    refine ⟨_, rfl, Or.inr ⟨?_, by omega, ?_, fun j h1 h2 hp => ?_⟩, fun _ => hr⟩
    · unfold npos; omega
    · rw [hnil]
      exact ⟨by simp; omega, by simp⟩
    · have := hp.1
      rw [hr] at h1
      omega
  · rw [if_neg h0]
    by_cases hle : chars_len ≤ s.d_cpLength
    · rw [if_pos hle]
      obtain ⟨r, hr, hf⟩ := RFind_core (show s.d_cpLength + 1 < 2 ^ w by omega)
        (show 1 ≤ chars_len by omega) hle idx
        (fun i hi => find_cmp_chars hs hvs hcl hnp i hi)
      exact ⟨r, hr, lastUpTo_congr hP hf, fun h => absurd h h0⟩
    · rw [if_neg hle]
      refine ⟨npos w, rfl, Or.inl ⟨rfl, fun j _ hp => ?_⟩, fun h => absurd h h0⟩
      have := hp.1
      omega

/-! ## Find of a code point, FindFirstOf -/

theorem firstFrom_unique {w : Nat} {P : Nat → Prop} {idx r1 r2 : Nat}
    (h1 : firstFrom w P idx r1) (h2 : firstFrom w P idx r2) : r1 = r2 := by
  rcases h1 with ⟨a1, a2⟩ | ⟨a1, a2, a3, a4⟩ <;> rcases h2 with ⟨b1, b2⟩ | ⟨b1, b2, b3, b4⟩
  · rw [a1, b1]
  · exact absurd b3 (a2 r2 b2)
  · exact absurd a3 (b2 r1 a2)
  · rcases Nat.lt_trichotomy r1 r2 with h | h | h
    · exact absurd a3 (b4 r1 a2 h)
    · exact h
    · exact absurd b3 (a4 r2 b2 h)

/-- A read of a slot below the length gives the code point at that position. -/
theorem load_codePoint {w : Nat} {s : EdoString} (hs : wf w s) {i : Nat}
    (hi : i < s.d_cpLength) : ∃ c, load s.ptr i = .ok c ∧ s.codePoints[i]? = some c := by
  have hp := ptr_length hs
  have hr := hs.2.2.2.1
  have hlt : i < s.ptr.length := by omega
  refine ⟨s.ptr[i], load_ok hlt, ?_⟩
  unfold codePoints
  rw [List.getElem?_take_of_lt hi, List.getElem?_eq_getElem hlt]

theorem codePoints_getElem?_none {w : Nat} {s : EdoString} (hs : wf w s) {i : Nat}
    (hi : s.d_cpLength ≤ i) : s.codePoints[i]? = none := by
  rw [List.getElem?_eq_none]
  rw [codePoints_length hs]; exact hi

/-- The loop of `Find(utf32, size_type)` returns within `L - idx + 1`
iterations, with the first position from `idx` on that holds the code point. -/
theorem Find_cp_loop_spec {w : Nat} {s : EdoString} (hs : wf w s) (cp : Nat) :
    ∀ (fuel idx : Nat), idx ≤ s.d_cpLength → s.d_cpLength - idx < fuel →
      ∃ r, Find_cp_loop w s.d_cpLength s.ptr cp fuel idx idx = .ok r ∧
        firstFrom w (fun i => s.codePoints[i]? = some cp) idx r := by
  have hbs := MaxSize_bound hs.2.2.2.2
  intro fuel
  induction fuel with
  | zero => intro idx _ h; omega
  | succ fuel ih =>
    intro idx hidx hfuel
    by_cases hlt : idx < s.d_cpLength
    · obtain ⟨c, hc, hcp⟩ := load_codePoint hs hlt
      have e : Find_cp_loop w s.d_cpLength s.ptr cp (fuel + 1) idx idx
          = (if c = cp then pure idx
            else Find_cp_loop w s.d_cpLength s.ptr cp fuel (idx + 1) (idx + 1)) := by
        rw [Find_cp_loop, if_pos hlt, hc, szAdd_eq (by omega)]
        rfl
      rw [e]
      by_cases h0 : c = cp
      · rw [if_pos h0]
        refine ⟨idx, rfl, Or.inr ⟨?_, le_refl _, by
          show s.codePoints[idx]? = some cp
          rw [hcp, h0], ?_⟩⟩
        · unfold npos; omega
        · intro j h1 h2; omega
      · rw [if_neg h0]
        obtain ⟨r', hr', hf⟩ := ih (idx + 1) (by omega) (by omega)
        refine ⟨r', hr', ?_⟩
        have hnot : ∀ j, idx ≤ j → ¬ (idx + 1 ≤ j) → ¬ (s.codePoints[j]? = some cp) := by
          intro j h1 h2 hp
          have : j = idx := by omega
          rw [this, hcp] at hp
          exact h0 (Option.some.inj hp)
        rcases hf with ⟨h1, h2⟩ | ⟨h1, h2, h3, h4⟩
        · refine Or.inl ⟨h1, fun j hj => ?_⟩
          by_cases hj' : idx + 1 ≤ j
          · exact h2 j hj'
          · exact hnot j hj hj'
        · refine Or.inr ⟨h1, by omega, h3, fun j hj hlt' => ?_⟩
          by_cases hj' : idx + 1 ≤ j
          · exact h4 j hj' hlt'
          · exact hnot j hj hj'
    · refine ⟨npos w, ?_, Or.inl ⟨rfl, fun j hj hp => ?_⟩⟩
      · rw [Find_cp_loop, if_neg hlt]
        rfl
      · have hp' : s.codePoints[j]? = some cp := hp
        rw [codePoints_getElem?_none hs (by omega)] at hp'
        exact Option.noConfusion hp'

/-- The function `Find(utf32, size_type)` returns the first position from `idx` on that
holds the code point, and `npos` when there is none. -/
theorem Find_cp_spec {w : Nat} {s : EdoString} (hs : wf w s) (cp idx : Nat) :
    ∃ r, Find_cp w s cp idx = .ok r ∧
      firstFrom w (fun i => s.codePoints[i]? = some cp) idx r := by
  unfold Find_cp
  by_cases hlt : idx < s.d_cpLength
  · rw [if_pos hlt]
    exact Find_cp_loop_spec hs cp (s.d_cpLength + 1) idx (by omega) (by omega)
  · rw [if_neg hlt]
    refine ⟨npos w, rfl, Or.inl ⟨rfl, fun j hj hp => ?_⟩⟩
    have hp' : s.codePoints[j]? = some cp := hp
    rw [codePoints_getElem?_none hs (by omega)] at hp'
    exact Option.noConfusion hp'

/-- The call `str.Find(c)` is `npos` exactly when `c` is not a code point of `str`. -/
theorem Find_cp_zero {w : Nat} {s : EdoString} (hs : wf w s) (cp : Nat) :
    ∃ r, Find_cp w s cp 0 = .ok r ∧ (r = npos w ↔ cp ∉ s.codePoints) := by
  obtain ⟨r, hr, hf⟩ := Find_cp_spec hs cp 0
  refine ⟨r, hr, ?_⟩
  rcases hf with ⟨h1, h2⟩ | ⟨h1, h2, h3, h4⟩
  · refine ⟨fun _ hmem => ?_, fun _ => h1⟩
    obtain ⟨i, hi⟩ := List.mem_iff_getElem?.mp hmem
    exact h2 i (Nat.zero_le _) hi
  · refine ⟨fun h => absurd h h1, fun hn => ?_⟩
    exact absurd (List.mem_iff_getElem?.mpr ⟨r, h3⟩) hn

/-- The loop of `FindFirstOf` returns within `L - idx` iterations, with the
first position from `idx` on whose code point is one of `str`. -/
theorem FindFirstOf_str_loop_spec {w : Nat} {s str : EdoString} (hs : wf w s)
    (hstr : wf w str) :
    ∀ (fuel idx : Nat), idx < s.d_cpLength → s.d_cpLength - idx ≤ fuel →
      ∃ r, FindFirstOf_str_loop w s str fuel idx idx = .ok r ∧
        firstFrom w (fun i => ∃ c, s.codePoints[i]? = some c ∧ c ∈ str.codePoints) idx r := by
  have hbs := MaxSize_bound hs.2.2.2.2
  intro fuel
  induction fuel with
  | zero => intro idx h1 h2; omega
  | succ fuel ih =>
    intro idx hlt hfuel
    obtain ⟨c, hc, hcp⟩ := load_codePoint hs hlt
    obtain ⟨r0, hr0, hmem⟩ := Find_cp_zero hstr c
    have e : FindFirstOf_str_loop w s str (fuel + 1) idx idx
        = (if npos w ≠ r0 then pure idx
          else if idx + 1 ≠ s.d_cpLength
            then FindFirstOf_str_loop w s str fuel (idx + 1) (idx + 1)
            else pure (npos w)) := by
      rw [FindFirstOf_str_loop, hc]
      show (Find_cp w str c 0 >>= fun r => _) = _
      rw [hr0, szAdd_eq (by omega)]
      rfl
    rw [e]
    have hnot : ∀ j, idx ≤ j → ¬ (idx + 1 ≤ j) → r0 = npos w →
        ¬ (∃ c, s.codePoints[j]? = some c ∧ c ∈ str.codePoints) := by
      rintro j h1 h2 h3 ⟨c', hc', hm'⟩
      have : j = idx := by omega
      rw [this, hcp] at hc'
      rw [← Option.some.inj hc'] at hm'
      exact hmem.mp h3 hm'
    by_cases h0 : npos w ≠ r0
    · rw [if_pos h0]
      have hin : c ∈ str.codePoints := by
        by_contra hn
        exact h0 (hmem.mpr hn).symm
      refine ⟨idx, rfl, Or.inr ⟨?_, le_refl _, ⟨c, hcp, hin⟩, ?_⟩⟩
      · unfold npos; omega
      · intro j h1 h2; omega
    · rw [if_neg h0]
      have h0' : r0 = npos w := by
        by_contra hn
        exact h0 (fun h => hn h.symm)
      by_cases hend : idx + 1 ≠ s.d_cpLength
      · rw [if_pos hend]
        obtain ⟨r', hr', hf⟩ := ih (idx + 1) (by omega) (by omega)
        refine ⟨r', hr', ?_⟩
        rcases hf with ⟨h1, h2⟩ | ⟨h1, h2, h3, h4⟩
        · refine Or.inl ⟨h1, fun j hj => ?_⟩
          by_cases hj' : idx + 1 ≤ j
          · exact h2 j hj'
          · exact hnot j hj hj' h0'
        · refine Or.inr ⟨h1, by omega, h3, fun j hj hlt' => ?_⟩
          by_cases hj' : idx + 1 ≤ j
          · exact h4 j hj' hlt'
          · exact hnot j hj hj' h0'
      · rw [if_neg hend]
        refine ⟨npos w, rfl, Or.inl ⟨rfl, fun j hj => ?_⟩⟩
        by_cases hj' : idx + 1 ≤ j
        · rintro ⟨c', hc', -⟩
          rw [codePoints_getElem?_none hs (by omega)] at hc'
          exact Option.noConfusion hc'
        · exact hnot j hj hj' h0'

/-- The function `FindFirstOf` for a String needle returns the first position from
`idx` on whose code point is one of `str`, and `npos` when there is none. -/
theorem FindFirstOf_str_spec {w : Nat} {s str : EdoString} (hs : wf w s) (hstr : wf w str)
    (idx : Nat) :
    ∃ r, FindFirstOf_str w s str idx = .ok r ∧
      firstFrom w (fun i => ∃ c, s.codePoints[i]? = some c ∧ c ∈ str.codePoints) idx r := by
  unfold FindFirstOf_str
  by_cases hlt : idx < s.d_cpLength
  · rw [if_pos hlt]
    exact FindFirstOf_str_loop_spec hs hstr s.d_cpLength idx hlt (by omega)
  · rw [if_neg hlt]
    refine ⟨npos w, rfl, Or.inl ⟨rfl, fun j hj => ?_⟩⟩
    rintro ⟨c', hc', -⟩
    rw [codePoints_getElem?_none hs (by omega)] at hc'
    exact Option.noConfusion hc'

/-! ## Init, Assign, Substr, Append, Resize -/

/-- The function `Init` returns the empty string in the quick buffer. -/
theorem Init_ok {w : Nat} (hpos : 0 < MaxSize w) :
    ∃ s0, Init = .ok s0 ∧ wf w s0 ∧ s0.d_cpLength = 0 ∧ s0.d_reserve = STR_QUICKBUFF_SIZE := by
  have key : ∀ s : EdoString, Init = SetLen s 0 → wf w s →
      s.d_reserve = STR_QUICKBUFF_SIZE →
      ∃ s0, Init = .ok s0 ∧ wf w s0 ∧ s0.d_cpLength = 0 ∧
        s0.d_reserve = STR_QUICKBUFF_SIZE := by
    intro s hI hwf hres
    obtain ⟨s0, h1, h2, h3, h4, -⟩ := SetLen_ok hwf
      (show 0 + 1 ≤ s.d_reserve by rw [hres]; unfold STR_QUICKBUFF_SIZE; omega) hpos
    exact ⟨s0, hI.trans h1, h2, h3, h4.trans hres⟩
  refine key _ rfl ⟨by simp [newArray], le_refl _, fun h => absurd h (lt_irrefl _), ?_, hpos⟩
    rfl
  show 0 + 1 ≤ STR_QUICKBUFF_SIZE
  unfold STR_QUICKBUFF_SIZE; omega

/-- The call `Assign` of a sub-range of another string. -/
theorem Assign_str_ok {w : Nat} {s str : EdoString} (h : wf w s) (hstr : wf w str)
    {str_idx : Nat} (str_num : Nat) (hsi : str_idx ≤ str.d_cpLength) :
    ∃ s2, Assign_str w s str str_idx str_num = .ok s2 ∧ wf w s2 ∧
      s2.d_cpLength = ((str.codePoints.drop str_idx).take str_num).length ∧
      s.d_reserve ≤ s2.d_reserve ∧
      s2.codePoints = (str.codePoints.drop str_idx).take str_num ∧
      s2.ptr[s2.d_cpLength]? = some 0 := by
  have hsub := subrange_eq str str_idx str_num
  have hps := ptr_length hstr
  have hrs := hstr.2.2.2.1
  have hms := hstr.2.2.2.2
  generalize hx : (str.codePoints.drop str_idx).take str_num = x at *
  have hxl : min str_num (str.d_cpLength - str_idx) = x.length := by
    rw [← hsub]; simp; omega
  have hmax : x.length < MaxSize w := by omega
  unfold Assign_str
  rw [if_neg (by omega)]
  simp only [clamp_eq hsi (wf_lt_pow hstr), hxl]
  obtain ⟨s1, hG, hw1, hl1, hr1, hmono, -⟩ := Grow_ok h hmax
  obtain ⟨s2, hS, hw2, hl2, hr2, hp2⟩ := SetLen_ok hw1 hr1 hmax
  have hp2l : s2.ptr.length = s2.d_reserve := ptr_length hw2
  have hblen : (x ++ s2.ptr.drop x.length).length = s2.d_reserve := by
    simp; omega
  have e : (Grow w s x.length >>= fun s1 => SetLen s1 x.length >>= fun s2 =>
      memcpy s2.ptr 0 str.ptr str_idx (szMul w x.length SIZEOF_UTF32) >>= fun b =>
      pure (s2.setPtr b)) = .ok (s2.setPtr (x ++ s2.ptr.drop x.length)) := by
    rw [hG]
    show (SetLen s1 x.length >>= fun s2 => _) = _
    rw [hS]
    show (memcpy s2.ptr 0 str.ptr str_idx _ >>= fun b => _) = _
    rw [memcpy_ok (n := x.length) (bytes_eq hmax) (by omega) (by omega)]
    rw [← hxl, hsub, List.take_zero, List.nil_append, Nat.zero_add]
    rfl
  refine ⟨_, e, wf_setPtr hw2 hblen, ?_, ?_, ?_, ?_⟩
  · rw [d_cpLength_setPtr, hl2]
  · rw [d_reserve_setPtr, hr2]; exact hmono
  · unfold codePoints
    rw [ptr_setPtr, d_cpLength_setPtr, hl2, List.take_left]
  · have hlt : x.length < s1.ptr.length := by rw [ptr_length hw1]; omega
    rw [ptr_setPtr, d_cpLength_setPtr, hl2, List.getElem?_append_right (le_refl _),
      Nat.sub_self, List.getElem?_drop, Nat.add_zero, hp2]
    simp [List.getElem?_set, hlt]

/-- The function `Substr` with a valid index returns the clamped sub-range. -/
theorem Substr_ok {w : Nat} {s : EdoString} (h : wf w s) {idx : Nat} (len : Nat)
    (hidx : idx ≤ s.d_cpLength) :
    ∃ t, Substr w s idx len = .ok t ∧ wf w t ∧
      t.codePoints = (s.codePoints.drop idx).take len ∧
      t.d_cpLength = ((s.codePoints.drop idx).take len).length := by
  have hpos : 0 < MaxSize w := by have := h.2.2.2.2; omega
  obtain ⟨s0, h0, hw0, -, -⟩ := Init_ok hpos
  obtain ⟨t, ht, hwt, hl, -, hc, -⟩ := Assign_str_ok hw0 h len hidx
  refine ⟨t, ?_, hwt, hc, hl⟩
  unfold Substr EdoString_str
  rw [if_neg (by omega), h0]
  exact ht

theorem fillForward_ok (cp : Nat) :
    ∀ (n : Nat) (buf : List Nat) (p : Nat), p + n ≤ buf.length →
      fillForward buf p cp n
        = .ok (buf.take p ++ List.replicate n cp ++ buf.drop (p + n)) := by
  intro n
  induction n with
  | zero => intro buf p _; simp [fillForward]
  | succ n ih =>
    intro buf p hlen
    unfold fillForward store
    rw [if_pos (by omega)]
    show fillForward (buf.set p cp) (p + 1) cp n = _
    rw [ih _ (p + 1) (by simp; omega), take_set_drop buf p cp (by omega)]
    have h1 : (buf.take p ++ cp :: buf.drop (p + 1)).take (p + 1) = buf.take p ++ [cp] := by
      have e : p + 1 = (buf.take p ++ [cp]).length := by simp; omega
      have e2 : buf.take p ++ cp :: buf.drop (p + 1)
          = (buf.take p ++ [cp]) ++ buf.drop (p + 1) := by simp
      rw [e2]
      nth_rewrite 1 [e]
      rw [List.take_left]
    have h2 : (buf.take p ++ cp :: buf.drop (p + 1)).drop (p + 1 + n)
        = buf.drop (p + (n + 1)) := by
      have e2 : buf.take p ++ cp :: buf.drop (p + 1)
          = (buf.take p ++ [cp]) ++ buf.drop (p + 1) := by simp
      have e : p + 1 + n = (buf.take p ++ [cp]).length + n := by simp; omega
      rw [e2, e, List.drop_append, List.drop_drop]
      congr 1; omega
    rw [h1, h2, List.replicate_succ]
    simp

/-- The call `Append` of `num` copies of a code point. -/
theorem Append_rep_ok {w : Nat} {s : EdoString} (h : wf w s) {num : Nat} (code_point : Nat)
    (hmax : s.d_cpLength + num < MaxSize w) :
    ∃ s2, Append_rep w s num code_point = .ok s2 ∧ wf w s2 ∧
      s2.d_cpLength = s.d_cpLength + num ∧ s.d_reserve ≤ s2.d_reserve ∧
      s2.codePoints = s.codePoints ++ List.replicate num code_point ∧
      s2.ptr[s2.d_cpLength]? = some 0 := by
  have hb := MaxSize_bound hmax
  obtain ⟨s1, hG, hw1, hl1, hr1, hmono, hkeep⟩ := Grow_ok h hmax
  have hp1 := ptr_length hw1
  unfold Append_rep
  rw [if_neg (by unfold npos; omega)]
  simp only [szAdd_eq (show s.d_cpLength + num < 2 ^ w by omega)]
  obtain ⟨s2, hs2, hw2, hl2, hr2, hc2, hz2⟩ := finish hw1
    (s1.ptr.take s.d_cpLength ++ List.replicate num code_point
      ++ s1.ptr.drop (s.d_cpLength + num))
    (s.d_cpLength + num) (by simp; omega) hr1 hmax
  have e : (Grow w s (s.d_cpLength + num) >>= fun s1 =>
      fillForward s1.ptr s1.d_cpLength code_point num >>= fun b =>
      SetLen (s1.setPtr b) (s.d_cpLength + num)) = .ok s2 := by
    rw [hG]
    show (fillForward s1.ptr s1.d_cpLength code_point num >>= fun b => _) = _
    rw [hl1, fillForward_ok code_point num _ _ (by omega)]
    exact hs2
  refine ⟨s2, e, hw2, hl2, by omega, ?_, hz2⟩
  rw [hc2]
  have e : s.d_cpLength + num
      = (s1.ptr.take s.d_cpLength ++ List.replicate num code_point).length := by
    simp; omega
  nth_rewrite 1 [e]
  rw [List.take_left]
  have hk2 : s1.ptr.take s.d_cpLength = s.ptr.take s.d_cpLength := by
    have := congrArg (List.take s.d_cpLength) hkeep
    simpa [List.take_take] using this
  rw [hk2]
  rfl

/-- The function `Resize` to a length below `MaxSize()` truncates or pads. -/
theorem Resize_ok {w : Nat} {s : EdoString} (h : wf w s) {num : Nat} (code_point : Nat)
    (hmax : num < MaxSize w) :
    ∃ s2, Resize w s num code_point = .ok s2 ∧ wf w s2 ∧ s2.d_cpLength = num ∧
      (num < s.d_cpLength → s2.codePoints = s.codePoints.take num) ∧
      (s.d_cpLength ≤ num →
        s2.codePoints = s.codePoints ++ List.replicate (num - s.d_cpLength) code_point) ∧
      s2.ptr[s2.d_cpLength]? = some 0 := by
  have hb := MaxSize_bound hmax
  have hp := ptr_length h
  have hr := h.2.2.2.1
  unfold Resize
  by_cases hlt : num < s.d_cpLength
  · rw [if_pos hlt]
    obtain ⟨s2, hs2, hw2, hl2, hr2, hp2⟩ := SetLen_ok h (show num + 1 ≤ s.d_reserve by omega)
      hmax
    refine ⟨s2, hs2, hw2, hl2, fun _ => ?_, fun hge => absurd hlt (by omega), ?_⟩
    · unfold codePoints
      rw [hp2, hl2, take_set_drop s.ptr num 0 (by omega),
        List.take_append_of_le_length (by simp; omega), List.take_take, List.take_take]
      congr 1
      omega
    · rw [hp2, hl2]
      simp [List.getElem?_set]
      omega
  · rw [if_neg hlt, szSub_eq (by omega) (by omega)]
    obtain ⟨s2, hs2, hw2, hl2, -, hc2, hz2⟩ := Append_rep_ok h code_point
      (show s.d_cpLength + (num - s.d_cpLength) < MaxSize w by omega)
    exact ⟨s2, hs2, hw2, by omega, fun h' => absurd h' hlt, fun _ => hc2, hz2⟩

/-! ## Outcomes of a sequence of calls -/

theorem bind_ok_inv {α β : Type} {x : Except Fault α} {f : α → Except Fault β} {b : β}
    (h : (x >>= f) = .ok b) : ∃ a, x = .ok a ∧ f a = .ok b := by
  cases x with
  | error e => exact Except.noConfusion h
  | ok a => exact ⟨a, rfl, h⟩

theorem ok_bind {α β : Type} (a : α) (f : α → Except Fault β) :
    (Except.ok a >>= f) = f a := rfl

theorem ite_bind_ok_inv {α β : Type} {c : Prop} [Decidable c] {x : Except Fault α} {a : α}
    {f : α → Except Fault β} {b : β}
    (h : (if c then x >>= f else pure a >>= f) = .ok b) :
    ∃ y, (x = .ok y ∨ y = a) ∧ f y = .ok b := by
  by_cases hc : c
  · rw [if_pos hc] at h
    obtain ⟨y, h1, h2⟩ := bind_ok_inv h
    exact ⟨y, Or.inl h1, h2⟩
  · rw [if_neg hc] at h
    exact ⟨a, Or.inr rfl, h⟩

theorem bind_error_inv {α β : Type} {x : Except Fault α} {f : α → Except Fault β} {e : Fault}
    (h : (x >>= f) = .error e) : x = .error e ∨ ∃ a, x = .ok a ∧ f a = .error e := by
  cases x with
  | error e1 =>
    left
    have h' : (Except.error e1 : Except Fault β) = .error e := h
    rw [Except.error.inj h']
  | ok a => exact Or.inr ⟨a, rfl, h⟩

theorem store_ok_inv {buf b : List Nat} {i v : Nat} (h : store buf i v = .ok b) :
    i < buf.length ∧ b = buf.set i v := by
  unfold store at h
  by_cases hi : i < buf.length
  · rw [if_pos hi] at h
    exact ⟨hi, (Except.ok.inj h).symm⟩
  · rw [if_neg hi] at h
    exact Except.noConfusion h

theorem store_error_inv {buf : List Nat} {i v : Nat} {e : Fault}
    (h : store buf i v = .error e) : e = .bad_access := by
  unfold store at h
  by_cases hi : i < buf.length
  · rw [if_pos hi] at h
    exact Except.noConfusion h
  · rw [if_neg hi] at h
    exact (Except.error.inj h).symm

theorem memmove_error_inv {buf : List Nat} {dOff sOff bytes : Nat} {e : Fault}
    (h : memmove buf dOff sOff bytes = .error e) : e = .bad_access := by
  unfold memmove at h
  simp only [] at h
  split at h
  · exact Except.noConfusion h
  · exact (Except.error.inj h).symm

theorem SetLen_error_inv {s : EdoString} {len : Nat} {e : Fault}
    (h : SetLen s len = .error e) : e = .bad_access := by
  unfold SetLen at h
  rcases bind_error_inv h with h1 | ⟨b, -, h2⟩
  · exact store_error_inv h1
  · exact Except.noConfusion h2

/-! ## Length errors and range errors -/

/-- The call `Append(num, code_point)` throws the length error when the sum
`d_cpLength + num` does not wrap and is at least `MaxSize()`. -/
theorem Append_rep_too_large {w : Nat} (s : EdoString) {num : Nat} (code_point : Nat)
    (hnp : num ≠ npos w) (hsum : s.d_cpLength + num < 2 ^ w)
    (hmax : MaxSize w ≤ s.d_cpLength + num) :
    Append_rep w s num code_point = .error .length_error := by
  unfold Append_rep Grow
  rw [if_neg hnp]
  simp only [szAdd_eq hsum]
  rw [if_pos hmax]
  rfl

/-- The call `Insert(idx, num, code_point)` with `idx <= Length()` throws the
length error when the sum `d_cpLength + num` does not wrap and is at least
`MaxSize()`. -/
theorem Insert_rep_too_large {w : Nat} (s : EdoString) {idx num : Nat} (code_point : Nat)
    (hidx : idx ≤ s.d_cpLength) (hnp : num ≠ npos w) (hsum : s.d_cpLength + num < 2 ^ w)
    (hmax : MaxSize w ≤ s.d_cpLength + num) :
    Insert_rep w s idx num code_point = .error .length_error := by
  unfold Insert_rep Grow
  rw [if_neg (by omega), if_neg hnp]
  simp only [szAdd_eq hsum]
  rw [if_pos hmax]
  rfl

/-! ## Assign of a C string -/

theorem copyCharsForward_ok (chars : List Nat) :
    ∀ (n : Nat) (buf : List Nat) (pt c : Nat), pt + n ≤ buf.length → c + n ≤ chars.length →
      copyCharsForward buf pt chars c n
        = .ok (buf.take pt ++ ((chars.drop c).take n).map charToUtf32 ++ buf.drop (pt + n)) := by
  intro n
  induction n with
  | zero => intro buf pt c _ _; simp [copyCharsForward]
  | succ n ih =>
    intro buf pt c hb hc
    unfold copyCharsForward store
    rw [load_ok (show c < chars.length by omega)]
    show (if pt < buf.length then Except.ok (buf.set pt (charToUtf32 chars[c]))
      else Except.error Fault.bad_access) >>= _ = _
    rw [if_pos (by omega)]
    show copyCharsForward (buf.set pt (charToUtf32 chars[c])) (pt + 1) chars (c + 1) n = _
    rw [ih _ (pt + 1) (c + 1) (by simp; omega) (by omega),
      take_set_drop buf pt _ (by omega), take_succ_drop n (show c < chars.length by omega)]
    have hl : (buf.take pt).length = pt := by simp; omega
    have e1 : (buf.take pt ++ charToUtf32 chars[c] :: buf.drop (pt + 1)).take (pt + 1)
        = buf.take pt ++ [charToUtf32 chars[c]] := by
      rw [List.take_append_eq_append_take, hl, List.take_of_length_le (by rw [hl]; omega)]
      have e0 : pt + 1 - pt = 1 := by omega
      rw [e0]
      rfl
    have e2 : (buf.take pt ++ charToUtf32 chars[c] :: buf.drop (pt + 1)).drop (pt + 1 + n)
        = buf.drop (pt + (n + 1)) := by
      rw [List.drop_append_eq_append_drop]
      rw [hl, List.drop_of_length_le (by rw [hl]; omega)]
      have e3 : pt + 1 + n - pt = n + 1 := by omega
      rw [e3]
      simp only [List.nil_append, List.drop_succ_cons, List.drop_drop]
      congr 1
      omega
    rw [e1, e2]
    simp

/-- The call `Assign(chars, chars_len)` on an array of at least `chars_len`
chars, with `chars_len` below `MaxSize()`. -/
theorem Assign_chars_ok {w : Nat} {s : EdoString} (h : wf w s) {chars : List Nat}
    {chars_len : Nat} (hcl : chars_len ≤ chars.length) (hmax : chars_len < MaxSize w) :
    ∃ s2, Assign_chars w s chars chars_len = .ok s2 ∧ wf w s2 ∧
      s2.d_cpLength = chars_len ∧
      s2.codePoints = (chars.take chars_len).map charToUtf32 ∧
      s2.ptr[s2.d_cpLength]? = some 0 := by
  obtain ⟨s1, hG, hw1, hl1, hr1, -, -⟩ := Grow_ok h hmax
  have hp1 := ptr_length hw1
  have hcopy := copyCharsForward_ok chars chars_len s1.ptr 0 0 (by omega) (by omega)
  obtain ⟨s2, hs2, hw2, hl2, -, hc2, hz2⟩ := finish hw1
    (s1.ptr.take 0 ++ ((chars.drop 0).take chars_len).map charToUtf32
      ++ s1.ptr.drop (0 + chars_len)) chars_len
    (by simp; omega) hr1 hmax
  refine ⟨s2, ?_, hw2, hl2, ?_, hz2⟩
  · unfold Assign_chars
    rw [hG]
    show (copyCharsForward s1.ptr 0 chars 0 chars_len >>= _) = _
    rw [hcopy]
    exact hs2
  · rw [hc2]
    simp only [List.take_zero, List.nil_append, List.drop_zero]
    rw [List.take_append_of_le_length (by simp; omega), List.take_of_length_le (by simp)]

/-- The call `Assign(chars, chars_len)` throws the length error when
`chars_len` is at least `MaxSize()`. -/
theorem Assign_chars_too_large {w : Nat} (s : EdoString) (chars : List Nat) {chars_len : Nat}
    (hmax : MaxSize w ≤ chars_len) :
    Assign_chars w s chars chars_len = .error .length_error := by
  unfold Assign_chars Grow
  rw [if_pos hmax]
  rfl

/-- The value of `strlen` on chars without a zero, followed by a zero. -/
theorem strlen_ok (rest : List Nat) :
    ∀ c : List Nat, (∀ x ∈ c, x ≠ 0) → strlen (c ++ 0 :: rest) = .ok c.length := by
  intro c
  induction c with
  | nil => intro _; simp [strlen]; rfl
  | cons a t ih =>
    intro hc
    have ha : a ≠ 0 := hc a (List.mem_cons_self _ _)
    have ht := ih (fun x hx => hc x (List.mem_cons_of_mem _ hx))
    show strlen (a :: (t ++ 0 :: rest)) = _
    unfold strlen
    rw [if_neg ha, ht]
    rfl

/-! ## ToUtf16 -/

theorem drop_take_cons {buf : List Nat} {source L : Nat} (hlt : source < L)
    (hL : L ≤ buf.length) :
    ∃ c, load buf source = .ok c ∧
      (buf.take L).drop source = c :: (buf.take L).drop (source + 1) := by
  have h1 : source < buf.length := by omega
  have h2 : source < (buf.take L).length := by simp; omega
  refine ⟨buf[source], load_ok h1, ?_⟩
  rw [List.drop_eq_getElem_cons h2]
  congr 1
  simp [List.getElem_take]

/-- The loop of `ToUtf16` over the code points from `source` on: it throws in
the strict form when one of them is a surrogate or above `0x10FFFF`, and
otherwise appends the units of each code point in order. -/
theorem ToUtf16_loop_spec (strict : Bool) (buf : List Nat) (L : Nat) (hL : L ≤ buf.length) :
    ∀ (n fuel source : Nat) (target : List Nat), source + n = L → n < fuel →
      ((strict = false ∨ ∀ c ∈ (buf.take L).drop source,
          ¬ ((0xD800 ≤ c ∧ c ≤ 0xDFFF) ∨ 0x10FFFF < c)) →
        ToUtf16_loop strict buf L fuel source target
          = .ok (target ++ ((buf.take L).drop source).flatMap ToUtf16_units)) ∧
      (strict = true → (∃ c ∈ (buf.take L).drop source,
          (0xD800 ≤ c ∧ c ≤ 0xDFFF) ∨ 0x10FFFF < c) →
        ToUtf16_loop strict buf L fuel source target = .error .invalid_argument) := by
  intro n
  induction n with
  | zero =>
    intro fuel source target hs hf
    have hnil : (buf.take L).drop source = [] := by
      apply List.drop_of_length_le
      simp
      omega
    obtain ⟨f, rfl⟩ : ∃ f, fuel = f + 1 := ⟨fuel - 1, by omega⟩
    constructor
    · intro _
      unfold ToUtf16_loop
      rw [if_neg (by omega), hnil]
      simp
      rfl
    · intro _ ⟨c, hc, _⟩
      rw [hnil] at hc
      exact absurd hc (List.not_mem_nil c)
  | succ n ih =>
    intro fuel source target hs hf
    obtain ⟨f, rfl⟩ : ∃ f, fuel = f + 1 := ⟨fuel - 1, by omega⟩
    obtain ⟨c, hload, hcons⟩ := drop_take_cons (show source < L by omega) hL
    have hstep := fun t => ih f (source + 1) t (by omega) (by omega)
    rw [hcons]
    unfold ToUtf16_loop
    rw [if_pos (by omega), hload]
    simp only [List.flatMap_cons, List.mem_cons, forall_eq_or_imp, exists_eq_or_imp]
    by_cases h1 : c ≤ 0x0000FFFF
    · by_cases h2 : c ≥ 0xD800 ∧ c ≤ 0xDFFF
      · have hu : ToUtf16_units c = [0x0000FFFD] := by
          unfold ToUtf16_units
          rw [if_pos h1, if_pos h2]
        rw [if_pos h1, if_pos h2]
        constructor
        · intro hok
          rcases hok with hfalse | ⟨hleg, _⟩
          · subst hfalse
            rw [if_neg (by decide), ((hstep _).1 (Or.inl rfl)), hu, List.append_assoc]
          · exact absurd (Or.inl ⟨h2.1, h2.2⟩) hleg
        · intro hstrict _
          rw [if_pos hstrict]
      · have hu : ToUtf16_units c = [toUtf16 c] := by
          unfold ToUtf16_units
          rw [if_pos h1, if_neg h2]
        rw [if_pos h1, if_neg h2]
        constructor
        · intro hok
          rw [(hstep _).1 (hok.imp id (fun h => h.2)), hu, List.append_assoc]
        · intro hstrict hex
          rcases hex with hill | hex
          · exact absurd hill (by omega)
          · exact (hstep _).2 hstrict hex
    · by_cases h3 : c > 0x0010FFFF
      · have hu : ToUtf16_units c = [0x0000FFFD] := by
          unfold ToUtf16_units
          rw [if_neg h1, if_pos h3]
        rw [if_neg h1, if_pos h3]
        constructor
        · intro hok
          rcases hok with hfalse | ⟨hleg, _⟩
          · subst hfalse
            rw [if_neg (by decide), ((hstep _).1 (Or.inl rfl)), hu, List.append_assoc]
          · exact absurd (Or.inr h3) hleg
        · intro hstrict _
          rw [if_pos hstrict]
      · have hu : ToUtf16_units c
            = [toUtf16 ((((c + (2 ^ 32 - 0x0010000)) % 2 ^ 32) >>> 10) + 0xD800),
              toUtf16 ((((c + (2 ^ 32 - 0x0010000)) % 2 ^ 32) >>> 0x3FF) + 0xDC00)] := by
          unfold ToUtf16_units
          rw [if_neg h1, if_neg h3]
        rw [if_neg h1, if_neg h3]
        constructor
        · intro hok
          rw [(hstep _).1 (hok.imp id (fun h => h.2)), hu, List.append_assoc]
        · intro hstrict hex
          rcases hex with hill | hex
          · exact absurd hill (by omega)
          · exact (hstep _).2 hstrict hex

/-- A shift of a 32-bit value by 32 or more gives 0. -/
theorem shiftRight_large {x n : Nat} (hx : x < 2 ^ 32) (hn : 32 ≤ n) : x >>> n = 0 := by
  rw [Nat.shiftRight_eq_div_pow]
  exact Nat.div_eq_of_lt (Nat.lt_of_lt_of_le hx (Nat.pow_le_pow_right (by decide) hn))

/-- The units of a code point from `0x10000` to `0x10FFFF`: the high unit of
the surrogate pair, and `0xDC00`. -/
theorem ToUtf16_units_supplementary {c : Nat} (h1 : 0x10000 ≤ c) (h2 : c ≤ 0x10FFFF) :
    ToUtf16_units c = [0xD800 + (c - 0x10000) / 1024, 0xDC00] := by
  unfold ToUtf16_units toUtf16
  rw [if_neg (by omega), if_neg (by omega)]
  have e : (c + (2 ^ 32 - 0x0010000)) % 2 ^ 32 = c - 0x10000 := by omega
  have e1 : c - 0x10000 < 2 ^ 32 := by omega
  rw [e, shiftRight_large e1 (show 32 ≤ 0x3FF by decide), Nat.shiftRight_eq_div_pow]
  have e3 : (c - 0x10000) / 2 ^ 10 < 1024 := by omega
  have e4 : ((c - 0x10000) / 2 ^ 10 + 0xD800) % 65536 = 0xD800 + (c - 0x10000) / 1024 := by
    omega
  rw [e4]

/-- The units of a code point that is at most `0xFFFF` and no surrogate: the
code point. -/
theorem ToUtf16_units_bmp {c : Nat} (h1 : c ≤ 0xFFFF) (h2 : ¬ (0xD800 ≤ c ∧ c ≤ 0xDFFF)) :
    ToUtf16_units c = [c] := by
  unfold ToUtf16_units toUtf16
  rw [if_pos h1, if_neg h2, Nat.mod_eq_of_lt (by omega)]

/-- The units of a surrogate or of a value above `0x10FFFF`: `0xFFFD`. -/
theorem ToUtf16_units_illegal {c : Nat} (h : (0xD800 ≤ c ∧ c ≤ 0xDFFF) ∨ 0x10FFFF < c) :
    ToUtf16_units c = [0xFFFD] := by
  unfold ToUtf16_units
  rcases h with h | h
  · rw [if_pos (by omega), if_pos h]
  · rw [if_neg (by omega), if_pos h]

/-! ## The codec loops on a long run of one ASCII value -/

theorem uintSucc_lt (idx : Nat) : uintSucc idx < 2 ^ 32 := by
  unfold uintSucc
  exact Nat.mod_lt _ (by decide)

/-- With a source of at least `2 ^ 32` code units the test `idx < src_len` on
the `unsigned int idx` always holds; when every unit that `idx` can reach is
the ASCII value `a`, the loop of the encoder writes `a` until the capacity is
used up. -/
theorem Encode_utf32_loop_uniform {w : Nat} {src : List Nat} {src_len a : Nat}
    (ha : a < 0x80) (hsrc : ∀ i, i < 2 ^ 32 → load src i = .ok a) (hlen : 2 ^ 32 ≤ src_len) :
    ∀ (cap fuel idx : Nat) (dest : List Nat) (dp : Nat),
      cap < fuel → idx < 2 ^ 32 → cap < 2 ^ w →
      Encode_utf32_loop w src src_len fuel idx dest dp cap
        = (fillForward dest dp a cap).map (fun d => (d, 0)) := by
  intro cap
  induction cap with
  | zero =>
    intro fuel idx dest dp hf hidx _
    obtain ⟨f, rfl⟩ : ∃ f, fuel = f + 1 := ⟨fuel - 1, by omega⟩
    unfold Encode_utf32_loop
    rw [if_pos (by omega), hsrc idx hidx]
    have he : EncodedSize_cp a = 1 := by unfold EncodedSize_cp; rw [if_pos ha]
    show (if 0 < EncodedSize_cp a then _ else _) = _
    rw [if_pos (by omega)]
    rfl
  | succ cap ih =>
    intro fuel idx dest dp hf hidx hw
    obtain ⟨f, rfl⟩ : ∃ f, fuel = f + 1 := ⟨fuel - 1, by omega⟩
    unfold Encode_utf32_loop
    rw [if_pos (by omega), hsrc idx hidx]
    have he : EncodedSize_cp a = 1 := by unfold EncodedSize_cp; rw [if_pos ha]
    have ht : toUtf8 a = a := by unfold toUtf8; omega
    show (if cap + 1 < EncodedSize_cp a then _ else if a < 0x80 then _ else _) = _
    rw [if_neg (by omega), if_pos ha, ht, szSub_eq (by omega) hw]
    unfold fillForward
    cases hst : store dest dp a with
    | error e => rfl
    | ok d1 =>
      show Encode_utf32_loop w src src_len f (uintSucc idx) d1 (dp + 1) (cap + 1 - 1) = _
      rw [Nat.add_sub_cancel, ih f (uintSucc idx) d1 (dp + 1) (by omega) (uintSucc_lt idx)
        (by omega)]
      rfl

/-- The same for the loop of the decoder: every iteration reads the ASCII
value `a` and stores it, until the capacity is used up. -/
theorem Encode_utf8_loop_uniform {w : Nat} {src : List Nat} {src_len a : Nat}
    (ha : a < 0x80) (hsrc : ∀ i, i < 2 ^ 32 → load src i = .ok a) (hlen : 2 ^ 32 ≤ src_len) :
    ∀ (cap fuel idx : Nat) (dest : List Nat) (dp : Nat),
      cap < fuel → idx < 2 ^ 32 → cap < 2 ^ w →
      Encode_utf8_loop w src src_len fuel idx dest dp cap
        = (fillForward dest dp a cap).map (fun d => (d, 0)) := by
  intro cap
  induction cap with
  | zero =>
    intro fuel idx dest dp hf hidx _
    obtain ⟨f, rfl⟩ : ∃ f, fuel = f + 1 := ⟨fuel - 1, by omega⟩
    unfold Encode_utf8_loop
    rw [if_neg (by omega)]
    rfl
  | succ cap ih =>
    intro fuel idx dest dp hf hidx hw
    obtain ⟨f, rfl⟩ : ∃ f, fuel = f + 1 := ⟨fuel - 1, by omega⟩
    unfold Encode_utf8_loop
    rw [if_pos ⟨by omega, by omega⟩, hsrc idx hidx]
    show (if a < 0x80 then _ else _) = _
    rw [if_pos ha, szSub_eq (by omega) hw]
    unfold fillForward
    cases hst : store dest dp a with
    | error e => rfl
    | ok d1 =>
      show Encode_utf8_loop w src src_len f (uintSucc idx) d1 (dp + 1) (cap + 1 - 1) = _
      rw [Nat.add_sub_cancel, ih f (uintSucc idx) d1 (dp + 1) (by omega) (uintSucc_lt idx)
        (by omega)]
      rfl

/-- The encoder on a source of at least `2 ^ 32` code units whose units within
reach of `idx` are the ASCII value `a`: it returns `dest_len` units, all `a`. -/
theorem Encode_utf32_uniform {w : Nat} {src : List Nat} {src_len a : Nat}
    (ha : a < 0x80) (hsrc : ∀ i, i < 2 ^ 32 → load src i = .ok a) (hlen : 2 ^ 32 ≤ src_len)
    (dest : List Nat) {dp dest_len : Nat} (hd : dp + dest_len ≤ dest.length)
    (hw : dest_len < 2 ^ w) :
    Encode_utf32 w src dest dp dest_len src_len
      = .ok (dest.take dp ++ List.replicate dest_len a ++ dest.drop (dp + dest_len),
          dest_len) := by
  unfold Encode_utf32
  rw [if_neg (by omega)]
  show (Encode_utf32_loop w src src_len (dest_len + 1) 0 dest dp dest_len >>= _) = _
  rw [Encode_utf32_loop_uniform ha hsrc hlen dest_len (dest_len + 1) 0 dest dp (by omega)
    (by decide) hw, fillForward_ok a dest_len dest dp hd]
  show Except.ok (_, szSub w dest_len 0) = _
  rw [szSub_eq (by omega) hw]
  rfl

/-- The decoder on a source of at least `2 ^ 32` code units whose units within
reach of `idx` are the ASCII value `a`: it returns `dest_len` code points, all
`a`. -/
theorem Encode_utf8_uniform {w : Nat} {src : List Nat} {src_len a : Nat}
    (ha : a < 0x80) (hsrc : ∀ i, i < 2 ^ 32 → load src i = .ok a) (hlen : 2 ^ 32 ≤ src_len)
    (dest : List Nat) {dp dest_len : Nat} (hd : dp + dest_len ≤ dest.length)
    (hw : dest_len < 2 ^ w) :
    Encode_utf8 w src dest dp dest_len src_len
      = .ok (dest.take dp ++ List.replicate dest_len a ++ dest.drop (dp + dest_len),
          dest_len) := by
  unfold Encode_utf8
  rw [if_neg (by omega)]
  show (Encode_utf8_loop w src src_len (dest_len + 1) 0 dest dp dest_len >>= _) = _
  rw [Encode_utf8_loop_uniform ha hsrc hlen dest_len (dest_len + 1) 0 dest dp (by omega)
    (by decide) hw, fillForward_ok a dest_len dest dp hd]
  show Except.ok (_, szSub w dest_len 0) = _
  rw [szSub_eq (by omega) hw]
  rfl

theorem load_replicate_append (n a : Nat) (r : List Nat) {i : Nat} (hi : i < n) :
    load (List.replicate n a ++ r) i = .ok a := by
  unfold load
  rw [List.getElem?_append_left (by rw [List.length_replicate]; exact hi),
    List.getElem?_replicate, if_pos hi]

theorem replicate_succ_append_ne {a b : Nat} (hab : a ≠ b) (r1 r2 : List Nat) :
    ∀ n : Nat, List.replicate (n + 1) a ++ r1 ≠ List.replicate n a ++ b :: r2 := by
  intro n
  induction n with
  | zero =>
    intro h
    exact hab (List.cons.inj h).1
  | succ n ih =>
    intro h
    rw [List.replicate_succ (n := n + 1), List.replicate_succ (n := n)] at h
    exact ih (List.cons.inj h).2

theorem fill_whole (n a : Nat) :
    (List.replicate n 0).take 0 ++ List.replicate n a ++ (List.replicate n 0).drop (0 + n)
      = List.replicate n a := by
  rw [List.take_zero, List.nil_append, List.drop_of_length_le (by simp), List.append_nil]

/-! ## Append of UTF-8 data and the UTF-8 buffer, on a long run of one ASCII value -/

/-- The count of `EncodedSize(const utf8 *, len)` on ASCII code units: one
code point for each. -/
theorem EncodedSize_utf8_ascii {w : Nat} (buf : List Nat) :
    ∀ (len fuel p count : Nat), len < fuel →
      (∀ i, i < len → ∃ c, load buf (p + i) = .ok c ∧ c < 0x80) → count + len < 2 ^ w →
      EncodedSize_utf8_loop w buf fuel p len count = .ok (count + len) := by
  intro len
  induction len with
  | zero =>
    intro fuel p count hf _ _
    obtain ⟨f, rfl⟩ : ∃ f, fuel = f + 1 := ⟨fuel - 1, by omega⟩
    unfold EncodedSize_utf8_loop
    rw [if_neg (by omega)]
    rfl
  | succ len ih =>
    intro fuel p count hf hb hw
    obtain ⟨f, rfl⟩ : ∃ f, fuel = f + 1 := ⟨fuel - 1, by omega⟩
    obtain ⟨c, hc, hlt⟩ := hb 0 (by omega)
    rw [Nat.add_zero] at hc
    unfold EncodedSize_utf8_loop
    rw [if_pos (by omega), hc]
    show (if szSub w (len + 1) 1 ≥ (if c < 0x80 then 0 else _) then _ else _) = _
    rw [if_pos hlt, szSub_eq (by omega) (by omega), if_pos (by omega),
      szAdd_eq (by omega), Nat.add_sub_cancel, szSub_eq (by omega) (by omega), Nat.sub_zero]
    rw [ih f (p + 1 + 0) (count + 1) (by omega) (fun i hi => by
      obtain ⟨c2, h1, h2⟩ := hb (i + 1) (by omega)
      refine ⟨c2, ?_, h2⟩
      rw [← h1]
      congr 1
      omega) (by omega)]
    congr 1
    omega

/-- The count of `EncodedSize(const utf32 *, len)` on ASCII code points: one
code unit for each. -/
theorem EncodedSize_utf32_ascii {w : Nat} (buf : List Nat) :
    ∀ (len p count : Nat),
      (∀ i, i < len → ∃ c, load buf (p + i) = .ok c ∧ c < 0x80) → count + len < 2 ^ w →
      EncodedSize_utf32_loop w buf p count len = .ok (count + len) := by
  intro len
  induction len with
  | zero =>
    intro p count _ _
    unfold EncodedSize_utf32_loop
    rfl
  | succ len ih =>
    intro p count hb hw
    obtain ⟨c, hc, hlt⟩ := hb 0 (by omega)
    rw [Nat.add_zero] at hc
    unfold EncodedSize_utf32_loop
    rw [hc]
    have he : EncodedSize_cp c = 1 := by unfold EncodedSize_cp; rw [if_pos hlt]
    show EncodedSize_utf32_loop w buf (p + 1) (szAdd w count (EncodedSize_cp c)) len = _
    rw [he, szAdd_eq (by omega), ih (p + 1) (count + 1) (fun i hi => by
      obtain ⟨c2, h1, h2⟩ := hb (i + 1) (by omega)
      refine ⟨c2, ?_, h2⟩
      rw [← h1]
      congr 1
      omega) (by omega)]
    congr 1
    omega

theorem setPtr_encoded (s : EdoString) (b : List Nat) :
    (s.setPtr b).d_encodedBuffLen = s.d_encodedBuffLen := by
  unfold setPtr; split <;> rfl

theorem SetLen_encoded {s t : EdoString} {len : Nat} (h : SetLen s len = .ok t) :
    t.d_encodedBuffLen = s.d_encodedBuffLen := by
  unfold SetLen at h
  obtain ⟨buf, -, h2⟩ := bind_ok_inv h
  rw [← Except.ok.inj h2, setPtr_encoded]

theorem Grow_encoded {w : Nat} {s s1 : EdoString} {n : Nat} (h : Grow w s n = .ok s1) :
    s1.d_encodedBuffLen = s.d_encodedBuffLen := by
  unfold Grow at h
  split at h
  · exact Except.noConfusion h
  · simp only [] at h
    split at h
    · obtain ⟨temp, -, h2⟩ := bind_ok_inv h
      rw [← Except.ok.inj h2]
    · rw [← Except.ok.inj h]

theorem Init_encoded {s0 : EdoString} (h : Init = .ok s0) : s0.d_encodedBuffLen = 0 := by
  unfold Init at h
  rw [SetLen_encoded h]

/-- The call `Append(utf8_str, len)` with at least `2 ^ 32` ASCII code units,
those within reach of the `unsigned int` index being `a`: the string grows by
`len` code points, all `a`. -/
theorem Append_utf8_uniform {w : Nat} {s : EdoString} (h : wf w s) {utf8_str : List Nat}
    {len a : Nat} (ha : a < 0x80) (hsrc : ∀ i, i < 2 ^ 32 → load utf8_str i = .ok a)
    (hall : ∀ i, i < len → ∃ c, load utf8_str i = .ok c ∧ c < 0x80)
    (hlen : 2 ^ 32 ≤ len) (hmax : s.d_cpLength + len < MaxSize w) :
    ∃ s2, Append_utf8 w s utf8_str len = .ok s2 ∧ wf w s2 ∧
      s2.d_cpLength = s.d_cpLength + len ∧
      s2.codePoints = s.codePoints ++ List.replicate len a ∧
      s2.d_encodedBuffLen = s.d_encodedBuffLen := by
  have hb := MaxSize_bound hmax
  obtain ⟨s1, hG, hw1, hl1, hr1, hmono, hkeep⟩ := Grow_ok h hmax
  have hp1 := ptr_length hw1
  have hsize : EncodedSize_utf8 w utf8_str len = .ok len := by
    unfold EncodedSize_utf8
    rw [EncodedSize_utf8_ascii utf8_str len (len + 1) 0 0 (by omega)
      (fun i hi => by rw [Nat.zero_add]; exact hall i hi) (by omega), Nat.zero_add]
  obtain ⟨s2, hs2, hw2, hl2, hr2, hc2, hz2⟩ := finish hw1
    (s1.ptr.take s.d_cpLength ++ List.replicate len a
      ++ s1.ptr.drop (s.d_cpLength + len))
    (s.d_cpLength + len) (by simp; omega) hr1 hmax
  have e : Append_utf8 w s utf8_str len = .ok s2 := by
    unfold Append_utf8
    rw [if_neg (by unfold npos; omega), hsize]
    show (Grow w s (szAdd w s.d_cpLength len) >>= _) = _
    rw [szAdd_eq (by omega), hG]
    show (Encode_utf8 w utf8_str s1.ptr s1.d_cpLength len len >>= _) = _
    rw [hl1, Encode_utf8_uniform ha hsrc hlen s1.ptr (by omega) (by omega)]
    exact hs2
  refine ⟨s2, e, hw2, hl2, ?_, ?_⟩
  · rw [hc2]
    have e : s.d_cpLength + len
        = (s1.ptr.take s.d_cpLength ++ List.replicate len a).length := by
      simp; omega
    nth_rewrite 1 [e]
    rw [List.take_left]
    have hk2 : s1.ptr.take s.d_cpLength = s.ptr.take s.d_cpLength := by
      have := congrArg (List.take s.d_cpLength) hkeep
      simpa [List.take_take] using this
    rw [hk2]
    rfl
  · rw [SetLen_encoded hs2, setPtr_encoded, Grow_encoded hG]

theorem set_last_replicate (n a : Nat) :
    (List.replicate (n + 1) a).set n 0 = List.replicate n a ++ [0] := by
  rw [take_set_drop _ n 0 (by simp), List.take_replicate, List.drop_replicate,
    Nat.min_eq_left (Nat.le_succ n), Nat.sub_self]
  rfl

/-- The call `BuildUtf8Buff()` on a string of at least `2 ^ 32` code points,
all the ASCII value `a`, that has no UTF-8 buffer yet: the buffer is `a` for
each code point, and the terminator. -/
theorem BuildUtf8Buff_uniform {w : Nat} {s : EdoString} (h : wf w s) {a : Nat}
    (ha : a < 0x80) (hcp : s.codePoints = List.replicate s.d_cpLength a)
    (hlen : 2 ^ 32 ≤ s.d_cpLength) (hbuf : s.d_encodedBuffLen = 0) :
    c_str w s = .ok (List.replicate s.d_cpLength a ++ [0]) := by
  have hb := MaxSize_bound h.2.2.2.2
  have hp := ptr_length h
  have hr := h.2.2.2.1
  have hload : ∀ i, i < s.d_cpLength → load s.ptr i = .ok a := by
    intro i hi
    have e : s.codePoints[i]? = some a := by
      rw [hcp, List.getElem?_replicate, if_pos hi]
    unfold codePoints at e
    rw [List.getElem?_take_of_lt hi] at e
    unfold load
    rw [e]
  have hsize : EncodedSize_utf32 w s.ptr s.d_cpLength = .ok s.d_cpLength := by
    unfold EncodedSize_utf32
    rw [EncodedSize_utf32_ascii s.ptr s.d_cpLength 0 0
      (fun i hi => ⟨a, by rw [Nat.zero_add]; exact hload i hi, ha⟩) (by omega), Nat.zero_add]
  have henc : Encode_utf32 w s.ptr (newUtf8Array (s.d_cpLength + 1)) 0 (s.d_cpLength + 1)
      s.d_cpLength = .ok (List.replicate (s.d_cpLength + 1) a, s.d_cpLength + 1) := by
    rw [Encode_utf32_uniform ha (fun i hi => hload i (by omega)) hlen
      (newUtf8Array (s.d_cpLength + 1)) (by unfold newUtf8Array; simp) (by omega)]
    unfold newUtf8Array
    rw [fill_whole]
  unfold c_str BuildUtf8Buff
  rw [hsize]
  show (Encode_utf32 w _ _ 0 (szAdd w s.d_cpLength 1) _ >>= _) >>= _ = _
  rw [szAdd_eq (by omega), hbuf, if_pos (by omega)]
  show (Encode_utf32 w s.ptr (newUtf8Array (s.d_cpLength + 1)) 0 (s.d_cpLength + 1)
    s.d_cpLength >>= _) >>= _ = _
  rw [henc]
  show (store (List.replicate (s.d_cpLength + 1) a) (szSub w (s.d_cpLength + 1) 1) 0 >>= _)
    >>= _ = _
  rw [szSub_eq (by omega) (by omega), Nat.add_sub_cancel]
  unfold store
  rw [if_pos (by simp), set_last_replicate]
  rfl

/-! ## The capacity invariant -/

theorem capInv_wf {w : Nat} {s : EdoString} (h : capInv w s) : wf w s :=
  ⟨h.1, h.2.1, h.2.2.1, h.2.2.2.1, by have := h.2.2.2.1; have := h.2.2.2.2; omega⟩

theorem store_length {buf b : List Nat} {i v : Nat} (h : store buf i v = .ok b) :
    b.length = buf.length := by
  rw [(store_ok_inv h).2, List.length_set]

theorem memcpy_length {dest src r : List Nat} {dOff sOff bytes : Nat}
    (h : memcpy dest dOff src sOff bytes = .ok r) : r.length = dest.length := by
  unfold memcpy at h
  simp only [] at h
  split at h
  · rename_i hc
    rw [← Except.ok.inj h]
    simp only [List.length_append, List.length_take, List.length_drop]
    generalize bytes / SIZEOF_UTF32 = n at hc ⊢
    omega
  · exact Except.noConfusion h

theorem memmove_length {buf r : List Nat} {dOff sOff bytes : Nat}
    (h : memmove buf dOff sOff bytes = .ok r) : r.length = buf.length := by
  unfold memmove at h
  simp only [] at h
  split at h
  · rename_i hc
    rw [← Except.ok.inj h]
    simp only [List.length_append, List.length_take, List.length_drop]
    generalize bytes / SIZEOF_UTF32 = n at hc ⊢
    omega
  · exact Except.noConfusion h

theorem fillBackward_length (w cp : Nat) :
    ∀ (n : Nat) (buf r : List Nat) (pt : Nat), fillBackward w buf pt cp n = .ok r →
      r.length = buf.length := by
  intro n
  induction n with
  | zero =>
    intro buf r pt h
    unfold fillBackward at h
    rw [← Except.ok.inj h]
  | succ n ih =>
    intro buf r pt h
    unfold fillBackward at h
    obtain ⟨b1, h1, h2⟩ := bind_ok_inv h
    rw [ih _ _ _ h2, store_length h1]

theorem fillForward_length (cp : Nat) :
    ∀ (n : Nat) (buf r : List Nat) (p : Nat), fillForward buf p cp n = .ok r →
      r.length = buf.length := by
  intro n
  induction n with
  | zero =>
    intro buf r p h
    unfold fillForward at h
    rw [← Except.ok.inj h]
  | succ n ih =>
    intro buf r p h
    unfold fillForward at h
    obtain ⟨b1, h1, h2⟩ := bind_ok_inv h
    rw [ih _ _ _ h2, store_length h1]

theorem copyCharsBackward_length (w : Nat) (chars : List Nat) (off : Nat) :
    ∀ (n : Nat) (buf r : List Nat) (pt : Nat),
      copyCharsBackward w buf pt chars off n = .ok r → r.length = buf.length := by
  intro n
  induction n with
  | zero =>
    intro buf r pt h
    unfold copyCharsBackward at h
    rw [← Except.ok.inj h]
  | succ n ih =>
    intro buf r pt h
    unfold copyCharsBackward at h
    obtain ⟨c, -, h⟩ := bind_ok_inv h
    obtain ⟨b1, h1, h2⟩ := bind_ok_inv h
    rw [ih _ _ _ h2, store_length h1]

theorem copyCharsForward_length (chars : List Nat) :
    ∀ (n : Nat) (buf r : List Nat) (pt c : Nat),
      copyCharsForward buf pt chars c n = .ok r → r.length = buf.length := by
  intro n
  induction n with
  | zero =>
    intro buf r pt c h
    unfold copyCharsForward at h
    rw [← Except.ok.inj h]
  | succ n ih =>
    intro buf r pt c h
    unfold copyCharsForward at h
    obtain ⟨v, -, h⟩ := bind_ok_inv h
    obtain ⟨b1, h1, h2⟩ := bind_ok_inv h
    rw [ih _ _ _ _ h2, store_length h1]

theorem capInv_ptr_length {w : Nat} {s : EdoString} (h : capInv w s) :
    s.ptr.length = s.d_reserve := ptr_length (capInv_wf h)

theorem setPtr_cap {w : Nat} {s : EdoString} (h : capInv w s) {b : List Nat}
    (hb : b.length = s.ptr.length) : capInv w (s.setPtr b) := by
  have hp := capInv_ptr_length h
  obtain ⟨hq, hr, hbuf, hl, hm⟩ := h
  unfold setPtr
  split
  · exact ⟨hq, hr, fun _ => by rw [hb, hp], hl, hm⟩
  · refine ⟨?_, hr, hbuf, hl, hm⟩
    show b.length = STR_QUICKBUFF_SIZE
    omega

/-- The function `SetLen` returns only when the slot `len` is inside the
buffer, so that the reserve holds the new length and the terminator. -/
theorem SetLen_cap {w : Nat} {s t : EdoString} {len : Nat} (h : capInv w s)
    (hs : SetLen s len = .ok t) : capInv w t ∧ t.d_cpLength = len := by
  have hp := capInv_ptr_length h
  unfold SetLen at hs
  obtain ⟨buf, h1, h2⟩ := bind_ok_inv hs
  have hp1 : ({ s with d_cpLength := len } : EdoString).ptr = s.ptr := rfl
  rw [hp1] at h1
  have hlt := (store_ok_inv h1).1
  have hlen := store_length h1
  have hc1 : capInv w { s with d_cpLength := len } :=
    ⟨h.1, h.2.1, h.2.2.1, by show len + 1 ≤ s.d_reserve; omega, h.2.2.2.2⟩
  rw [← Except.ok.inj h2]
  exact ⟨setPtr_cap hc1 (by rw [hp1]; exact hlen), d_cpLength_setPtr _ _⟩

/-- The function `Grow` returns only for `new_size < MaxSize()`, with a reserve
that holds `new_size` code points and the terminator and is at most
`MaxSize()`. -/
theorem Grow_cap {w : Nat} {s s1 : EdoString} {n : Nat} (h : capInv w s)
    (hG : Grow w s n = .ok s1) :
    capInv w s1 ∧ s1.d_cpLength = s.d_cpLength ∧ n + 1 ≤ s1.d_reserve := by
  obtain ⟨hq, hr, hbuf, hl, hm⟩ := h
  unfold Grow at hG
  by_cases hmax : MaxSize w ≤ n
  · rw [if_pos hmax] at hG
    exact Except.noConfusion hG
  · rw [if_neg hmax] at hG
    have hb := MaxSize_bound (Nat.lt_of_not_le hmax)
    simp only [] at hG
    rw [szAdd_eq (by omega)] at hG
    by_cases hgt : n + 1 > s.d_reserve
    · rw [if_pos hgt] at hG
      obtain ⟨temp, h1, h2⟩ := bind_ok_inv hG
      have hlen := memcpy_length h1
      rw [← Except.ok.inj h2]
      refine ⟨⟨hq, ?_, fun _ => ?_, ?_, ?_⟩, rfl, le_refl _⟩
      · show STR_QUICKBUFF_SIZE ≤ n + 1
        omega
      · show temp.length = n + 1
        rw [hlen]
        simp [newArray]
      · show s.d_cpLength + 1 ≤ n + 1
        omega
      · show n + 1 ≤ MaxSize w
        omega
    · rw [if_neg hgt] at hG
      rw [← Except.ok.inj hG]
      exact ⟨⟨hq, hr, hbuf, hl, hm⟩, rfl, by omega⟩

/-- The pattern that ends the operations that add code points: after
`Grow(newSize)` the buffer in use is overwritten by one of the same size and
`SetLen(newSize)` is called. -/
theorem finish_cap {w : Nat} {s s1 t : EdoString} {newSize : Nat} {b : List Nat}
    (h : capInv w s) (hG : Grow w s newSize = .ok s1) (hb : b.length = s1.ptr.length)
    (hs : SetLen (s1.setPtr b) newSize = .ok t) : capInv w t :=
  (SetLen_cap (setPtr_cap (Grow_cap h hG).1 hb) hs).1

theorem Init_cap {w : Nat} {s : EdoString} (hq : STR_QUICKBUFF_SIZE ≤ MaxSize w)
    (h : Init = .ok s) : capInv w s := by
  unfold Init at h
  refine (SetLen_cap ⟨?_, le_refl _, fun hlt => absurd hlt (lt_irrefl _), ?_, hq⟩ h).1
  · show (newArray STR_QUICKBUFF_SIZE).length = STR_QUICKBUFF_SIZE
    simp [newArray]
  · show 0 + 1 ≤ STR_QUICKBUFF_SIZE
    decide

theorem Trim_cap {w : Nat} {s t : EdoString} (h : capInv w s) (hT : Trim w s = .ok t) :
    capInv w t := by
  obtain ⟨hq, hr, hbuf, hl, hm⟩ := h
  have hb : s.d_cpLength + 1 < 2 ^ w := by
    have : s.d_cpLength < MaxSize w := by omega
    have := MaxSize_bound this
    omega
  unfold Trim at hT
  simp only [] at hT
  rw [szAdd_eq hb] at hT
  by_cases hc : s.d_reserve > STR_QUICKBUFF_SIZE ∧ s.d_reserve > s.d_cpLength + 1
  · rw [if_pos hc] at hT
    by_cases hmin : s.d_cpLength + 1 ≤ STR_QUICKBUFF_SIZE
    · rw [if_pos hmin] at hT
      obtain ⟨q, h1, h2⟩ := bind_ok_inv hT
      have hlen := memcpy_length h1
      rw [← Except.ok.inj h2]
      refine ⟨?_, le_refl _, fun hlt => absurd hlt (lt_irrefl _), hmin, ?_⟩
      · show q.length = STR_QUICKBUFF_SIZE
        omega
      · show STR_QUICKBUFF_SIZE ≤ MaxSize w
        omega
    · rw [if_neg hmin] at hT
      obtain ⟨temp, h1, h2⟩ := bind_ok_inv hT
      have hlen := memcpy_length h1
      rw [← Except.ok.inj h2]
      refine ⟨hq, ?_, fun _ => ?_, le_refl _, ?_⟩
      · show STR_QUICKBUFF_SIZE ≤ s.d_cpLength + 1
        omega
      · show temp.length = s.d_cpLength + 1
        rw [hlen]
        simp [newArray]
      · show s.d_cpLength + 1 ≤ MaxSize w
        omega
  · rw [if_neg hc] at hT
    rw [← Except.ok.inj hT]
    exact ⟨hq, hr, hbuf, hl, hm⟩

theorem Insert_str_cap {w : Nat} {s t : EdoString} {idx : Nat} {str : EdoString}
    {str_idx str_num : Nat} (h : capInv w s)
    (hI : Insert_str w s idx str str_idx str_num = .ok t) : capInv w t := by
  unfold Insert_str at hI
  split at hI
  · exact Except.noConfusion hI
  · simp only [] at hI
    obtain ⟨s1, hG, hI⟩ := bind_ok_inv hI
    obtain ⟨b1, h1, hI⟩ := bind_ok_inv hI
    obtain ⟨b2, h2, hI⟩ := bind_ok_inv hI
    exact finish_cap h hG (by rw [memcpy_length h2, memmove_length h1]) hI

theorem Insert_std_cap {w : Nat} {s t : EdoString} {idx : Nat} {std_str : List Nat}
    {str_idx str_num : Nat} (h : capInv w s)
    (hI : Insert_std w s idx std_str str_idx str_num = .ok t) : capInv w t := by
  unfold Insert_std at hI
  split at hI
  · exact Except.noConfusion hI
  · split at hI
    · exact Except.noConfusion hI
    · simp only [] at hI
      obtain ⟨s1, hG, hI⟩ := bind_ok_inv hI
      obtain ⟨b1, h1, hI⟩ := bind_ok_inv hI
      obtain ⟨b2, h2, hI⟩ := bind_ok_inv hI
      exact finish_cap h hG
        (by rw [copyCharsBackward_length _ _ _ _ _ _ _ h2, memmove_length h1]) hI

theorem Insert_rep_cap {w : Nat} {s t : EdoString} {idx num code_point : Nat}
    (h : capInv w s) (hI : Insert_rep w s idx num code_point = .ok t) : capInv w t := by
  unfold Insert_rep at hI
  split at hI
  · exact Except.noConfusion hI
  · split at hI
    · exact Except.noConfusion hI
    · simp only [] at hI
      obtain ⟨s1, hG, hI⟩ := bind_ok_inv hI
      obtain ⟨b1, h1, hI⟩ := bind_ok_inv hI
      obtain ⟨b2, h2, hI⟩ := bind_ok_inv hI
      exact finish_cap h hG
        (by rw [fillBackward_length _ _ _ _ _ _ h2, memmove_length h1]) hI

theorem Insert_chars_cap {w : Nat} {s t : EdoString} {idx : Nat} {chars : List Nat}
    {chars_len : Nat} (h : capInv w s)
    (hI : Insert_chars w s idx chars chars_len = .ok t) : capInv w t := by
  unfold Insert_chars at hI
  split at hI
  · exact Except.noConfusion hI
  · split at hI
    · exact Except.noConfusion hI
    · simp only [] at hI
      obtain ⟨s1, hG, hI⟩ := bind_ok_inv hI
      obtain ⟨b1, h1, hI⟩ := bind_ok_inv hI
      obtain ⟨b2, h2, hI⟩ := bind_ok_inv hI
      exact finish_cap h hG
        (by rw [copyCharsBackward_length _ _ _ _ _ _ _ h2, memmove_length h1]) hI

/-- The function `Erase` returns only when `SetLen` found the slot of the new
length inside the buffer, whatever the count was. -/
theorem Erase_cap {w : Nat} {s t : EdoString} {idx len : Nat} (h : capInv w s)
    (hI : Erase w s idx len = .ok t) : capInv w t := by
  unfold Erase at hI
  split at hI
  · rw [← Except.ok.inj hI]
    exact h
  · split at hI
    · exact Except.noConfusion hI
    · simp only [] at hI
      obtain ⟨b1, h1, hI⟩ := bind_ok_inv hI
      exact (SetLen_cap (setPtr_cap h (memmove_length h1)) hI).1

theorem Replace_str_cap {w : Nat} {s t : EdoString} {idx len : Nat} {str : EdoString}
    {str_idx str_num : Nat} (h : capInv w s)
    (hI : Replace_str w s idx len str str_idx str_num = .ok t) : capInv w t := by
  unfold Replace_str at hI
  split at hI
  · exact Except.noConfusion hI
  · simp only [] at hI
    obtain ⟨s1, hG, hI⟩ := bind_ok_inv hI
    obtain ⟨b1, h1, hI⟩ := ite_bind_ok_inv hI
    obtain ⟨b2, h2, hI⟩ := bind_ok_inv hI
    have hb1 : b1.length = s1.ptr.length := by
      rcases h1 with h1 | h1
      · exact memmove_length h1
      · rw [h1]
    exact finish_cap h hG (by rw [memcpy_length h2, hb1]) hI

theorem Replace_rep_cap {w : Nat} {s t : EdoString} {idx len num code_point : Nat}
    (h : capInv w s) (hI : Replace_rep w s idx len num code_point = .ok t) : capInv w t := by
  unfold Replace_rep at hI
  split at hI
  · exact Except.noConfusion hI
  · split at hI
    · exact Except.noConfusion hI
    · simp only [] at hI
      obtain ⟨s1, hG, hI⟩ := bind_ok_inv hI
      obtain ⟨b1, h1, hI⟩ := ite_bind_ok_inv hI
      obtain ⟨b2, h2, hI⟩ := bind_ok_inv hI
      have hb1 : b1.length = s1.ptr.length := by
        rcases h1 with h1 | h1
        · exact memmove_length h1
        · rw [h1]
      exact finish_cap h hG (by rw [fillBackward_length _ _ _ _ _ _ h2, hb1]) hI

theorem Replace_chars_cap {w : Nat} {s t : EdoString} {idx len : Nat} {chars : List Nat}
    {chars_len : Nat} (h : capInv w s)
    (hI : Replace_chars w s idx len chars chars_len = .ok t) : capInv w t := by
  unfold Replace_chars at hI
  split at hI
  · exact Except.noConfusion hI
  · split at hI
    · exact Except.noConfusion hI
    · simp only [] at hI
      obtain ⟨s1, hG, hI⟩ := bind_ok_inv hI
      obtain ⟨b1, h1, hI⟩ := ite_bind_ok_inv hI
      obtain ⟨b2, h2, hI⟩ := bind_ok_inv hI
      have hb1 : b1.length = s1.ptr.length := by
        rcases h1 with h1 | h1
        · exact memmove_length h1
        · rw [h1]
      exact finish_cap h hG (by rw [copyCharsBackward_length _ _ _ _ _ _ _ h2, hb1]) hI

theorem Assign_str_cap {w : Nat} {s t : EdoString} {str : EdoString} {str_idx str_num : Nat}
    (h : capInv w s) (hI : Assign_str w s str str_idx str_num = .ok t) : capInv w t := by
  unfold Assign_str at hI
  split at hI
  · exact Except.noConfusion hI
  · simp only [] at hI
    obtain ⟨s1, hG, hI⟩ := bind_ok_inv hI
    obtain ⟨s2, h2, hI⟩ := bind_ok_inv hI
    obtain ⟨b, h3, hI⟩ := bind_ok_inv hI
    rw [← Except.ok.inj hI]
    exact setPtr_cap (SetLen_cap (Grow_cap h hG).1 h2).1 (memcpy_length h3)

theorem Assign_chars_cap {w : Nat} {s t : EdoString} {chars : List Nat} {chars_len : Nat}
    (h : capInv w s) (hI : Assign_chars w s chars chars_len = .ok t) : capInv w t := by
  unfold Assign_chars at hI
  obtain ⟨s1, hG, hI⟩ := bind_ok_inv hI
  obtain ⟨b, h2, hI⟩ := bind_ok_inv hI
  exact finish_cap h hG (copyCharsForward_length _ _ _ _ _ _ h2) hI

theorem Assign_cstr_cap {w : Nat} {s t : EdoString} {cstr : List Nat}
    (h : capInv w s) (hI : Assign_cstr w s cstr = .ok t) : capInv w t := by
  unfold Assign_cstr at hI
  obtain ⟨n, -, hI⟩ := bind_ok_inv hI
  exact Assign_chars_cap h hI

theorem Append_std_cap {w : Nat} {s t : EdoString} {std_str : List Nat}
    {str_idx str_num : Nat} (h : capInv w s)
    (hI : Append_std w s std_str str_idx str_num = .ok t) : capInv w t := by
  unfold Append_std at hI
  split at hI
  · exact Except.noConfusion hI
  · simp only [] at hI
    obtain ⟨s1, hG, hI⟩ := bind_ok_inv hI
    obtain ⟨b, h2, hI⟩ := bind_ok_inv hI
    exact finish_cap h hG (copyCharsBackward_length _ _ _ _ _ _ _ h2) hI

theorem Append_rep_cap {w : Nat} {s t : EdoString} {num code_point : Nat}
    (h : capInv w s) (hI : Append_rep w s num code_point = .ok t) : capInv w t := by
  unfold Append_rep at hI
  split at hI
  · exact Except.noConfusion hI
  · simp only [] at hI
    obtain ⟨s1, hG, hI⟩ := bind_ok_inv hI
    obtain ⟨b, h2, hI⟩ := bind_ok_inv hI
    exact finish_cap h hG (fillForward_length _ _ _ _ _ h2) hI

theorem Encode_utf8_loop_length (w : Nat) (src : List Nat) (src_len : Nat) :
    ∀ (fuel idx : Nat) (dest : List Nat) (dp cap : Nat) (r : List Nat × Nat),
      Encode_utf8_loop w src src_len fuel idx dest dp cap = .ok r →
      r.1.length = dest.length := by
  intro fuel
  induction fuel with
  | zero =>
    intro idx dest dp cap r h
    exact Except.noConfusion h
  | succ fuel ih =>
    intro idx dest dp cap r h
    unfold Encode_utf8_loop at h
    split at h
    · obtain ⟨cu, -, h⟩ := bind_ok_inv h
      split at h
      · obtain ⟨d1, h1, h⟩ := bind_ok_inv h
        rw [ih _ _ _ _ _ h, store_length h1]
      · split at h
        · obtain ⟨c1, -, h⟩ := bind_ok_inv h
          obtain ⟨d1, h1, h⟩ := bind_ok_inv h
          rw [ih _ _ _ _ _ h, store_length h1]
        · split at h
          · obtain ⟨c1, -, h⟩ := bind_ok_inv h
            obtain ⟨c2, -, h⟩ := bind_ok_inv h
            obtain ⟨d1, h1, h⟩ := bind_ok_inv h
            rw [ih _ _ _ _ _ h, store_length h1]
          · obtain ⟨c1, -, h⟩ := bind_ok_inv h
            obtain ⟨c2, -, h⟩ := bind_ok_inv h
            obtain ⟨c3, -, h⟩ := bind_ok_inv h
            obtain ⟨d1, h1, h⟩ := bind_ok_inv h
            rw [ih _ _ _ _ _ h, store_length h1]
    · rw [← Except.ok.inj h]

theorem Encode_utf8_length {w : Nat} {src dest : List Nat} {dp dest_len src_len : Nat}
    {r : List Nat × Nat} (h : Encode_utf8 w src dest dp dest_len src_len = .ok r) :
    r.1.length = dest.length := by
  unfold Encode_utf8 at h
  obtain ⟨n, -, h⟩ := bind_ok_inv h
  obtain ⟨r1, h1, h⟩ := bind_ok_inv h
  rw [← Except.ok.inj h]
  exact Encode_utf8_loop_length _ _ _ _ _ _ _ _ r1 h1

theorem Append_utf8_cap {w : Nat} {s t : EdoString} {utf8_str : List Nat} {len : Nat}
    (h : capInv w s) (hI : Append_utf8 w s utf8_str len = .ok t) : capInv w t := by
  unfold Append_utf8 at hI
  split at hI
  · exact Except.noConfusion hI
  · obtain ⟨encSize, -, hI⟩ := bind_ok_inv hI
    simp only [] at hI
    obtain ⟨s1, hG, hI⟩ := bind_ok_inv hI
    obtain ⟨r, h2, hI⟩ := bind_ok_inv hI
    exact finish_cap h hG (Encode_utf8_length h2) hI

theorem Swap_cap {w : Nat} {s str : EdoString} (h : capInv w s) (hstr : capInv w str) :
    capInv w (Swap s str).1 ∧ capInv w (Swap s str).2 := by
  obtain ⟨hq, hr, hbuf, hl, hm⟩ := h
  obtain ⟨hq2, hr2, hbuf2, hl2, hm2⟩ := hstr
  unfold Swap
  simp only []
  split
  · exact ⟨⟨hq2, hr2, hbuf2, hl2, hm2⟩, ⟨hq, hr, hbuf, hl, hm⟩⟩
  · exact ⟨⟨hq, hr2, hbuf2, hl2, hm2⟩, ⟨hq2, hr, hbuf, hl, hm⟩⟩

theorem Resize_cap {w : Nat} {s t : EdoString} {num code_point : Nat}
    (h : capInv w s) (hI : Resize w s num code_point = .ok t) : capInv w t := by
  unfold Resize at hI
  split at hI
  · exact (SetLen_cap h hI).1
  · exact Append_rep_cap h hI

theorem Clear_cap {w : Nat} {s t : EdoString} (h : capInv w s) (hI : Clear w s = .ok t) :
    capInv w t := by
  unfold Clear at hI
  obtain ⟨s1, h1, hI⟩ := bind_ok_inv hI
  exact Trim_cap (SetLen_cap h h1).1 hI

theorem Reserve_cap {w : Nat} {s t : EdoString} {num : Nat} (h : capInv w s)
    (hI : Reserve w s num = .ok t) : capInv w t := by
  unfold Reserve at hI
  split at hI
  · exact Trim_cap h hI
  · exact (Grow_cap h hI).1

theorem BuildUtf8Buff_cap {w : Nat} {s t : EdoString} (h : capInv w s)
    (hI : BuildUtf8Buff w s = .ok t) : capInv w t := by
  unfold BuildUtf8Buff at hI
  obtain ⟨n, -, hI⟩ := bind_ok_inv hI
  simp only [] at hI
  obtain ⟨r, -, hI⟩ := bind_ok_inv hI
  obtain ⟨b, -, hI⟩ := bind_ok_inv hI
  rw [← Except.ok.inj hI]
  split <;> exact h

theorem EdoString_str_cap {w : Nat} {s : EdoString} {str : EdoString} {str_idx str_num : Nat}
    (hq : STR_QUICKBUFF_SIZE ≤ MaxSize w)
    (hI : EdoString_str w str str_idx str_num = .ok s) : capInv w s := by
  unfold EdoString_str at hI
  obtain ⟨s0, h0, hI⟩ := bind_ok_inv hI
  exact Assign_str_cap (Init_cap hq h0) hI

theorem Substr_cap {w : Nat} {s t : EdoString} {idx len : Nat}
    (hq : STR_QUICKBUFF_SIZE ≤ MaxSize w)
    (hI : Substr w s idx len = .ok t) : capInv w t := by
  unfold Substr at hI
  split at hI
  · exact Except.noConfusion hI
  · exact EdoString_str_cap hq hI

/-! ## The iteration bounds of the codec loops suffice -/

theorem bind_ne_fuel {α β : Type} {x : Except Fault α} {f : α → Except Fault β}
    (hx : x ≠ .error .out_of_fuel) (hf : ∀ a, x = .ok a → f a ≠ .error .out_of_fuel) :
    (x >>= f) ≠ .error .out_of_fuel := by
  cases x with
  | error e =>
    intro h
    have h' : (Except.error e : Except Fault β) = .error .out_of_fuel := h
    exact hx (by rw [Except.error.inj h'])
  | ok a => exact hf a rfl

theorem load_ne_fuel (buf : List Nat) (i : Nat) : load buf i ≠ .error .out_of_fuel := by
  unfold load
  cases buf[i]? with
  | none => exact fun h => Fault.noConfusion (Except.error.inj h)
  | some v => exact fun h => Except.noConfusion h

theorem store_ne_fuel (buf : List Nat) (i v : Nat) : store buf i v ≠ .error .out_of_fuel := by
  unfold store
  split
  · exact fun h => Except.noConfusion h
  · exact fun h => Fault.noConfusion (Except.error.inj h)

/-- The loop of the encoder ends within `destCapacity + 1` iterations. -/
theorem Encode_utf32_loop_fuel (w : Nat) (src : List Nat) (src_len : Nat) :
    ∀ (fuel idx : Nat) (dest : List Nat) (dp cap : Nat), cap < fuel → cap < 2 ^ w →
      Encode_utf32_loop w src src_len fuel idx dest dp cap ≠ .error .out_of_fuel := by
  intro fuel
  induction fuel with
  | zero => intro idx dest dp cap hf; omega
  | succ fuel ih =>
    intro idx dest dp cap hf hw
    have hnext : ∀ k, 1 ≤ k → k ≤ cap →
        szSub w cap k < fuel ∧ szSub w cap k < 2 ^ w := by
      intro k h1 h2
      rw [szSub_eq h2 hw]
      omega
    unfold Encode_utf32_loop
    split
    · refine bind_ne_fuel (load_ne_fuel _ _) (fun cp _ => ?_)
      by_cases hcap : cap < EncodedSize_cp cp
      · rw [if_pos hcap]
        exact fun h => Except.noConfusion h
      · rw [if_neg hcap]
        by_cases h1 : cp < 0x80
        · have he : EncodedSize_cp cp = 1 := by unfold EncodedSize_cp; rw [if_pos h1]
          rw [if_pos h1]
          refine bind_ne_fuel (store_ne_fuel _ _ _) (fun d1 _ => ?_)
          exact ih _ _ _ _ (hnext 1 (by omega) (by omega)).1 (hnext 1 (by omega) (by omega)).2
        · rw [if_neg h1]
          by_cases h2 : cp < 0x0800
          · have he : EncodedSize_cp cp = 2 := by
              unfold EncodedSize_cp; rw [if_neg h1, if_pos h2]
            rw [if_pos h2]
            refine bind_ne_fuel (store_ne_fuel _ _ _) (fun d1 _ => ?_)
            refine bind_ne_fuel (store_ne_fuel _ _ _) (fun d2 _ => ?_)
            exact ih _ _ _ _ (hnext 2 (by omega) (by omega)).1
              (hnext 2 (by omega) (by omega)).2
          · rw [if_neg h2]
            by_cases h3 : cp < 0x10000
            · have he : EncodedSize_cp cp = 3 := by
                unfold EncodedSize_cp; rw [if_neg h1, if_neg h2, if_pos h3]
              rw [if_pos h3]
              refine bind_ne_fuel (store_ne_fuel _ _ _) (fun d1 _ => ?_)
              refine bind_ne_fuel (store_ne_fuel _ _ _) (fun d2 _ => ?_)
              refine bind_ne_fuel (store_ne_fuel _ _ _) (fun d3 _ => ?_)
              exact ih _ _ _ _ (hnext 3 (by omega) (by omega)).1
                (hnext 3 (by omega) (by omega)).2
            · have he : EncodedSize_cp cp = 4 := by
                unfold EncodedSize_cp; rw [if_neg h1, if_neg h2, if_neg h3]
              rw [if_neg h3]
              refine bind_ne_fuel (store_ne_fuel _ _ _) (fun d1 _ => ?_)
              refine bind_ne_fuel (store_ne_fuel _ _ _) (fun d2 _ => ?_)
              refine bind_ne_fuel (store_ne_fuel _ _ _) (fun d3 _ => ?_)
              refine bind_ne_fuel (store_ne_fuel _ _ _) (fun d4 _ => ?_)
              exact ih _ _ _ _ (hnext 4 (by omega) (by omega)).1
                (hnext 4 (by omega) (by omega)).2
    · exact fun h => Except.noConfusion h

/-- The loop of the decoder ends within `destCapacity + 1` iterations. -/
theorem Encode_utf8_loop_fuel (w : Nat) (src : List Nat) (src_len : Nat) :
    ∀ (fuel idx : Nat) (dest : List Nat) (dp cap : Nat), cap < fuel → cap < 2 ^ w →
      Encode_utf8_loop w src src_len fuel idx dest dp cap ≠ .error .out_of_fuel := by
  intro fuel
  induction fuel with
  | zero => intro idx dest dp cap hf; omega
  | succ fuel ih =>
    intro idx dest dp cap hf hw
    unfold Encode_utf8_loop
    split
    · rename_i hc
      have hnext : szSub w cap 1 < fuel ∧ szSub w cap 1 < 2 ^ w := by
        rw [szSub_eq (by omega) hw]
        omega
      refine bind_ne_fuel (load_ne_fuel _ _) (fun cu _ => ?_)
      split
      · refine bind_ne_fuel (store_ne_fuel _ _ _) (fun d1 _ => ?_)
        exact ih _ _ _ _ hnext.1 hnext.2
      · split
        · refine bind_ne_fuel (load_ne_fuel _ _) (fun c1 _ => ?_)
          refine bind_ne_fuel (store_ne_fuel _ _ _) (fun d1 _ => ?_)
          exact ih _ _ _ _ hnext.1 hnext.2
        · split
          · refine bind_ne_fuel (load_ne_fuel _ _) (fun c1 _ => ?_)
            refine bind_ne_fuel (load_ne_fuel _ _) (fun c2 _ => ?_)
            refine bind_ne_fuel (store_ne_fuel _ _ _) (fun d1 _ => ?_)
            exact ih _ _ _ _ hnext.1 hnext.2
          · refine bind_ne_fuel (load_ne_fuel _ _) (fun c1 _ => ?_)
            refine bind_ne_fuel (load_ne_fuel _ _) (fun c2 _ => ?_)
            refine bind_ne_fuel (load_ne_fuel _ _) (fun c3 _ => ?_)
            refine bind_ne_fuel (store_ne_fuel _ _ _) (fun d1 _ => ?_)
            exact ih _ _ _ _ hnext.1 hnext.2
    · exact fun h => Except.noConfusion h

theorem load_ok_lt {buf : List Nat} {i c : Nat} (h : load buf i = .ok c) : i < buf.length := by
  unfold load at h
  by_contra hge
  rw [List.getElem?_eq_none (by omega)] at h
  exact Except.noConfusion h

/-- The loop of `UtfLength` ends within the number of slots that remain plus
one iteration: it finds a zero or leaves the buffer. -/
theorem UtfLength_loop_fuel (w : Nat) (buf : List Nat) :
    ∀ (fuel p cnt : Nat), 0 < fuel → buf.length < fuel + p →
      UtfLength_loop w buf fuel p cnt ≠ .error .out_of_fuel := by
  intro fuel
  induction fuel with
  | zero => intro p cnt h0; omega
  | succ fuel ih =>
    intro p cnt _ hf
    unfold UtfLength_loop
    refine bind_ne_fuel (load_ne_fuel _ _) (fun c hc => ?_)
    have hlt := load_ok_lt hc
    split
    · exact ih _ _ (by omega) (by omega)
    · exact fun h => Except.noConfusion h

/-- The loop of `EncodedSize(const utf8 *, len)` ends within `len + 1`
iterations. -/
theorem EncodedSize_utf8_loop_fuel (w : Nat) (buf : List Nat) :
    ∀ (fuel p len count : Nat), len < fuel → len < 2 ^ w →
      EncodedSize_utf8_loop w buf fuel p len count ≠ .error .out_of_fuel := by
  intro fuel
  induction fuel with
  | zero => intro p len count hf; omega
  | succ fuel ih =>
    intro p len count hf hw
    unfold EncodedSize_utf8_loop
    split
    · refine bind_ne_fuel (load_ne_fuel _ _) (fun tcp _ => ?_)
      simp only []
      have h1 : szSub w len 1 = len - 1 := szSub_eq (by omega) hw
      rw [h1]
      generalize (if tcp < 0x80 then 0 else if tcp < 0xE0 then 1 else if tcp < 0xF0 then 2
        else 3) = size
      by_cases hge : len - 1 ≥ size
      · rw [if_pos hge, szSub_eq hge (by omega)]
        exact ih _ _ _ (by omega) (by omega)
      · rw [if_neg hge]
        exact fun h => Except.noConfusion h
    · exact fun h => Except.noConfusion h

theorem UtfLength_fuel (w : Nat) (buf : List Nat) : UtfLength w buf ≠ .error .out_of_fuel :=
  UtfLength_loop_fuel w buf _ _ _ (by omega) (by omega)

/-- The encoder returns, or leaves a buffer: its iteration bound suffices. -/
theorem Encode_utf32_fuel {w : Nat} (src dest : List Nat) (dp : Nat) {dest_len : Nat}
    (src_len : Nat) (hw : dest_len < 2 ^ w) :
    Encode_utf32 w src dest dp dest_len src_len ≠ .error .out_of_fuel := by
  unfold Encode_utf32
  refine bind_ne_fuel ?_ (fun n _ => bind_ne_fuel
    (Encode_utf32_loop_fuel w src n _ _ _ _ _ (by omega) hw)
    (fun r _ h => Except.noConfusion h))
  split
  · exact UtfLength_fuel w src
  · exact fun h => Except.noConfusion h

/-- The decoder returns, or leaves a buffer: its iteration bound suffices. -/
theorem Encode_utf8_fuel {w : Nat} (src dest : List Nat) (dp : Nat) {dest_len : Nat}
    (src_len : Nat) (hw : dest_len < 2 ^ w) :
    Encode_utf8 w src dest dp dest_len src_len ≠ .error .out_of_fuel := by
  unfold Encode_utf8
  refine bind_ne_fuel ?_ (fun n _ => bind_ne_fuel
    (Encode_utf8_loop_fuel w src n _ _ _ _ _ (by omega) hw)
    (fun r _ h => Except.noConfusion h))
  split
  · exact UtfLength_fuel w src
  · exact fun h => Except.noConfusion h

theorem EncodedSize_utf8_fuel {w : Nat} (buf : List Nat) {len : Nat} (hw : len < 2 ^ w) :
    EncodedSize_utf8 w buf len ≠ .error .out_of_fuel :=
  EncodedSize_utf8_loop_fuel w buf _ _ _ _ (by omega) hw

/-! ## Bit operations of the codec as arithmetic -/

theorem and_3F (x : Nat) : x &&& 0x3F = x % 64 := Nat.and_pow_two_sub_one_eq_mod x 6

theorem and_1F (x : Nat) : x &&& 0x1F = x % 32 := Nat.and_pow_two_sub_one_eq_mod x 5

theorem and_0F (x : Nat) : x &&& 0x0F = x % 16 := Nat.and_pow_two_sub_one_eq_mod x 4

theorem and_07 (x : Nat) : x &&& 0x07 = x % 8 := Nat.and_pow_two_sub_one_eq_mod x 3

theorem mul_pow_or {k b : Nat} (a : Nat) (hb : b < 2 ^ k) : (a * 2 ^ k) ||| b = a * 2 ^ k + b := by
  rw [Nat.mul_comm a (2 ^ k)]
  exact (Nat.mul_add_lt_is_or hb a).symm

theorem or_C0 {x : Nat} (hx : x < 32) : x ||| 0xC0 = 0xC0 + x := by
  rw [Nat.or_comm]
  exact mul_pow_or (k := 6) 3 (by omega)

theorem or_E0 {x : Nat} (hx : x < 16) : x ||| 0xE0 = 0xE0 + x := by
  rw [Nat.or_comm]
  exact mul_pow_or (k := 5) 7 (by omega)

theorem or_F0 {x : Nat} (hx : x < 8) : x ||| 0xF0 = 0xF0 + x := by
  rw [Nat.or_comm]
  exact mul_pow_or (k := 4) 15 (by omega)

theorem or_80 {x : Nat} (hx : x < 64) : x ||| 0x80 = 0x80 + x := by
  rw [Nat.or_comm]
  exact mul_pow_or (k := 6) 2 (by omega)

/-- The code units of a code point below `0x200000`, as arithmetic. -/
theorem Encode_units_eq {cp : Nat} (h : cp < 0x200000) :
    Encode_units cp =
      if cp < 0x80 then [cp]
      else if cp < 0x0800 then [0xC0 + cp / 64, 0x80 + cp % 64]
      else if cp < 0x10000 then [0xE0 + cp / 4096, 0x80 + cp / 64 % 64, 0x80 + cp % 64]
      else [0xF0 + cp / 262144, 0x80 + cp / 4096 % 64, 0x80 + cp / 64 % 64,
        0x80 + cp % 64] := by
  unfold Encode_units toUtf8
  simp only [and_3F, Nat.shiftRight_eq_div_pow]
  have e2 : ((cp % 64) ||| 0x80) % 256 = 0x80 + cp % 64 := by
    rw [or_80 (Nat.mod_lt _ (by decide))]
    omega
  have e1 : ((cp / 2 ^ 6 % 64) ||| 0x80) % 256 = 0x80 + cp / 64 % 64 := by
    rw [or_80 (Nat.mod_lt _ (by decide))]
    omega
  have e0 : ((cp / 2 ^ 12 % 64) ||| 0x80) % 256 = 0x80 + cp / 4096 % 64 := by
    rw [or_80 (Nat.mod_lt _ (by decide))]
    omega
  by_cases h1 : cp < 0x80
  · rw [if_pos h1, if_pos h1, Nat.mod_eq_of_lt (by omega)]
  · rw [if_neg h1, if_neg h1]
    by_cases h2 : cp < 0x0800
    · have e3 : ((cp / 2 ^ 6) ||| 0xC0) % 256 = 0xC0 + cp / 64 := by
        rw [or_C0 (by omega)]
        omega
      rw [if_pos h2, if_pos h2, e2, e3]
    · rw [if_neg h2, if_neg h2]
      by_cases h3 : cp < 0x10000
      · have e3 : ((cp / 2 ^ 12) ||| 0xE0) % 256 = 0xE0 + cp / 4096 := by
          rw [or_E0 (by omega)]
          omega
        rw [if_pos h3, if_pos h3, e1, e2, e3]
      · have e3 : ((cp / 2 ^ 18) ||| 0xF0) % 256 = 0xF0 + cp / 262144 := by
          rw [or_F0 (by omega)]
          omega
        rw [if_neg h3, if_neg h3, e0, e1, e2, e3]

/-! ## Writes into a buffer -/

theorem writeAt_nil {dest : List Nat} (dp : Nat) : writeAt dest dp [] = dest := by
  unfold writeAt
  simp

theorem length_writeAt {dest : List Nat} {dp : Nat} {bs : List Nat}
    (h : dp + bs.length ≤ dest.length) : (writeAt dest dp bs).length = dest.length := by
  unfold writeAt
  simp only [List.length_append, List.length_take, List.length_drop]
  omega

theorem writeAt_take {dest : List Nat} {dp : Nat} (bs : List Nat) (h : dp ≤ dest.length) :
    (writeAt dest dp bs).take (dp + bs.length) = dest.take dp ++ bs := by
  unfold writeAt
  have e : dp + bs.length = (dest.take dp ++ bs).length := by
    simp only [List.length_append, List.length_take]
    omega
  rw [e, List.take_left]

theorem writeAt_drop {dest : List Nat} {dp : Nat} (bs : List Nat) (k : Nat)
    (h : dp ≤ dest.length) :
    (writeAt dest dp bs).drop (dp + bs.length + k) = dest.drop (dp + bs.length + k) := by
  unfold writeAt
  have e : dp + bs.length + k = (dest.take dp ++ bs).length + k := by
    simp only [List.length_append, List.length_take]
    omega
  nth_rewrite 1 [e]
  rw [List.drop_append, List.drop_drop]

theorem writeAt_writeAt {dest : List Nat} {dp : Nat} (bs cs : List Nat)
    (h : dp + bs.length ≤ dest.length) :
    writeAt (writeAt dest dp bs) (dp + bs.length) cs = writeAt dest dp (bs ++ cs) := by
  have h1 := writeAt_take bs (show dp ≤ dest.length by omega)
  have h2 := writeAt_drop bs cs.length (show dp ≤ dest.length by omega)
  unfold writeAt at h1 h2 ⊢
  rw [h1, h2, List.length_append]
  simp only [List.append_assoc, Nat.add_assoc]

theorem store_next {dest : List Nat} {dp k : Nat} (bs : List Nat) (v : Nat)
    (hk : k = dp + bs.length) (h : k < dest.length) :
    store (writeAt dest dp bs) k v = .ok (writeAt dest dp (bs ++ [v])) := by
  subst hk
  unfold store
  rw [length_writeAt (by omega), if_pos h, take_set_drop _ _ _ (by
    rw [length_writeAt (by omega)]; exact h)]
  have h1 := writeAt_take bs (show dp ≤ dest.length by omega)
  have h2 := writeAt_drop bs 1 (show dp ≤ dest.length by omega)
  rw [h1, h2]
  unfold writeAt
  rw [List.length_append]
  simp only [List.append_assoc, List.length_singleton, List.singleton_append, Nat.add_assoc]

theorem store_first {dest : List Nat} {dp : Nat} (v : Nat) (h : dp < dest.length) :
    store dest dp v = .ok (writeAt dest dp [v]) := by
  have h1 : store (writeAt dest dp []) dp v = .ok (writeAt dest dp ([] ++ [v])) :=
    store_next [] v rfl h
  rw [writeAt_nil] at h1
  exact h1

theorem store_second {dest : List Nat} {dp : Nat} (a v : Nat) (h : dp + 1 < dest.length) :
    store (writeAt dest dp [a]) (dp + 1) v = .ok (writeAt dest dp [a, v]) :=
  store_next [a] v rfl h

theorem store_third {dest : List Nat} {dp : Nat} (a b v : Nat) (h : dp + 2 < dest.length) :
    store (writeAt dest dp [a, b]) (dp + 2) v = .ok (writeAt dest dp [a, b, v]) :=
  store_next [a, b] v rfl h

theorem store_fourth {dest : List Nat} {dp : Nat} (a b c v : Nat) (h : dp + 3 < dest.length) :
    store (writeAt dest dp [a, b, c]) (dp + 3) v = .ok (writeAt dest dp [a, b, c, v]) :=
  store_next [a, b, c] v rfl h

theorem Encode_units_length (cp : Nat) : (Encode_units cp).length = EncodedSize_cp cp := by
  unfold Encode_units EncodedSize_cp
  split
  · rfl
  · split
    · rfl
    · split <;> rfl

theorem uintSucc_eq {idx : Nat} (h : idx + 1 < 2 ^ 32) : uintSucc idx = idx + 1 := by
  unfold uintSucc
  exact Nat.mod_eq_of_lt h

/-! ## The encoder and the decoder on sources below `2 ^ 32` code units -/

theorem EncodedSize_cp_bounds (c : Nat) : 1 ≤ EncodedSize_cp c ∧ EncodedSize_cp c ≤ 4 := by
  unfold EncodedSize_cp
  split
  · omega
  · split
    · omega
    · split <;> omega

theorem finish_write {dest : List Nat} {dp cap : Nat} (units rest : List Nat) (k : Nat)
    (hk : units.length = k) (hd : dp + units.length ≤ dest.length) :
    (Except.ok (writeAt (writeAt dest dp units) (dp + k) rest, cap - k - rest.length) :
        Except Fault (List Nat × Nat))
      = .ok (writeAt dest dp (units ++ rest), cap - (units ++ rest).length) := by
  subst hk
  rw [writeAt_writeAt _ _ hd, List.length_append, Nat.sub_sub]

/-- The loop of the encoder on a source below `2 ^ 32` code points, with
capacity for the code units of all of them: it writes the units of each code
point in order and leaves the capacity that was not used. -/
theorem Encode_utf32_loop_spec {w : Nat} (src : List Nat) (src_len : Nat)
    (hsl : src_len ≤ src.length) (h32 : src_len < 2 ^ 32) :
    ∀ (n fuel idx : Nat) (dest : List Nat) (dp cap : Nat), idx + n = src_len → n < fuel →
      (((src.take src_len).drop idx).flatMap Encode_units).length ≤ cap → cap < 2 ^ w →
      dp + cap ≤ dest.length →
      Encode_utf32_loop w src src_len fuel idx dest dp cap
        = .ok (writeAt dest dp (((src.take src_len).drop idx).flatMap Encode_units),
            cap - (((src.take src_len).drop idx).flatMap Encode_units).length) := by
  intro n
  induction n with
  | zero =>
    intro fuel idx dest dp cap hi hf hcap hw hd
    obtain ⟨f, rfl⟩ : ∃ f, fuel = f + 1 := ⟨fuel - 1, by omega⟩
    have hnil : (src.take src_len).drop idx = [] := by
      apply List.drop_of_length_le
      simp
      omega
    unfold Encode_utf32_loop
    rw [if_neg (by omega), hnil]
    simp only [List.flatMap_nil, List.length_nil, Nat.sub_zero]
    rw [writeAt_nil]
    rfl
  | succ n ih =>
    intro fuel idx dest dp cap hi hf hcap hw hd
    obtain ⟨f, rfl⟩ : ∃ f, fuel = f + 1 := ⟨fuel - 1, by omega⟩
    obtain ⟨c, hload, hcons⟩ := drop_take_cons (show idx < src_len by omega) hsl
    rw [hcons, List.flatMap_cons, List.length_append, Encode_units_length] at hcap
    rw [hcons, List.flatMap_cons]
    have hidx : uintSucc idx = idx + 1 := uintSucc_eq (by omega)
    have hsz := EncodedSize_cp_bounds c
    have hstep := fun d k (h1 : k ≤ cap)
      (h2 : (((src.take src_len).drop (idx + 1)).flatMap Encode_units).length ≤ cap - k)
      (h3 : dp + k + (cap - k) ≤ List.length d) =>
      ih f (idx + 1) d (dp + k) (cap - k) (by omega) (by omega) h2 (by omega) h3
    unfold Encode_utf32_loop
    rw [if_pos (by omega), hload, ok_bind, if_neg (by omega), hidx]
    by_cases h1 : c < 0x80
    · have he : EncodedSize_cp c = 1 := by unfold EncodedSize_cp; rw [if_pos h1]
      have hu : Encode_units c = [toUtf8 c] := by unfold Encode_units; rw [if_pos h1]
      rw [if_pos h1, store_first _ (by omega), ok_bind, szSub_eq (by omega) hw,
        hstep _ 1 (by omega) (by omega) (by rw [length_writeAt (by simp; omega)]; omega), hu]
      exact finish_write [toUtf8 c] _ 1 rfl (by simp; omega)
    · rw [if_neg h1]
      by_cases h2 : c < 0x0800
      · have he : EncodedSize_cp c = 2 := by
          unfold EncodedSize_cp; rw [if_neg h1, if_pos h2]
        have hu : Encode_units c
            = [toUtf8 ((c >>> 6) ||| 0xC0), toUtf8 ((c &&& 0x3F) ||| 0x80)] := by
          unfold Encode_units; rw [if_neg h1, if_pos h2]
        rw [if_pos h2, store_first _ (by omega), ok_bind,
          store_second _ _ (by omega), ok_bind, szSub_eq (by omega) hw,
          hstep _ 2 (by omega) (by omega) (by rw [length_writeAt (by simp; omega)]; omega), hu]
        exact finish_write [_, _] _ 2 rfl (by simp; omega)
      · rw [if_neg h2]
        by_cases h3 : c < 0x10000
        · have he : EncodedSize_cp c = 3 := by
            unfold EncodedSize_cp; rw [if_neg h1, if_neg h2, if_pos h3]
          have hu : Encode_units c
              = [toUtf8 ((c >>> 12) ||| 0xE0), toUtf8 (((c >>> 6) &&& 0x3F) ||| 0x80),
                toUtf8 ((c &&& 0x3F) ||| 0x80)] := by
            unfold Encode_units; rw [if_neg h1, if_neg h2, if_pos h3]
          rw [if_pos h3, store_first _ (by omega), ok_bind,
            store_second _ _ (by omega), ok_bind,
            store_third _ _ _ (by omega), ok_bind, szSub_eq (by omega) hw,
            hstep _ 3 (by omega) (by omega)
              (by rw [length_writeAt (by simp; omega)]; omega), hu]
          exact finish_write [_, _, _] _ 3 rfl (by simp; omega)
        · have he : EncodedSize_cp c = 4 := by
            unfold EncodedSize_cp; rw [if_neg h1, if_neg h2, if_neg h3]
          have hu : Encode_units c
              = [toUtf8 ((c >>> 18) ||| 0xF0), toUtf8 (((c >>> 12) &&& 0x3F) ||| 0x80),
                toUtf8 (((c >>> 6) &&& 0x3F) ||| 0x80), toUtf8 ((c &&& 0x3F) ||| 0x80)] := by
            unfold Encode_units; rw [if_neg h1, if_neg h2, if_neg h3]
          rw [if_neg h3, store_first _ (by omega), ok_bind,
            store_second _ _ (by omega), ok_bind,
            store_third _ _ _ (by omega), ok_bind,
            store_fourth _ _ _ _ (by omega), ok_bind,
            szSub_eq (by omega) hw,
            hstep _ 4 (by omega) (by omega)
              (by rw [length_writeAt (by simp; omega)]; omega), hu]
          exact finish_write [_, _, _, _] _ 4 rfl (by simp; omega)

theorem decode2 {c : Nat} (h2 : c < 0x800) :
    (((0xC0 + c / 64) &&& 0x1F) <<< 6) ||| ((0x80 + c % 64) &&& 0x3F) = c := by
  rw [and_1F, and_3F, Nat.shiftLeft_eq]
  have e1 : (0xC0 + c / 64) % 32 = c / 64 := by omega
  have e2 : (0x80 + c % 64) % 64 = c % 64 := by omega
  rw [e1, e2, mul_pow_or (c / 64) (show c % 64 < 2 ^ 6 by omega)]
  omega

theorem decode3 {c : Nat} (h2 : c < 0x10000) :
    ((((0xE0 + c / 4096) &&& 0x0F) <<< 12) ||| (((0x80 + c / 64 % 64) &&& 0x3F) <<< 6))
      ||| ((0x80 + c % 64) &&& 0x3F) = c := by
  rw [and_0F, and_3F, and_3F, Nat.shiftLeft_eq, Nat.shiftLeft_eq]
  have e0 : (0xE0 + c / 4096) % 16 = c / 4096 := by omega
  have e1 : (0x80 + c / 64 % 64) % 64 = c / 64 % 64 := by omega
  have e2 : (0x80 + c % 64) % 64 = c % 64 := by omega
  rw [e0, e1, e2, mul_pow_or (c / 4096) (show c / 64 % 64 * 2 ^ 6 < 2 ^ 12 by omega)]
  have e3 : c / 4096 * 2 ^ 12 + c / 64 % 64 * 2 ^ 6 = (c / 4096 * 64 + c / 64 % 64) * 2 ^ 6 := by
    omega
  rw [e3, mul_pow_or _ (show c % 64 < 2 ^ 6 by omega)]
  omega

theorem decode4 {c : Nat} (h2 : c < 0x200000) :
    (((((0xF0 + c / 262144) &&& 0x07) <<< 18) ||| (((0x80 + c / 4096 % 64) &&& 0x3F) <<< 12))
      ||| (((0x80 + c / 64 % 64) &&& 0x3F) <<< 6)) ||| ((0x80 + c % 64) &&& 0x3F) = c := by
  rw [and_07, and_3F, and_3F, and_3F, Nat.shiftLeft_eq, Nat.shiftLeft_eq, Nat.shiftLeft_eq]
  have e0 : (0xF0 + c / 262144) % 8 = c / 262144 := by omega
  have e1 : (0x80 + c / 4096 % 64) % 64 = c / 4096 % 64 := by omega
  have e2 : (0x80 + c / 64 % 64) % 64 = c / 64 % 64 := by omega
  have e3 : (0x80 + c % 64) % 64 = c % 64 := by omega
  rw [e0, e1, e2, e3, mul_pow_or (c / 262144) (show c / 4096 % 64 * 2 ^ 12 < 2 ^ 18 by omega)]
  have e4 : c / 262144 * 2 ^ 18 + c / 4096 % 64 * 2 ^ 12
      = (c / 262144 * 64 + c / 4096 % 64) * 2 ^ 12 := by omega
  rw [e4, mul_pow_or _ (show c / 64 % 64 * 2 ^ 6 < 2 ^ 12 by omega)]
  have e5 : (c / 262144 * 64 + c / 4096 % 64) * 2 ^ 12 + c / 64 % 64 * 2 ^ 6
      = ((c / 262144 * 64 + c / 4096 % 64) * 64 + c / 64 % 64) * 2 ^ 6 := by omega
  rw [e5, mul_pow_or _ (show c % 64 < 2 ^ 6 by omega)]
  omega

theorem drop_append_inv {L : List Nat} {i : Nat} {xs ys : List Nat} (h : L.drop i = xs ++ ys)
    (hx : 0 < xs.length) :
    i + xs.length ≤ L.length ∧ L.drop (i + xs.length) = ys ∧
      ∀ j, j < xs.length → L[i + j]? = xs[j]? := by
  have hl := congrArg List.length h
  rw [List.length_drop, List.length_append] at hl
  refine ⟨by omega, ?_, fun j hj => ?_⟩
  · have := congrArg (List.drop xs.length) h
    rw [List.drop_drop, List.drop_left] at this
    rw [← this]
  · have := congrArg (fun l => l[j]?) h
    simp only [List.getElem?_drop] at this
    rw [this, List.getElem?_append_left hj]

theorem loads_of_drop {src : List Nat} {n i : Nat} {xs ys : List Nat}
    (h : (src.take n).drop i = xs ++ ys) (hx : 0 < xs.length) :
    i + xs.length ≤ n ∧ i + xs.length ≤ src.length ∧
      (src.take n).drop (i + xs.length) = ys ∧
      ∀ (j b : Nat), xs[j]? = some b → load src (i + j) = .ok b := by
  obtain ⟨h1, h2, h3⟩ := drop_append_inv h hx
  rw [List.length_take] at h1
  refine ⟨by omega, by omega, h2, fun j b hb => ?_⟩
  have hj : j < xs.length := by
    rcases Nat.lt_or_ge j xs.length with hlt | hge
    · exact hlt
    · rw [List.getElem?_eq_none hge] at hb
      cases hb
  have h4 := h3 j hj
  rw [hb, List.getElem?_take_of_lt (by omega)] at h4
  unfold load
  rw [h4]

/-- The loop of the decoder on a source below `2 ^ 32` code units that holds
the code units of the code points `u`, with capacity for all of them: it
writes the code points in order and leaves the capacity that was not used. -/
theorem Encode_utf8_loop_spec {w : Nat} (src : List Nat) (src_len : Nat)
    (hsl : src_len ≤ src.length) (h32 : src_len < 2 ^ 32) :
    ∀ (u : List Nat) (fuel idx : Nat) (dest : List Nat) (dp cap : Nat),
      (∀ c ∈ u, c < 0x200000) →
      (src.take src_len).drop idx = u.flatMap Encode_units →
      u.length < fuel → u.length ≤ cap → cap < 2 ^ w → dp + cap ≤ dest.length →
      Encode_utf8_loop w src src_len fuel idx dest dp cap
        = .ok (writeAt dest dp u, cap - u.length) := by
  intro u
  induction u with
  | nil =>
    intro fuel idx dest dp cap _ hdrop hf hcap hw hd
    obtain ⟨f, rfl⟩ : ∃ f, fuel = f + 1 := ⟨fuel - 1, by omega⟩
    have hl := congrArg List.length hdrop
    simp only [List.length_drop, List.length_take, List.flatMap_nil, List.length_nil] at hl
    unfold Encode_utf8_loop
    rw [if_neg (by omega), writeAt_nil]
    rfl
  | cons c u ih =>
    intro fuel idx dest dp cap hu hdrop hf hcap hw hd
    obtain ⟨f, rfl⟩ : ∃ f, fuel = f + 1 := ⟨fuel - 1, by omega⟩
    have hc : c < 0x200000 := hu c (List.mem_cons_self _ _)
    have hu2 : ∀ x ∈ u, x < 0x200000 := fun x hx => hu x (List.mem_cons_of_mem _ hx)
    rw [List.length_cons] at hf hcap
    have hidx : idx < src_len := by
      have hl := congrArg List.length hdrop
      rw [List.flatMap_cons, List.length_append, Encode_units_length, List.length_drop,
        List.length_take] at hl
      have := EncodedSize_cp_bounds c
      omega
    rw [List.flatMap_cons, Encode_units_eq hc] at hdrop
    have hstep := fun (k : Nat) (d : List Nat)
      (h2 : (src.take src_len).drop (idx + k) = u.flatMap Encode_units)
      (h3 : dp + 1 + (cap - 1) ≤ List.length d) =>
      ih f (idx + k) d (dp + 1) (cap - 1) hu2 h2 (by omega) (by omega) (by omega) h3
    have hfin : (Except.ok (writeAt (writeAt dest dp [c]) (dp + 1) u, cap - 1 - u.length) :
        Except Fault (List Nat × Nat)) = .ok (writeAt dest dp (c :: u), cap - (c :: u).length) :=
      finish_write [c] u 1 rfl (by simp; omega)
    have hlen : dp + 1 + (cap - 1) ≤ (writeAt dest dp [c]).length := by
      rw [length_writeAt (by simp; omega)]; omega
    unfold Encode_utf8_loop
    rw [if_pos ⟨hidx, by omega⟩]
    by_cases h1 : c < 0x80
    · rw [if_pos h1] at hdrop
      obtain ⟨a1, a2, a3, a4⟩ := loads_of_drop hdrop (by simp)
      have l0 : load src idx = .ok c := a4 0 _ rfl
      have i1 : uintSucc idx = idx + 1 := uintSucc_eq (by simp at a1; omega)
      rw [l0, ok_bind, if_pos h1, store_first _ (by omega), ok_bind, szSub_eq (by omega) hw,
        i1, hstep 1 _ a3 hlen]
      exact hfin
    · rw [if_neg h1] at hdrop
      by_cases h2 : c < 0x0800
      · rw [if_pos h2] at hdrop
        obtain ⟨a1, a2, a3, a4⟩ := loads_of_drop hdrop (by simp)
        have l0 : load src idx = .ok (0xC0 + c / 64) := a4 0 _ rfl
        have l1 : load src (idx + 1) = .ok (0x80 + c % 64) := a4 1 _ rfl
        have i1 : uintSucc idx = idx + 1 := uintSucc_eq (by simp at a1; omega)
        have i2 : uintSucc (idx + 1) = idx + 2 := uintSucc_eq (by simp at a1; omega)
        rw [l0, ok_bind, if_neg (by omega), if_pos (by omega), i1, l1, ok_bind, decode2 h2,
          store_first _ (by omega), ok_bind, szSub_eq (by omega) hw, i2, hstep 2 _ a3 hlen]
        exact hfin
      · rw [if_neg h2] at hdrop
        by_cases h3 : c < 0x10000
        · rw [if_pos h3] at hdrop
          obtain ⟨a1, a2, a3, a4⟩ := loads_of_drop hdrop (by simp)
          have l0 : load src idx = .ok (0xE0 + c / 4096) := a4 0 _ rfl
          have l1 : load src (idx + 1) = .ok (0x80 + c / 64 % 64) := a4 1 _ rfl
          have l2 : load src (idx + 2) = .ok (0x80 + c % 64) := a4 2 _ rfl
          have i1 : uintSucc idx = idx + 1 := uintSucc_eq (by simp at a1; omega)
          have i2 : uintSucc (idx + 1) = idx + 2 := uintSucc_eq (by simp at a1; omega)
          have i3 : uintSucc (idx + 2) = idx + 3 := uintSucc_eq (by simp at a1; omega)
          rw [l0, ok_bind, if_neg (by omega), if_neg (by omega), if_pos (by omega), i1, l1,
            ok_bind, i2, l2, ok_bind, decode3 h3,
            store_first _ (by omega), ok_bind, szSub_eq (by omega) hw, i3, hstep 3 _ a3 hlen]
          exact hfin
        · rw [if_neg h3] at hdrop
          obtain ⟨a1, a2, a3, a4⟩ := loads_of_drop hdrop (by simp)
          have l0 : load src idx = .ok (0xF0 + c / 262144) := a4 0 _ rfl
          have l1 : load src (idx + 1) = .ok (0x80 + c / 4096 % 64) := a4 1 _ rfl
          have l2 : load src (idx + 2) = .ok (0x80 + c / 64 % 64) := a4 2 _ rfl
          have l3 : load src (idx + 3) = .ok (0x80 + c % 64) := a4 3 _ rfl
          have i1 : uintSucc idx = idx + 1 := uintSucc_eq (by simp at a1; omega)
          have i2 : uintSucc (idx + 1) = idx + 2 := uintSucc_eq (by simp at a1; omega)
          have i3 : uintSucc (idx + 2) = idx + 3 := uintSucc_eq (by simp at a1; omega)
          have i4 : uintSucc (idx + 3) = idx + 4 := uintSucc_eq (by simp at a1; omega)
          rw [l0, ok_bind, if_neg (by omega), if_neg (by omega), if_neg (by omega), i1, l1,
            ok_bind, i2, l2, ok_bind, i3, l3, ok_bind, decode4 hc,
            store_first _ (by omega), ok_bind, szSub_eq (by omega) hw, i4, hstep 4 _ a3 hlen]
          exact hfin

theorem length_le_flatMap_units (u : List Nat) : u.length ≤ (u.flatMap Encode_units).length := by
  induction u with
  | nil => simp
  | cons c u ih =>
    rw [List.flatMap_cons, List.length_append, Encode_units_length, List.length_cons]
    have := EncodedSize_cp_bounds c
    omega

theorem writeAt_whole (n : Nat) (bs : List Nat) (h : bs.length = n) :
    writeAt (List.replicate n 0) 0 bs = bs := by
  unfold writeAt
  rw [List.take_zero, List.nil_append, List.drop_of_length_le (by simp; omega),
    List.append_nil]

/-- The encoder on `src_len` code points, non-zero and below `2 ^ 32`, with
room for their code units: it writes the units of each code point in order and
returns their number. -/
theorem Encode_utf32_spec {w : Nat} (src dest : List Nat) (dp dest_len src_len : Nat)
    (h0 : src_len ≠ 0) (hsl : src_len ≤ src.length) (h32 : src_len < 2 ^ 32)
    (hcap : ((src.take src_len).flatMap Encode_units).length ≤ dest_len)
    (hw : dest_len < 2 ^ w) (hd : dp + dest_len ≤ dest.length) :
    Encode_utf32 w src dest dp dest_len src_len
      = .ok (writeAt dest dp ((src.take src_len).flatMap Encode_units),
          ((src.take src_len).flatMap Encode_units).length) := by
  have hlen := length_le_flatMap_units (src.take src_len)
  rw [List.length_take] at hlen
  have hloop := Encode_utf32_loop_spec src src_len hsl h32 src_len (dest_len + 1) 0 dest dp
    dest_len (by omega) (by omega) (by rw [List.drop_zero]; exact hcap) hw hd
  rw [List.drop_zero] at hloop
  unfold Encode_utf32
  rw [if_neg h0, pure_bind, hloop, ok_bind]
  show Except.ok (_, szSub w dest_len (dest_len - _)) = _
  rw [szSub_eq (by omega) hw]
  congr 2
  omega

/-- The decoder on `src_len` code units, non-zero and below `2 ^ 32`, that are
the code units of the code points `u`, with room for all of them: it writes
the code points in order and returns their number. -/
theorem Encode_utf8_spec {w : Nat} (src dest : List Nat) (dp dest_len src_len : Nat)
    (u : List Nat) (hu : ∀ c ∈ u, c < 0x200000)
    (h0 : src_len ≠ 0) (hsl : src_len ≤ src.length) (h32 : src_len < 2 ^ 32)
    (hsrc : src.take src_len = u.flatMap Encode_units)
    (hcap : u.length ≤ dest_len) (hw : dest_len < 2 ^ w) (hd : dp + dest_len ≤ dest.length) :
    Encode_utf8 w src dest dp dest_len src_len = .ok (writeAt dest dp u, u.length) := by
  have hloop := Encode_utf8_loop_spec src src_len hsl h32 u (dest_len + 1) 0 dest dp
    dest_len hu (by rw [List.drop_zero]; exact hsrc) (by omega) hcap hw hd
  unfold Encode_utf8
  rw [if_neg h0, pure_bind, hloop, ok_bind]
  show Except.ok (_, szSub w dest_len (dest_len - _)) = _
  rw [szSub_eq (by omega) hw]
  congr 2
  omega

/-- Round trip below `2 ^ 32` code units: the code points `u`, not empty and
each below `0x200000`, encoded into a buffer of the size of their code units
and decoded again, give `u`. -/
theorem Encode_round_trip {w : Nat} (u : List Nat) (hu : ∀ c ∈ u, c < 0x200000) (h0 : u ≠ [])
    (h32 : (u.flatMap Encode_units).length < 2 ^ 32)
    (hw : (u.flatMap Encode_units).length < 2 ^ w) :
    Encode_utf32 w u (newUtf8Array (u.flatMap Encode_units).length) 0
        (u.flatMap Encode_units).length u.length
      = .ok (u.flatMap Encode_units, (u.flatMap Encode_units).length) ∧
    Encode_utf8 w (u.flatMap Encode_units) (List.replicate u.length 0) 0 u.length
        (u.flatMap Encode_units).length
      = .ok (u, u.length) := by
  have hlen := length_le_flatMap_units u
  have hpos : 0 < u.length := List.length_pos.mpr h0
  constructor
  · have h := Encode_utf32_spec (w := w) u (newUtf8Array (u.flatMap Encode_units).length) 0
      (u.flatMap Encode_units).length u.length (by omega) (Nat.le_refl _) (by omega)
      (by rw [List.take_length]) hw (by unfold newUtf8Array; simp)
    rw [List.take_length] at h
    unfold newUtf8Array at h ⊢
    rw [writeAt_whole _ _ rfl] at h
    exact h
  · have h := Encode_utf8_spec (w := w) (u.flatMap Encode_units) (List.replicate u.length 0) 0 u.length
      (u.flatMap Encode_units).length u hu (by omega) (Nat.le_refl _) h32
      (by rw [List.take_length]) (Nat.le_refl _) (by omega) (by simp)
    rw [writeAt_whole _ _ rfl] at h
    exact h

/-! ## The reserve across the operations -/

theorem SetLen_res {s t : EdoString} {len : Nat} (hs : SetLen s len = .ok t) :
    t.d_reserve = s.d_reserve := by
  unfold SetLen at hs
  obtain ⟨buf, -, h2⟩ := bind_ok_inv hs
  rw [← Except.ok.inj h2, d_reserve_setPtr]

theorem Grow_res {w : Nat} {s t : EdoString} {n : Nat} (hG : Grow w s n = .ok t) :
    s.d_reserve ≤ t.d_reserve := by
  unfold Grow at hG
  split at hG
  · exact Except.noConfusion hG
  · simp only [] at hG
    split at hG
    · rename_i hgt
      obtain ⟨temp, -, h2⟩ := bind_ok_inv hG
      rw [← Except.ok.inj h2]
      exact Nat.le_of_lt hgt
    · rw [← Except.ok.inj hG]

theorem finish_res {w : Nat} {s s1 t : EdoString} {n m : Nat} {b : List Nat}
    (hG : Grow w s n = .ok s1) (hs : SetLen (s1.setPtr b) m = .ok t) :
    s.d_reserve ≤ t.d_reserve := by
  rw [SetLen_res hs, d_reserve_setPtr]
  exact Grow_res hG

theorem Insert_str_res {w : Nat} {s t : EdoString} {idx : Nat} {str : EdoString}
    {str_idx str_num : Nat} (hI : Insert_str w s idx str str_idx str_num = .ok t) :
    s.d_reserve ≤ t.d_reserve := by
  unfold Insert_str at hI
  split at hI
  · exact Except.noConfusion hI
  · simp only [] at hI
    obtain ⟨s1, hG, hI⟩ := bind_ok_inv hI
    obtain ⟨b1, -, hI⟩ := bind_ok_inv hI
    obtain ⟨b2, -, hI⟩ := bind_ok_inv hI
    exact finish_res hG hI

theorem Insert_std_res {w : Nat} {s t : EdoString} {idx : Nat} {std_str : List Nat}
    {str_idx str_num : Nat} (hI : Insert_std w s idx std_str str_idx str_num = .ok t) :
    s.d_reserve ≤ t.d_reserve := by
  unfold Insert_std at hI
  split at hI
  · exact Except.noConfusion hI
  · split at hI
    · exact Except.noConfusion hI
    · simp only [] at hI
      obtain ⟨s1, hG, hI⟩ := bind_ok_inv hI
      obtain ⟨b1, -, hI⟩ := bind_ok_inv hI
      obtain ⟨b2, -, hI⟩ := bind_ok_inv hI
      exact finish_res hG hI

theorem Insert_rep_res {w : Nat} {s t : EdoString} {idx num code_point : Nat}
    (hI : Insert_rep w s idx num code_point = .ok t) : s.d_reserve ≤ t.d_reserve := by
  unfold Insert_rep at hI
  split at hI
  · exact Except.noConfusion hI
  · split at hI
    · exact Except.noConfusion hI
    · simp only [] at hI
      obtain ⟨s1, hG, hI⟩ := bind_ok_inv hI
      obtain ⟨b1, -, hI⟩ := bind_ok_inv hI
      obtain ⟨b2, -, hI⟩ := bind_ok_inv hI
      exact finish_res hG hI

theorem Insert_chars_res {w : Nat} {s t : EdoString} {idx : Nat} {chars : List Nat}
    {chars_len : Nat} (hI : Insert_chars w s idx chars chars_len = .ok t) :
    s.d_reserve ≤ t.d_reserve := by
  unfold Insert_chars at hI
  split at hI
  · exact Except.noConfusion hI
  · split at hI
    · exact Except.noConfusion hI
    · simp only [] at hI
      obtain ⟨s1, hG, hI⟩ := bind_ok_inv hI
      obtain ⟨b1, -, hI⟩ := bind_ok_inv hI
      obtain ⟨b2, -, hI⟩ := bind_ok_inv hI
      exact finish_res hG hI

theorem Erase_res {w : Nat} {s t : EdoString} {idx len : Nat}
    (hI : Erase w s idx len = .ok t) : t.d_reserve = s.d_reserve := by
  unfold Erase at hI
  split at hI
  · rw [← Except.ok.inj hI]
  · split at hI
    · exact Except.noConfusion hI
    · simp only [] at hI
      obtain ⟨b1, -, hI⟩ := bind_ok_inv hI
      rw [SetLen_res hI, d_reserve_setPtr]

theorem Replace_str_res {w : Nat} {s t : EdoString} {idx len : Nat} {str : EdoString}
    {str_idx str_num : Nat} (hI : Replace_str w s idx len str str_idx str_num = .ok t) :
    s.d_reserve ≤ t.d_reserve := by
  unfold Replace_str at hI
  split at hI
  · exact Except.noConfusion hI
  · simp only [] at hI
    obtain ⟨s1, hG, hI⟩ := bind_ok_inv hI
    obtain ⟨b1, -, hI⟩ := ite_bind_ok_inv hI
    obtain ⟨b2, -, hI⟩ := bind_ok_inv hI
    exact finish_res hG hI

theorem Replace_rep_res {w : Nat} {s t : EdoString} {idx len num code_point : Nat}
    (hI : Replace_rep w s idx len num code_point = .ok t) : s.d_reserve ≤ t.d_reserve := by
  unfold Replace_rep at hI
  split at hI
  · exact Except.noConfusion hI
  · split at hI
    · exact Except.noConfusion hI
    · simp only [] at hI
      obtain ⟨s1, hG, hI⟩ := bind_ok_inv hI
      obtain ⟨b1, -, hI⟩ := ite_bind_ok_inv hI
      obtain ⟨b2, -, hI⟩ := bind_ok_inv hI
      exact finish_res hG hI

theorem Replace_chars_res {w : Nat} {s t : EdoString} {idx len : Nat} {chars : List Nat}
    {chars_len : Nat} (hI : Replace_chars w s idx len chars chars_len = .ok t) :
    s.d_reserve ≤ t.d_reserve := by
  unfold Replace_chars at hI
  split at hI
  · exact Except.noConfusion hI
  · split at hI
    · exact Except.noConfusion hI
    · simp only [] at hI
      obtain ⟨s1, hG, hI⟩ := bind_ok_inv hI
      obtain ⟨b1, -, hI⟩ := ite_bind_ok_inv hI
      obtain ⟨b2, -, hI⟩ := bind_ok_inv hI
      exact finish_res hG hI

theorem Assign_str_res {w : Nat} {s t : EdoString} {str : EdoString} {str_idx str_num : Nat}
    (hI : Assign_str w s str str_idx str_num = .ok t) : s.d_reserve ≤ t.d_reserve := by
  unfold Assign_str at hI
  split at hI
  · exact Except.noConfusion hI
  · simp only [] at hI
    obtain ⟨s1, hG, hI⟩ := bind_ok_inv hI
    obtain ⟨s2, h2, hI⟩ := bind_ok_inv hI
    obtain ⟨b, -, hI⟩ := bind_ok_inv hI
    rw [← Except.ok.inj hI, d_reserve_setPtr, SetLen_res h2]
    exact Grow_res hG

theorem Assign_chars_res {w : Nat} {s t : EdoString} {chars : List Nat} {chars_len : Nat}
    (hI : Assign_chars w s chars chars_len = .ok t) : s.d_reserve ≤ t.d_reserve := by
  unfold Assign_chars at hI
  obtain ⟨s1, hG, hI⟩ := bind_ok_inv hI
  obtain ⟨b, -, hI⟩ := bind_ok_inv hI
  exact finish_res hG hI

theorem Assign_cstr_res {w : Nat} {s t : EdoString} {cstr : List Nat}
    (hI : Assign_cstr w s cstr = .ok t) : s.d_reserve ≤ t.d_reserve := by
  unfold Assign_cstr at hI
  obtain ⟨n, -, hI⟩ := bind_ok_inv hI
  exact Assign_chars_res hI

theorem Assign_utf8_res {w : Nat} {s t : EdoString} {utf8_str : List Nat} {str_num : Nat}
    (hI : Assign_utf8 w s utf8_str str_num = .ok t) : s.d_reserve ≤ t.d_reserve := by
  unfold Assign_utf8 at hI
  split at hI
  · exact Except.noConfusion hI
  · obtain ⟨encSize, -, hI⟩ := bind_ok_inv hI
    obtain ⟨s1, hG, hI⟩ := bind_ok_inv hI
    obtain ⟨r, -, hI⟩ := bind_ok_inv hI
    exact finish_res hG hI

theorem operatorAssign_utf8_res {w : Nat} {s t : EdoString} {utf8_str : List Nat}
    (hI : operatorAssign_utf8 w s utf8_str = .ok t) : s.d_reserve ≤ t.d_reserve := by
  unfold operatorAssign_utf8 at hI
  obtain ⟨n, -, hI⟩ := bind_ok_inv hI
  exact Assign_utf8_res hI

theorem Append_std_res {w : Nat} {s t : EdoString} {std_str : List Nat}
    {str_idx str_num : Nat} (hI : Append_std w s std_str str_idx str_num = .ok t) :
    s.d_reserve ≤ t.d_reserve := by
  unfold Append_std at hI
  split at hI
  · exact Except.noConfusion hI
  · simp only [] at hI
    obtain ⟨s1, hG, hI⟩ := bind_ok_inv hI
    obtain ⟨b, -, hI⟩ := bind_ok_inv hI
    exact finish_res hG hI

theorem Append_rep_res {w : Nat} {s t : EdoString} {num code_point : Nat}
    (hI : Append_rep w s num code_point = .ok t) : s.d_reserve ≤ t.d_reserve := by
  unfold Append_rep at hI
  split at hI
  · exact Except.noConfusion hI
  · simp only [] at hI
    obtain ⟨s1, hG, hI⟩ := bind_ok_inv hI
    obtain ⟨b, -, hI⟩ := bind_ok_inv hI
    exact finish_res hG hI

theorem Append_utf8_res {w : Nat} {s t : EdoString} {utf8_str : List Nat} {len : Nat}
    (hI : Append_utf8 w s utf8_str len = .ok t) : s.d_reserve ≤ t.d_reserve := by
  unfold Append_utf8 at hI
  split at hI
  · exact Except.noConfusion hI
  · obtain ⟨encSize, -, hI⟩ := bind_ok_inv hI
    simp only [] at hI
    obtain ⟨s1, hG, hI⟩ := bind_ok_inv hI
    obtain ⟨r, -, hI⟩ := bind_ok_inv hI
    exact finish_res hG hI

theorem Resize_res {w : Nat} {s t : EdoString} {num code_point : Nat}
    (hI : Resize w s num code_point = .ok t) : s.d_reserve ≤ t.d_reserve := by
  unfold Resize at hI
  split at hI
  · rw [SetLen_res hI]
  · exact Append_rep_res hI

theorem BuildUtf8Buff_res {w : Nat} {s t : EdoString} (hI : BuildUtf8Buff w s = .ok t) :
    t.d_reserve = s.d_reserve := by
  unfold BuildUtf8Buff at hI
  obtain ⟨n, -, hI⟩ := bind_ok_inv hI
  simp only [] at hI
  obtain ⟨r, -, hI⟩ := bind_ok_inv hI
  obtain ⟨b, -, hI⟩ := bind_ok_inv hI
  rw [← Except.ok.inj hI]
  split <;> rfl

/-- The function `Grow` in full, on a well-formed string: a length error from
`MaxSize()` on, and below it the reserve `n + 1` when that exceeds the reserve
and no change otherwise. -/
theorem Grow_exact {w : Nat} {s : EdoString} (h : wf w s) (n : Nat) :
    (MaxSize w ≤ n → Grow w s n = .error .length_error) ∧
    (n < MaxSize w → s.d_reserve < n + 1 →
      ∃ t, Grow w s n = .ok t ∧ wf w t ∧ t.d_reserve = n + 1 ∧
        t.d_cpLength = s.d_cpLength ∧
        t.ptr.take (s.d_cpLength + 1) = s.ptr.take (s.d_cpLength + 1)) ∧
    (n < MaxSize w → n + 1 ≤ s.d_reserve → Grow w s n = .ok s) := by
  refine ⟨fun hge => ?_, fun hn hgt => ?_, fun hn hle => ?_⟩
  · unfold Grow
    rw [if_pos hge]
  · obtain ⟨t, h1, h2, h3, h4, h5, h6⟩ := Grow_ok h hn
    refine ⟨t, h1, h2, ?_, h3, h6⟩
    have hb := MaxSize_bound hn
    unfold Grow at h1
    rw [if_neg (by omega)] at h1
    simp only [] at h1
    rw [szAdd_eq (by omega), if_pos (by omega)] at h1
    obtain ⟨temp, -, h7⟩ := bind_ok_inv h1
    rw [← Except.ok.inj h7]
  · have hb := MaxSize_bound hn
    unfold Grow
    rw [if_neg (by omega)]
    simp only []
    rw [szAdd_eq (by omega), if_neg (by omega)]
    rfl

/-- The function `Trim` in full, on a well-formed string. -/
theorem Trim_exact {w : Nat} {s : EdoString} (h : wf w s) :
    ∃ t, Trim w s = .ok t ∧ wf w t ∧ t.d_cpLength = s.d_cpLength ∧
      t.ptr.take (s.d_cpLength + 1) = s.ptr.take (s.d_cpLength + 1) ∧
      (STR_QUICKBUFF_SIZE < s.d_reserve →
        t.d_reserve = (if s.d_cpLength + 1 ≤ STR_QUICKBUFF_SIZE then STR_QUICKBUFF_SIZE
          else s.d_cpLength + 1)) ∧
      (s.d_reserve ≤ STR_QUICKBUFF_SIZE → t = s) := by
  have hp := ptr_length h
  obtain ⟨hq, hr, hbuf, hl, hm⟩ := h
  have hb := MaxSize_bound hm
  have hbytes : szMul w (s.d_cpLength + 1) SIZEOF_UTF32 / SIZEOF_UTF32 = s.d_cpLength + 1 := by
    have := bytes_eq_succ hm
    rwa [szAdd_eq (by omega)] at this
  unfold Trim
  simp only []
  rw [szAdd_eq (by omega)]
  by_cases hc : s.d_reserve > STR_QUICKBUFF_SIZE ∧ s.d_reserve > s.d_cpLength + 1
  · have hptr : s.ptr = s.d_buffer := by unfold ptr; rw [if_pos hc.1]
    have hbl : s.d_buffer.length = s.d_reserve := hbuf hc.1
    rw [if_pos hc]
    by_cases hmin : s.d_cpLength + 1 ≤ STR_QUICKBUFF_SIZE
    · rw [if_pos hmin, memcpy_ok hbytes (by omega) (by omega), ok_bind]
      refine ⟨_, rfl, ⟨?_, le_refl _, fun hlt => absurd hlt (lt_irrefl _), hmin, hm⟩, rfl, ?_,
        fun _ => by rw [if_pos hmin], fun hle => absurd hc.1 (by omega)⟩
      · show (List.take 0 s.d_quickBuff ++ List.take (s.d_cpLength + 1) (List.drop 0 s.d_buffer)
          ++ List.drop (0 + (s.d_cpLength + 1)) s.d_quickBuff).length = STR_QUICKBUFF_SIZE
        simp only [List.length_append, List.length_take, List.length_drop, List.drop_zero]
        omega
      · rw [hptr]
        show (List.take 0 s.d_quickBuff ++ List.take (s.d_cpLength + 1) (List.drop 0 s.d_buffer)
          ++ List.drop (0 + (s.d_cpLength + 1)) s.d_quickBuff).take (s.d_cpLength + 1) = _
        rw [List.take_zero, List.nil_append, List.drop_zero, List.take_append_of_le_length
          (by rw [List.length_take]; omega), List.take_take, Nat.min_self]
    · rw [if_neg hmin, memcpy_ok hbytes (by omega) (by simp [newArray]), ok_bind]
      have hlen : (List.take 0 (newArray (s.d_cpLength + 1))
          ++ List.take (s.d_cpLength + 1) (List.drop 0 s.d_buffer)
          ++ List.drop (0 + (s.d_cpLength + 1)) (newArray (s.d_cpLength + 1))).length
            = s.d_cpLength + 1 := by
        simp only [List.length_append, List.length_take, List.length_drop, List.drop_zero,
          newArray, List.length_replicate]
        omega
      refine ⟨_, rfl, ⟨hq, ?_, fun _ => hlen, le_refl _, hm⟩, rfl, ?_,
        fun _ => by rw [if_neg hmin], fun hle => absurd hc.1 (by omega)⟩
      · show STR_QUICKBUFF_SIZE ≤ s.d_cpLength + 1
        omega
      · rw [hptr]
        have hgt : STR_QUICKBUFF_SIZE < s.d_cpLength + 1 := by omega
        show (ptr { s with d_buffer := _, d_reserve := s.d_cpLength + 1 }).take _ = _
        unfold ptr
        rw [if_pos hgt]
        show (List.take 0 (newArray (s.d_cpLength + 1))
          ++ List.take (s.d_cpLength + 1) (List.drop 0 s.d_buffer)
          ++ List.drop (0 + (s.d_cpLength + 1)) (newArray (s.d_cpLength + 1))).take
            (s.d_cpLength + 1) = _
        rw [List.take_zero, List.nil_append, List.drop_zero, List.take_append_of_le_length
          (by rw [List.length_take]; omega), List.take_take, Nat.min_self]
  · rw [if_neg hc]
    refine ⟨s, rfl, ⟨hq, hr, hbuf, hl, hm⟩, rfl, rfl, fun hgt => ?_, fun _ => rfl⟩
    have : s.d_reserve = s.d_cpLength + 1 := by omega
    rw [if_neg (by omega)]
    exact this

/-! ## Replace with the count 0 -/

theorem Grow_ok_inv {w : Nat} {s s1 : EdoString} (h : wf w s) {n : Nat}
    (hG : Grow w s n = .ok s1) :
    wf w s1 ∧ s1.d_cpLength = s.d_cpLength ∧ n + 1 ≤ s1.d_reserve := by
  by_cases hn : n < MaxSize w
  · obtain ⟨t, h1, h2, h3, h4, -, -⟩ := Grow_ok h hn
    rw [h1] at hG
    rw [← Except.ok.inj hG]
    exact ⟨h2, h3, h4⟩
  · unfold Grow at hG
    rw [if_pos (by omega)] at hG
    exact Except.noConfusion hG

theorem szSub_zero {w a : Nat} (h : a < 2 ^ w) : szSub w a 0 = a := by
  rw [szSub_eq (Nat.zero_le _) h, Nat.sub_zero]

theorem szAdd_lt (w a b : Nat) : szAdd w a b < 2 ^ w := by
  unfold szAdd
  exact Nat.mod_lt _ (Nat.two_pow_pos w)

theorem szSub_lt (w a b : Nat) : szSub w a b < 2 ^ w := by
  unfold szSub
  exact Nat.mod_lt _ (Nat.two_pow_pos w)

theorem memmove_zero {buf : List Nat} {dOff sOff : Nat} (hs : sOff ≤ buf.length)
    (hd : dOff ≤ buf.length) : memmove buf dOff sOff 0 = .ok buf := by
  unfold memmove
  simp only [Nat.zero_div, Nat.add_zero]
  rw [if_pos ⟨hs, hd⟩, List.take_zero, List.append_nil, List.take_append_drop]

/-- With the count 0 the clamp, the size and the shift of `Replace` are those
of `Insert`: the facts shared by the overloads. -/
theorem replace_zero_facts {w : Nat} {s : EdoString} (h : wf w s) {idx : Nat}
    (hidx : ¬ s.d_cpLength < idx) :
    (if szAdd w 0 idx > s.d_cpLength ∨ 0 = npos w then szSub w s.d_cpLength idx else 0) = 0 ∧
    szAdd w idx 0 = idx ∧ szAdd w 0 idx = idx ∧ szSub w s.d_cpLength s.d_cpLength = 0 := by
  have hb := MaxSize_bound h.2.2.2.2
  have hnp : ¬ (0 = npos w) := by unfold npos; omega
  have e1 : szAdd w 0 idx = idx := by rw [szAdd_eq (by omega)]; omega
  have e2 : szAdd w idx 0 = idx := szAdd_eq (by omega)
  refine ⟨?_, e2, e1, ?_⟩
  · rw [e1, if_neg]
    rintro (h1 | h1)
    · omega
    · exact hnp h1
  · rw [szSub_eq (Nat.le_refl _) (by omega), Nat.sub_self]

theorem Replace_chars_zero {w : Nat} {s : EdoString} (h : wf w s) (idx : Nat)
    (chars : List Nat) (chars_len : Nat) :
    Replace_chars w s idx 0 chars chars_len = Insert_chars w s idx chars chars_len := by
  unfold Replace_chars Insert_chars
  by_cases h1 : s.d_cpLength < idx
  · rw [if_pos h1, if_pos h1]
  · rw [if_neg h1, if_neg h1]
    by_cases h2 : chars_len = npos w
    · rw [if_pos h2, if_pos h2]
    · rw [if_neg h2, if_neg h2]
      obtain ⟨e0, e1, e2, e3⟩ := replace_zero_facts h h1
      simp only []
      rw [e0, e1, e2, szSub_zero (szAdd_lt _ _ _)]
      cases hG : Grow w s (szAdd w s.d_cpLength chars_len) with
      | error e => rfl
      | ok s1 =>
        obtain ⟨hwf1, hL1, hres⟩ := Grow_ok_inv h hG
        have hp := ptr_length hwf1
        rw [ok_bind, ok_bind, hL1, szSub_zero (szSub_lt _ _ _)]
        by_cases hlt : idx < s.d_cpLength
        · rw [if_pos hlt]
        · have hidx : idx = s.d_cpLength := by omega
          rw [if_neg hlt, hidx, e3]
          have hz : szMul w 0 SIZEOF_UTF32 = 0 := by unfold szMul; simp
          rw [hz, memmove_zero (by omega) (by omega)]
          rfl

theorem Replace_rep_zero {w : Nat} {s : EdoString} (h : wf w s) (idx num code_point : Nat) :
    Replace_rep w s idx 0 num code_point = Insert_rep w s idx num code_point := by
  unfold Replace_rep Insert_rep
  by_cases h1 : s.d_cpLength < idx
  · rw [if_pos h1, if_pos h1]
  · rw [if_neg h1, if_neg h1]
    by_cases h2 : num = npos w
    · rw [if_pos h2, if_pos h2]
    · rw [if_neg h2, if_neg h2]
      obtain ⟨e0, e1, e2, e3⟩ := replace_zero_facts h h1
      simp only []
      rw [e0, e1, e2, szSub_zero (szAdd_lt _ _ _)]
      cases hG : Grow w s (szAdd w s.d_cpLength num) with
      | error e => rfl
      | ok s1 =>
        obtain ⟨hwf1, hL1, hres⟩ := Grow_ok_inv h hG
        have hp := ptr_length hwf1
        rw [ok_bind, ok_bind, hL1, szSub_zero (szSub_lt _ _ _)]
        by_cases hlt : idx < s.d_cpLength
        · rw [if_pos hlt]
        · have hidx : idx = s.d_cpLength := by omega
          rw [if_neg hlt, hidx, e3]
          have hz : szMul w 0 SIZEOF_UTF32 = 0 := by unfold szMul; simp
          rw [hz, memmove_zero (by omega) (by omega)]
          rfl

theorem Replace_str_zero {w : Nat} {s : EdoString} (h : wf w s) (idx : Nat) (str : EdoString)
    (str_idx str_num : Nat)
    (hclamp : (szAdd w str_idx str_num > str.d_cpLength ∨ str_num = npos w) ↔
      (str_num = npos w ∨ str_num > szSub w str.d_cpLength str_idx)) :
    Replace_str w s idx 0 str str_idx str_num = Insert_str w s idx str str_idx str_num := by
  unfold Replace_str Insert_str
  by_cases h1 : s.d_cpLength < idx ∨ str.d_cpLength < str_idx
  · rw [if_pos h1, if_pos h1]
  · rw [if_neg h1, if_neg h1]
    have h1a : ¬ s.d_cpLength < idx := fun hc => h1 (Or.inl hc)
    obtain ⟨e0, e1, e2, e3⟩ := replace_zero_facts h h1a
    have hn : (if szAdd w str_idx str_num > str.d_cpLength ∨ str_num = npos w
          then szSub w str.d_cpLength str_idx else str_num)
        = (if str_num = npos w ∨ str_num > szSub w str.d_cpLength str_idx
          then szSub w str.d_cpLength str_idx else str_num) := by
      by_cases hc : szAdd w str_idx str_num > str.d_cpLength ∨ str_num = npos w
      · rw [if_pos hc, if_pos (hclamp.mp hc)]
      · rw [if_neg hc, if_neg (fun hd => hc (hclamp.mpr hd))]
    simp only []
    rw [hn, e0, e1, e2, szSub_zero (szAdd_lt _ _ _)]
    generalize (if str_num = npos w ∨ str_num > szSub w str.d_cpLength str_idx
      then szSub w str.d_cpLength str_idx else str_num) = n
    cases hG : Grow w s (szAdd w s.d_cpLength n) with
    | error e => rfl
    | ok s1 =>
      obtain ⟨hwf1, hL1, hres⟩ := Grow_ok_inv h hG
      have hp := ptr_length hwf1
      rw [ok_bind, ok_bind, hL1, szSub_zero (szSub_lt _ _ _)]
      by_cases hlt : idx < s.d_cpLength
      · rw [if_pos hlt]
      · have hidx : idx = s.d_cpLength := by omega
        rw [if_neg hlt, hidx, e3]
        have hz : szMul w 0 SIZEOF_UTF32 = 0 := by unfold szMul; simp
        rw [hz, memmove_zero (by omega) (by omega)]
        rfl

theorem clamp_whole (w : Nat) (str : EdoString) :
    (szAdd w 0 (npos w) > str.d_cpLength ∨ npos w = npos w) ↔
      (npos w = npos w ∨ npos w > szSub w str.d_cpLength 0) :=
  ⟨fun _ => Or.inl rfl, fun _ => Or.inr rfl⟩

theorem clamp_no_wrap {w : Nat} {str : EdoString} {str_idx str_num : Nat}
    (hstr : wf w str) (hidx : str_idx ≤ str.d_cpLength) (hsum : str_idx + str_num < 2 ^ w) :
    (szAdd w str_idx str_num > str.d_cpLength ∨ str_num = npos w) ↔
      (str_num = npos w ∨ str_num > szSub w str.d_cpLength str_idx) := by
  have hb := MaxSize_bound hstr.2.2.2.2
  rw [szAdd_eq hsum, szSub_eq hidx (by omega)]
  constructor
  · rintro (h1 | h1)
    · exact Or.inr (by omega)
    · exact Or.inl h1
  · rintro (h1 | h1)
    · exact Or.inr h1
    · exact Or.inl (by omega)

/-! ## The fast comparator -/

theorem memcmpBytes_self (X : List Nat) : memcmpBytes X X = 0 := by
  induction X with
  | nil => rfl
  | cons a X ih => unfold memcmpBytes; rw [if_pos rfl, ih]

theorem memcmpBytes_swap : ∀ (X Y : List Nat), memcmpBytes Y X = - memcmpBytes X Y
  | [], [] => rfl
  | [], _ :: _ => rfl
  | _ :: _, [] => rfl
  | a :: X, b :: Y => by
    unfold memcmpBytes
    by_cases h : a = b
    · rw [if_pos h, if_pos h.symm, memcmpBytes_swap X Y]
    · rw [if_neg h, if_neg (fun e => h e.symm)]
      omega

theorem memcmpBytes_eq_zero : ∀ (X Y : List Nat), X.length = Y.length →
    memcmpBytes X Y = 0 → X = Y
  | [], [], _, _ => rfl
  | [], _ :: _, h, _ => by simp at h
  | _ :: _, [], h, _ => by simp at h
  | a :: X, b :: Y, h, h0 => by
    unfold memcmpBytes at h0
    by_cases hab : a = b
    · rw [if_pos hab] at h0
      rw [hab, memcmpBytes_eq_zero X Y (by simpa using h) h0]
    · rw [if_neg hab] at h0
      omega

theorem memcmpBytes_trans : ∀ (X Y Z : List Nat), X.length = Y.length → Y.length = Z.length →
    memcmpBytes X Y < 0 → memcmpBytes Y Z < 0 → memcmpBytes X Z < 0
  | [], _, _, _, _, h, _ => by
    unfold memcmpBytes at h
    omega
  | _ :: _, [], _, h, _, _, _ => by simp at h
  | _ :: _, _ :: _, [], _, h, _, _ => by simp at h
  | a :: X, b :: Y, c :: Z, h1, h2, hxy, hyz => by
    unfold memcmpBytes at hxy hyz ⊢
    by_cases hab : a = b
    · rw [if_pos hab] at hxy
      by_cases hbc : b = c
      · rw [if_pos hbc] at hyz
        rw [if_pos (hab.trans hbc)]
        exact memcmpBytes_trans X Y Z (by simpa using h1) (by simpa using h2) hxy hyz
      · rw [if_neg hbc] at hyz
        rw [if_neg (by rw [hab]; exact hbc)]
        omega
    · rw [if_neg hab] at hxy
      by_cases hbc : b = c
      · rw [if_pos hbc] at hyz
        rw [if_neg (by rw [← hbc]; exact hab)]
        omega
      · rw [if_neg hbc] at hyz
        rw [if_neg (by omega)]
        omega

theorem flatMap_rep_length {rep : Nat → List Nat} (hrep : ∀ v, (rep v).length = SIZEOF_UTF32)
    (A : List Nat) : (A.flatMap rep).length = SIZEOF_UTF32 * A.length := by
  induction A with
  | nil => rfl
  | cons a A ih =>
    rw [List.flatMap_cons, List.length_append, hrep, ih, List.length_cons]
    unfold SIZEOF_UTF32
    omega

theorem flatMap_rep_inj {rep : Nat → List Nat} (hrep : ∀ v, (rep v).length = SIZEOF_UTF32)
    (hinj : ∀ u v, u < 2 ^ 32 → v < 2 ^ 32 → rep u = rep v → u = v) :
    ∀ (A B : List Nat), utf32List A → utf32List B → A.length = B.length →
      A.flatMap rep = B.flatMap rep → A = B
  | [], [], _, _, _, _ => rfl
  | [], _ :: _, _, _, h, _ => by simp at h
  | _ :: _, [], _, _, h, _ => by simp at h
  | a :: A, b :: B, hA, hB, hl, h => by
    rw [List.flatMap_cons, List.flatMap_cons] at h
    obtain ⟨h1, h2⟩ := List.append_inj h (by rw [hrep, hrep])
    have hab := hinj a b (hA a (List.mem_cons_self _ _)) (hB b (List.mem_cons_self _ _)) h1
    rw [hab, flatMap_rep_inj hrep hinj A B (fun x hx => hA x (List.mem_cons_of_mem _ hx))
      (fun x hx => hB x (List.mem_cons_of_mem _ hx)) (by simpa using hl) h2]

/-- The comparator on two well-formed strings, in terms of their lengths and
of the bytes of their code points. -/
theorem FastLess_spec {w : Nat} (rep : Nat → List Nat) {a b : EdoString}
    (ha : wf w a) (hb : wf w b) :
    EdoStringFastLessCompare w rep a b
      = .ok (if a.d_cpLength = b.d_cpLength
          then decide (memcmpBytes (a.codePoints.flatMap rep) (b.codePoints.flatMap rep) < 0)
          else decide (a.d_cpLength < b.d_cpLength)) := by
  have hpa := ptr_length ha
  have hpb := ptr_length hb
  have hk := bytes_eq ha.2.2.2.2
  unfold EdoStringFastLessCompare Length
  simp only []
  by_cases hl : a.d_cpLength = b.d_cpLength
  · rw [if_pos hl, if_pos hl]
    unfold memcmp
    simp only [hk]
    rw [if_pos ⟨by have := ha.2.2.2.1; omega, by have := hb.2.2.2.1; omega⟩, ok_bind]
    unfold codePoints
    rw [← hl]
    rfl
  · rw [if_neg hl, if_neg hl]
    rfl

theorem FastLess_true_iff {w : Nat} (rep : Nat → List Nat) {a b : EdoString}
    (ha : wf w a) (hb : wf w b) :
    EdoStringFastLessCompare w rep a b = .ok true ↔
      (a.d_cpLength = b.d_cpLength ∧
        memcmpBytes (a.codePoints.flatMap rep) (b.codePoints.flatMap rep) < 0) ∨
      a.d_cpLength < b.d_cpLength := by
  rw [FastLess_spec rep ha hb]
  by_cases hl : a.d_cpLength = b.d_cpLength
  · rw [if_pos hl]
    constructor
    · intro h
      exact Or.inl ⟨hl, of_decide_eq_true (Except.ok.inj h)⟩
    · rintro (⟨-, h⟩ | h)
      · rw [decide_eq_true h]
      · omega
  · rw [if_neg hl]
    constructor
    · intro h
      exact Or.inr (of_decide_eq_true (Except.ok.inj h))
    · rintro (⟨h, -⟩ | h)
      · exact absurd h hl
      · rw [decide_eq_true h]

theorem FastLess_false_iff {w : Nat} (rep : Nat → List Nat) {a b : EdoString}
    (ha : wf w a) (hb : wf w b) :
    EdoStringFastLessCompare w rep a b = .ok false ↔
      ¬ ((a.d_cpLength = b.d_cpLength ∧
        memcmpBytes (a.codePoints.flatMap rep) (b.codePoints.flatMap rep) < 0) ∨
      a.d_cpLength < b.d_cpLength) := by
  rw [← FastLess_true_iff rep ha hb, FastLess_spec rep ha hb]
  constructor
  · intro h1 h2
    rw [h1] at h2
    exact Bool.noConfusion (Except.ok.inj h2)
  · intro h
    generalize (if a.d_cpLength = b.d_cpLength
      then decide (memcmpBytes (a.codePoints.flatMap rep) (b.codePoints.flatMap rep) < 0)
      else decide (a.d_cpLength < b.d_cpLength)) = r at h ⊢
    cases r with
    | false => rfl
    | true => exact absurd rfl h

/-- Two well-formed strings of one length whose bytes `memcmp` finds equal
have the same code points, and conversely. -/
theorem memcmp_zero_iff {w : Nat} {rep : Nat → List Nat} {a b : EdoString}
    (hrep : ∀ v, (rep v).length = SIZEOF_UTF32)
    (hinj : ∀ u v, u < 2 ^ 32 → v < 2 ^ 32 → rep u = rep v → u = v)
    (ha : wf w a) (hb : wf w b) (hua : utf32List a.codePoints) (hub : utf32List b.codePoints)
    (hl : a.d_cpLength = b.d_cpLength) :
    memcmpBytes (a.codePoints.flatMap rep) (b.codePoints.flatMap rep) = 0 ↔
      a.codePoints = b.codePoints := by
  have hla := codePoints_length ha
  have hlb := codePoints_length hb
  constructor
  · intro h0
    have hlen : (a.codePoints.flatMap rep).length = (b.codePoints.flatMap rep).length := by
      rw [flatMap_rep_length hrep, flatMap_rep_length hrep, hla, hlb, hl]
    exact flatMap_rep_inj hrep hinj _ _ hua hub (by rw [hla, hlb, hl])
      (memcmpBytes_eq_zero _ _ hlen h0)
  · intro h
    rw [h]
    exact memcmpBytes_self _

theorem utf32Bytes_le_length (v : Nat) : (utf32Bytes_le v).length = SIZEOF_UTF32 := rfl

theorem utf32Bytes_be_length (v : Nat) : (utf32Bytes_be v).length = SIZEOF_UTF32 := rfl

theorem utf32Bytes_le_inj (u v : Nat) (hu : u < 2 ^ 32) (hv : v < 2 ^ 32)
    (h : utf32Bytes_le u = utf32Bytes_le v) : u = v := by
  unfold utf32Bytes_le at h
  simp only [List.cons.injEq, and_true] at h
  omega

theorem utf32Bytes_be_inj (u v : Nat) (hu : u < 2 ^ 32) (hv : v < 2 ^ 32)
    (h : utf32Bytes_be u = utf32Bytes_be v) : u = v := by
  unfold utf32Bytes_be at h
  simp only [List.cons.injEq, and_true] at h
  omega

/-! ## The encoder with any capacity, on sources below `2 ^ 32` code points -/

/-- One iteration of the loop of the encoder that finds room for the code
point `c` at `idx`: it writes the units of `c` and goes on behind them. -/
theorem Encode_utf32_loop_continue {w : Nat} {src : List Nat} {src_len f idx : Nat}
    {dest : List Nat} {dp cap c : Nat} (hidx : idx < src_len) (h32 : src_len < 2 ^ 32)
    (hload : load src idx = .ok c) (hfit : EncodedSize_cp c ≤ cap) (hw : cap < 2 ^ w)
    (hd : dp + cap ≤ dest.length) (r : Except Fault (List Nat × Nat))
    (hr : Encode_utf32_loop w src src_len f (idx + 1) (writeAt dest dp (Encode_units c))
      (dp + EncodedSize_cp c) (cap - EncodedSize_cp c) = r) :
    Encode_utf32_loop w src src_len (f + 1) idx dest dp cap = r := by
  have hsucc : uintSucc idx = idx + 1 := uintSucc_eq (by omega)
  unfold Encode_utf32_loop
  rw [if_pos hidx, hload, ok_bind, if_neg (by omega), hsucc]
  by_cases h1 : c < 0x80
  · have he : EncodedSize_cp c = 1 := by unfold EncodedSize_cp; rw [if_pos h1]
    have hu : Encode_units c = [toUtf8 c] := by unfold Encode_units; rw [if_pos h1]
    rw [he, hu] at hr
    rw [he] at hfit
    rw [if_pos h1, store_first _ (by omega), ok_bind, szSub_eq (by omega) hw]
    exact hr
  · rw [if_neg h1]
    by_cases h2 : c < 0x0800
    · have he : EncodedSize_cp c = 2 := by
        unfold EncodedSize_cp; rw [if_neg h1, if_pos h2]
      have hu : Encode_units c
          = [toUtf8 ((c >>> 6) ||| 0xC0), toUtf8 ((c &&& 0x3F) ||| 0x80)] := by
        unfold Encode_units; rw [if_neg h1, if_pos h2]
      rw [he, hu] at hr
      rw [he] at hfit
      rw [if_pos h2, store_first _ (by omega), ok_bind,
        store_second _ _ (by omega), ok_bind, szSub_eq (by omega) hw]
      exact hr
    · rw [if_neg h2]
      by_cases h3 : c < 0x10000
      · have he : EncodedSize_cp c = 3 := by
          unfold EncodedSize_cp; rw [if_neg h1, if_neg h2, if_pos h3]
        have hu : Encode_units c
            = [toUtf8 ((c >>> 12) ||| 0xE0), toUtf8 (((c >>> 6) &&& 0x3F) ||| 0x80),
              toUtf8 ((c &&& 0x3F) ||| 0x80)] := by
          unfold Encode_units; rw [if_neg h1, if_neg h2, if_pos h3]
        rw [he, hu] at hr
        rw [he] at hfit
        rw [if_pos h3, store_first _ (by omega), ok_bind,
          store_second _ _ (by omega), ok_bind,
          store_third _ _ _ (by omega), ok_bind, szSub_eq (by omega) hw]
        exact hr
      · have he : EncodedSize_cp c = 4 := by
          unfold EncodedSize_cp; rw [if_neg h1, if_neg h2, if_neg h3]
        have hu : Encode_units c
            = [toUtf8 ((c >>> 18) ||| 0xF0), toUtf8 (((c >>> 12) &&& 0x3F) ||| 0x80),
              toUtf8 (((c >>> 6) &&& 0x3F) ||| 0x80), toUtf8 ((c &&& 0x3F) ||| 0x80)] := by
          unfold Encode_units; rw [if_neg h1, if_neg h2, if_neg h3]
        rw [he, hu] at hr
        rw [he] at hfit
        rw [if_neg h3, store_first _ (by omega), ok_bind,
          store_second _ _ (by omega), ok_bind,
          store_third _ _ _ (by omega), ok_bind,
          store_fourth _ _ _ _ (by omega), ok_bind, szSub_eq (by omega) hw]
        exact hr

/-- The loop of the encoder on a source below `2 ^ 32` code points, with any
capacity: it writes the units of the first `k` code points, where `k` is the
number of code points from `idx` on whose units fit the capacity together, and
leaves the capacity that was not used. -/
theorem Encode_utf32_loop_prefix {w : Nat} (src : List Nat) (src_len : Nat)
    (hsl : src_len ≤ src.length) (h32 : src_len < 2 ^ 32) :
    ∀ (n fuel idx : Nat) (dest : List Nat) (dp cap : Nat), idx + n = src_len → cap < fuel →
      cap < 2 ^ w → dp + cap ≤ dest.length →
      ∃ k, k ≤ n ∧
        ((((src.take src_len).drop idx).take k).flatMap Encode_units).length ≤ cap ∧
        (k < n → cap <
          ((((src.take src_len).drop idx).take (k + 1)).flatMap Encode_units).length) ∧
        Encode_utf32_loop w src src_len fuel idx dest dp cap
          = .ok (writeAt dest dp ((((src.take src_len).drop idx).take k).flatMap Encode_units),
              cap - ((((src.take src_len).drop idx).take k).flatMap Encode_units).length) := by
  intro n
  induction n with
  | zero =>
    intro fuel idx dest dp cap hi hf hw hd
    obtain ⟨f, rfl⟩ : ∃ f, fuel = f + 1 := ⟨fuel - 1, by omega⟩
    refine ⟨0, Nat.le_refl _, by simp, fun h => absurd h (Nat.lt_irrefl _), ?_⟩
    unfold Encode_utf32_loop
    rw [if_neg (by omega), List.take_zero, List.flatMap_nil, writeAt_nil]
    rfl
  | succ n ih =>
    intro fuel idx dest dp cap hi hf hw hd
    obtain ⟨f, rfl⟩ : ∃ f, fuel = f + 1 := ⟨fuel - 1, by omega⟩
    obtain ⟨c, hload, hcons⟩ := drop_take_cons (show idx < src_len by omega) hsl
    have hsz := EncodedSize_cp_bounds c
    rw [hcons]
    by_cases hfit : EncodedSize_cp c ≤ cap
    · have hlen : dp + EncodedSize_cp c + (cap - EncodedSize_cp c)
          ≤ (writeAt dest dp (Encode_units c)).length := by
        rw [length_writeAt (by rw [Encode_units_length]; omega)]
        omega
      obtain ⟨k, hk, h1, h2, h3⟩ := ih f (idx + 1) (writeAt dest dp (Encode_units c))
        (dp + EncodedSize_cp c) (cap - EncodedSize_cp c) (by omega) (by omega) (by omega) hlen
      refine ⟨k + 1, by omega, ?_, fun hlt => ?_, ?_⟩
      · rw [List.take_succ_cons, List.flatMap_cons, List.length_append, Encode_units_length]
        omega
      · have := h2 (by omega)
        rw [List.take_succ_cons, List.flatMap_cons, List.length_append, Encode_units_length]
        omega
      · rw [List.take_succ_cons, List.flatMap_cons]
        rw [Encode_utf32_loop_continue (by omega) h32 hload hfit hw hd _ h3]
        exact finish_write (Encode_units c) _ (EncodedSize_cp c) (Encode_units_length c)
          (by rw [Encode_units_length]; omega)
    · refine ⟨0, Nat.zero_le _, by simp, fun _ => ?_, ?_⟩
      · rw [List.take_succ_cons, List.take_zero, List.flatMap_cons, List.flatMap_nil,
          List.append_nil, Encode_units_length]
        omega
      · unfold Encode_utf32_loop
        rw [if_pos (by omega), hload, ok_bind, if_pos (by omega), List.take_zero,
          List.flatMap_nil, writeAt_nil]
        rfl

/-- The encoder on `src_len` code points, non-zero and below `2 ^ 32`, with
any capacity `dest_len`: it writes the units of the longest prefix of the
source whose units fit `dest_len` together (the first `k` code points fit and,
unless they are all, the first `k + 1` do not), and returns their number. -/
theorem Encode_utf32_prefix {w : Nat} (src dest : List Nat) (dp dest_len src_len : Nat)
    (h0 : src_len ≠ 0) (hsl : src_len ≤ src.length) (h32 : src_len < 2 ^ 32)
    (hw : dest_len < 2 ^ w) (hd : dp + dest_len ≤ dest.length) :
    ∃ k, k ≤ src_len ∧ ((src.take k).flatMap Encode_units).length ≤ dest_len ∧
      (k < src_len → dest_len < ((src.take (k + 1)).flatMap Encode_units).length) ∧
      Encode_utf32 w src dest dp dest_len src_len
        = .ok (writeAt dest dp ((src.take k).flatMap Encode_units),
            ((src.take k).flatMap Encode_units).length) := by
  obtain ⟨k, hk, h1, h2, h3⟩ := Encode_utf32_loop_prefix (w := w) src src_len hsl h32 src_len
    (dest_len + 1) 0 dest dp dest_len (by omega) (by omega) hw hd
  rw [List.drop_zero, List.take_take, Nat.min_eq_left hk] at h1 h3
  refine ⟨k, hk, h1, fun hlt => ?_, ?_⟩
  · have := h2 hlt
    rw [List.drop_zero, List.take_take, Nat.min_eq_left (by omega)] at this
    exact this
  · unfold Encode_utf32
    rw [if_neg h0, pure_bind, h3, ok_bind]
    show Except.ok (_, szSub w dest_len (dest_len - _)) = _
    rw [szSub_eq (by omega) hw]
    congr 2
    omega

/-! ## The count of code points of valid UTF-8 data -/

/-- The loop of `EncodedSize(const utf8 *, len)` on the `len` code units of
the code points `u`: it counts one for each of them. -/
theorem EncodedSize_utf8_loop_spec {w : Nat} (buf rest : List Nat) :
    ∀ (u : List Nat) (fuel p len count : Nat), (∀ c ∈ u, c < 0x200000) →
      buf.drop p = u.flatMap Encode_units ++ rest →
      len = (u.flatMap Encode_units).length →
      u.length < fuel → count + u.length < 2 ^ w → len < 2 ^ w →
      EncodedSize_utf8_loop w buf fuel p len count = .ok (count + u.length) := by
  intro u
  induction u with
  | nil =>
    intro fuel p len count _ _ hlen hf _ _
    obtain ⟨f, rfl⟩ : ∃ f, fuel = f + 1 := ⟨fuel - 1, by omega⟩
    rw [List.flatMap_nil, List.length_nil] at hlen
    unfold EncodedSize_utf8_loop
    rw [if_neg (by omega)]
    rfl
  | cons c u ih =>
    intro fuel p len count hu hdrop hlen hf hcount hw
    obtain ⟨f, rfl⟩ : ∃ f, fuel = f + 1 := ⟨fuel - 1, by omega⟩
    have hc : c < 0x200000 := hu c (List.mem_cons_self _ _)
    have hu2 : ∀ x ∈ u, x < 0x200000 := fun x hx => hu x (List.mem_cons_of_mem _ hx)
    have hsz := EncodedSize_cp_bounds c
    rw [List.length_cons] at hf hcount
    rw [List.flatMap_cons, List.length_append, Encode_units_length] at hlen
    rw [List.flatMap_cons, List.append_assoc] at hdrop
    obtain ⟨a1, a2, a3⟩ := drop_append_inv hdrop (by rw [Encode_units_length]; omega)
    rw [Encode_units_length] at a1 a2
    have hlead := a3 0 (by rw [Encode_units_length]; omega)
    have hrec := fun (cnt : Nat) (hcnt : cnt + u.length < 2 ^ w) =>
      ih f (p + EncodedSize_cp c) (len - EncodedSize_cp c) cnt hu2 a2 (by omega) (by omega)
        hcnt (by omega)
    have h1s : szSub w len 1 = len - 1 := szSub_eq (by omega) hw
    have hcs : szAdd w count 1 = count + 1 := szAdd_eq (by omega)
    unfold EncodedSize_utf8_loop
    rw [if_pos (by omega)]
    rw [Encode_units_eq hc] at hlead
    by_cases h1 : c < 0x80
    · have he : EncodedSize_cp c = 1 := by unfold EncodedSize_cp; rw [if_pos h1]
      rw [if_pos h1] at hlead
      have hload : load buf p = .ok c := by
        unfold load
        rw [show buf[p]? = buf[p + 0]? from rfl, hlead]
        rfl
      rw [he] at hrec
      rw [hload, ok_bind]
      simp only []
      rw [if_pos h1, h1s, hcs, if_pos (show len - 1 ≥ 0 by omega),
        szSub_eq (by omega) (by omega), Nat.add_zero, Nat.sub_zero,
        hrec (count + 1) (by omega)]
      rw [List.length_cons]
      congr 1
      omega
    · rw [if_neg h1] at hlead
      by_cases h2 : c < 0x0800
      · have he : EncodedSize_cp c = 2 := by
          unfold EncodedSize_cp; rw [if_neg h1, if_pos h2]
        rw [if_pos h2] at hlead
        have hload : load buf p = .ok (0xC0 + c / 64) := by
          unfold load
          rw [show buf[p]? = buf[p + 0]? from rfl, hlead]
          rfl
        rw [he] at hrec
        rw [hload, ok_bind]
        simp only []
        rw [if_neg (show ¬ (0xC0 + c / 64 < 0x80) by omega),
          if_pos (show 0xC0 + c / 64 < 0xE0 by omega), h1s, hcs,
          if_pos (show len - 1 ≥ 1 by omega),
          szSub_eq (by omega) (by omega), Nat.sub_sub, hrec (count + 1) (by omega)]
        rw [List.length_cons]
        congr 1
        omega
      · rw [if_neg h2] at hlead
        by_cases h3 : c < 0x10000
        · have he : EncodedSize_cp c = 3 := by
            unfold EncodedSize_cp; rw [if_neg h1, if_neg h2, if_pos h3]
          rw [if_pos h3] at hlead
          have hload : load buf p = .ok (0xE0 + c / 4096) := by
            unfold load
            rw [show buf[p]? = buf[p + 0]? from rfl, hlead]
            rfl
          rw [he] at hrec
          rw [hload, ok_bind]
          simp only []
          rw [if_neg (show ¬ (0xE0 + c / 4096 < 0x80) by omega),
            if_neg (show ¬ (0xE0 + c / 4096 < 0xE0) by omega),
            if_pos (show 0xE0 + c / 4096 < 0xF0 by omega), h1s, hcs,
            if_pos (show len - 1 ≥ 2 by omega), szSub_eq (by omega) (by omega), Nat.sub_sub,
            hrec (count + 1) (by omega)]
          rw [List.length_cons]
          congr 1
          omega
        · have he : EncodedSize_cp c = 4 := by
            unfold EncodedSize_cp; rw [if_neg h1, if_neg h2, if_neg h3]
          rw [if_neg h3] at hlead
          have hload : load buf p = .ok (0xF0 + c / 262144) := by
            unfold load
            rw [show buf[p]? = buf[p + 0]? from rfl, hlead]
            rfl
          rw [he] at hrec
          rw [hload, ok_bind]
          simp only []
          rw [if_neg (show ¬ (0xF0 + c / 262144 < 0x80) by omega),
            if_neg (show ¬ (0xF0 + c / 262144 < 0xE0) by omega),
            if_neg (show ¬ (0xF0 + c / 262144 < 0xF0) by omega), h1s, hcs,
            if_pos (show len - 1 ≥ 3 by omega), szSub_eq (by omega) (by omega), Nat.sub_sub,
            hrec (count + 1) (by omega)]
          rw [List.length_cons]
          congr 1
          omega

/-- The function `EncodedSize(const utf8 *buf, size_type len)` on the `len`
code units of the code points `u`: it returns their number. -/
theorem EncodedSize_utf8_valid {w : Nat} (buf : List Nat) (len : Nat) (u : List Nat)
    (hu : ∀ c ∈ u, c < 0x200000) (hlen : len ≤ buf.length)
    (hsrc : buf.take len = u.flatMap Encode_units) (hw : len < 2 ^ w) :
    EncodedSize_utf8 w buf len = .ok u.length := by
  have hl := congrArg List.length hsrc
  rw [List.length_take, Nat.min_eq_left hlen] at hl
  have hle := length_le_flatMap_units u
  have hd : buf.drop 0 = u.flatMap Encode_units ++ buf.drop len := by
    rw [List.drop_zero, ← hsrc, List.take_append_drop]
  unfold EncodedSize_utf8
  rw [EncodedSize_utf8_loop_spec buf (buf.drop len) u (len + 1) 0 len 0 hu hd hl (by omega)
    (by omega) hw, Nat.zero_add]

/-- Below `2 ^ 32` code units the count and the decoder agree: for the code
units `b`, not empty, of the code points `u`, `EncodedSize(b, L)` is the number
of code points, and the decoder with room for that many or more writes `u` and
returns that number. -/
theorem EncodedSize_utf8_decoder {w : Nat} (b dest : List Nat) (dp cap : Nat) (u : List Nat)
    (hu : ∀ c ∈ u, c < 0x200000) (hb : b = u.flatMap Encode_units) (h0 : b ≠ [])
    (h32 : b.length < 2 ^ 32) (hbw : b.length < 2 ^ w) (hcap : u.length ≤ cap)
    (hw : cap < 2 ^ w) (hd : dp + cap ≤ dest.length) :
    EncodedSize_utf8 w b b.length = .ok u.length ∧
    Encode_utf8 w b dest dp cap b.length = .ok (writeAt dest dp u, u.length) := by
  have hpos : b.length ≠ 0 := fun h => h0 (List.length_eq_zero.mp h)
  have htake : b.take b.length = u.flatMap Encode_units := by rw [List.take_length, hb]
  exact ⟨EncodedSize_utf8_valid b b.length u hu (Nat.le_refl _) htake hbw,
    Encode_utf8_spec b dest dp cap b.length u hu hpos (Nat.le_refl _) h32 htake hcap hw hd⟩

/-! ## The object when a call returns or fails -/

theorem SetLen_st_outcome (s : EdoString) (len : Nat) :
    outcome (SetLen_st s len) = SetLen s len := by
  unfold SetLen_st SetLen outcome
  dsimp only
  cases store ({ s with d_cpLength := len } : EdoString).ptr len 0 <;> rfl

theorem Erase_st_outcome (w : Nat) (s : EdoString) (idx len : Nat) :
    outcome (Erase_st w s idx len) = Erase w s idx len := by
  unfold Erase_st Erase
  by_cases h0 : len = 0
  · rw [if_pos h0, if_pos h0]; rfl
  · rw [if_neg h0, if_neg h0]
    by_cases h1 : s.d_cpLength ≤ idx
    · rw [if_pos h1, if_pos h1]; rfl
    · rw [if_neg h1, if_neg h1]
      dsimp only
      cases h : memmove s.ptr idx
          (szAdd w idx (if len = npos w then szSub w s.d_cpLength idx else len))
          (szMul w (szSub w (szSub w s.d_cpLength idx)
            (if len = npos w then szSub w s.d_cpLength idx else len)) SIZEOF_UTF32) with
      | error e => rfl
      | ok b1 => exact SetLen_st_outcome _ _

theorem outcome_error {r : EdoString × Except Fault Unit} {e : Fault} :
    outcome r = .error e ↔ r.2 = .error e := by
  unfold outcome
  cases h : r.2 with
  | ok u => simp
  | error e2 => simp

/-! ## Allocation that can be refused -/

theorem newUtf32_ok_inv {w : Nat} {alloc : Nat → Bool} {n : Nat} {b : List Nat}
    (h : newUtf32 w alloc n = .ok b) : b = newArray n := by
  unfold newUtf32 at h
  split at h
  · exact Except.noConfusion h
  · split at h
    · exact (Except.ok.inj h).symm
    · exact Except.noConfusion h

/-- When no buffer is needed or the request is granted, `Grow` under an
allocator is `Grow`. -/
theorem Grow_alloc_eq {w : Nat} {alloc : Nat → Bool} {s : EdoString} {n : Nat}
    (h : MaxSize w ≤ n ∨ szAdd w n 1 ≤ s.d_reserve ∨
      newUtf32 w alloc (szAdd w n 1) = .ok (newArray (szAdd w n 1))) :
    Grow_alloc w alloc s n = Grow w s n := by
  unfold Grow_alloc Grow
  by_cases hm : MaxSize w ≤ n
  · rw [if_pos hm, if_pos hm]
  · rw [if_neg hm, if_neg hm]
    simp only []
    by_cases hg : szAdd w n 1 > s.d_reserve
    · rw [if_pos hg, if_pos hg]
      rcases h with h | h | h
      · exact absurd h hm
      · exact absurd h (by omega)
      · rw [h]
        rfl
    · rw [if_neg hg, if_neg hg]

/-- When a buffer is needed and the request is refused, `Grow` under an
allocator throws `std::bad_alloc`. -/
theorem Grow_alloc_refused {w : Nat} {alloc : Nat → Bool} {s : EdoString} {n : Nat}
    (hn : n < MaxSize w) (hr : s.d_reserve < szAdd w n 1)
    (ha : newUtf32 w alloc (szAdd w n 1) = .error .bad_alloc) :
    Grow_alloc w alloc s n = .error .bad_alloc := by
  unfold Grow_alloc
  rw [if_neg (by omega)]
  simp only []
  rw [if_pos hr, ha]
  rfl

/-- A normal return of `Grow` under an allocator is the return of `Grow`. -/
theorem Grow_alloc_ok_inv {w : Nat} {alloc : Nat → Bool} {s t : EdoString} {n : Nat}
    (h : Grow_alloc w alloc s n = .ok t) : Grow w s n = .ok t := by
  rw [← h]
  symm
  apply Grow_alloc_eq
  by_cases hm : MaxSize w ≤ n
  · exact Or.inl hm
  · by_cases hg : szAdd w n 1 > s.d_reserve
    · refine Or.inr (Or.inr ?_)
      unfold Grow_alloc at h
      rw [if_neg hm] at h
      simp only [] at h
      rw [if_pos hg] at h
      obtain ⟨fresh, h1, -⟩ := bind_ok_inv h
      rw [h1, newUtf32_ok_inv h1]
    · exact Or.inr (Or.inl (by omega))

theorem Append_rep_alloc_eq {w : Nat} {alloc : Nat → Bool} {s : EdoString}
    {num : Nat} (code_point : Nat)
    (h : Grow_alloc w alloc s (szAdd w s.d_cpLength num) = Grow w s (szAdd w s.d_cpLength num)) :
    Append_rep_alloc w alloc s num code_point = Append_rep w s num code_point := by
  unfold Append_rep_alloc Append_rep
  by_cases hn : num = npos w
  · rw [if_pos hn, if_pos hn]
  · rw [if_neg hn, if_neg hn]
    simp only []
    rw [h]

/-- The function `Resize` under an allocator, to a length below `MaxSize()`:
it is `Resize` when the reserve holds the new length or the request for the new
buffer is granted, and it throws `std::bad_alloc` when a buffer is needed and
the request is refused. -/
theorem Resize_alloc_spec {w : Nat} (alloc : Nat → Bool) {s : EdoString} (h : wf w s)
    {n : Nat} (f : Nat) (hmax : n < MaxSize w) :
    ((n + 1 ≤ s.d_reserve ∨ newUtf32 w alloc (n + 1) = .ok (newArray (n + 1))) →
      Resize_alloc w alloc s n f = Resize w s n f) ∧
    (s.d_reserve < n + 1 → newUtf32 w alloc (n + 1) = .error .bad_alloc →
      Resize_alloc w alloc s n f = .error .bad_alloc) := by
  have hb := MaxSize_bound hmax
  have hr := h.2.2.2.1
  have h1 : szAdd w n 1 = n + 1 := szAdd_eq (by omega)
  refine ⟨fun hg => ?_, fun hlt ha => ?_⟩
  · unfold Resize_alloc Resize
    by_cases hlt : n < s.d_cpLength
    · rw [if_pos hlt, if_pos hlt]
    · rw [if_neg hlt, if_neg hlt, szSub_eq (by omega) (by omega)]
      apply Append_rep_alloc_eq
      have e : szAdd w s.d_cpLength (n - s.d_cpLength) = n := by
        rw [szAdd_eq (by omega)]
        omega
      rw [e]
      apply Grow_alloc_eq
      rw [h1]
      rcases hg with hg | hg
      · exact Or.inr (Or.inl hg)
      · exact Or.inr (Or.inr hg)
  · have hge : ¬ n < s.d_cpLength := by omega
    unfold Resize_alloc
    rw [if_neg hge, szSub_eq (by omega) (by omega)]
    unfold Append_rep_alloc
    rw [if_neg (by unfold npos; omega)]
    simp only []
    have e : szAdd w s.d_cpLength (n - s.d_cpLength) = n := by
      rw [szAdd_eq (by omega)]
      omega
    rw [e, Grow_alloc_refused hmax (by rw [h1]; exact hlt) (by rw [h1]; exact ha)]
    rfl

/-! ## The reserve across the other forms of the modifying operations -/

theorem Assign_std_res {w : Nat} {s t : EdoString} {std_str : List Nat} {str_idx str_num : Nat}
    (hI : Assign_std w s std_str str_idx str_num = .ok t) : s.d_reserve ≤ t.d_reserve := by
  unfold Assign_std at hI
  split at hI
  · exact Except.noConfusion hI
  · simp only [] at hI
    obtain ⟨s1, hG, hI⟩ := bind_ok_inv hI
    obtain ⟨s2, h2, hI⟩ := bind_ok_inv hI
    obtain ⟨b, -, hI⟩ := bind_ok_inv hI
    rw [← Except.ok.inj hI, d_reserve_setPtr, SetLen_res h2]
    exact Grow_res hG

theorem Assign_rep_res {w : Nat} {s t : EdoString} {num code_point : Nat}
    (hI : Assign_rep w s num code_point = .ok t) : s.d_reserve ≤ t.d_reserve := by
  unfold Assign_rep at hI
  split at hI
  · exact Except.noConfusion hI
  · obtain ⟨s1, hG, hI⟩ := bind_ok_inv hI
    obtain ⟨s2, h2, hI⟩ := bind_ok_inv hI
    obtain ⟨b, -, hI⟩ := bind_ok_inv hI
    rw [← Except.ok.inj hI, d_reserve_setPtr, SetLen_res h2]
    exact Grow_res hG

theorem operatorAssign_cstr_res {w : Nat} {s t : EdoString} {cstr : List Nat}
    (hI : operatorAssign_cstr w s cstr = .ok t) : s.d_reserve ≤ t.d_reserve := by
  unfold operatorAssign_cstr at hI
  obtain ⟨n, -, hI⟩ := bind_ok_inv hI
  exact Assign_chars_res hI

theorem Assign_wstr_res {w : Nat} {s t : EdoString} {w_str : List Nat} {idx num : Nat}
    (hI : Assign_wstr w s w_str idx num = .ok t) : s.d_reserve ≤ t.d_reserve := by
  unfold Assign_wstr at hI
  split at hI
  · exact Except.noConfusion hI
  · simp only [] at hI
    obtain ⟨s1, hG, hI⟩ := bind_ok_inv hI
    obtain ⟨s2, h2, hI⟩ := bind_ok_inv hI
    obtain ⟨b, -, hI⟩ := bind_ok_inv hI
    rw [← Except.ok.inj hI, d_reserve_setPtr, SetLen_res h2]
    exact Grow_res hG

theorem Assign_wchars_res {w : Nat} {s t : EdoString} {chars : List Nat}
    (hI : Assign_wchars w s chars = .ok t) : s.d_reserve ≤ t.d_reserve := by
  unfold Assign_wchars at hI
  obtain ⟨num, -, hI⟩ := bind_ok_inv hI
  obtain ⟨s1, hG, hI⟩ := bind_ok_inv hI
  obtain ⟨s2, h2, hI⟩ := bind_ok_inv hI
  obtain ⟨b, -, hI⟩ := bind_ok_inv hI
  rw [← Except.ok.inj hI, d_reserve_setPtr, SetLen_res h2]
  exact Grow_res hG

theorem Assign_self_res {w : Nat} {s t : EdoString} {str_idx str_num : Nat}
    (hI : Assign_self w s str_idx str_num = .ok t) : s.d_reserve ≤ t.d_reserve := by
  unfold Assign_self at hI
  split at hI
  · exact Except.noConfusion hI
  · simp only [] at hI
    obtain ⟨s1, hG, hI⟩ := bind_ok_inv hI
    obtain ⟨s2, h2, hI⟩ := bind_ok_inv hI
    obtain ⟨b, -, hI⟩ := bind_ok_inv hI
    rw [← Except.ok.inj hI, d_reserve_setPtr, SetLen_res h2]
    exact Grow_res hG

theorem Append_str_res {w : Nat} {s t : EdoString} {str : EdoString} {str_idx str_num : Nat}
    (hI : Append_str w s str str_idx str_num = .ok t) : s.d_reserve ≤ t.d_reserve := by
  unfold Append_str at hI
  split at hI
  · exact Except.noConfusion hI
  · simp only [] at hI
    obtain ⟨s1, hG, hI⟩ := bind_ok_inv hI
    obtain ⟨b, -, hI⟩ := bind_ok_inv hI
    exact finish_res hG hI

theorem Append_self_res {w : Nat} {s t : EdoString} {str_idx str_num : Nat}
    (hI : Append_self w s str_idx str_num = .ok t) : s.d_reserve ≤ t.d_reserve := by
  unfold Append_self at hI
  split at hI
  · exact Except.noConfusion hI
  · simp only [] at hI
    obtain ⟨s1, hG, hI⟩ := bind_ok_inv hI
    obtain ⟨b, -, hI⟩ := bind_ok_inv hI
    exact finish_res hG hI

theorem Append_utf8_z_res {w : Nat} {s t : EdoString} {utf8_str : List Nat}
    (hI : Append_utf8_z w s utf8_str = .ok t) : s.d_reserve ≤ t.d_reserve := by
  unfold Append_utf8_z at hI
  obtain ⟨n, -, hI⟩ := bind_ok_inv hI
  exact Append_utf8_res hI

theorem operatorAppend_utf8_res {w : Nat} {s t : EdoString} {utf8_str : List Nat}
    (hI : operatorAppend_utf8 w s utf8_str = .ok t) : s.d_reserve ≤ t.d_reserve := by
  unfold operatorAppend_utf8 at hI
  obtain ⟨n, -, hI⟩ := bind_ok_inv hI
  exact Append_utf8_res hI

theorem Append_chars_res {w : Nat} {s t : EdoString} {chars : List Nat} {chars_len : Nat}
    (hI : Append_chars w s chars chars_len = .ok t) : s.d_reserve ≤ t.d_reserve := by
  unfold Append_chars at hI
  split at hI
  · exact Except.noConfusion hI
  · simp only [] at hI
    obtain ⟨s1, hG, hI⟩ := bind_ok_inv hI
    obtain ⟨b, -, hI⟩ := bind_ok_inv hI
    exact finish_res hG hI

theorem operatorAppend_cstr_res {w : Nat} {s t : EdoString} {cstr : List Nat}
    (hI : operatorAppend_cstr w s cstr = .ok t) : s.d_reserve ≤ t.d_reserve := by
  unfold operatorAppend_cstr at hI
  obtain ⟨n, -, hI⟩ := bind_ok_inv hI
  exact Append_chars_res hI

theorem Insert_self_res {w : Nat} {s t : EdoString} {idx str_idx str_num : Nat}
    (hI : Insert_self w s idx str_idx str_num = .ok t) : s.d_reserve ≤ t.d_reserve := by
  unfold Insert_self at hI
  split at hI
  · exact Except.noConfusion hI
  · simp only [] at hI
    obtain ⟨s1, hG, hI⟩ := bind_ok_inv hI
    obtain ⟨b1, -, hI⟩ := bind_ok_inv hI
    obtain ⟨b2, -, hI⟩ := bind_ok_inv hI
    exact finish_res hG hI

theorem Insert_utf8_res {w : Nat} {s t : EdoString} {idx : Nat} {utf8_str : List Nat}
    {len : Nat} (hI : Insert_utf8 w s idx utf8_str len = .ok t) :
    s.d_reserve ≤ t.d_reserve := by
  unfold Insert_utf8 at hI
  split at hI
  · exact Except.noConfusion hI
  · split at hI
    · exact Except.noConfusion hI
    · obtain ⟨encSize, -, hI⟩ := bind_ok_inv hI
      simp only [] at hI
      obtain ⟨s1, hG, hI⟩ := bind_ok_inv hI
      obtain ⟨b1, -, hI⟩ := bind_ok_inv hI
      obtain ⟨r, -, hI⟩ := bind_ok_inv hI
      exact finish_res hG hI

theorem Insert_utf8_z_res {w : Nat} {s t : EdoString} {idx : Nat} {utf8_str : List Nat}
    (hI : Insert_utf8_z w s idx utf8_str = .ok t) : s.d_reserve ≤ t.d_reserve := by
  unfold Insert_utf8_z at hI
  obtain ⟨n, -, hI⟩ := bind_ok_inv hI
  exact Insert_utf8_res hI

theorem Insert_iter_rep_res {w : Nat} {s t : EdoString} {pos : Option Nat}
    {num code_point : Nat} (hI : Insert_iter_rep w s pos num code_point = .ok t) :
    s.d_reserve ≤ t.d_reserve := by
  unfold Insert_iter_rep at hI
  obtain ⟨idx, -, hI⟩ := bind_ok_inv hI
  exact Insert_rep_res hI

theorem Insert_cstr_res {w : Nat} {s t : EdoString} {idx : Nat} {cstr : List Nat}
    (hI : Insert_cstr w s idx cstr = .ok t) : s.d_reserve ≤ t.d_reserve := by
  unfold Insert_cstr at hI
  obtain ⟨n, -, hI⟩ := bind_ok_inv hI
  exact Insert_chars_res hI

theorem Erase_iter_res {w : Nat} {s t : EdoString} {pos : Option Nat}
    (hI : Erase_iter w s pos = .ok t) : s.d_reserve ≤ t.d_reserve := by
  unfold Erase_iter at hI
  obtain ⟨idx, -, hI⟩ := bind_ok_inv hI
  exact Nat.le_of_eq (Erase_res hI).symm

theorem Erase_iter_range_res {w : Nat} {s t : EdoString} {iter_beg iter_end : Option Nat}
    (hI : Erase_iter_range w s iter_beg iter_end = .ok t) : s.d_reserve ≤ t.d_reserve := by
  unfold Erase_iter_range at hI
  obtain ⟨idx, -, hI⟩ := bind_ok_inv hI
  obtain ⟨len, -, hI⟩ := bind_ok_inv hI
  exact Nat.le_of_eq (Erase_res hI).symm

theorem Replace_iter_str_res {w : Nat} {s t : EdoString} {iter_beg iter_end : Option Nat}
    {str : EdoString} (hI : Replace_iter_str w s iter_beg iter_end str = .ok t) :
    s.d_reserve ≤ t.d_reserve := by
  unfold Replace_iter_str at hI
  obtain ⟨idx, -, hI⟩ := bind_ok_inv hI
  obtain ⟨len, -, hI⟩ := bind_ok_inv hI
  exact Replace_str_res hI

theorem Replace_std_res {w : Nat} {s t : EdoString} {idx len : Nat} {std_str : List Nat}
    {str_idx str_num : Nat} (hI : Replace_std w s idx len std_str str_idx str_num = .ok t) :
    s.d_reserve ≤ t.d_reserve := by
  unfold Replace_std at hI
  split at hI
  · exact Except.noConfusion hI
  · split at hI
    · exact Except.noConfusion hI
    · simp only [] at hI
      obtain ⟨s1, hG, hI⟩ := bind_ok_inv hI
      obtain ⟨b1, -, hI⟩ := ite_bind_ok_inv hI
      obtain ⟨b2, -, hI⟩ := bind_ok_inv hI
      exact finish_res hG hI

theorem Replace_iter_std_res {w : Nat} {s t : EdoString} {iter_beg iter_end : Option Nat}
    {std_str : List Nat} (hI : Replace_iter_std w s iter_beg iter_end std_str = .ok t) :
    s.d_reserve ≤ t.d_reserve := by
  unfold Replace_iter_std at hI
  obtain ⟨idx, -, hI⟩ := bind_ok_inv hI
  obtain ⟨len, -, hI⟩ := bind_ok_inv hI
  exact Replace_std_res hI

theorem Replace_utf8_res {w : Nat} {s t : EdoString} {idx len : Nat} {utf8_str : List Nat}
    {str_len : Nat} (hI : Replace_utf8 w s idx len utf8_str str_len = .ok t) :
    s.d_reserve ≤ t.d_reserve := by
  unfold Replace_utf8 at hI
  split at hI
  · exact Except.noConfusion hI
  · split at hI
    · exact Except.noConfusion hI
    · simp only [] at hI
      obtain ⟨encSize, -, hI⟩ := bind_ok_inv hI
      obtain ⟨s1, hG, hI⟩ := bind_ok_inv hI
      obtain ⟨b1, -, hI⟩ := ite_bind_ok_inv hI
      obtain ⟨r, -, hI⟩ := bind_ok_inv hI
      exact finish_res hG hI

theorem Replace_utf8_z_res {w : Nat} {s t : EdoString} {idx len : Nat} {utf8_str : List Nat}
    (hI : Replace_utf8_z w s idx len utf8_str = .ok t) : s.d_reserve ≤ t.d_reserve := by
  unfold Replace_utf8_z at hI
  obtain ⟨n, -, hI⟩ := bind_ok_inv hI
  exact Replace_utf8_res hI

theorem Replace_iter_utf8_res {w : Nat} {s t : EdoString} {iter_beg iter_end : Option Nat}
    {utf8_str : List Nat} {str_len : Nat}
    (hI : Replace_iter_utf8 w s iter_beg iter_end utf8_str str_len = .ok t) :
    s.d_reserve ≤ t.d_reserve := by
  unfold Replace_iter_utf8 at hI
  obtain ⟨idx, -, hI⟩ := bind_ok_inv hI
  obtain ⟨len, -, hI⟩ := bind_ok_inv hI
  exact Replace_utf8_res hI

theorem Replace_iter_utf8_z_res {w : Nat} {s t : EdoString} {iter_beg iter_end : Option Nat}
    {utf8_str : List Nat} (hI : Replace_iter_utf8_z w s iter_beg iter_end utf8_str = .ok t) :
    s.d_reserve ≤ t.d_reserve := by
  unfold Replace_iter_utf8_z at hI
  obtain ⟨n, -, hI⟩ := bind_ok_inv hI
  exact Replace_iter_utf8_res hI

theorem Replace_iter_rep_res {w : Nat} {s t : EdoString} {iter_beg iter_end : Option Nat}
    {num code_point : Nat} (hI : Replace_iter_rep w s iter_beg iter_end num code_point = .ok t) :
    s.d_reserve ≤ t.d_reserve := by
  unfold Replace_iter_rep at hI
  obtain ⟨idx, -, hI⟩ := bind_ok_inv hI
  obtain ⟨len, -, hI⟩ := bind_ok_inv hI
  exact Replace_rep_res hI

theorem Replace_iter_range_res {w : Nat} {s t : EdoString} {iter_beg iter_end : Option Nat}
    {src : List Nat} {iter_newBeg iter_newEnd : Option Nat}
    (hI : Replace_iter_range w s iter_beg iter_end src iter_newBeg iter_newEnd = .ok t) :
    s.d_reserve ≤ t.d_reserve := by
  unfold Replace_iter_range at hI
  split at hI
  · obtain ⟨idx, -, hI⟩ := bind_ok_inv hI
    obtain ⟨len, -, hI⟩ := bind_ok_inv hI
    exact Nat.le_of_eq (Erase_res hI).symm
  · obtain ⟨str_len, -, hI⟩ := bind_ok_inv hI
    obtain ⟨idx, -, hI⟩ := bind_ok_inv hI
    obtain ⟨len, -, hI⟩ := bind_ok_inv hI
    simp only [] at hI
    obtain ⟨s1, hG, hI⟩ := bind_ok_inv hI
    obtain ⟨b1, -, hI⟩ := ite_bind_ok_inv hI
    obtain ⟨b2, -, hI⟩ := bind_ok_inv hI
    exact finish_res hG hI

theorem Replace_iter_chars_res {w : Nat} {s t : EdoString} {iter_beg iter_end : Option Nat}
    {chars : List Nat} {chars_len : Nat}
    (hI : Replace_iter_chars w s iter_beg iter_end chars chars_len = .ok t) :
    s.d_reserve ≤ t.d_reserve := by
  unfold Replace_iter_chars at hI
  obtain ⟨idx, -, hI⟩ := bind_ok_inv hI
  obtain ⟨len, -, hI⟩ := bind_ok_inv hI
  exact Replace_chars_res hI

theorem Replace_iter_cstr_res {w : Nat} {s t : EdoString} {iter_beg iter_end : Option Nat}
    {cstr : List Nat} (hI : Replace_iter_cstr w s iter_beg iter_end cstr = .ok t) :
    s.d_reserve ≤ t.d_reserve := by
  unfold Replace_iter_cstr at hI
  obtain ⟨n, -, hI⟩ := bind_ok_inv hI
  exact Replace_iter_chars_res hI

theorem Replace_cstr_res {w : Nat} {s t : EdoString} {idx len : Nat} {cstr : List Nat}
    (hI : Replace_cstr w s idx len cstr = .ok t) : s.d_reserve ≤ t.d_reserve := by
  unfold Replace_cstr at hI
  obtain ⟨n, -, hI⟩ := bind_ok_inv hI
  exact Replace_chars_res hI

theorem Replace_self_res {w : Nat} {s t : EdoString} {idx len str_idx str_num : Nat}
    (hI : Replace_self w s idx len str_idx str_num = .ok t) : s.d_reserve ≤ t.d_reserve := by
  unfold Replace_self at hI
  split at hI
  · exact Except.noConfusion hI
  · simp only [] at hI
    obtain ⟨s1, hG, hI⟩ := bind_ok_inv hI
    obtain ⟨b1, -, hI⟩ := ite_bind_ok_inv hI
    obtain ⟨b2, -, hI⟩ := bind_ok_inv hI
    exact finish_res hG hI

theorem Replace_iter_self_res {w : Nat} {s t : EdoString} {iter_beg iter_end : Option Nat}
    (hI : Replace_iter_self w s iter_beg iter_end = .ok t) : s.d_reserve ≤ t.d_reserve := by
  unfold Replace_iter_self at hI
  obtain ⟨idx, -, hI⟩ := bind_ok_inv hI
  obtain ⟨len, -, hI⟩ := bind_ok_inv hI
  exact Replace_self_res hI

theorem Replace_iter_range_self_res {w : Nat} {s t : EdoString}
    {iter_beg iter_end iter_newBeg iter_newEnd : Option Nat}
    (hI : Replace_iter_range_self w s iter_beg iter_end iter_newBeg iter_newEnd = .ok t) :
    s.d_reserve ≤ t.d_reserve := by
  unfold Replace_iter_range_self at hI
  split at hI
  · obtain ⟨idx, -, hI⟩ := bind_ok_inv hI
    obtain ⟨len, -, hI⟩ := bind_ok_inv hI
    exact Nat.le_of_eq (Erase_res hI).symm
  · obtain ⟨str_len, -, hI⟩ := bind_ok_inv hI
    obtain ⟨idx, -, hI⟩ := bind_ok_inv hI
    obtain ⟨len, -, hI⟩ := bind_ok_inv hI
    simp only [] at hI
    obtain ⟨s1, hG, hI⟩ := bind_ok_inv hI
    obtain ⟨b1, -, hI⟩ := ite_bind_ok_inv hI
    obtain ⟨b2, -, hI⟩ := bind_ok_inv hI
    exact finish_res hG hI

theorem operatorIndex_write_res {s t : EdoString} {idx v : Nat}
    (hI : operatorIndex_write s idx v = .ok t) : t.d_reserve = s.d_reserve := by
  unfold operatorIndex_write at hI
  obtain ⟨b, -, hI⟩ := bind_ok_inv hI
  rw [← Except.ok.inj hI, d_reserve_setPtr]

theorem At_write_res {s t : EdoString} {idx v : Nat}
    (hI : At_write s idx v = .ok t) : t.d_reserve = s.d_reserve := by
  unfold At_write at hI
  split at hI
  · exact Except.noConfusion hI
  · obtain ⟨b, -, hI⟩ := bind_ok_inv hI
    rw [← Except.ok.inj hI, d_reserve_setPtr]

theorem Swap_self_res {s t : EdoString} (hI : Swap_self s = .ok t) :
    t.d_reserve = s.d_reserve := by
  unfold Swap_self at hI
  split at hI
  · obtain ⟨a, -, hI⟩ := bind_ok_inv hI
    obtain ⟨b, -, hI⟩ := bind_ok_inv hI
    obtain ⟨c, -, hI⟩ := bind_ok_inv hI
    rw [← Except.ok.inj hI]
  · rw [← Except.ok.inj hI]

theorem Trim_res_le {w : Nat} {s t : EdoString} (hI : Trim w s = .ok t) :
    t.d_reserve ≤ s.d_reserve := by
  unfold Trim at hI
  simp only [] at hI
  split at hI
  · rename_i hc
    split at hI
    · obtain ⟨q, -, hI⟩ := bind_ok_inv hI
      rw [← Except.ok.inj hI]
      exact Nat.le_of_lt hc.1
    · obtain ⟨q, -, hI⟩ := bind_ok_inv hI
      rw [← Except.ok.inj hI]
      exact Nat.le_of_lt hc.2
  · rw [← Except.ok.inj hI]

theorem Append_rep_alloc_res {w : Nat} {alloc : Nat → Bool} {s t : EdoString}
    {num code_point : Nat} (hI : Append_rep_alloc w alloc s num code_point = .ok t) :
    s.d_reserve ≤ t.d_reserve := by
  unfold Append_rep_alloc at hI
  split at hI
  · exact Except.noConfusion hI
  · simp only [] at hI
    obtain ⟨s1, hG, hI⟩ := bind_ok_inv hI
    obtain ⟨b, -, hI⟩ := bind_ok_inv hI
    exact finish_res (Grow_alloc_ok_inv hG) hI

theorem Insert_rep_alloc_res {w : Nat} {alloc : Nat → Bool} {s t : EdoString}
    {idx num code_point : Nat} (hI : Insert_rep_alloc w alloc s idx num code_point = .ok t) :
    s.d_reserve ≤ t.d_reserve := by
  unfold Insert_rep_alloc at hI
  split at hI
  · exact Except.noConfusion hI
  · split at hI
    · exact Except.noConfusion hI
    · simp only [] at hI
      obtain ⟨s1, hG, hI⟩ := bind_ok_inv hI
      obtain ⟨b1, -, hI⟩ := bind_ok_inv hI
      obtain ⟨b2, -, hI⟩ := bind_ok_inv hI
      exact finish_res (Grow_alloc_ok_inv hG) hI

theorem Resize_alloc_res {w : Nat} {alloc : Nat → Bool} {s t : EdoString}
    {num code_point : Nat} (hI : Resize_alloc w alloc s num code_point = .ok t) :
    s.d_reserve ≤ t.d_reserve := by
  unfold Resize_alloc at hI
  split at hI
  · rw [SetLen_res hI]
  · exact Append_rep_alloc_res hI

/-! ## The other forms of the modifying operations at sample arguments -/

/-- The other forms of `Append` and `Assign` at sample arguments, on "abcd" with
"XY", the bytes "XYZ" and the wide characters U+3042 and U+1F600.  In
`s.Assign(s, 2, 2)` the terminator that `SetLen(2)` writes at slot 2 is copied
to slot 0; in `s = s` the source and the destination of `memcpy` are the same
range. -/
theorem assign_append_samples :
    (Append_str 64 exAbcd exXY 0 (npos 64)).map codePoints = .ok [97, 98, 99, 100, 88, 89] ∧
    (operatorAppend_str 64 exAbcd exXY).map codePoints = .ok [97, 98, 99, 100, 88, 89] ∧
    (Append_self 64 exAbcd 0 (npos 64)).map codePoints
      = .ok [97, 98, 99, 100, 97, 98, 99, 100] ∧
    (Append_chars 64 exAbcd [88, 89, 90] 3).map codePoints
      = .ok [97, 98, 99, 100, 88, 89, 90] ∧
    (PushBack 64 exAbcd 120).map codePoints = .ok [97, 98, 99, 100, 120] ∧
    (Assign_std 64 exAbcd [88, 89, 90] 1 (npos 64)).map codePoints = .ok [89, 90] ∧
    (Assign_rep 64 exAbcd 3 120).map codePoints = .ok [120, 120, 120] ∧
    (operatorAssign_cp 64 exAbcd 120).map codePoints = .ok [120] ∧
    (Assign_wstr 64 exAbcd [0x3042, 0x1F600] 0 (npos 64)).map codePoints
      = .ok [0x3042, 0x1F600] ∧
    (Assign_wchars 64 exAbcd [0x3042, 0x1F600, 0]).map codePoints = .ok [0x3042, 0x1F600] ∧
    (Assign_self 64 exAbcd 2 2).map codePoints = .ok [0, 100] ∧
    operatorAssign_self 64 exAbcd = .error .bad_access := by
  decide

/-- The other forms of `Insert`, `Erase` and `Replace` at sample arguments, on
"abcd" with "XY", the bytes "XYZ" and the UTF-8 bytes of U+00E9 and 'A'. -/
theorem insert_erase_replace_samples :
    (Insert_utf8 64 exAbcd 2 [0xC3, 0xA9, 0x41] 3).map codePoints
      = .ok [97, 98, 0xE9, 0x41, 99, 100] ∧
    (Insert_utf8_z 64 exAbcd 2 [0xC3, 0xA9, 0x41, 0]).map codePoints
      = .ok [97, 98, 0xE9, 0x41, 99, 100] ∧
    (Insert_iter_cp 64 exAbcd (some 1) 120).map codePoints = .ok [97, 120, 98, 99, 100] ∧
    (Erase_idx 64 exAbcd 1).map codePoints = .ok [97, 99, 100] ∧
    (Erase_iter 64 exAbcd (some 1)).map codePoints = .ok [97, 99, 100] ∧
    (Erase_iter_range 64 exAbcd (some 1) (some 3)).map codePoints = .ok [97, 100] ∧
    (Replace_std 64 exAbcd 1 2 [88, 89, 90] 0 (npos 64)).map codePoints
      = .ok [97, 88, 89, 90, 100] ∧
    (Replace_utf8 64 exAbcd 1 2 [0xC3, 0xA9, 0x41] 3).map codePoints
      = .ok [97, 0xE9, 0x41, 100] ∧
    (Replace_iter_str 64 exAbcd (some 1) (some 3) exXY).map codePoints
      = .ok [97, 88, 89, 100] := by
  decide

/-- The iterator range forms, the calls with the receiver as argument and the
writes through a reference at sample arguments, on "abcd" with "XY". -/
theorem iterator_range_samples :
    (Replace_iter_range 64 exAbcd (some 1) (some 3) exXY.ptr (some 0) (some 2)).map codePoints
      = .ok [97, 88, 89, 100] ∧
    (Replace_iter_range 64 exAbcd (some 1) (some 3) exXY.ptr (some 1) (some 1)).map codePoints
      = .ok [97, 100] ∧
    (Append_iter 64 exAbcd exXY.ptr (some 0) (some 2)).map codePoints
      = .ok [97, 98, 99, 100, 88, 89] ∧
    (Append_iter_self 64 exAbcd (some 0) (some 2)).map codePoints
      = .ok [97, 98, 99, 100, 97, 98] ∧
    (Insert_iter_range 64 exAbcd (some 2) exXY.ptr (some 0) (some 2)).map codePoints
      = .ok [97, 98, 88, 89, 99, 100] ∧
    (Replace_self 64 exAbcd 0 0 2 2).map codePoints = .ok [97, 98, 97, 98, 99, 100] ∧
    (operatorIndex_write exAbcd 1 120).map codePoints = .ok [97, 120, 99, 100] ∧
    (At_write exAbcd 1 120).map codePoints = .ok [97, 120, 99, 100] ∧
    At_write exAbcd 4 120 = .error .out_of_range ∧
    Swap_self exAbcd = .error .bad_access ∧
    (exZZ40 >>= Swap_self).map codePoints = exZZ40.map codePoints := by
  decide

/-! ## Grow and Reserve under an allocator -/

/-- Below `PTRDIFF_MAX` bytes, `Grow` is `Grow` under the allocator that grants
every request. -/
theorem Grow_alloc_allocAll {w : Nat} {s : EdoString} {n : Nat}
    (h : szAdd w n 1 * SIZEOF_UTF32 < 2 ^ (w - 1)) :
    Grow_alloc w allocAll s n = Grow w s n := by
  apply Grow_alloc_eq
  refine Or.inr (Or.inr ?_)
  unfold newUtf32
  rw [if_neg (by omega)]
  rfl

/-- The function `Reserve` under an allocator at sample arguments, on "abcd":
`Reserve(40)` is granted a buffer of 41 slots; `Reserve(2^40)` is refused by an
allocator that grants up to `2^30` slots; `Reserve(MaxSize() - 1)` asks for more
than `PTRDIFF_MAX` bytes and is refused by every allocator; `Reserve(MaxSize())`
throws the length error before any request. -/
theorem Reserve_alloc_samples :
    (Reserve_alloc 64 allocAll exAbcd 40).map (fun t => (t.d_reserve, t.codePoints))
      = .ok (41, [97, 98, 99, 100]) ∧
    Reserve_alloc 64 (fun n => decide (n ≤ 2 ^ 30)) exAbcd (2 ^ 40) = .error .bad_alloc ∧
    Reserve_alloc 64 allocAll exAbcd (MaxSize 64 - 1) = .error .bad_alloc ∧
    Reserve_alloc 64 allocAll exAbcd (MaxSize 64) = .error .length_error ∧
    Reserve_alloc 64 allocAll exAbcd 0 = .ok exAbcd := by
  decide

/-! ## Insert of UTF-8 data at the end -/

/-- When `Append(utf8_str, len)` returns, `Insert(Length(), utf8_str, len)`
returns the same string: `memmove` shifts no code point. -/
theorem Insert_utf8_at_end {w : Nat} {s t : EdoString} {utf8_str : List Nat} {len : Nat}
    (h : wf w s) (hA : Append_utf8 w s utf8_str len = .ok t) :
    Insert_utf8 w s s.d_cpLength utf8_str len = .ok t := by
  unfold Append_utf8 at hA
  split at hA
  · exact Except.noConfusion hA
  · rename_i hlen
    obtain ⟨encSize, hE, hA⟩ := bind_ok_inv hA
    simp only [] at hA
    obtain ⟨s1, hG, hA⟩ := bind_ok_inv hA
    obtain ⟨hw1, hl1, hres⟩ := Grow_ok_inv h hG
    have hp1 := ptr_length hw1
    have hlt : s.d_cpLength < 2 ^ w := wf_lt_pow h
    have hz : szMul w (szSub w s1.d_cpLength s.d_cpLength) SIZEOF_UTF32 = 0 := by
      rw [hl1, szSub_eq (le_refl _) hlt, Nat.sub_self]
      unfold szMul
      simp
    have hmm : memmove s1.ptr (szAdd w s.d_cpLength encSize) s.d_cpLength
        (szMul w (szSub w s1.d_cpLength s.d_cpLength) SIZEOF_UTF32) = .ok s1.ptr := by
      rw [hz]
      have hr1 := hw1.2.2.2.1
      exact memmove_zero (by omega) (by omega)
    unfold Insert_utf8
    rw [if_neg (lt_irrefl _), if_neg hlen, hE]
    show (Grow w s (szAdd w s.d_cpLength encSize) >>= _) = _
    rw [hG]
    show (memmove s1.ptr (szAdd w s.d_cpLength encSize) s.d_cpLength
      (szMul w (szSub w s1.d_cpLength s.d_cpLength) SIZEOF_UTF32) >>= _) = _
    rw [hmm, ok_bind]
    rw [hl1] at hA
    exact hA

/-! ## Claims -/

/-- With an argument that is an object other than the receiver, `Insert(idx, x)`
in the String, `std::string`, repeated code point and char array forms fails
with an out-of-range error when `idx > Length()`; when `idx <= Length()` and
the new length is below `MaxSize()` it returns normally with the code points
`s[0,idx) ++ x ++ s[idx,Length())` and the length `Length() + |x|`. -/
theorem Insert_contract_distinct (w : Nat) (s str : EdoString) (std_str chars : List Nat)
    (idx str_idx str_num num code_point chars_len : Nat) (h : wf w s) (hstr : wf w str) :
    (s.Length < idx →
      Insert_str w s idx str str_idx str_num = .error .out_of_range ∧
      Insert_std w s idx std_str str_idx str_num = .error .out_of_range ∧
      Insert_rep w s idx num code_point = .error .out_of_range ∧
      Insert_chars w s idx chars chars_len = .error .out_of_range) ∧
    (idx ≤ s.Length →
      (str_idx ≤ str.Length →
        s.Length + ((str.codePoints.drop str_idx).take str_num).length < MaxSize w →
        ∃ s2, Insert_str w s idx str str_idx str_num = .ok s2 ∧ wf w s2 ∧
          s2.codePoints = s.codePoints.take idx ++ (str.codePoints.drop str_idx).take str_num
            ++ s.codePoints.drop idx ∧
          s2.Length = s.Length + ((str.codePoints.drop str_idx).take str_num).length) ∧
      (str_idx ≤ std_str.length → std_str.length < 2 ^ w →
        s.Length + ((std_str.drop str_idx).take str_num).length < MaxSize w →
        ∃ s2, Insert_std w s idx std_str str_idx str_num = .ok s2 ∧ wf w s2 ∧
          s2.codePoints = s.codePoints.take idx
            ++ ((std_str.drop str_idx).take str_num).map charToUtf32 ++ s.codePoints.drop idx ∧
          s2.Length = s.Length + ((std_str.drop str_idx).take str_num).length) ∧
      (s.Length + num < MaxSize w →
        ∃ s2, Insert_rep w s idx num code_point = .ok s2 ∧ wf w s2 ∧
          s2.codePoints = s.codePoints.take idx ++ List.replicate num code_point
            ++ s.codePoints.drop idx ∧
          s2.Length = s.Length + num) ∧
      (chars_len ≤ chars.length → s.Length + chars_len < MaxSize w →
        ∃ s2, Insert_chars w s idx chars chars_len = .ok s2 ∧ wf w s2 ∧
          s2.codePoints = s.codePoints.take idx ++ (chars.take chars_len).map charToUtf32
            ++ s.codePoints.drop idx ∧
          s2.Length = s.Length + chars_len)) := by
  unfold Length
  refine ⟨fun hgt => ⟨?_, ?_, ?_, ?_⟩, fun hidx => ⟨?_, ?_, ?_, ?_⟩⟩
  · unfold Insert_str; rw [if_pos (Or.inl hgt)]
  · unfold Insert_std; rw [if_pos hgt]
  · unfold Insert_rep; rw [if_pos hgt]
  · unfold Insert_chars; rw [if_pos hgt]
  · intro hsi hmax
    obtain ⟨s2, h1, h2, h3, -, h5, -⟩ := Insert_str_ok h hstr hidx hsi hmax
    exact ⟨s2, h1, h2, h5, h3⟩
  · intro hsi hsz hmax
    obtain ⟨s2, h1, h2, h3, -, h5, -⟩ := Insert_std_ok h hidx hsi hsz hmax
    exact ⟨s2, h1, h2, h5, h3⟩
  · intro hmax
    obtain ⟨s2, h1, h2, h3, -, h5, -⟩ := Insert_rep_ok h code_point hidx hmax
    exact ⟨s2, h1, h2, h5, h3⟩
  · intro hcl hmax
    obtain ⟨s2, h1, h2, h3, -, h5, -⟩ := Insert_chars_ok h hidx hcl hmax
    exact ⟨s2, h1, h2, h5, h3⟩

/-- C2 (failing input): on "abcd", `Erase(1, 5)` asks for more code points than
the three that follow index 1.  The count is not clamped (only `npos` is), the
byte count `(d_cpLength - idx - len) * sizeof(utf32)` wraps around and
`memmove` runs outside the buffer, where the documented result is "a". -/
theorem C2_Erase_count_not_clamped :
    wf 64 exAbcd ∧ exAbcd.codePoints = [97, 98, 99, 100] ∧
    Erase 64 exAbcd 1 5 = .error .bad_access ∧
    szMul 64 (szSub 64 (szSub 64 exAbcd.d_cpLength 1) 5) SIZEOF_UTF32 = 2 ^ 64 - 8 := by
  decide

/-- C3 (failing input): on "abcd", `Replace(2, 2^64 - 2, "XY")` has `len + idx`
wrap around to 0, so the guard `(len + idx) > d_cpLength` does not clamp `len`;
the call returns "abXYabcd" of length 8, where the documented result is "abXY". -/
theorem C3_Replace_guard_wraps :
    wf 64 exAbcd ∧ wf 64 exXY ∧ exAbcd.codePoints = [97, 98, 99, 100] ∧
    exXY.codePoints = [88, 89] ∧
    (Replace_str 64 exAbcd 2 (2 ^ 64 - 2) exXY 0 (npos 64)).map codePoints
      = .ok [97, 98, 88, 89, 97, 98, 99, 100] ∧
    (Replace_rep 64 exAbcd 2 (2 ^ 64 - 2) 2 88).map codePoints
      = .ok [97, 98, 88, 88, 97, 98, 99, 100] ∧
    (Replace_chars 64 exAbcd 2 (2 ^ 64 - 2) [88, 89] 2).map codePoints
      = .ok [97, 98, 88, 89, 97, 98, 99, 100] := by
  decide

/-- C5 (failing input): appending the sub-range `[1, npos)` of the
`std::string` "abc" to the empty string.  `Append` reads `std_str[str_num]`
without adding `str_idx` and appends "ab"; `Insert` at `Length()` reads
`std_str[str_idx + str_num]` and inserts "bc". -/
theorem C5_Append_std_ignores_str_idx :
    wf 64 exEmpty ∧ exEmpty.Length = 0 ∧
    (Append_std 64 exEmpty [97, 98, 99] 1 (npos 64)).map codePoints = .ok [97, 98] ∧
    (Insert_std 64 exEmpty exEmpty.Length [97, 98, 99] 1 (npos 64)).map codePoints
      = .ok [98, 99] := by
  decide

/-- C6 (failing input): assigning the sub-range `[2, 2 + (2^64 - 2))` of "abcd"
to the empty string.  `Assign` clamps the count with
`str_num > str.d_cpLength - str_idx` and yields "cd"; in `Replace` the guard
`(str_idx + str_num) > str.d_cpLength` wraps around, the count is not clamped
and the call throws a length error. -/
theorem C6_Assign_vs_Replace_guard :
    wf 64 exEmpty ∧ wf 64 exAbcd ∧ exAbcd.codePoints = [97, 98, 99, 100] ∧
    (Assign_str 64 exEmpty exAbcd 2 (2 ^ 64 - 2)).map codePoints = .ok [99, 100] ∧
    Replace_str 64 exEmpty 0 exEmpty.Length exAbcd 2 (2 ^ 64 - 2) = .error .length_error := by
  decide

/-- C7 (failing input): `a` is `exZZ40`, "zz" grown to the heap by
`Append(40, 'x')`, so its quick buffer still holds "zz"; `b` is `exHi`, the
inline string "hi".  After
`a.Swap(b)` the quick buffers were not exchanged (the test looks only at the
receiver's old reserve): `a` has length 2 and reads "zz" from its own quick
buffer, where the contract says "hi"; `b` holds the former value of `a`. -/
theorem C7_Swap_heap_with_inline :
    exZZ40.map (fun a => decide (wf 64 a ∧ STR_QUICKBUFF_SIZE < a.d_reserve)) = .ok true ∧
    exZZ40.map Length = .ok 42 ∧
    exHi.map (fun b => decide (wf 64 b ∧ b.d_reserve ≤ STR_QUICKBUFF_SIZE)) = .ok true ∧
    exHi.map codePoints = .ok [104, 105] ∧
    (do let a ← exZZ40; let b ← exHi; pure (Swap a b).1.codePoints) = .ok [122, 122] ∧
    (do let a ← exZZ40; let b ← exHi; pure (Swap a b).1.Length) = .ok 2 ∧
    (do let a ← exZZ40; let b ← exHi; pure (decide ((Swap a b).2.codePoints = a.codePoints)))
      = .ok true := by
  decide

/-- C8 (failing input): the string holding `0x80000000` compared with the
string holding 0.  `Utf32CompUtf32` returns `*buf1 - *buf2`; the difference
`0x80000000 - 0` read as an `int` is negative, so `Compare` returns -1,
although the first string does not precede the second, which precedes it. -/
theorem C8_Compare_difference_read_as_int :
    wf 64 exHigh ∧ wf 64 exZero ∧ utf32List exHigh.codePoints ∧ utf32List exZero.codePoints ∧
    Compare 64 exHigh exZero = .ok (-1) ∧
    ¬ (exHigh.codePoints < exZero.codePoints) ∧ exZero.codePoints < exHigh.codePoints := by
  decide

/-- For strings of `utf32` values whose code points at each common position
differ by less than `2 ^ 31` (so whenever all code points are below `2 ^ 31`),
`Compare` returns -1 when the receiver precedes the argument in the
lexicographic order of the code point values (a proper prefix being less), 0
when the two are equal, and 1 otherwise. -/
theorem Compare_order_of_zipWithin (w : Nat) (a b : EdoString) (ha : wf w a) (hb : wf w b)
    (hva : utf32List a.codePoints) (hvb : utf32List b.codePoints)
    (hz : zipWithin a.codePoints b.codePoints) :
    Compare w a b = .ok (if a.codePoints < b.codePoints then -1
      else if a.codePoints = b.codePoints then 0 else 1) := by
  rw [Compare_eq ha hb, compareLists_eq_lex _ _ hva hvb hz]

/-- C9 (failing input): the string holding `0x80000000` and the string holding
0 compare as -1 in both directions: the difference of the two code points is
`0x80000000` either way, a negative `int`. -/
theorem C9_Compare_negative_both_ways :
    wf 64 exHigh ∧ wf 64 exZero ∧ utf32List exHigh.codePoints ∧ utf32List exZero.codePoints ∧
    Compare 64 exHigh exZero = .ok (-1) ∧ Compare 64 exZero exHigh = .ok (-1) := by
  decide

/-- For strings of `utf32` values whose code points at each common position do
not differ by exactly `2 ^ 31` (so whenever all code points are below
`2 ^ 31`), both comparisons return normally and
`a.Compare(b) == -(b.Compare(a))`. -/
theorem Compare_antisymmetry_of_zipNoHalf (w : Nat) (a b : EdoString) (ha : wf w a) (hb : wf w b)
    (hva : utf32List a.codePoints) (hvb : utf32List b.codePoints)
    (hz : zipNoHalf a.codePoints b.codePoints) :
    ∃ r, Compare w b a = .ok r ∧ Compare w a b = .ok (-r) := by
  refine ⟨compareLists b.codePoints a.codePoints, Compare_eq hb ha, ?_⟩
  rw [Compare_eq ha hb, compareLists_antisymm _ _ hva hvb hz, neg_neg]

/-- C10: for strings of `utf32` values, `a.Compare(b)` returns normally, and
its value is 0 exactly when `a` and `b` have the same length and the same code
point at every position; `a.Compare(a)` is 0.  The same holds for the
comparisons that go through `Utf32CompChar`: `a.Compare(std_str)` and
`a.Compare(0, Length(), chars, chars_len)` are 0 exactly when the code points
of `a` are the chars, each taken as the code point of its byte value. -/
theorem C10_Compare_zero_iff_equal (w : Nat) (a b : EdoString) (std_str chars : List Nat)
    (chars_len : Nat) (ha : wf w a) (hb : wf w b)
    (hva : utf32List a.codePoints) (hvb : utf32List b.codePoints) :
    (∃ r, Compare w a b = .ok r ∧
      (r = 0 ↔ (a.Length = b.Length ∧ a.codePoints = b.codePoints))) ∧
    Compare w a a = .ok 0 ∧
    (std_str.length < 2 ^ w → ∃ r, Compare_std w a std_str = .ok r ∧
      (r = 0 ↔ a.codePoints = std_str.map charToUtf32)) ∧
    (chars_len ≤ chars.length → chars_len ≠ npos w →
      ∃ r, Compare_chars4 w a 0 a.Length chars chars_len = .ok r ∧
        (r = 0 ↔ a.codePoints = (chars.take chars_len).map charToUtf32)) := by
  have hiff := compareLists_eq_zero_iff _ _ hva hvb
  have hmap : ∀ l : List Nat, utf32List (l.map charToUtf32) := by
    intro l c hc
    obtain ⟨x, -, rfl⟩ := List.mem_map.mp hc
    unfold charToUtf32
    omega
  have hba := MaxSize_bound ha.2.2.2.2
  have hla := codePoints_length ha
  refine ⟨⟨_, Compare_eq ha hb, ?_⟩, ?_, ?_, ?_⟩
  · rw [hiff]
    constructor
    · intro h
      refine ⟨?_, h⟩
      have := congrArg List.length h
      rw [codePoints_length ha, codePoints_length hb] at this
      exact this
    · intro h; exact h.2
  · rw [Compare_eq ha ha, (compareLists_eq_zero_iff _ _ hva hva).mpr rfl]
  · intro hsz
    exact ⟨_, Compare_std_eq ha hsz, compareLists_eq_zero_iff _ _ hva (hmap _)⟩
  · intro hcl hnp
    have e1 : (if a.d_cpLength = npos w ∨ szAdd w 0 a.d_cpLength > a.d_cpLength
        then szSub w a.d_cpLength 0 else a.d_cpLength) = a.d_cpLength := by
      rw [szAdd_eq (by omega), if_neg]
      unfold npos; omega
    have := Compare_chars4_eq ha (Nat.zero_le _) e1 (by omega) hcl hnp
    rw [List.drop_zero, List.take_of_length_le (by omega)] at this
    exact ⟨_, this, compareLists_eq_zero_iff _ _ hva (hmap _)⟩

/-- C10, at "abcd" against "XY" (different) and against itself, and against
the chars "abcd" and "abc". -/
theorem C10_Compare_zero_iff_equal_witness :
    wf 64 exAbcd ∧ wf 64 exXY ∧ utf32List exAbcd.codePoints ∧ utf32List exXY.codePoints ∧
    (∃ r, Compare 64 exAbcd exXY = .ok r ∧
      (r = 0 ↔ (exAbcd.Length = exXY.Length ∧ exAbcd.codePoints = exXY.codePoints))) ∧
    Compare 64 exAbcd exAbcd = .ok 0 ∧
    (∃ r, Compare_std 64 exAbcd [97, 98, 99, 100] = .ok r ∧
      (r = 0 ↔ exAbcd.codePoints = [97, 98, 99, 100].map charToUtf32)) ∧
    (∃ r, Compare_chars4 64 exAbcd 0 exAbcd.Length [97, 98, 99, 100] 3 = .ok r ∧
      (r = 0 ↔ exAbcd.codePoints = ([97, 98, 99, 100].take 3).map charToUtf32)) := by
  have h := C10_Compare_zero_iff_equal 64 exAbcd exXY [97, 98, 99, 100] [97, 98, 99, 100] 3
    (by decide) (by decide) (by decide) (by decide)
  exact ⟨by decide, by decide, by decide, by decide, h.1, h.2.1, h.2.2.1 (by decide),
    h.2.2.2 (by decide) (by decide)⟩

/-- C11 (failing input): on "abcd", `Compare(2, 2^64 - 2, "cd", 0, npos)` has
`idx + len` wrap around to 0, so the guard `idx + len > d_cpLength` does not
clamp `len`; the two code points compare equal and the call returns 1 because
the unclamped `len` is not `str_len`, where the call with the clamped lengths,
`Compare(2, 2, "cd", 0, 2)`, returns 0. -/
theorem C11_Compare_len_guard_wraps :
    wf 64 exAbcd ∧ wf 64 exCd ∧ exAbcd.codePoints = [97, 98, 99, 100] ∧
    exCd.codePoints = [99, 100] ∧
    Compare_str 64 exAbcd 2 (2 ^ 64 - 2) exCd 0 (npos 64) = .ok 1 ∧
    Compare_str 64 exAbcd 2 (min (2 ^ 64 - 2) (exAbcd.Length - 2)) exCd 0
      (min (npos 64) (exCd.Length - 0)) = .ok 0 := by
  decide

/-- C12: for a string and a non-empty needle of `utf32` values, `Find(n, idx)`
(String overload, and char array overload with the chars taken as code points)
returns normally; the result is `npos` when the needle occurs at no position
`j >= idx`, and otherwise it is the smallest position `r >= idx` with
`r + Length(n) <= Length(s)` and `s[r, r + Length(n)) == n`. -/
theorem C12_Find_first_occurrence (w : Nat) (s str : EdoString) (chars : List Nat)
    (idx chars_len : Nat) (hs : wf w s) (hstr : wf w str)
    (hvs : utf32List s.codePoints) (hvn : utf32List str.codePoints) :
    (1 ≤ str.Length →
      ∃ r, Find_str w s str idx = .ok r ∧
        ((r = npos w ∧ ∀ j, idx ≤ j →
            ¬ (j + str.codePoints.length ≤ s.codePoints.length ∧
              (s.codePoints.drop j).take str.codePoints.length = str.codePoints)) ∨
         (r ≠ npos w ∧ idx ≤ r ∧
            (r + str.codePoints.length ≤ s.codePoints.length ∧
              (s.codePoints.drop r).take str.codePoints.length = str.codePoints) ∧
            ∀ j, idx ≤ j → j < r →
              ¬ (j + str.codePoints.length ≤ s.codePoints.length ∧
                (s.codePoints.drop j).take str.codePoints.length = str.codePoints)))) ∧
    (1 ≤ chars_len → chars_len ≤ chars.length → chars_len ≠ npos w →
      ∃ r, Find_chars w s chars idx chars_len = .ok r ∧
        ((r = npos w ∧ ∀ j, idx ≤ j →
            ¬ (j + ((chars.take chars_len).map charToUtf32).length ≤ s.codePoints.length ∧
              (s.codePoints.drop j).take ((chars.take chars_len).map charToUtf32).length
                = (chars.take chars_len).map charToUtf32)) ∨
         (r ≠ npos w ∧ idx ≤ r ∧
            (r + ((chars.take chars_len).map charToUtf32).length ≤ s.codePoints.length ∧
              (s.codePoints.drop r).take ((chars.take chars_len).map charToUtf32).length
                = (chars.take chars_len).map charToUtf32) ∧
            ∀ j, idx ≤ j → j < r →
              ¬ (j + ((chars.take chars_len).map charToUtf32).length ≤ s.codePoints.length ∧
                (s.codePoints.drop j).take ((chars.take chars_len).map charToUtf32).length
                  = (chars.take chars_len).map charToUtf32)))) := by
  refine ⟨fun hne => ?_, fun hne hcl hnp => ?_⟩
  · obtain ⟨r, hr, hf⟩ := Find_str_spec hs hstr hvs hvn hne idx
    exact ⟨r, hr, hf⟩
  · obtain ⟨r, hr, hf⟩ := Find_chars_spec hs hvs hcl hnp hne idx
    exact ⟨r, hr, hf⟩

/-- C12, at "abcd" with the needle "cd" from index 0, in both overloads. -/
theorem C12_Find_first_occurrence_witness :
    wf 64 exAbcd ∧ wf 64 exCd ∧ utf32List exAbcd.codePoints ∧ utf32List exCd.codePoints ∧
    Find_str 64 exAbcd exCd 0 = .ok 2 ∧ Find_chars 64 exAbcd [99, 100] 0 2 = .ok 2 ∧
    (∃ r, Find_str 64 exAbcd exCd 0 = .ok r ∧ (r = npos 64 ∨ (r ≠ npos 64 ∧ 0 ≤ r))) ∧
    (∃ r, Find_chars 64 exAbcd [99, 100] 0 2 = .ok r ∧
      (r = npos 64 ∨ (r ≠ npos 64 ∧ 0 ≤ r))) := by
  have h := C12_Find_first_occurrence 64 exAbcd exCd [99, 100] 0 2 (by decide) (by decide)
    (by decide) (by decide)
  obtain ⟨r1, e1, f1⟩ := h.1 (by decide)
  obtain ⟨r2, e2, f2⟩ := h.2 (by decide) (by decide) (by decide)
  refine ⟨by decide, by decide, by decide, by decide, by decide, by decide,
    ⟨r1, e1, ?_⟩, ⟨r2, e2, ?_⟩⟩
  · rcases f1 with ⟨a, -⟩ | ⟨a, b, -⟩
    · exact Or.inl a
    · exact Or.inr ⟨a, b⟩
  · rcases f2 with ⟨a, -⟩ | ⟨a, b, -⟩
    · exact Or.inl a
    · exact Or.inr ⟨a, b⟩

/-- C13 (failing input): on "abcd", whose length is 4, `Find` of the empty
needle from index 4 returns `npos`, not 4, in the String overload and in the
char array overload, while `RFind` of the empty needle from index 4 returns 4;
on the empty string `Find` of the empty needle from index 0 returns `npos`,
not 0. -/
theorem C13_Find_empty_needle_at_length :
    wf 64 exAbcd ∧ wf 64 exEmpty ∧ exAbcd.Length = 4 ∧ exEmpty.Length = 0 ∧
    Find_str 64 exAbcd exEmpty 4 = .ok (npos 64) ∧
    Find_chars 64 exAbcd [] 4 0 = .ok (npos 64) ∧
    Find_str 64 exEmpty exEmpty 0 = .ok (npos 64) ∧
    RFind_str 64 exAbcd exEmpty 4 = .ok 4 ∧
    (4 : Nat) ≠ npos 64 := by
  decide

/-- What `Find` does with the empty needle: from `idx` it returns `idx` when
`idx < Length(s)` and `npos` when `idx >= Length(s)`, in the String overload
and in the char array overload with `chars_len = 0`. -/
theorem Find_empty_needle_spec (w : Nat) (s str : EdoString) (chars : List Nat) (idx : Nat)
    (hs : wf w s) (hstr : str.Length = 0) :
    Find_str w s str idx = .ok (if idx < s.Length then idx else npos w) ∧
    Find_chars w s chars idx 0 = .ok (if idx < s.Length then idx else npos w) := by
  have hnp : (0 : Nat) ≠ npos w := by
    have := MaxSize_bound hs.2.2.2.2
    unfold npos
    omega
  have hstr' : str.d_cpLength = 0 := hstr
  constructor
  · unfold Find_str Length
    by_cases hi : idx < s.d_cpLength
    · rw [if_pos ⟨hstr', hi⟩, if_pos hi]
      rfl
    · rw [if_neg (fun h => hi h.2), if_neg hi, if_neg hi]
      rfl
  · unfold Find_chars Length
    rw [if_neg hnp]
    by_cases hi : idx < s.d_cpLength
    · rw [if_pos ⟨rfl, hi⟩, if_pos hi]
      rfl
    · rw [if_neg (fun h => hi h.2), if_neg hi, if_neg hi]
      rfl

/-- C14: for a string and a needle of `utf32` values, `RFind(n, idx)` (String
overload, and char array overload with the chars taken as code points) returns
normally for every `idx`; the result is `npos` when the needle occurs at no
position `j <= idx`, and otherwise it is the largest position `r <= idx` with
`r + Length(n) <= Length(s)` and `s[r, r + Length(n)) == n`; for the empty
needle the result is `min(idx, Length(s))`. -/
theorem C14_RFind_last_occurrence (w : Nat) (s str : EdoString) (chars : List Nat)
    (idx chars_len : Nat) (hs : wf w s) (hstr : wf w str)
    (hvs : utf32List s.codePoints) (hvn : utf32List str.codePoints) :
    (∃ r, RFind_str w s str idx = .ok r ∧
        ((r = npos w ∧ ∀ j, j ≤ idx →
            ¬ (j + str.codePoints.length ≤ s.codePoints.length ∧
              (s.codePoints.drop j).take str.codePoints.length = str.codePoints)) ∨
         (r ≠ npos w ∧ r ≤ idx ∧
            (r + str.codePoints.length ≤ s.codePoints.length ∧
              (s.codePoints.drop r).take str.codePoints.length = str.codePoints) ∧
            ∀ j, r < j → j ≤ idx →
              ¬ (j + str.codePoints.length ≤ s.codePoints.length ∧
                (s.codePoints.drop j).take str.codePoints.length = str.codePoints))) ∧
        (str.Length = 0 → r = min idx s.Length)) ∧
    (chars_len ≤ chars.length → chars_len ≠ npos w →
      ∃ r, RFind_chars w s chars idx chars_len = .ok r ∧
        ((r = npos w ∧ ∀ j, j ≤ idx →
            ¬ (j + ((chars.take chars_len).map charToUtf32).length ≤ s.codePoints.length ∧
              (s.codePoints.drop j).take ((chars.take chars_len).map charToUtf32).length
                = (chars.take chars_len).map charToUtf32)) ∨
         (r ≠ npos w ∧ r ≤ idx ∧
            (r + ((chars.take chars_len).map charToUtf32).length ≤ s.codePoints.length ∧
              (s.codePoints.drop r).take ((chars.take chars_len).map charToUtf32).length
                = (chars.take chars_len).map charToUtf32) ∧
            ∀ j, r < j → j ≤ idx →
              ¬ (j + ((chars.take chars_len).map charToUtf32).length ≤ s.codePoints.length ∧
                (s.codePoints.drop j).take ((chars.take chars_len).map charToUtf32).length
                  = (chars.take chars_len).map charToUtf32))) ∧
        (chars_len = 0 → r = min idx s.Length)) := by
  refine ⟨?_, fun hcl hnp => ?_⟩
  · obtain ⟨r, hr, hf, he⟩ := RFind_str_spec hs hstr hvs hvn idx
    exact ⟨r, hr, hf, he⟩
  · obtain ⟨r, hr, hf, he⟩ := RFind_chars_spec hs hvs hcl hnp idx
    exact ⟨r, hr, hf, he⟩

/-- C14, at "abcd": the needle "cd" from `npos` in both overloads, and the empty
needle from `npos`. -/
theorem C14_RFind_last_occurrence_witness :
    wf 64 exAbcd ∧ wf 64 exCd ∧ utf32List exAbcd.codePoints ∧ utf32List exCd.codePoints ∧
    RFind_str 64 exAbcd exCd (npos 64) = .ok 2 ∧
    RFind_chars 64 exAbcd [99, 100] (npos 64) 2 = .ok 2 ∧
    RFind_str 64 exAbcd exEmpty (npos 64) = .ok 4 ∧
    (∃ r, RFind_str 64 exAbcd exCd (npos 64) = .ok r ∧
      (r = npos 64 ∨ (r ≠ npos 64 ∧ r ≤ npos 64))) ∧
    (∃ r, RFind_chars 64 exAbcd [99, 100] (npos 64) 2 = .ok r ∧
      (r = npos 64 ∨ (r ≠ npos 64 ∧ r ≤ npos 64))) := by
  have h := C14_RFind_last_occurrence 64 exAbcd exCd [99, 100] (npos 64) 2 (by decide)
    (by decide) (by decide) (by decide)
  obtain ⟨r1, e1, f1, -⟩ := h.1
  obtain ⟨r2, e2, f2, -⟩ := h.2 (by decide) (by decide)
  refine ⟨by decide, by decide, by decide, by decide, by decide, by decide, by decide,
    ⟨r1, e1, ?_⟩, ⟨r2, e2, ?_⟩⟩
  · rcases f1 with ⟨a, -⟩ | ⟨a, b, -⟩
    · exact Or.inl a
    · exact Or.inr ⟨a, b⟩
  · rcases f2 with ⟨a, -⟩ | ⟨a, b, -⟩
    · exact Or.inl a
    · exact Or.inr ⟨a, b⟩

/-- C15 (counterexample): "c" occurs in "abc" exactly once, at position 2; with
`i = 0`, `Find("c", 0)` is 2 and `RFind("c", 0 + 1 - 1)` is `npos`; "a" occurs
in "abc" exactly once, at position 0; with `i = 1`, `Find("a", 1)` is `npos`
and `RFind("a", 1 + 1 - 1)` is 0. -/
theorem C15_Find_RFind_differ :
    wf 64 exAbc ∧ wf 64 exC ∧ wf 64 exA ∧
    exAbc.codePoints = [97, 98, 99] ∧ exC.codePoints = [99] ∧ exA.codePoints = [97] ∧
    (∀ j, (j + exC.codePoints.length ≤ exAbc.codePoints.length ∧
        (exAbc.codePoints.drop j).take exC.codePoints.length = exC.codePoints) ↔ j = 2) ∧
    (∀ j, (j + exA.codePoints.length ≤ exAbc.codePoints.length ∧
        (exAbc.codePoints.drop j).take exA.codePoints.length = exA.codePoints) ↔ j = 0) ∧
    Find_str 64 exAbc exC 0 = .ok 2 ∧
    RFind_str 64 exAbc exC (szSub 64 (szAdd 64 0 exC.Length) 1) = .ok (npos 64) ∧
    Find_str 64 exAbc exA 1 = .ok (npos 64) ∧
    RFind_str 64 exAbc exA (szSub 64 (szAdd 64 1 exA.Length) 1) = .ok 0 ∧
    (2 : Nat) ≠ npos 64 ∧ (0 : Nat) ≠ npos 64 := by
  refine ⟨by decide, by decide, by decide, by decide, by decide, by decide, ?_, ?_,
    by decide, by decide, by decide, by decide, by decide, by decide⟩
  · intro j
    constructor
    · rintro ⟨h1, h2⟩
      have hj : j ≤ 2 := by
        have e1 : exC.codePoints.length = 1 := by decide
        have e2 : exAbc.codePoints.length = 3 := by decide
        omega
      interval_cases j
      · exact absurd h2 (by decide)
      · exact absurd h2 (by decide)
      · rfl
    · rintro rfl
      decide
  · intro j
    constructor
    · rintro ⟨h1, h2⟩
      have hj : j ≤ 2 := by
        have e1 : exA.codePoints.length = 1 := by decide
        have e2 : exAbc.codePoints.length = 3 := by decide
        omega
      interval_cases j
      · rfl
      · exact absurd h2 (by decide)
      · exact absurd h2 (by decide)
    · rintro rfl
      decide

/-- C15 (amended): when the non-empty `s` occurs in `t` exactly once, at
position `p`, and `i + Length(s)` does not wrap, `t.Find(s, i)` and
`t.RFind(s, i + Length(s) - 1)` both return normally; they return the same
index exactly when `i <= p <= i + Length(s) - 1`, and that index is `p`. -/
theorem C15_Find_RFind_unique (w : Nat) (t s : EdoString) (i p : Nat)
    (ht : wf w t) (hs : wf w s)
    (hvt : utf32List t.codePoints) (hvs : utf32List s.codePoints)
    (hne : 1 ≤ s.Length) (hi : i + s.Length < 2 ^ w)
    (hp : p + s.codePoints.length ≤ t.codePoints.length ∧
      (t.codePoints.drop p).take s.codePoints.length = s.codePoints)
    (huniq : ∀ j, (j + s.codePoints.length ≤ t.codePoints.length ∧
      (t.codePoints.drop j).take s.codePoints.length = s.codePoints) → j = p) :
    ∃ r1 r2, Find_str w t s i = .ok r1 ∧
      RFind_str w t s (szSub w (szAdd w i s.Length) 1) = .ok r2 ∧
      (r1 = r2 ↔ (i ≤ p ∧ p ≤ i + s.Length - 1)) ∧
      (i ≤ p ∧ p ≤ i + s.Length - 1 → r1 = p ∧ r2 = p) := by
  have hne' : 1 ≤ s.d_cpLength := hne
  have hi' : i + s.d_cpLength < 2 ^ w := hi
  have hidx : szSub w (szAdd w i s.Length) 1 = i + s.d_cpLength - 1 := by
    unfold Length
    rw [szAdd_eq hi', szSub_eq (by omega) hi']
  have hlt := codePoints_length ht
  have hls := codePoints_length hs
  have hbt := wf_lt_pow ht
  have hpn : p ≠ npos w := by
    have := hp.1
    unfold npos
    omega
  obtain ⟨r1, e1, f1⟩ := Find_str_spec ht hs hvt hvs hne' i
  obtain ⟨r2, e2, f2, -⟩ := RFind_str_spec ht hs hvt hvs (i + s.d_cpLength - 1)
  refine ⟨r1, r2, e1, by rw [hidx]; exact e2, ?_⟩
  show (r1 = r2 ↔ (i ≤ p ∧ p ≤ i + s.d_cpLength - 1)) ∧
    (i ≤ p ∧ p ≤ i + s.d_cpLength - 1 → r1 = p ∧ r2 = p)
  rcases f1 with ⟨a1, a2⟩ | ⟨a1, a2, a3, -⟩ <;>
    rcases f2 with ⟨b1, b2⟩ | ⟨b1, b2, b3, -⟩
  · have n1 : ¬ i ≤ p := fun h => a2 p h hp
    have n2 : ¬ p ≤ i + s.d_cpLength - 1 := fun h => b2 p h hp
    omega
  · have n1 : ¬ i ≤ p := fun h => a2 p h hp
    have q2 : r2 = p := huniq r2 b3
    exact ⟨⟨fun h => absurd (h ▸ a1 : r2 = npos w) b1, fun h => absurd h.1 n1⟩,
      fun h => absurd h.1 n1⟩
  · have n2 : ¬ p ≤ i + s.d_cpLength - 1 := fun h => b2 p h hp
    exact ⟨⟨fun h => absurd (h ▸ b1 : r1 = npos w) a1, fun h => absurd h.2 n2⟩,
      fun h => absurd h.2 n2⟩
  · have q1 : r1 = p := huniq r1 a3
    have q2 : r2 = p := huniq r2 b3
    subst q1
    exact ⟨⟨fun _ => ⟨a2, by omega⟩, fun _ => q2.symm⟩, fun _ => ⟨rfl, q2⟩⟩

/-- C15 (amended), at "abc" with the needle "c", which occurs once at position
2, from the start index 2. -/
theorem C15_Find_RFind_unique_witness :
    wf 64 exAbc ∧ wf 64 exC ∧ utf32List exAbc.codePoints ∧ utf32List exC.codePoints ∧
    1 ≤ exC.Length ∧ 2 + exC.Length < 2 ^ 64 ∧
    Find_str 64 exAbc exC 2 = .ok 2 ∧
    (∃ r1 r2, Find_str 64 exAbc exC 2 = .ok r1 ∧
      RFind_str 64 exAbc exC (szSub 64 (szAdd 64 2 exC.Length) 1) = .ok r2 ∧
      (r1 = r2 ↔ (2 ≤ 2 ∧ 2 ≤ 2 + exC.Length - 1)) ∧
      (2 ≤ 2 ∧ 2 ≤ 2 + exC.Length - 1 → r1 = 2 ∧ r2 = 2)) := by
  refine ⟨by decide, by decide, by decide, by decide, by decide, by decide, by decide,
    C15_Find_RFind_unique 64 exAbc exC 2 2 (by decide) (by decide) (by decide) (by decide)
      (by decide) (by decide) (by decide) ?_⟩
  rintro j ⟨h1, h2⟩
  have hj : j ≤ 2 := by
    have e1 : exC.codePoints.length = 1 := by decide
    have e2 : exAbc.codePoints.length = 3 := by decide
    omega
  interval_cases j
  · exact absurd h2 (by decide)
  · exact absurd h2 (by decide)
  · rfl

/-- C16: `FindFirstOf(n, idx)` (String overload) returns normally; the result is
`npos` when no position `j >= idx` of `s` holds a code point that occurs in
`n`, and otherwise it is the smallest `r` with `idx <= r < Length(s)` whose code
point `s[r]` occurs in `n`; a needle `n2` with the same set of code points gives
the same result. -/
theorem C16_FindFirstOf_set (w : Nat) (s str str2 : EdoString) (idx : Nat)
    (hs : wf w s) (hstr : wf w str) (hstr2 : wf w str2)
    (hset : ∀ c, c ∈ str.codePoints ↔ c ∈ str2.codePoints) :
    ∃ r, FindFirstOf_str w s str idx = .ok r ∧
      ((r = npos w ∧ ∀ j, idx ≤ j →
          ¬ ∃ c, s.codePoints[j]? = some c ∧ c ∈ str.codePoints) ∨
       (r ≠ npos w ∧ idx ≤ r ∧ r < s.Length ∧
          (∃ c, s.codePoints[r]? = some c ∧ c ∈ str.codePoints) ∧
          ∀ j, idx ≤ j → j < r →
            ¬ ∃ c, s.codePoints[j]? = some c ∧ c ∈ str.codePoints)) ∧
      FindFirstOf_str w s str2 idx = .ok r := by
  obtain ⟨r, hr, hf⟩ := FindFirstOf_str_spec hs hstr idx
  obtain ⟨r2, hr2, hf2⟩ := FindFirstOf_str_spec hs hstr2 idx
  have hc : ∀ i : Nat, (∃ c, s.codePoints[i]? = some c ∧ c ∈ str2.codePoints) ↔
      (∃ c, s.codePoints[i]? = some c ∧ c ∈ str.codePoints) := by
    intro i
    constructor
    · rintro ⟨c, h1, h2⟩
      exact ⟨c, h1, (hset c).mpr h2⟩
    · rintro ⟨c, h1, h2⟩
      exact ⟨c, h1, (hset c).mp h2⟩
  have he : r2 = r := firstFrom_unique (firstFrom_congr hc hf2) hf
  refine ⟨r, hr, ?_, by rw [hr2, he]⟩
  rcases hf with ⟨a1, a2⟩ | ⟨a1, a2, a3, a4⟩
  · exact Or.inl ⟨a1, a2⟩
  · refine Or.inr ⟨a1, a2, ?_, a3, a4⟩
    obtain ⟨c, h1, -⟩ := a3
    show r < s.d_cpLength
    by_contra hge
    rw [codePoints_getElem?_none hs (by omega)] at h1
    exact Option.noConfusion h1

/-- C16, at "abcd" with the needles "cd" and "dccd" from index 0. -/
theorem C16_FindFirstOf_set_witness :
    wf 64 exAbcd ∧ wf 64 exCd ∧ wf 64 (inlineString [100, 99, 99, 100]) ∧
    FindFirstOf_str 64 exAbcd exCd 0 = .ok 2 ∧
    (∃ r, FindFirstOf_str 64 exAbcd exCd 0 = .ok r ∧
      FindFirstOf_str 64 exAbcd (inlineString [100, 99, 99, 100]) 0 = .ok r) := by
  obtain ⟨r, h1, -, h2⟩ := C16_FindFirstOf_set 64 exAbcd exCd
    (inlineString [100, 99, 99, 100]) 0 (by decide) (by decide) (by decide)
    (fun c => by
      have e1 : exCd.codePoints = [99, 100] := by decide
      have e2 : (inlineString [100, 99, 99, 100]).codePoints = [100, 99, 99, 100] := by decide
      rw [e1, e2]
      simp only [List.mem_cons, List.mem_singleton, List.not_mem_nil, or_false]
      tauto)
  exact ⟨by decide, by decide, by decide, by decide, r, h1, h2⟩

/-- C17 (failing input): `FindLastNotOf(const EdoString &, idx)` returns `npos`
on every input, its guard `d_cpLength < 0` being false; on "abc" with the
needle "a" and `idx = npos` it returns `npos`, where position 2 holds 'c',
which is not in the needle, and where the `std::string` overload with the
needle "a" returns 2. -/
theorem C17_FindLastNotOf_str_always_npos :
    (∀ (w : Nat) (s str : EdoString) (idx : Nat),
      FindLastNotOf_str w s str idx = .ok (npos w)) ∧
    wf 64 exAbc ∧ wf 64 exA ∧ exAbc.codePoints = [97, 98, 99] ∧ exA.codePoints = [97] ∧
    FindLastNotOf_str 64 exAbc exA (npos 64) = .ok (npos 64) ∧
    FindLastNotOf_std 64 exAbc [97] (npos 64) = .ok 2 ∧
    (2 : Nat) ≠ npos 64 := by
  refine ⟨fun w s str idx => ?_, by decide, by decide, by decide, by decide, by decide,
    by decide, by decide⟩
  unfold FindLastNotOf_str
  rw [if_neg (Nat.not_lt_zero _)]
  rfl

/-- C18 (failing input): on "aaa", whose length is 3, `FindFirstNotOf('a', 0)`
returns 3: after the last code point the loop condition `idx++ < d_cpLength`
still holds for `idx = 2`, and the terminator at position 3 differs from 'a'. -/
theorem C18_FindFirstNotOf_returns_length :
    wf 64 exAaa ∧ exAaa.codePoints = [97, 97, 97] ∧ exAaa.Length = 3 ∧
    FindFirstNotOf_cp 64 exAaa 97 0 = .ok 3 ∧
    FindFirstNotOf_cp 64 exAaa 97 0 = .ok exAaa.Length ∧
    (3 : Nat) ≠ npos 64 := by
  decide

/-- C19: `Substr(idx, len)` raises the out-of-range error exactly when
`idx > Length(s)`; otherwise it returns a well-formed string whose code points
are `s[idx, idx + min(len, Length(s) - idx))`; the receiver is an argument that
the function only reads. -/
theorem C19_Substr (w : Nat) (s : EdoString) (idx len : Nat) (hs : wf w s) :
    (Substr w s idx len = .error .out_of_range ↔ s.Length < idx) ∧
    (idx ≤ s.Length →
      ∃ t, Substr w s idx len = .ok t ∧ wf w t ∧
        t.codePoints = (s.codePoints.drop idx).take (min len (s.Length - idx)) ∧
        t.Length = min len (s.Length - idx)) := by
  have hl := codePoints_length hs
  have hd : (s.codePoints.drop idx).length = s.d_cpLength - idx := by
    rw [List.length_drop, hl]
  have ht : (s.codePoints.drop idx).take (min len (s.d_cpLength - idx))
      = (s.codePoints.drop idx).take len := by
    by_cases hlen : len ≤ s.d_cpLength - idx
    · rw [Nat.min_eq_left hlen]
    · rw [Nat.min_eq_right (by omega), List.take_of_length_le (by omega),
        List.take_of_length_le (by omega)]
  have hok : idx ≤ s.d_cpLength →
      ∃ t, Substr w s idx len = .ok t ∧ wf w t ∧
        t.codePoints = (s.codePoints.drop idx).take (min len (s.d_cpLength - idx)) ∧
        t.d_cpLength = min len (s.d_cpLength - idx) := by
    intro hidx
    obtain ⟨t, h1, h2, h3, h4⟩ := Substr_ok hs len hidx
    refine ⟨t, h1, h2, by rw [ht]; exact h3, ?_⟩
    rw [h4, List.length_take, hd]
  refine ⟨⟨fun he => ?_, fun hlt => ?_⟩, hok⟩
  · show s.d_cpLength < idx
    by_contra hge
    obtain ⟨t, h1, -⟩ := hok (by omega)
    rw [h1] at he
    exact Except.noConfusion he
  · have hlt' : s.d_cpLength < idx := hlt
    unfold Substr
    rw [if_pos hlt']

/-- C19, at "abcd": from index 1 with `len = npos`, from index 4, and from
index 5. -/
theorem C19_Substr_witness :
    wf 64 exAbcd ∧ exAbcd.Length = 4 ∧
    (Substr 64 exAbcd 1 (npos 64)).map codePoints = .ok [98, 99, 100] ∧
    (Substr 64 exAbcd 4 2).map codePoints = .ok [] ∧
    Substr 64 exAbcd 5 2 = .error .out_of_range ∧
    ((Substr 64 exAbcd 1 (npos 64) = .error .out_of_range ↔ exAbcd.Length < 1) ∧
      (1 ≤ exAbcd.Length →
        ∃ t, Substr 64 exAbcd 1 (npos 64) = .ok t ∧ wf 64 t ∧
          t.codePoints = (exAbcd.codePoints.drop 1).take (min (npos 64) (exAbcd.Length - 1)) ∧
          t.Length = min (npos 64) (exAbcd.Length - 1))) :=
  ⟨by decide, by decide, by decide, by decide, by decide,
    C19_Substr 64 exAbcd 1 (npos 64) (by decide)⟩

/-- C24 (failing input): on the string holding U+1F600, `ToUtf16` returns the
units `0xD83D, 0xDC00`.  The low unit is computed as `(ch >> 0x3FF) + 0xDC00`,
a shift where the standard algorithm has the mask `ch & 0x3FF`; the shift
gives 0 (also with the count reduced modulo 32), where the mask gives `0x200`
and the low unit `0xDE00`. -/
theorem C24_ToUtf16_low_surrogate :
    wf 64 exGrin ∧ exGrin.codePoints = [0x1F600] ∧
    ToUtf16 true exGrin = .ok [0xD83D, 0xDC00] ∧
    ToUtf16 false exGrin = .ok [0xD83D, 0xDC00] ∧
    0xD800 + ((0x1F600 - 0x10000) >>> 10) = 0xD83D ∧
    0xDC00 + ((0x1F600 - 0x10000) &&& 0x3FF) = 0xDE00 ∧
    (0x1F600 - 0x10000) >>> 0x3FF = 0 ∧
    (0x1F600 - 0x10000) >>> (0x3FF % 32) = 0 := by
  decide

/-- C27 (failing input): on "abcd" with `num = 2^64 - 2`, which is not `npos`,
the sum `d_cpLength + num` wraps around to 2, `Grow(2)` does not throw, and the
loops of `Append(num, 'x')` and of `Insert(2, num, 'x')` write outside the
buffer, where the mathematical sum is above `MaxSize()` and a length error is
documented. -/
theorem C27_Append_count_wraps :
    wf 64 exAbcd ∧ exAbcd.Length = 4 ∧ 2 ^ 64 - 2 ≠ npos 64 ∧
    MaxSize 64 ≤ exAbcd.Length + (2 ^ 64 - 2) ∧
    szAdd 64 exAbcd.d_cpLength (2 ^ 64 - 2) = 2 ∧
    Append_rep 64 exAbcd (2 ^ 64 - 2) 120 = .error .bad_access ∧
    Insert_rep 64 exAbcd 2 (2 ^ 64 - 2) 120 = .error .bad_access := by
  decide

/-- C28 (counterexample): on "abcd", whose length is 4, `Erase(5, 0)` and
`Erase(npos, 0)` return normally and leave the string as it is, although the
index is above the length. -/
theorem C28_Erase_zero_count_past_end :
    wf 64 exAbcd ∧ exAbcd.Length = 4 ∧
    Erase 64 exAbcd 5 0 = .ok exAbcd ∧
    Erase 64 exAbcd (npos 64) 0 = .ok exAbcd := by
  decide

/-- C28 (amended): `Erase(idx, count)` raises the out-of-range error exactly
when `count != 0` and `idx >= Length()`; with `count == 0` it returns the
string as it is, for every `idx`.  The error is raised before any write: it is
the only exception of the call, and when the call fails with it the object is
as it was before the call. -/
theorem C28_Erase_out_of_range (w : Nat) (s : EdoString) (idx count : Nat) :
    (Erase w s idx count = .error .out_of_range ↔ (count ≠ 0 ∧ s.Length ≤ idx)) ∧
    (count = 0 → Erase w s idx count = .ok s) ∧
    ((Erase_st w s idx count).2 = .error .out_of_range ↔ (count ≠ 0 ∧ s.Length ≤ idx)) ∧
    (∀ e, (Erase_st w s idx count).2 = .error e → e ≠ .bad_access →
      e = .out_of_range ∧ (Erase_st w s idx count).1 = s) ∧
    (count = 0 → Erase_st w s idx count = (s, .ok ())) ∧
    outcome (Erase_st w s idx count) = Erase w s idx count := by
  have key : Erase w s idx count = .error .out_of_range ↔ (count ≠ 0 ∧ s.Length ≤ idx) := by
    refine ⟨fun he => ?_, fun ⟨hc, hi⟩ => ?_⟩
    · by_cases hc : count = 0
      · unfold Erase at he
        rw [if_pos hc] at he
        exact Except.noConfusion he
      · refine ⟨hc, ?_⟩
        show s.d_cpLength ≤ idx
        by_contra hlt
        unfold Erase at he
        rw [if_neg hc, if_neg hlt] at he
        rcases bind_error_inv he with h1 | ⟨b1, -, h2⟩
        · exact Fault.noConfusion (memmove_error_inv h1)
        · exact Fault.noConfusion (SetLen_error_inv h2)
    · have hi' : s.d_cpLength ≤ idx := hi
      unfold Erase
      rw [if_neg hc, if_pos hi']
  have hst : (Erase_st w s idx count).2 = .error .out_of_range ↔
      (count ≠ 0 ∧ s.Length ≤ idx) := by
    rw [← outcome_error, Erase_st_outcome]
    exact key
  have hunch : (Erase_st w s idx count).2 = .error .out_of_range →
      (Erase_st w s idx count).1 = s := by
    intro he
    obtain ⟨hc, hi⟩ := hst.1 he
    have hi' : s.d_cpLength ≤ idx := hi
    unfold Erase_st
    rw [if_neg hc, if_pos hi']
  refine ⟨key, fun hc => ?_, hst, fun e he hne => ?_, fun hc => ?_,
    Erase_st_outcome w s idx count⟩
  · unfold Erase
    rw [if_pos hc]
    rfl
  · have he2 : Erase w s idx count = .error e := by
      rw [← Erase_st_outcome]
      exact outcome_error.2 he
    have heq : e = .out_of_range := by
      by_cases hc : count = 0
      · unfold Erase at he2
        rw [if_pos hc] at he2
        exact Except.noConfusion he2
      · by_cases hlt : s.d_cpLength ≤ idx
        · unfold Erase at he2
          rw [if_neg hc, if_pos hlt] at he2
          exact (Except.error.inj he2).symm
        · unfold Erase at he2
          rw [if_neg hc, if_neg hlt] at he2
          rcases bind_error_inv he2 with h1 | ⟨b1, -, h2⟩
          · exact absurd (memmove_error_inv h1) hne
          · exact absurd (SetLen_error_inv h2) hne
    refine ⟨heq, hunch ?_⟩
    rw [← heq]
    exact he
  · unfold Erase_st
    rw [if_pos hc]

/-- C29 (failing input): `a` is `exZZZZ40`, "zzzz" grown to the heap by
`Append(40, 'x')`, so its quick buffer still holds "zzzz"; `b` is `exHi`, the
inline string "hi".  Both have the terminator at position `Length()`.  After
`a.Swap(b)` the quick buffers were not exchanged: `a` has length 2 and the
slot at position 2 of its buffer in use holds 'z'. -/
theorem C29_Swap_breaks_sentinel :
    exZZZZ40.map (fun a => decide (wf 64 a ∧ a.ptr[a.Length]? = some 0)) = .ok true ∧
    exHi.map (fun b => decide (wf 64 b ∧ b.ptr[b.Length]? = some 0)) = .ok true ∧
    (do let a ← exZZZZ40; let b ← exHi; pure (Swap a b).1.Length) = .ok 2 ∧
    (do let a ← exZZZZ40; let b ← exHi; pure ((Swap a b).1.ptr[(Swap a b).1.Length]?))
      = .ok (some 122) := by
  decide

/-- C26: for a C string of the non-zero bytes `c` followed by the terminator,
and any prior value of the string, `Assign(c)` throws the length error when
`|c|` is at least `MaxSize()`; otherwise it returns normally, `Length()` is
`|c|`, the code points are the byte values of `c` in order, and `Compare(c)`
returns 0. -/
theorem C26_Assign_cstr (w : Nat) (s : EdoString) (c : List Nat) (hs : wf w s)
    (hc : ∀ x ∈ c, 0 < x ∧ x < 256) :
    (MaxSize w ≤ c.length → Assign_cstr w s (c ++ [0]) = .error .length_error) ∧
    (c.length < MaxSize w →
      ∃ s2, Assign_cstr w s (c ++ [0]) = .ok s2 ∧ wf w s2 ∧ s2.Length = c.length ∧
        s2.codePoints = c ∧ Compare_cstr w s2 (c ++ [0]) = .ok 0) := by
  have hlen : strlen (c ++ [0]) = .ok c.length :=
    strlen_ok [] c (fun x hx => by have := (hc x hx).1; omega)
  have hmap : c.map charToUtf32 = c := by
    have e : ∀ x ∈ c, charToUtf32 x = id x := by
      intro x hx
      have := (hc x hx).2
      unfold charToUtf32
      exact Nat.mod_eq_of_lt this
    rw [List.map_congr_left e, List.map_id]
  have htake : (c ++ [0]).take c.length = c := by
    rw [List.take_append_of_le_length (le_refl _), List.take_of_length_le (le_refl _)]
  have hu : utf32List c := by
    intro x hx
    have := (hc x hx).2
    omega
  constructor
  · intro hmax
    unfold Assign_cstr
    rw [hlen]
    exact Assign_chars_too_large s _ hmax
  · intro hmax
    obtain ⟨s2, h1, h2, h3, h4, -⟩ := Assign_chars_ok hs
      (show c.length ≤ (c ++ [0]).length by simp) hmax
    rw [htake, hmap] at h4
    refine ⟨s2, ?_, h2, h3, h4, ?_⟩
    · unfold Assign_cstr
      rw [hlen]
      exact h1
    · have hb := MaxSize_bound hmax
      have e1 : (if s2.d_cpLength = npos w ∨ szAdd w 0 s2.d_cpLength > s2.d_cpLength
          then szSub w s2.d_cpLength 0 else s2.d_cpLength) = s2.d_cpLength := by
        rw [szAdd_eq (by omega), if_neg]
        unfold npos; omega
      have hcmp := Compare_chars4_eq h2 (Nat.zero_le _) e1 (by omega)
        (show c.length ≤ (c ++ [0]).length by simp)
        (show c.length ≠ npos w by unfold npos; omega)
      rw [List.drop_zero, List.take_of_length_le (by rw [codePoints_length h2]),
        htake, hmap, h4, (compareLists_eq_zero_iff c c hu hu).mpr rfl] at hcmp
      unfold Compare_cstr
      rw [hlen]
      exact hcmp

/-- C26, at "hello" assigned to the string "abcd". -/
theorem C26_Assign_cstr_witness :
    wf 64 exAbcd ∧ (∀ x ∈ [104, 101, 108, 108, 111], 0 < x ∧ x < 256) ∧
    [104, 101, 108, 108, 111].length < MaxSize 64 ∧
    (∃ s2, Assign_cstr 64 exAbcd ([104, 101, 108, 108, 111] ++ [0]) = .ok s2 ∧
      s2.Length = 5 ∧ s2.codePoints = [104, 101, 108, 108, 111] ∧
      Compare_cstr 64 s2 ([104, 101, 108, 108, 111] ++ [0]) = .ok 0) := by
  obtain ⟨s2, h1, -, h3, h4, h5⟩ :=
    (C26_Assign_cstr 64 exAbcd [104, 101, 108, 108, 111] (by decide) (by decide)).2 (by decide)
  exact ⟨by decide, by decide, by decide, s2, h1, h3, h4, h5⟩

/-- C25: `ToUtf16(true)` raises the invalid-argument error exactly when the
string has a code point in `[0xD800, 0xDFFF]` or above `0x10FFFF`, and
otherwise returns what `ToUtf16(false)` returns; `ToUtf16(false)` returns
normally, with the units of the code points in order: the single unit `0xFFFD`
for a code point in `[0xD800, 0xDFFF]` or above `0x10FFFF`, and one unit of the
same value for every other code point that is at most `0xFFFF`. -/
theorem C25_ToUtf16_strict (w : Nat) (s : EdoString) (hs : wf w s) :
    (ToUtf16 true s = .error .invalid_argument ↔
      ∃ c ∈ s.codePoints, (0xD800 ≤ c ∧ c ≤ 0xDFFF) ∨ 0x10FFFF < c) ∧
    ((∀ c ∈ s.codePoints, ¬ ((0xD800 ≤ c ∧ c ≤ 0xDFFF) ∨ 0x10FFFF < c)) →
      ToUtf16 true s = ToUtf16 false s) ∧
    ToUtf16 false s = .ok (s.codePoints.flatMap (fun c =>
      if (0xD800 ≤ c ∧ c ≤ 0xDFFF) ∨ 0x10FFFF < c then [0xFFFD]
      else if c ≤ 0xFFFF then [c]
      else ToUtf16_units c)) := by
  have hp := ptr_length hs
  have hr := hs.2.2.2.1
  have hL : s.d_cpLength ≤ s.ptr.length := by omega
  have hcp : (s.ptr.take s.d_cpLength).drop 0 = s.codePoints := rfl
  have hfun : (fun c => if (0xD800 ≤ c ∧ c ≤ 0xDFFF) ∨ 0x10FFFF < c then [0xFFFD]
      else if c ≤ 0xFFFF then [c] else ToUtf16_units c) = ToUtf16_units := by
    funext c
    by_cases h1 : (0xD800 ≤ c ∧ c ≤ 0xDFFF) ∨ 0x10FFFF < c
    · rw [if_pos h1, ToUtf16_units_illegal h1]
    · rw [if_neg h1]
      by_cases h2 : c ≤ 0xFFFF
      · rw [if_pos h2, ToUtf16_units_bmp h2 (fun h => h1 (Or.inl h))]
      · rw [if_neg h2]
  have hT := ToUtf16_loop_spec true s.ptr s.d_cpLength hL s.d_cpLength (s.d_cpLength + 1) 0 []
    (by omega) (by omega)
  have hF := ToUtf16_loop_spec false s.ptr s.d_cpLength hL s.d_cpLength (s.d_cpLength + 1) 0 []
    (by omega) (by omega)
  rw [hcp] at hT hF
  have hFok : ToUtf16 false s = .ok (s.codePoints.flatMap ToUtf16_units) := by
    have := hF.1 (Or.inl rfl)
    rw [List.nil_append] at this
    exact this
  refine ⟨⟨fun he => ?_, fun hex => hT.2 rfl hex⟩, fun hleg => ?_, by rw [hfun]; exact hFok⟩
  · by_contra hno
    have hleg : ∀ c ∈ s.codePoints, ¬ ((0xD800 ≤ c ∧ c ≤ 0xDFFF) ∨ 0x10FFFF < c) :=
      fun c hc hill => hno ⟨c, hc, hill⟩
    have hok := hT.1 (Or.inr hleg)
    have he' : ToUtf16_loop true s.ptr s.d_cpLength (s.d_cpLength + 1) 0 []
        = .error .invalid_argument := he
    rw [hok] at he'
    exact Except.noConfusion he'
  · have hok := hT.1 (Or.inr hleg)
    rw [List.nil_append] at hok
    rw [hFok]
    exact hok

/-- C25, at the string with the code points 'A', `0xD800`, `0x110000`,
`0xFFFF`, and at "abcd". -/
theorem C25_ToUtf16_strict_witness :
    wf 64 exIllegal ∧ exIllegal.codePoints = [0x41, 0xD800, 0x110000, 0xFFFF] ∧
    ToUtf16 true exIllegal = .error .invalid_argument ∧
    ToUtf16 false exIllegal = .ok [0x41, 0xFFFD, 0xFFFD, 0xFFFF] ∧
    ToUtf16 true exAbcd = .ok [97, 98, 99, 100] ∧
    (ToUtf16 true exIllegal = .error .invalid_argument ↔
      ∃ c ∈ exIllegal.codePoints, (0xD800 ≤ c ∧ c ≤ 0xDFFF) ∨ 0x10FFFF < c) :=
  ⟨by decide, by decide, by decide, by decide, by decide,
    (C25_ToUtf16_strict 64 exIllegal (by decide)).1⟩

/-- C21 (failing input): `u` is `exLongRun`, `2 ^ 32` times 'a' followed by
'b', encoded with the capacity `2 ^ 32 + 1` that its UTF-8 form needs.  The
loop index `idx` is an `unsigned int`: after `2 ^ 32` iterations it is 0 again,
still below `src_len`, and the last unit written is the encoding of `u[0]`.
The code units are `2 ^ 32 + 1` times 'a'; decoding them (all of them, with
capacity for as many code points) gives `2 ^ 32 + 1` times 'a', which is not
`u`. -/
theorem C21_Encode_index_wraps :
    exLongRun ≠ [] ∧ (∀ c ∈ exLongRun, c < 0x80) ∧ exLongRun.length = 2 ^ 32 + 1 ∧
    Encode_utf32 64 exLongRun (newUtf8Array (2 ^ 32 + 1)) 0 (2 ^ 32 + 1) (2 ^ 32 + 1)
      = .ok (List.replicate (2 ^ 32 + 1) 97, 2 ^ 32 + 1) ∧
    Encode_utf8 64 (List.replicate (2 ^ 32 + 1) 97) (newArray (2 ^ 32 + 1)) 0 (2 ^ 32 + 1)
        (2 ^ 32 + 1)
      = .ok (List.replicate (2 ^ 32 + 1) 97, 2 ^ 32 + 1) ∧
    List.replicate (2 ^ 32 + 1) 97 ≠ exLongRun := by
  refine ⟨?_, ?_, ?_, ?_, ?_, ?_⟩
  · unfold exLongRun
    exact List.append_ne_nil_of_right_ne_nil _ (List.cons_ne_nil _ _)
  · intro c hc
    unfold exLongRun at hc
    rcases List.mem_append.mp hc with h | h
    · rw [List.eq_of_mem_replicate h]
      decide
    · rw [List.mem_singleton.mp h]
      decide
  · unfold exLongRun
    rw [List.length_append, List.length_replicate]
    rfl
  · have h : Encode_utf32 64 exLongRun (newUtf8Array (2 ^ 32 + 1)) 0 (2 ^ 32 + 1) (2 ^ 32 + 1)
        = .ok ((newUtf8Array (2 ^ 32 + 1)).take 0 ++ List.replicate (2 ^ 32 + 1) 97
            ++ (newUtf8Array (2 ^ 32 + 1)).drop (0 + (2 ^ 32 + 1)), 2 ^ 32 + 1) :=
      Encode_utf32_uniform
      (by decide) (fun i hi => load_replicate_append _ 97 [98] hi)
      (show 2 ^ 32 ≤ 2 ^ 32 + 1 by omega) (newUtf8Array (2 ^ 32 + 1))
      (show 0 + (2 ^ 32 + 1) ≤ (newUtf8Array (2 ^ 32 + 1)).length by
        unfold newUtf8Array; rw [List.length_replicate]; omega)
      (show 2 ^ 32 + 1 < 2 ^ 64 by omega)
    rw [h]
    unfold newUtf8Array
    rw [fill_whole]
  · have h : Encode_utf8 64 (List.replicate (2 ^ 32 + 1) 97) (newArray (2 ^ 32 + 1)) 0
          (2 ^ 32 + 1) (2 ^ 32 + 1)
        = .ok ((newArray (2 ^ 32 + 1)).take 0 ++ List.replicate (2 ^ 32 + 1) 97
            ++ (newArray (2 ^ 32 + 1)).drop (0 + (2 ^ 32 + 1)), 2 ^ 32 + 1) :=
      Encode_utf8_uniform
      (by decide)
      (fun i hi => by
        have := load_replicate_append (2 ^ 32 + 1) 97 [] (show i < 2 ^ 32 + 1 by omega)
        rw [List.append_nil] at this
        exact this)
      (show 2 ^ 32 ≤ 2 ^ 32 + 1 by omega) (newArray (2 ^ 32 + 1))
      (show 0 + (2 ^ 32 + 1) ≤ (newArray (2 ^ 32 + 1)).length by
        unfold newArray; rw [List.length_replicate]; omega)
      (show 2 ^ 32 + 1 < 2 ^ 64 by omega)
    rw [h]
    unfold newArray
    rw [fill_whole]
  · have h := replicate_succ_append_ne (show (97 : Nat) ≠ 98 by decide) [] [] (2 ^ 32)
    rw [List.append_nil] at h
    exact h

/-- C22 (failing input): `b` is `exLongRun`, the valid UTF-8 sequence of
`2 ^ 32` times 'a' followed by 'b', decoded with its byte length `2 ^ 32 + 1`
and capacity for its `2 ^ 32 + 1` code points.  The loop index `idx` is an
`unsigned int`: after `2 ^ 32` iterations it is 0 again and the last code point
stored is the decoding of `b[0]`.  The code points are `2 ^ 32 + 1` times 'a';
encoding them gives `2 ^ 32 + 1` times 'a', which is not `b`. -/
theorem C22_Decode_index_wraps :
    exLongRun ≠ [] ∧ (∀ c ∈ exLongRun, c < 0x80) ∧ exLongRun.length = 2 ^ 32 + 1 ∧
    Encode_utf8 64 exLongRun (newArray (2 ^ 32 + 1)) 0 (2 ^ 32 + 1) (2 ^ 32 + 1)
      = .ok (List.replicate (2 ^ 32 + 1) 97, 2 ^ 32 + 1) ∧
    Encode_utf32 64 (List.replicate (2 ^ 32 + 1) 97) (newUtf8Array (2 ^ 32 + 1)) 0
        (2 ^ 32 + 1) (2 ^ 32 + 1)
      = .ok (List.replicate (2 ^ 32 + 1) 97, 2 ^ 32 + 1) ∧
    List.replicate (2 ^ 32 + 1) 97 ≠ exLongRun := by
  refine ⟨?_, ?_, ?_, ?_, ?_, ?_⟩
  · unfold exLongRun
    exact List.append_ne_nil_of_right_ne_nil _ (List.cons_ne_nil _ _)
  · intro c hc
    unfold exLongRun at hc
    rcases List.mem_append.mp hc with h | h
    · rw [List.eq_of_mem_replicate h]
      decide
    · rw [List.mem_singleton.mp h]
      decide
  · unfold exLongRun
    rw [List.length_append, List.length_replicate]
    rfl
  · have h : Encode_utf8 64 exLongRun (newArray (2 ^ 32 + 1)) 0 (2 ^ 32 + 1) (2 ^ 32 + 1)
        = .ok ((newArray (2 ^ 32 + 1)).take 0 ++ List.replicate (2 ^ 32 + 1) 97
            ++ (newArray (2 ^ 32 + 1)).drop (0 + (2 ^ 32 + 1)), 2 ^ 32 + 1) :=
      Encode_utf8_uniform
      (by decide) (fun i hi => load_replicate_append _ 97 [98] hi)
      (show 2 ^ 32 ≤ 2 ^ 32 + 1 by omega) (newArray (2 ^ 32 + 1))
      (show 0 + (2 ^ 32 + 1) ≤ (newArray (2 ^ 32 + 1)).length by
        unfold newArray; rw [List.length_replicate]; omega)
      (show 2 ^ 32 + 1 < 2 ^ 64 by omega)
    rw [h]
    unfold newArray
    rw [fill_whole]
  · have h : Encode_utf32 64 (List.replicate (2 ^ 32 + 1) 97) (newUtf8Array (2 ^ 32 + 1)) 0
          (2 ^ 32 + 1) (2 ^ 32 + 1)
        = .ok ((newUtf8Array (2 ^ 32 + 1)).take 0 ++ List.replicate (2 ^ 32 + 1) 97
            ++ (newUtf8Array (2 ^ 32 + 1)).drop (0 + (2 ^ 32 + 1)), 2 ^ 32 + 1) :=
      Encode_utf32_uniform
      (by decide)
      (fun i hi => by
        have := load_replicate_append (2 ^ 32 + 1) 97 [] (show i < 2 ^ 32 + 1 by omega)
        rw [List.append_nil] at this
        exact this)
      (show 2 ^ 32 ≤ 2 ^ 32 + 1 by omega) (newUtf8Array (2 ^ 32 + 1))
      (show 0 + (2 ^ 32 + 1) ≤ (newUtf8Array (2 ^ 32 + 1)).length by
        unfold newUtf8Array; rw [List.length_replicate]; omega)
      (show 2 ^ 32 + 1 < 2 ^ 64 by omega)
    rw [h]
    unfold newUtf8Array
    rw [fill_whole]
  · have h := replicate_succ_append_ne (show (97 : Nat) ≠ 98 by decide) [] [] (2 ^ 32)
    rw [List.append_nil] at h
    exact h

/-- C23 (failing input): `b` is `exLongRun`, the valid UTF-8 sequence of
`2 ^ 32` times 'a' followed by 'b', with no zero byte, appended with its byte
length `2 ^ 32 + 1` to the empty string.  `Length()` is `2 ^ 32 + 1`, the
number of code points in `b`, but the decoder, whose index is an
`unsigned int`, read `b[0]` for the last code point: the code points are
`2 ^ 32 + 1` times 'a', and `c_str()` is `2 ^ 32 + 1` times 'a' and the
terminator, which is not `b` followed by a zero byte. -/
theorem C23_Append_utf8_index_wraps :
    (∀ c ∈ exLongRun, 0 < c ∧ c < 0x80) ∧ exLongRun.length = 2 ^ 32 + 1 ∧
    (do let s0 ← Init
        let s1 ← Append_utf8 64 s0 exLongRun (2 ^ 32 + 1)
        let d ← c_str 64 s1
        pure (s1.Length, s1.codePoints, d))
      = .ok (2 ^ 32 + 1, List.replicate (2 ^ 32 + 1) 97,
          List.replicate (2 ^ 32 + 1) 97 ++ [0]) ∧
    List.replicate (2 ^ 32 + 1) 97 ++ [0] ≠ exLongRun ++ [0] := by
  have hlenL : exLongRun.length = 2 ^ 32 + 1 := by
    unfold exLongRun
    rw [List.length_append, List.length_replicate]
    rfl
  have hmem : ∀ c ∈ exLongRun, 0 < c ∧ c < 0x80 := by
    intro c hc
    unfold exLongRun at hc
    rcases List.mem_append.mp hc with h | h
    · rw [List.eq_of_mem_replicate h]
      decide
    · rw [List.mem_singleton.mp h]
      decide
  have hpos : 0 < MaxSize 64 := by decide
  obtain ⟨s0, h0, hw0, hl0, -⟩ := Init_ok hpos
  have he0 := Init_encoded h0
  have hall : ∀ i, i < 2 ^ 32 + 1 → ∃ c, load exLongRun i = .ok c ∧ c < 0x80 := by
    intro i hi
    have hi' : i < exLongRun.length := by rw [hlenL]; exact hi
    exact ⟨exLongRun[i], load_ok hi', (hmem _ (List.getElem_mem hi')).2⟩
  have hmax : s0.d_cpLength + (2 ^ 32 + 1) < MaxSize 64 := by
    rw [hl0]
    decide
  have hsrc : ∀ i, i < 2 ^ 32 → load exLongRun i = .ok 97 :=
    fun i hi => load_replicate_append (2 ^ 32) 97 [98] hi
  obtain ⟨s1, h1, hw1, hl1, hc1, he1⟩ := Append_utf8_uniform hw0 (show 97 < 0x80 by decide)
    hsrc hall
    (show 2 ^ 32 ≤ 2 ^ 32 + 1 by omega) hmax
  have hs0 : s0.codePoints = [] := by
    unfold codePoints
    rw [hl0, List.take_zero]
  rw [hl0, Nat.zero_add] at hl1
  rw [hs0, List.nil_append] at hc1
  have hcs := BuildUtf8Buff_uniform hw1 (show 97 < 0x80 by decide)
    (by rw [hc1, hl1]) (by rw [hl1]; omega) (by rw [he1, he0])
  rw [hl1] at hcs
  refine ⟨hmem, hlenL, ?_, ?_⟩
  · rw [h0, ok_bind, h1, ok_bind, hcs, ok_bind]
    unfold Length
    rw [hl1, hc1]
    rfl
  · unfold exLongRun
    rw [List.append_assoc]
    exact replicate_succ_append_ne (show (97 : Nat) ≠ 98 by decide) [0] [0] (2 ^ 32)

/-- C33: on "abcd", `Copy(buf, npos, 1)` sets `len` to the whole length 4 and
encodes 4 code points from index 1 on, "bcd" and the terminator: it writes 4
bytes and returns 4, where `Utf8StreamLen(npos, 1)` is 3.  `Copy(buf, 0, 1)`
hands the length 0 to the encoder, which reads it as "up to the terminator",
and writes the 3 bytes of "bcd" where `Utf8StreamLen(0, 1)` is 0.
`Copy(buf, 2, 3)` encodes 'd' and the terminator and returns 2 where
`Utf8StreamLen(2, 3)` is 1. -/
theorem C33_Copy_len_not_clamped :
    exAbcd.codePoints = [97, 98, 99, 100] ∧
    Copy 64 exAbcd (List.replicate 8 255) (npos 64) 1
      = .ok ([98, 99, 100, 0, 255, 255, 255, 255], 4) ∧
    Utf8StreamLen 64 exAbcd (npos 64) 1 = .ok 3 ∧
    Copy 64 exAbcd (List.replicate 8 255) 0 1
      = .ok ([98, 99, 100, 255, 255, 255, 255, 255], 3) ∧
    Utf8StreamLen 64 exAbcd 0 1 = .ok 0 ∧
    Copy 64 exAbcd (List.replicate 8 255) 2 3
      = .ok ([100, 0, 255, 255, 255, 255, 255, 255], 2) ∧
    Utf8StreamLen 64 exAbcd 2 3 = .ok 1 := by
  decide

/-- C39: the constructor `EdoString(const utf8 *)` does not return: at every
bound on the depth of its nested calls the bound is used up, for every buffer.
The operator `operator=(const utf8 *)` on the bytes of "hi" and a terminator
gives the string "hi". -/
theorem C39_utf8_constructor_never_returns :
    (∀ (w : Nat) (utf8_str : List Nat) (depth : Nat),
      EdoString_utf8 w utf8_str depth = .error .out_of_fuel) ∧
    operatorAssign_utf8 64 exEmpty [104, 105, 0] = exHi ∧
    (exHi.map fun s => s.codePoints) = .ok [104, 105] := by
  refine ⟨fun w utf8_str depth => ?_, by decide, by decide⟩
  induction depth with
  | zero => rfl
  | succ n ih =>
    have hI : Init = .ok exEmpty := by decide
    unfold EdoString_utf8
    rw [ih, hI]
    rfl

/-- C40: on the string "a" and the `std::string`, UTF-8 buffer and C string
"b", `Compare` gives -1, so `operator>(s, t)` is false, yet `operator<(t, s)`
is true: it tests `s.Compare(t) < 0`, as `operator<(s, t)` does.  Likewise
`operator>(t, s)` is false although `s.Compare(t) < 0`.  For all arguments the
operators with the string on the right are those with the string on the left. -/
theorem C40_mirrored_operators_not_mirrored :
    (Compare_std 64 exA [98] = .ok (-1) ∧
      operatorLt_std_str 64 [98] exA = .ok true ∧ operatorGt_str_std 64 exA [98] = .ok false ∧
      operatorGt_std_str 64 [98] exA = .ok false) ∧
    (Compare_utf8 64 exA [98, 0] = .ok (-1) ∧
      operatorLt_utf8_str 64 [98, 0] exA = .ok true ∧
      operatorGt_str_utf8 64 exA [98, 0] = .ok false ∧
      operatorGt_utf8_str 64 [98, 0] exA = .ok false) ∧
    (Compare_cstr 64 exA [98, 0] = .ok (-1) ∧
      operatorLt_cstr_str 64 [98, 0] exA = .ok true ∧
      operatorGt_str_cstr 64 exA [98, 0] = .ok false ∧
      operatorGt_cstr_str 64 [98, 0] exA = .ok false) ∧
    (∀ (w : Nat) (s : EdoString) (t : List Nat),
      operatorLt_std_str w t s = operatorLt_str_std w s t ∧
      operatorGt_std_str w t s = operatorGt_str_std w s t ∧
      operatorLt_utf8_str w t s = operatorLt_str_utf8 w s t ∧
      operatorGt_utf8_str w t s = operatorGt_str_utf8 w s t ∧
      operatorLt_cstr_str w t s = operatorLt_str_cstr w s t ∧
      operatorGt_cstr_str w t s = operatorGt_str_cstr w s t) := by
  refine ⟨by decide, by decide, by decide, fun w s t => ⟨rfl, rfl, rfl, rfl, rfl, rfl⟩⟩

/-- C31, as stated, fails: the string built by `Assign("zz", 2); Append(40, 'x')`
has the reserve 43; after `Clear()` and after `Erase()` its reserve is 32, and
after `Swap` with the inline string "hi" it has the reserve 32 of that string. -/
theorem C31_Clear_shrinks :
    (exZZ40.map fun a => a.d_reserve) = .ok 43 ∧
    ((exZZ40 >>= Clear 64).map fun t => t.d_reserve) = .ok 32 ∧
    ((exZZ40 >>= Erase_all 64).map fun t => t.d_reserve) = .ok 32 ∧
    ((do let a ← exZZ40; let b ← exHi; pure (Swap a b).1.d_reserve) : Except Fault Nat)
      = .ok 32 := by
  decide

/-- C31 (amended): every operation other than `Reserve(0)`, `Clear()`, `Erase()`
and `Swap` returns with a reserve that is not smaller than before it: every
form of `Resize`, `Assign` and `operator=`, `Append`, `operator+=` and
`PushBack`, `Insert`, `Erase` with an index or with iterators, `Replace`,
`Reserve(num)` with `num != 0`, `c_str()` and `Data()`, and a write through
`operator[]` or `At`, with a String argument or an iterator range that is
another object or the receiver itself, and under any allocator.  `Swap`
exchanges the reserves of its two strings, `Reserve(0)` returns with a reserve
that is not larger, and `Clear()` and `Erase()` set the length to 0 and then do
what `Reserve(0)` does. -/
theorem C31_reserve_not_decreased (w : Nat) (s t : EdoString) :
(∀ num code_point, Resize w s num code_point = .ok t → s.d_reserve ≤ t.d_reserve) ∧
(∀ num, Resize1 w s num = .ok t → s.d_reserve ≤ t.d_reserve) ∧
(∀ str, operatorAssign_str w s str = .ok t → s.d_reserve ≤ t.d_reserve) ∧
(∀ str str_idx str_num, Assign_str w s str str_idx str_num = .ok t → s.d_reserve ≤ t.d_reserve) ∧
(operatorAssign_self w s = .ok t → s.d_reserve ≤ t.d_reserve) ∧
(∀ str_idx str_num, Assign_self w s str_idx str_num = .ok t → s.d_reserve ≤ t.d_reserve) ∧
(∀ std_str, operatorAssign_std w s std_str = .ok t → s.d_reserve ≤ t.d_reserve) ∧
(∀ std_str str_idx str_num, Assign_std w s std_str str_idx str_num = .ok t → s.d_reserve ≤
      t.d_reserve) ∧
(∀ utf8_str, operatorAssign_utf8 w s utf8_str = .ok t → s.d_reserve ≤ t.d_reserve) ∧
(∀ utf8_str str_num, Assign_utf8 w s utf8_str str_num = .ok t → s.d_reserve ≤ t.d_reserve) ∧
(∀ code_point, operatorAssign_cp w s code_point = .ok t → s.d_reserve ≤ t.d_reserve) ∧
(∀ num code_point, Assign_rep w s num code_point = .ok t → s.d_reserve ≤ t.d_reserve) ∧
(∀ cstr, operatorAssign_cstr w s cstr = .ok t → s.d_reserve ≤ t.d_reserve) ∧
(∀ cstr, Assign_cstr w s cstr = .ok t → s.d_reserve ≤ t.d_reserve) ∧
(∀ chars chars_len, Assign_chars w s chars chars_len = .ok t → s.d_reserve ≤ t.d_reserve) ∧
(∀ w_str idx num, Assign_wstr w s w_str idx num = .ok t → s.d_reserve ≤ t.d_reserve) ∧
(∀ chars, Assign_wchars w s chars = .ok t → s.d_reserve ≤ t.d_reserve) ∧
(∀ str, operatorAppend_str w s str = .ok t → s.d_reserve ≤ t.d_reserve) ∧
(∀ str str_idx str_num, Append_str w s str str_idx str_num = .ok t → s.d_reserve ≤ t.d_reserve) ∧
(operatorAppend_self w s = .ok t → s.d_reserve ≤ t.d_reserve) ∧
(∀ str_idx str_num, Append_self w s str_idx str_num = .ok t → s.d_reserve ≤ t.d_reserve) ∧
(∀ std_str, operatorAppend_std w s std_str = .ok t → s.d_reserve ≤ t.d_reserve) ∧
(∀ std_str str_idx str_num, Append_std w s std_str str_idx str_num = .ok t → s.d_reserve ≤
      t.d_reserve) ∧
(∀ utf8_str, operatorAppend_utf8 w s utf8_str = .ok t → s.d_reserve ≤ t.d_reserve) ∧
(∀ utf8_str, Append_utf8_z w s utf8_str = .ok t → s.d_reserve ≤ t.d_reserve) ∧
(∀ utf8_str len, Append_utf8 w s utf8_str len = .ok t → s.d_reserve ≤ t.d_reserve) ∧
(∀ code_point, operatorAppend_cp w s code_point = .ok t → s.d_reserve ≤ t.d_reserve) ∧
(∀ num code_point, Append_rep w s num code_point = .ok t → s.d_reserve ≤ t.d_reserve) ∧
(∀ code_point, PushBack w s code_point = .ok t → s.d_reserve ≤ t.d_reserve) ∧
(∀ src iter_beg iter_end, Append_iter w s src iter_beg iter_end = .ok t → s.d_reserve ≤
      t.d_reserve) ∧
(∀ iter_beg iter_end, Append_iter_self w s iter_beg iter_end = .ok t → s.d_reserve ≤ t.d_reserve)
      ∧
(∀ cstr, operatorAppend_cstr w s cstr = .ok t → s.d_reserve ≤ t.d_reserve) ∧
(∀ chars chars_len, Append_chars w s chars chars_len = .ok t → s.d_reserve ≤ t.d_reserve) ∧
(∀ idx str, Insert_str_whole w s idx str = .ok t → s.d_reserve ≤ t.d_reserve) ∧
(∀ idx str str_idx str_num, Insert_str w s idx str str_idx str_num = .ok t → s.d_reserve ≤
      t.d_reserve) ∧
(∀ idx, Insert_self_whole w s idx = .ok t → s.d_reserve ≤ t.d_reserve) ∧
(∀ idx str_idx str_num, Insert_self w s idx str_idx str_num = .ok t → s.d_reserve ≤ t.d_reserve) ∧
(∀ idx std_str, Insert_std_whole w s idx std_str = .ok t → s.d_reserve ≤ t.d_reserve) ∧
(∀ idx std_str str_idx str_num, Insert_std w s idx std_str str_idx str_num = .ok t → s.d_reserve ≤
      t.d_reserve) ∧
(∀ idx utf8_str, Insert_utf8_z w s idx utf8_str = .ok t → s.d_reserve ≤ t.d_reserve) ∧
(∀ idx utf8_str len, Insert_utf8 w s idx utf8_str len = .ok t → s.d_reserve ≤ t.d_reserve) ∧
(∀ idx num code_point, Insert_rep w s idx num code_point = .ok t → s.d_reserve ≤ t.d_reserve) ∧
(∀ pos num code_point, Insert_iter_rep w s pos num code_point = .ok t → s.d_reserve ≤ t.d_reserve)
      ∧
(∀ pos code_point, Insert_iter_cp w s pos code_point = .ok t → s.d_reserve ≤ t.d_reserve) ∧
(∀ iter_pos src iter_beg iter_end, Insert_iter_range w s iter_pos src iter_beg iter_end = .ok t →
      s.d_reserve ≤ t.d_reserve) ∧
(∀ iter_pos iter_beg iter_end, Insert_iter_range_self w s iter_pos iter_beg iter_end = .ok t →
      s.d_reserve ≤ t.d_reserve) ∧
(∀ idx cstr, Insert_cstr w s idx cstr = .ok t → s.d_reserve ≤ t.d_reserve) ∧
(∀ idx chars chars_len, Insert_chars w s idx chars chars_len = .ok t → s.d_reserve ≤ t.d_reserve)
      ∧
(∀ idx, Erase_idx w s idx = .ok t → s.d_reserve ≤ t.d_reserve) ∧
(∀ idx len, Erase w s idx len = .ok t → s.d_reserve ≤ t.d_reserve) ∧
(∀ pos, Erase_iter w s pos = .ok t → s.d_reserve ≤ t.d_reserve) ∧
(∀ iter_beg iter_end, Erase_iter_range w s iter_beg iter_end = .ok t → s.d_reserve ≤ t.d_reserve)
      ∧
(∀ idx len str, Replace_str_whole w s idx len str = .ok t → s.d_reserve ≤ t.d_reserve) ∧
(∀ iter_beg iter_end str, Replace_iter_str w s iter_beg iter_end str = .ok t → s.d_reserve ≤
      t.d_reserve) ∧
(∀ idx len str str_idx str_num, Replace_str w s idx len str str_idx str_num = .ok t → s.d_reserve
      ≤ t.d_reserve) ∧
(∀ idx len, Replace_self_whole w s idx len = .ok t → s.d_reserve ≤ t.d_reserve) ∧
(∀ iter_beg iter_end, Replace_iter_self w s iter_beg iter_end = .ok t → s.d_reserve ≤ t.d_reserve)
      ∧
(∀ idx len str_idx str_num, Replace_self w s idx len str_idx str_num = .ok t → s.d_reserve ≤
      t.d_reserve) ∧
(∀ idx len std_str, Replace_std_whole w s idx len std_str = .ok t → s.d_reserve ≤ t.d_reserve) ∧
(∀ iter_beg iter_end std_str, Replace_iter_std w s iter_beg iter_end std_str = .ok t → s.d_reserve
      ≤ t.d_reserve) ∧
(∀ idx len std_str str_idx str_num, Replace_std w s idx len std_str str_idx str_num = .ok t →
      s.d_reserve ≤ t.d_reserve) ∧
(∀ idx len utf8_str, Replace_utf8_z w s idx len utf8_str = .ok t → s.d_reserve ≤ t.d_reserve) ∧
(∀ iter_beg iter_end utf8_str, Replace_iter_utf8_z w s iter_beg iter_end utf8_str = .ok t →
      s.d_reserve ≤ t.d_reserve) ∧
(∀ idx len utf8_str str_len, Replace_utf8 w s idx len utf8_str str_len = .ok t → s.d_reserve ≤
      t.d_reserve) ∧
(∀ iter_beg iter_end utf8_str str_len, Replace_iter_utf8 w s iter_beg iter_end utf8_str str_len =
      .ok t → s.d_reserve ≤ t.d_reserve) ∧
(∀ idx len num code_point, Replace_rep w s idx len num code_point = .ok t → s.d_reserve ≤
      t.d_reserve) ∧
(∀ iter_beg iter_end num code_point, Replace_iter_rep w s iter_beg iter_end num code_point = .ok t
      → s.d_reserve ≤ t.d_reserve) ∧
(∀ iter_beg iter_end src iter_newBeg iter_newEnd, Replace_iter_range w s iter_beg iter_end src
      iter_newBeg iter_newEnd = .ok t → s.d_reserve ≤ t.d_reserve) ∧
(∀ iter_beg iter_end iter_newBeg iter_newEnd, Replace_iter_range_self w s iter_beg iter_end
      iter_newBeg iter_newEnd = .ok t → s.d_reserve ≤ t.d_reserve) ∧
(∀ idx len cstr, Replace_cstr w s idx len cstr = .ok t → s.d_reserve ≤ t.d_reserve) ∧
(∀ iter_beg iter_end cstr, Replace_iter_cstr w s iter_beg iter_end cstr = .ok t → s.d_reserve ≤
      t.d_reserve) ∧
(∀ idx len chars chars_len, Replace_chars w s idx len chars chars_len = .ok t → s.d_reserve ≤
      t.d_reserve) ∧
(∀ iter_beg iter_end chars chars_len, Replace_iter_chars w s iter_beg iter_end chars chars_len =
      .ok t → s.d_reserve ≤ t.d_reserve) ∧
(BuildUtf8Buff w s = .ok t → s.d_reserve ≤ t.d_reserve) ∧
(∀ idx v, operatorIndex_write s idx v = .ok t → s.d_reserve ≤ t.d_reserve) ∧
(∀ idx v, At_write s idx v = .ok t → s.d_reserve ≤ t.d_reserve) ∧
(Swap_self s = .ok t → s.d_reserve ≤ t.d_reserve) ∧
(∀ alloc num code_point, Append_rep_alloc w alloc s num code_point = .ok t → s.d_reserve ≤
      t.d_reserve) ∧
(∀ alloc idx num code_point, Insert_rep_alloc w alloc s idx num code_point = .ok t → s.d_reserve ≤
      t.d_reserve) ∧
(∀ alloc num code_point, Resize_alloc w alloc s num code_point = .ok t → s.d_reserve ≤
      t.d_reserve) ∧
(∀ alloc num, Resize1_alloc w alloc s num = .ok t → s.d_reserve ≤ t.d_reserve) ∧
    (∀ num, num ≠ 0 → Reserve w s num = .ok t → s.d_reserve ≤ t.d_reserve) ∧
    (∀ alloc num, num ≠ 0 → Reserve_alloc w alloc s num = .ok t →
      s.d_reserve ≤ t.d_reserve) ∧
    (Swap s t).1.d_reserve = t.d_reserve ∧ (Swap s t).2.d_reserve = s.d_reserve ∧
    (Swap_free s t).1.d_reserve = t.d_reserve ∧ (Swap_free s t).2.d_reserve = s.d_reserve ∧
    (Reserve w s 0 = .ok t → t.d_reserve ≤ s.d_reserve) ∧
    Clear w s = (SetLen s 0 >>= fun s1 => Reserve w s1 0) ∧ Erase_all w s = Clear w s := by
  refine ⟨fun _ _ h => Resize_res h,
    fun _ h => Resize_res h,
    fun _ h => Assign_str_res h,
    fun _ _ _ h => Assign_str_res h,
    fun h => Assign_self_res h,
    fun _ _ h => Assign_self_res h,
    fun _ h => Assign_std_res h,
    fun _ _ _ h => Assign_std_res h,
    fun _ h => operatorAssign_utf8_res h,
    fun _ _ h => Assign_utf8_res h,
    fun _ h => Assign_rep_res h,
    fun _ _ h => Assign_rep_res h,
    fun _ h => operatorAssign_cstr_res h,
    fun _ h => Assign_cstr_res h,
    fun _ _ h => Assign_chars_res h,
    fun _ _ _ h => Assign_wstr_res h,
    fun _ h => Assign_wchars_res h,
    fun _ h => Append_str_res h,
    fun _ _ _ h => Append_str_res h,
    fun h => Append_self_res h,
    fun _ _ h => Append_self_res h,
    fun _ h => Append_std_res h,
    fun _ _ _ h => Append_std_res h,
    fun _ h => operatorAppend_utf8_res h,
    fun _ h => Append_utf8_z_res h,
    fun _ _ h => Append_utf8_res h,
    fun _ h => Append_rep_res h,
    fun _ _ h => Append_rep_res h,
    fun _ h => Append_rep_res h,
    fun _ _ _ h => Replace_iter_range_res h,
    fun _ _ h => Replace_iter_range_self_res h,
    fun _ h => operatorAppend_cstr_res h,
    fun _ _ h => Append_chars_res h,
    fun _ _ h => Insert_str_res h,
    fun _ _ _ _ h => Insert_str_res h,
    fun _ h => Insert_self_res h,
    fun _ _ _ h => Insert_self_res h,
    fun _ _ h => Insert_std_res h,
    fun _ _ _ _ h => Insert_std_res h,
    fun _ _ h => Insert_utf8_z_res h,
    fun _ _ _ h => Insert_utf8_res h,
    fun _ _ _ h => Insert_rep_res h,
    fun _ _ _ h => Insert_iter_rep_res h,
    fun _ _ h => Insert_iter_rep_res h,
    fun _ _ _ _ h => Replace_iter_range_res h,
    fun _ _ _ h => Replace_iter_range_self_res h,
    fun _ _ h => Insert_cstr_res h,
    fun _ _ _ h => Insert_chars_res h,
    fun _ h => Nat.le_of_eq (Erase_res h).symm,
    fun _ _ h => Nat.le_of_eq (Erase_res h).symm,
    fun _ h => Erase_iter_res h,
    fun _ _ h => Erase_iter_range_res h,
    fun _ _ _ h => Replace_str_res h,
    fun _ _ _ h => Replace_iter_str_res h,
    fun _ _ _ _ _ h => Replace_str_res h,
    fun _ _ h => Replace_self_res h,
    fun _ _ h => Replace_iter_self_res h,
    fun _ _ _ _ h => Replace_self_res h,
    fun _ _ _ h => Replace_std_res h,
    fun _ _ _ h => Replace_iter_std_res h,
    fun _ _ _ _ _ h => Replace_std_res h,
    fun _ _ _ h => Replace_utf8_z_res h,
    fun _ _ _ h => Replace_iter_utf8_z_res h,
    fun _ _ _ _ h => Replace_utf8_res h,
    fun _ _ _ _ h => Replace_iter_utf8_res h,
    fun _ _ _ _ h => Replace_rep_res h,
    fun _ _ _ _ h => Replace_iter_rep_res h,
    fun _ _ _ _ _ h => Replace_iter_range_res h,
    fun _ _ _ _ h => Replace_iter_range_self_res h,
    fun _ _ _ h => Replace_cstr_res h,
    fun _ _ _ h => Replace_iter_cstr_res h,
    fun _ _ _ _ h => Replace_chars_res h,
    fun _ _ _ _ h => Replace_iter_chars_res h,
    fun h => Nat.le_of_eq (BuildUtf8Buff_res h).symm,
    fun _ _ h => Nat.le_of_eq (operatorIndex_write_res h).symm,
    fun _ _ h => Nat.le_of_eq (At_write_res h).symm,
    fun h => Nat.le_of_eq (Swap_self_res h).symm,
    fun _ _ _ h => Append_rep_alloc_res h,
    fun _ _ _ _ h => Insert_rep_alloc_res h,
    fun _ _ _ h => Resize_alloc_res h,
    fun _ _ h => Resize_alloc_res h,
    fun num hn h => ?_,
    fun alloc num hn h => ?_,
    ?_,
    ?_,
    ?_,
    ?_,
    fun h => Trim_res_le h,
    rfl,
    rfl⟩
  · unfold Reserve at h
    rw [if_neg hn] at h
    exact Grow_res h
  · unfold Reserve_alloc at h
    rw [if_neg hn] at h
    exact Grow_res (Grow_alloc_ok_inv h)
  · unfold Swap
    simp only []
    split <;> rfl
  · unfold Swap
    simp only []
    split <;> rfl
  · unfold Swap_free Swap
    simp only []
    split <;> rfl
  · unfold Swap_free Swap
    simp only []
    split <;> rfl

/-- C31 on the heap-backed string of 42 code points with the reserve 43:
`Resize(2)` returns with the reserve 43. -/
theorem C31_reserve_not_decreased_witness :
    exZZ40 = .ok exZZ40_value ∧ Resize 64 exZZ40_value 2 0 = .ok exZZ40_resized ∧
      exZZ40_value.d_reserve ≤ exZZ40_resized.d_reserve :=
  ⟨by decide, by decide,
    (C31_reserve_not_decreased 64 exZZ40_value exZZ40_resized).1 2 0 (by decide)⟩

/-- C36: `Reserve(0)` on a well-formed string returns, and leaves the length
and the code points, terminator included, unchanged.  If the string was
heap-backed the reserve afterwards is `STR_QUICKBUFF_SIZE`, with the quick
buffer in use, when `Length() + 1 <= STR_QUICKBUFF_SIZE`, and `Length() + 1`
otherwise; if the string was inline nothing changes. -/
theorem C36_Reserve_zero (w : Nat) (s : EdoString) (h : wf w s) :
    ∃ t, Reserve w s 0 = .ok t ∧ wf w t ∧ t.Length = s.Length ∧
      t.ptr.take (s.Length + 1) = s.ptr.take (s.Length + 1) ∧
      (STR_QUICKBUFF_SIZE < s.d_reserve →
        (s.Length + 1 ≤ STR_QUICKBUFF_SIZE →
          t.d_reserve = STR_QUICKBUFF_SIZE ∧ t.ptr = t.d_quickBuff) ∧
        (STR_QUICKBUFF_SIZE < s.Length + 1 → t.d_reserve = s.Length + 1)) ∧
      (s.d_reserve ≤ STR_QUICKBUFF_SIZE → t = s) := by
  obtain ⟨t, h1, h2, h3, h4, h5, h6⟩ := Trim_exact h
  refine ⟨t, ?_, h2, h3, h4, fun hgt => ⟨fun hle => ?_, fun hlt => ?_⟩, h6⟩
  · unfold Reserve
    rw [if_pos rfl]
    exact h1
  · have hr := h5 hgt
    have hle2 : s.d_cpLength + 1 ≤ STR_QUICKBUFF_SIZE := hle
    rw [if_pos hle2] at hr
    refine ⟨hr, ?_⟩
    unfold ptr
    rw [hr, if_neg (lt_irrefl _)]
  · have hr := h5 hgt
    have hlt2 : ¬ s.d_cpLength + 1 ≤ STR_QUICKBUFF_SIZE := Nat.not_le.mpr hlt
    rw [if_neg hlt2] at hr
    exact hr

/-- C36 on the heap-backed string "zz" with the reserve 43: after `Reserve(0)`
it is inline with the reserve 32 and still "zz".  On the heap-backed string of
42 code points with the reserve 43 nothing changes. -/
theorem C36_Reserve_zero_witness :
    wf 64 exZZ40_resized ∧
    (∃ t, Reserve 64 exZZ40_resized 0 = .ok t ∧ wf 64 t ∧ t.Length = exZZ40_resized.Length ∧
      t.ptr.take (exZZ40_resized.Length + 1)
        = exZZ40_resized.ptr.take (exZZ40_resized.Length + 1) ∧
      (STR_QUICKBUFF_SIZE < exZZ40_resized.d_reserve →
        (exZZ40_resized.Length + 1 ≤ STR_QUICKBUFF_SIZE →
          t.d_reserve = STR_QUICKBUFF_SIZE ∧ t.ptr = t.d_quickBuff) ∧
        (STR_QUICKBUFF_SIZE < exZZ40_resized.Length + 1 →
          t.d_reserve = exZZ40_resized.Length + 1)) ∧
      (exZZ40_resized.d_reserve ≤ STR_QUICKBUFF_SIZE → t = exZZ40_resized)) ∧
    (Reserve 64 exZZ40_resized 0).map (fun t => (t.d_reserve, t.codePoints))
      = .ok (32, [122, 122]) ∧
    Reserve 64 exZZ40_value 0 = .ok exZZ40_value ∧
    Reserve 64 exAbcd 0 = .ok exAbcd :=
  ⟨by decide, C36_Reserve_zero 64 exZZ40_resized (by decide), by decide, by decide, by decide⟩

/-- On a well-formed string `Replace(idx, 0, x)` has the outcome of
`Insert(idx, x)`, for every `idx`, in the char array form with any array and
length, the C string form, the repeated code point form, and the String form
with a whole string or with a sub-range whose `str_idx + str_num` is inside
`size_type`; for `idx <= Length()` and a new length below `MaxSize()` the
outcome in the char array form is `s[0,idx) ++ x ++ s[idx,Length())`. -/
theorem Replace_zero_is_Insert (w : Nat) (s : EdoString) (idx : Nat) (h : wf w s) :
    (∀ chars chars_len,
      Replace_chars w s idx 0 chars chars_len = Insert_chars w s idx chars chars_len) ∧
    (∀ cstr, Replace_cstr w s idx 0 cstr = Insert_cstr w s idx cstr) ∧
    (∀ num code_point,
      Replace_rep w s idx 0 num code_point = Insert_rep w s idx num code_point) ∧
    (∀ str, Replace_str w s idx 0 str 0 (npos w) = Insert_str w s idx str 0 (npos w)) ∧
    (∀ str str_idx str_num, wf w str → str_idx ≤ str.Length → str_idx + str_num < 2 ^ w →
      Replace_str w s idx 0 str str_idx str_num = Insert_str w s idx str str_idx str_num) ∧
    (∀ chars chars_len, idx ≤ s.Length → chars_len ≤ chars.length →
      s.Length + chars_len < MaxSize w →
      ∃ t, Replace_chars w s idx 0 chars chars_len = .ok t ∧
        t.codePoints = s.codePoints.take idx ++ (chars.take chars_len).map charToUtf32
          ++ s.codePoints.drop idx) := by
  refine ⟨fun chars chars_len => Replace_chars_zero h idx chars chars_len, fun cstr => ?_,
    fun num code_point => Replace_rep_zero h idx num code_point,
    fun str => Replace_str_zero h idx str 0 (npos w) (clamp_whole w str),
    fun str str_idx str_num hstr hsi hsum =>
      Replace_str_zero h idx str str_idx str_num (clamp_no_wrap hstr hsi hsum),
    fun chars chars_len hidx hcl hmax => ?_⟩
  · unfold Replace_cstr Insert_cstr
    cases strlen cstr with
    | error e => rfl
    | ok n => exact Replace_chars_zero h idx cstr n
  · obtain ⟨t, h1, -, -, -, h5, -⟩ := Insert_chars_ok h hidx hcl hmax
    exact ⟨t, by rw [Replace_chars_zero h idx chars chars_len]; exact h1, h5⟩

/-- C34: with any storage form `rep` of `utf32` values that has
`sizeof(utf32)` bytes and tells the values apart, on well-formed strings of
`utf32` code points the comparator returns; it is irreflexive, asymmetric and
transitive; incomparability is transitive; a shorter string is ordered before a
longer one; and two strings are incomparable exactly when they have the same
length and the same code points. -/
theorem C34_FastLessCompare_strict_weak_order (w : Nat) (rep : Nat → List Nat)
    (a b c : EdoString)
    (hrep : ∀ v, (rep v).length = SIZEOF_UTF32)
    (hinj : ∀ u v, u < 2 ^ 32 → v < 2 ^ 32 → rep u = rep v → u = v)
    (ha : wf w a) (hb : wf w b) (hc : wf w c)
    (hua : utf32List a.codePoints) (hub : utf32List b.codePoints)
    (huc : utf32List c.codePoints) :
    (EdoStringFastLessCompare w rep a b = .ok true ∨
      EdoStringFastLessCompare w rep a b = .ok false) ∧
    EdoStringFastLessCompare w rep a a = .ok false ∧
    (EdoStringFastLessCompare w rep a b = .ok true →
      EdoStringFastLessCompare w rep b a = .ok false) ∧
    (EdoStringFastLessCompare w rep a b = .ok true →
      EdoStringFastLessCompare w rep b c = .ok true →
      EdoStringFastLessCompare w rep a c = .ok true) ∧
    (EdoStringFastLessCompare w rep a b = .ok false →
      EdoStringFastLessCompare w rep b a = .ok false →
      EdoStringFastLessCompare w rep b c = .ok false →
      EdoStringFastLessCompare w rep c b = .ok false →
      EdoStringFastLessCompare w rep a c = .ok false ∧
      EdoStringFastLessCompare w rep c a = .ok false) ∧
    (a.Length < b.Length → EdoStringFastLessCompare w rep a b = .ok true) ∧
    ((EdoStringFastLessCompare w rep a b = .ok false ∧
        EdoStringFastLessCompare w rep b a = .ok false) ↔
      (a.Length = b.Length ∧ a.codePoints = b.codePoints)) := by
  have hla := codePoints_length ha
  have hlb := codePoints_length hb
  have hlc := codePoints_length hc
  have hA := flatMap_rep_length hrep a.codePoints
  have hB := flatMap_rep_length hrep b.codePoints
  have hC := flatMap_rep_length hrep c.codePoints
  have sAB := memcmpBytes_swap (a.codePoints.flatMap rep) (b.codePoints.flatMap rep)
  have sBC := memcmpBytes_swap (b.codePoints.flatMap rep) (c.codePoints.flatMap rep)
  have sAC := memcmpBytes_swap (a.codePoints.flatMap rep) (c.codePoints.flatMap rep)
  have hAA := memcmpBytes_self (a.codePoints.flatMap rep)
  have zAB := memcmp_zero_iff hrep hinj ha hb hua hub
  have zBC := memcmp_zero_iff hrep hinj hb hc hub huc
  have zAC := memcmp_zero_iff hrep hinj ha hc hua huc
  have tr := memcmpBytes_trans (a.codePoints.flatMap rep) (b.codePoints.flatMap rep)
    (c.codePoints.flatMap rep)
  rw [hA, hB, hC, hla, hlb, hlc] at tr
  unfold Length
  rw [FastLess_true_iff rep ha hb, FastLess_true_iff rep hb hc, FastLess_true_iff rep ha hc,
    FastLess_false_iff rep ha hb, FastLess_false_iff rep hb ha, FastLess_false_iff rep hb hc,
    FastLess_false_iff rep hc hb, FastLess_false_iff rep ha hc, FastLess_false_iff rep hc ha,
    FastLess_false_iff rep ha ha, sAB, sBC, sAC, hAA]
  generalize memcmpBytes (a.codePoints.flatMap rep) (b.codePoints.flatMap rep) = mAB at *
  generalize memcmpBytes (b.codePoints.flatMap rep) (c.codePoints.flatMap rep) = mBC at *
  generalize memcmpBytes (a.codePoints.flatMap rep) (c.codePoints.flatMap rep) = mAC at *
  refine ⟨by tauto, by omega, by omega, ?_, ?_, fun h => Or.inr h, ?_⟩
  · rintro (⟨h1, h2⟩ | h1) (⟨h3, h4⟩ | h3)
    · exact Or.inl ⟨by omega, tr (by rw [h1]) (by rw [h3]) h2 h4⟩
    · exact Or.inr (by omega)
    · exact Or.inr (by omega)
    · exact Or.inr (by omega)
  · intro h1 h2 h3 h4
    have e1 : a.d_cpLength = b.d_cpLength := by omega
    have e2 : b.d_cpLength = c.d_cpLength := by omega
    have e3 : a.codePoints = b.codePoints := (zAB e1).mp (by omega)
    have e4 : b.codePoints = c.codePoints := (zBC e2).mp (by omega)
    have e5 : mAC = 0 := (zAC (e1.trans e2)).mpr (e3.trans e4)
    constructor <;> omega
  · constructor
    · rintro ⟨h1, h2⟩
      have e1 : a.d_cpLength = b.d_cpLength := by omega
      exact ⟨e1, (zAB e1).mp (by omega)⟩
    · rintro ⟨e1, e2⟩
      have e3 : mAB = 0 := (zAB e1).mpr e2
      constructor <;> omega

/-- C34 on "abc", "abcd" and "ababcd", with the bytes of a little-endian
machine: the comparator orders them by length. -/
theorem C34_FastLessCompare_strict_weak_order_witness :
    EdoStringFastLessCompare 64 utf32Bytes_le exAbc exAbcd = .ok true ∧
    EdoStringFastLessCompare 64 utf32Bytes_le exAbcd exAbabcd = .ok true ∧
    EdoStringFastLessCompare 64 utf32Bytes_le exAbc exAbabcd = .ok true :=
  ⟨by decide, by decide,
    (C34_FastLessCompare_strict_weak_order 64 utf32Bytes_le exAbc exAbcd exAbabcd
      utf32Bytes_le_length utf32Bytes_le_inj (by decide) (by decide) (by decide)
      (by decide) (by decide) (by decide)).2.2.2.1 (by decide) (by decide)⟩

/-- C37 (failing input): `u` is `exLongRun`, `2 ^ 32` times 'a' followed by
'b', whose per-code-point lengths sum to `2 ^ 32 + 1`, encoded with the
capacity `2 ^ 32 + 2`.  The `unsigned int` index is 0 again after `2 ^ 32`
iterations and stays below `src_len`, so the loop ends only when the capacity
is used up: the encoder writes `2 ^ 32 + 2` times 'a' and returns
`2 ^ 32 + 2`, not the sum, and what it wrote is the encoding of no prefix of
`u`. -/
theorem C37_Encode_fills_capacity :
    exLongRun ≠ [] ∧ exLongRun.length = 2 ^ 32 + 1 ∧
    EncodedSize_utf32 64 exLongRun (2 ^ 32 + 1) = .ok (2 ^ 32 + 1) ∧
    Encode_utf32 64 exLongRun (newUtf8Array (2 ^ 32 + 2)) 0 (2 ^ 32 + 2) (2 ^ 32 + 1)
      = .ok (List.replicate (2 ^ 32 + 2) 97, 2 ^ 32 + 2) ∧
    (∀ k, List.replicate (2 ^ 32 + 2) 97 ≠ (exLongRun.take k).flatMap Encode_units) := by
  have hlenL : exLongRun.length = 2 ^ 32 + 1 := by
    unfold exLongRun
    rw [List.length_append, List.length_replicate]
    rfl
  have hmem : ∀ c ∈ exLongRun, c < 0x80 := by
    intro c hc
    unfold exLongRun at hc
    rcases List.mem_append.mp hc with h | h
    · rw [List.eq_of_mem_replicate h]
      decide
    · rw [List.mem_singleton.mp h]
      decide
  have hall : ∀ i, i < 2 ^ 32 + 1 → ∃ c, load exLongRun (0 + i) = .ok c ∧ c < 0x80 := by
    intro i hi
    have hi' : i < exLongRun.length := by rw [hlenL]; exact hi
    rw [Nat.zero_add]
    exact ⟨exLongRun[i], load_ok hi', hmem _ (List.getElem_mem hi')⟩
  refine ⟨?_, hlenL, ?_, ?_, ?_⟩
  · unfold exLongRun
    exact List.append_ne_nil_of_right_ne_nil _ (List.cons_ne_nil _ _)
  · unfold EncodedSize_utf32
    rw [EncodedSize_utf32_ascii exLongRun (2 ^ 32 + 1) 0 0 hall
      (show 0 + (2 ^ 32 + 1) < 2 ^ 64 by omega), Nat.zero_add]
  · have h : Encode_utf32 64 exLongRun (newUtf8Array (2 ^ 32 + 2)) 0 (2 ^ 32 + 2) (2 ^ 32 + 1)
        = .ok ((newUtf8Array (2 ^ 32 + 2)).take 0 ++ List.replicate (2 ^ 32 + 2) 97
            ++ (newUtf8Array (2 ^ 32 + 2)).drop (0 + (2 ^ 32 + 2)), 2 ^ 32 + 2) :=
      Encode_utf32_uniform
      (by decide) (fun i hi => load_replicate_append _ 97 [98] hi)
      (show 2 ^ 32 ≤ 2 ^ 32 + 1 by omega) (newUtf8Array (2 ^ 32 + 2))
      (show 0 + (2 ^ 32 + 2) ≤ (newUtf8Array (2 ^ 32 + 2)).length by
        unfold newUtf8Array; rw [List.length_replicate]; omega)
      (show 2 ^ 32 + 2 < 2 ^ 64 by omega)
    rw [h]
    unfold newUtf8Array
    rw [fill_whole]
  · intro k hk
    have h1 := congrArg List.length hk
    have h2 : ((exLongRun.take k).flatMap Encode_units).length ≤ 2 ^ 32 + 1 := by
      have hone : ∀ (l : List Nat), (∀ c ∈ l, c < 0x80) →
          (l.flatMap Encode_units).length = l.length := by
        intro l
        induction l with
        | nil => intro _; rfl
        | cons c l ih =>
          intro hl
          have hc : c < 0x80 := hl c (List.mem_cons_self _ _)
          rw [List.flatMap_cons, List.length_append, Encode_units_length,
            ih (fun x hx => hl x (List.mem_cons_of_mem _ hx)), List.length_cons]
          unfold EncodedSize_cp
          rw [if_pos hc]
          omega
      rw [hone _ (fun c hc => hmem c (List.mem_of_mem_take hc)), List.length_take, hlenL]
      omega
    rw [List.length_replicate] at h1
    omega

/-- C38 (failing input): `b` is `exLongRun`, the valid UTF-8 sequence of
`2 ^ 32` times 'a' followed by 'b', of byte length `2 ^ 32 + 1`.
`EncodedSize(b, L)` counts `2 ^ 32 + 1` code points, yet the decoder, given
capacity for `2 ^ 32 + 2`, produces `2 ^ 32 + 2`: its `unsigned int` index is 0
again after `2 ^ 32` bytes and stays below `src_len`, so it stops only when
the capacity is used up. -/
theorem C38_Decode_fills_capacity :
    (∀ c ∈ exLongRun, c < 0x80) ∧ exLongRun.length = 2 ^ 32 + 1 ∧
    EncodedSize_utf8 64 exLongRun (2 ^ 32 + 1) = .ok (2 ^ 32 + 1) ∧
    Encode_utf8 64 exLongRun (newArray (2 ^ 32 + 2)) 0 (2 ^ 32 + 2) (2 ^ 32 + 1)
      = .ok (List.replicate (2 ^ 32 + 2) 97, 2 ^ 32 + 2) := by
  have hlenL : exLongRun.length = 2 ^ 32 + 1 := by
    unfold exLongRun
    rw [List.length_append, List.length_replicate]
    rfl
  have hmem : ∀ c ∈ exLongRun, c < 0x80 := by
    intro c hc
    unfold exLongRun at hc
    rcases List.mem_append.mp hc with h | h
    · rw [List.eq_of_mem_replicate h]
      decide
    · rw [List.mem_singleton.mp h]
      decide
  have hall : ∀ i, i < 2 ^ 32 + 1 → ∃ c, load exLongRun (0 + i) = .ok c ∧ c < 0x80 := by
    intro i hi
    have hi' : i < exLongRun.length := by rw [hlenL]; exact hi
    rw [Nat.zero_add]
    exact ⟨exLongRun[i], load_ok hi', hmem _ (List.getElem_mem hi')⟩
  refine ⟨hmem, hlenL, ?_, ?_⟩
  · unfold EncodedSize_utf8
    rw [EncodedSize_utf8_ascii exLongRun (2 ^ 32 + 1) (2 ^ 32 + 1 + 1) 0 0 (by omega) hall
      (show 0 + (2 ^ 32 + 1) < 2 ^ 64 by omega), Nat.zero_add]
  · have h : Encode_utf8 64 exLongRun (newArray (2 ^ 32 + 2)) 0 (2 ^ 32 + 2) (2 ^ 32 + 1)
        = .ok ((newArray (2 ^ 32 + 2)).take 0 ++ List.replicate (2 ^ 32 + 2) 97
            ++ (newArray (2 ^ 32 + 2)).drop (0 + (2 ^ 32 + 2)), 2 ^ 32 + 2) :=
      Encode_utf8_uniform
      (by decide) (fun i hi => load_replicate_append _ 97 [98] hi)
      (show 2 ^ 32 ≤ 2 ^ 32 + 1 by omega) (newArray (2 ^ 32 + 2))
      (show 0 + (2 ^ 32 + 2) ≤ (newArray (2 ^ 32 + 2)).length by
        unfold newArray; rw [List.length_replicate]; omega)
      (show 2 ^ 32 + 2 < 2 ^ 64 by omega)
    rw [h]
    unfold newArray
    rw [fill_whole]

/-- C32 (failing input): the empty string and the sub-range of "abcd" that
starts at index 2, given with the count `2 ^ 64 - 2`.  `Insert(0, t, 2, n)`
clamps the count to the 2 code points that remain and gives "cd".
`Replace(0, 0, t, 2, n)` clamps under the test `str_idx + str_num > Length(t)`,
whose sum wraps to 0: the count stays `2 ^ 64 - 2`, the new size is
`2 ^ 64 - 2`, and `Grow` raises a length error. -/
theorem C32_Replace_zero_sub_range_wraps :
    wf 64 exEmpty ∧ wf 64 exAbcd ∧ (0 : Nat) ≤ exEmpty.Length ∧
    (Insert_str 64 exEmpty 0 exAbcd 2 (2 ^ 64 - 2)).map (fun t => t.codePoints)
      = .ok [99, 100] ∧
    Replace_str 64 exEmpty 0 0 exAbcd 2 (2 ^ 64 - 2) = .error .length_error := by
  decide

/-- C30 (failing input): the string of 30 code points 'a', built by the default
constructor and `Assign`, and `Erase(2, 2^64 - 2)`.  The count is above the
remaining length and is not clamped: the new size `30 - (2^64 - 2)` wraps to
32, and the 30 code points that `memmove` shifts by two slots fill the quick
buffer to its end.  `SetLen(32)` sets the length to 32 with the reserve still
32, so `d_reserve >= Length() + 1` no longer holds, and then writes the
terminator at slot 32, the first slot behind the quick buffer. -/
theorem C30_Erase_wraps_to_reserve :
    Init = .ok exEmpty ∧
    Assign_chars 64 exEmpty (List.replicate 30 97) 30 = .ok exA30 ∧
    wf 64 exA30 ∧ exA30.Length = 30 ∧ exA30.d_reserve = 32 ∧
    (exA30.Length + 1 ≤ exA30.d_reserve ∧ exA30.Length < MaxSize 64) ∧
    szSub 64 exA30.d_cpLength (2 ^ 64 - 2) = 32 ∧
    memmove exA30.ptr 2 (szAdd 64 2 (2 ^ 64 - 2))
      (szMul 64 (szSub 64 (szSub 64 exA30.d_cpLength 2) (2 ^ 64 - 2)) SIZEOF_UTF32)
      = .ok (List.replicate 32 97) ∧
    (Erase_st 64 exA30 2 (2 ^ 64 - 2)).1.Length = 32 ∧
    (Erase_st 64 exA30 2 (2 ^ 64 - 2)).1.d_reserve = 32 ∧
    (Erase_st 64 exA30 2 (2 ^ 64 - 2)).1.ptr = List.replicate 32 97 ∧
    ¬ ((Erase_st 64 exA30 2 (2 ^ 64 - 2)).1.Length + 1
        ≤ (Erase_st 64 exA30 2 (2 ^ 64 - 2)).1.d_reserve) ∧
    (Erase_st 64 exA30 2 (2 ^ 64 - 2)).2 = .error .bad_access := by
  decide

/-- C1 (failing input): on "abcd", the call `s.Insert(0, s, 2, 2)` inserts the
sub-range "cd" of the string itself at index 0.  The claim gives
`s[0,0) ++ "cd" ++ s[0,4) = "cdabcd"`, which is what the call returns for a
copy of the string as argument.  With the string itself as argument `memmove`
has shifted the code points by two slots before `memcpy` reads
`str.ptr()[2 .. 3]`, which then hold "ab": the call returns "ababcd".  In the
UTF-8 form, `Insert(0, b, 2^32 + 1)` on the empty string with `b` the
`2 ^ 32` bytes 'a' followed by 'b' returns `2 ^ 32 + 1` times 'a', not the code
points of `b`: the decoder reads `b[0]` for the last code point.  And
`Insert(0, 2^61, 'x')` on "abcd", whose new length is below `MaxSize()`, asks
for more than `PTRDIFF_MAX` bytes and throws `std::bad_alloc`. -/
theorem C1_Insert_self_and_utf8 :
    (wf 64 exAbcd ∧ exAbcd.codePoints = [97, 98, 99, 100] ∧ 0 ≤ exAbcd.Length ∧
      exAbcd.Length + 2 < MaxSize 64 ∧
      exAbcd.codePoints.take 0 ++ (exAbcd.codePoints.drop 2).take 2 ++ exAbcd.codePoints.drop 0
        = [99, 100, 97, 98, 99, 100] ∧
      (Insert_str 64 exAbcd 0 exAbcd 2 2).map codePoints = .ok [99, 100, 97, 98, 99, 100] ∧
      (Insert_self 64 exAbcd 0 2 2).map codePoints = .ok [97, 98, 97, 98, 99, 100] ∧
      (Insert_self 64 exAbcd 0 2 2).map Length = .ok 6) ∧
    (do let s0 ← Init
        let s1 ← Insert_utf8 64 s0 0 exLongRun (2 ^ 32 + 1)
        pure (s1.Length, s1.codePoints))
      = .ok (2 ^ 32 + 1, List.replicate (2 ^ 32 + 1) 97) ∧
    List.replicate (2 ^ 32 + 1) 97 ≠ exLongRun ∧
    (exAbcd.Length + 2 ^ 61 < MaxSize 64 ∧
      Insert_rep_alloc 64 allocAll exAbcd 0 (2 ^ 61) 120 = .error .bad_alloc) := by
  have hlenL : exLongRun.length = 2 ^ 32 + 1 := by
    unfold exLongRun
    rw [List.length_append, List.length_replicate]
    rfl
  have hmem : ∀ c ∈ exLongRun, 0 < c ∧ c < 0x80 := by
    intro c hc
    unfold exLongRun at hc
    rcases List.mem_append.mp hc with h | h
    · rw [List.eq_of_mem_replicate h]
      decide
    · rw [List.mem_singleton.mp h]
      decide
  have hpos : 0 < MaxSize 64 := by decide
  obtain ⟨s0, h0, hw0, hl0, -⟩ := Init_ok hpos
  have hall : ∀ i, i < 2 ^ 32 + 1 → ∃ c, load exLongRun i = .ok c ∧ c < 0x80 := by
    intro i hi
    have hi' : i < exLongRun.length := by rw [hlenL]; exact hi
    exact ⟨exLongRun[i], load_ok hi', (hmem _ (List.getElem_mem hi')).2⟩
  have hmax : s0.d_cpLength + (2 ^ 32 + 1) < MaxSize 64 := by
    rw [hl0]
    decide
  have hsrc : ∀ i, i < 2 ^ 32 → load exLongRun i = .ok 97 :=
    fun i hi => load_replicate_append (2 ^ 32) 97 [98] hi
  obtain ⟨s1, h1, hw1, hl1, hc1, -⟩ := Append_utf8_uniform hw0 (show 97 < 0x80 by decide)
    hsrc hall
    (show 2 ^ 32 ≤ 2 ^ 32 + 1 by omega) hmax
  have hI : Insert_utf8 64 s0 0 exLongRun (2 ^ 32 + 1) = .ok s1 := by
    have := Insert_utf8_at_end hw0 h1
    rwa [hl0] at this
  have hs0 : s0.codePoints = [] := by
    unfold codePoints
    rw [hl0, List.take_zero]
  rw [hl0, Nat.zero_add] at hl1
  rw [hs0, List.nil_append] at hc1
  refine ⟨by decide, ?_, ?_, by decide⟩
  · rw [h0, ok_bind, hI, ok_bind]
    unfold Length
    rw [hl1, hc1]
    rfl
  · unfold exLongRun
    intro he
    have h2 := replicate_succ_append_ne (show (97 : Nat) ≠ 98 by decide) [] [] (2 ^ 32)
    rw [List.append_nil] at h2
    exact h2 he

/-- C20 (counterexample): on "abcd" with a 64-bit `size_type`, `Resize(2^61, 'x')`
and `Resize(2^61)` ask for a length below `MaxSize()`, and `Grow` asks for
`new utf32[2^61 + 1]`, which is more than `PTRDIFF_MAX` bytes: the request is
refused whatever the allocator, and the call throws `std::bad_alloc` where the
claim gives a string of length `2^61`. -/
theorem C20_Resize_allocation_refused :
    wf 64 exAbcd ∧ 2 ^ 61 < MaxSize 64 ∧
    newUtf32 64 allocAll (2 ^ 61 + 1) = .error .bad_alloc ∧
    Resize_alloc 64 allocAll exAbcd (2 ^ 61) 120 = .error .bad_alloc ∧
    Resize1_alloc 64 allocAll exAbcd (2 ^ 61) = .error .bad_alloc := by
  decide

/-- C20 (amended): for `n` below `MaxSize()`, when the reserve holds `n + 1`
slots or the request `new utf32[n + 1]` is granted, `Resize(n, f)` returns
normally with a well-formed string of length `n`; when `n < Length(s)` its code
points are `s[0, n)`, otherwise they are those of `s` followed by
`n - Length(s)` copies of `f`; `Resize(n)` is `Resize(n, 0)`.  When the reserve
is below `n + 1` and the request is refused, both forms throw
`std::bad_alloc`; a request of more than `PTRDIFF_MAX` bytes is refused. -/
theorem C20_Resize (w : Nat) (alloc : Nat → Bool) (s : EdoString) (n f : Nat) (hs : wf w s)
    (hmax : n < MaxSize w) :
    ((n + 1 ≤ s.d_reserve ∨ newUtf32 w alloc (n + 1) = .ok (newArray (n + 1))) →
      (∃ s2, Resize_alloc w alloc s n f = .ok s2 ∧ wf w s2 ∧ s2.Length = n ∧
        (n < s.Length → s2.codePoints = s.codePoints.take n) ∧
        (s.Length ≤ n → s2.codePoints = s.codePoints ++ List.replicate (n - s.Length) f)) ∧
      (∃ s3, Resize1_alloc w alloc s n = .ok s3 ∧ wf w s3 ∧ s3.Length = n ∧
        (n < s.Length → s3.codePoints = s.codePoints.take n) ∧
        (s.Length ≤ n → s3.codePoints = s.codePoints ++ List.replicate (n - s.Length) 0))) ∧
    (s.d_reserve < n + 1 → newUtf32 w alloc (n + 1) = .error .bad_alloc →
      Resize_alloc w alloc s n f = .error .bad_alloc ∧
      Resize1_alloc w alloc s n = .error .bad_alloc) ∧
    (2 ^ (w - 1) ≤ (n + 1) * SIZEOF_UTF32 → newUtf32 w alloc (n + 1) = .error .bad_alloc) := by
  refine ⟨fun hg => ⟨?_, ?_⟩, fun hlt ha => ⟨?_, ?_⟩, fun hbig => ?_⟩
  · obtain ⟨s2, h1, h2, h3, h4, h5, -⟩ := Resize_ok hs f hmax
    rw [← (Resize_alloc_spec alloc hs f hmax).1 hg] at h1
    exact ⟨s2, h1, h2, h3, h4, h5⟩
  · obtain ⟨s3, h1, h2, h3, h4, h5, -⟩ := Resize_ok hs 0 hmax
    rw [← (Resize_alloc_spec alloc hs 0 hmax).1 hg] at h1
    exact ⟨s3, h1, h2, h3, h4, h5⟩
  · exact (Resize_alloc_spec alloc hs f hmax).2 hlt ha
  · exact (Resize_alloc_spec alloc hs 0 hmax).2 hlt ha
  · unfold newUtf32
    rw [if_pos hbig]

/-- C20, at "abcd" under the allocator that grants every request it can:
`Resize(6, 'x')`, `Resize(2, 'x')` and `Resize(6)` fit the reserve of 32 slots
and `Resize(40, 'x')` is granted a buffer of 41 slots; under the allocator that
grants nothing `Resize(40, 'x')` throws `std::bad_alloc`. -/
theorem C20_Resize_witness :
    wf 64 exAbcd ∧ 6 < MaxSize 64 ∧ 40 < MaxSize 64 ∧
    (Resize_alloc 64 allocAll exAbcd 6 120).map codePoints
      = .ok [97, 98, 99, 100, 120, 120] ∧
    (Resize_alloc 64 allocAll exAbcd 2 120).map codePoints = .ok [97, 98] ∧
    (Resize1_alloc 64 allocAll exAbcd 6).map codePoints = .ok [97, 98, 99, 100, 0, 0] ∧
    (∃ s2, Resize_alloc 64 allocAll exAbcd 6 120 = .ok s2 ∧ s2.Length = 6) ∧
    (∃ s3, Resize1_alloc 64 allocAll exAbcd 6 = .ok s3 ∧ s3.Length = 6) ∧
    (∃ s2, Resize_alloc 64 allocAll exAbcd 40 120 = .ok s2 ∧ s2.Length = 40 ∧
      s2.codePoints = [97, 98, 99, 100] ++ List.replicate 36 120) ∧
    Resize_alloc 64 (fun _ => false) exAbcd 40 120 = .error .bad_alloc := by
  have h := (C20_Resize 64 allocAll exAbcd 6 120 (by decide) (by decide)).1
    (Or.inl (by decide))
  have h40 := (C20_Resize 64 allocAll exAbcd 40 120 (by decide) (by decide)).1
    (Or.inr (by decide))
  have hno := ((C20_Resize 64 (fun _ => false) exAbcd 40 120 (by decide) (by decide)).2.1
    (by decide) (by decide)).1
  obtain ⟨⟨s2, a1, -, a3, -⟩, ⟨s3, b1, -, b3, -⟩⟩ := h
  obtain ⟨⟨s4, c1, -, c3, -, c5⟩, -⟩ := h40
  exact ⟨by decide, by decide, by decide, by decide, by decide, by decide, ⟨s2, a1, a3⟩,
    ⟨s3, b1, b3⟩, ⟨s4, c1, c3, c5 (by decide)⟩, hno⟩

end EdoString

end Edo.Types
